import Mathlib

/-!
Feedback vertex set solver (CSCI406-Algobowl): embedding and properties.

The graph type of the sources is
`boost::adjacency_list<setS, setS, bidirectionalS, vertex_properties_s>`: a set of
vertices, each carrying its `number`, and a set of directed edges without parallel
edges.  Every graph the program builds holds each vertex number at most once
(`deserialize_input` creates the numbers 1..N, `tarjans_subgraphs` copies each vertex
into one subgraph, the solver clones each vertex of a subgraph once), and
`vertex_properties_s` is compared and hashed by `number` alone, so a vertex descriptor
is identified with the number it carries.  The enumeration order of `boost::vertices`,
`boost::edges`, `boost::out_edges` and `boost::in_edges` is the order of the lists
below.
-/

namespace Algobowl

/-! ## common.hpp -/

/-- The minimum number of vertices. -/
def MIN_VERTICES : Nat := 2

/-- The maximum number of vertices. -/
def MAX_VERTICES : Nat := 10000

/-- The minimum number of edges. -/
def MIN_EDGES : Nat := 0

/-- The maximum number of edges. -/
def MAX_EDGES : Nat := 100000

/-- Vertex properties: the original (1-indexed) number of the vertex.  Equality,
order and hash of `vertex_properties_s` are those of `number`. -/
abbrev vertex_properties_s := Nat

/-- Vertex descriptor, identified with the number the vertex carries. -/
abbrev vertex_descriptor_t := Nat

/-- Adjacency list representation of the graph. -/
structure graph_t where
  vertices : List vertex_descriptor_t
  edges : List (vertex_descriptor_t × vertex_descriptor_t)
deriving DecidableEq, Repr

/-- The default-constructed `graph_t()`. -/
def graph_t.empty : graph_t := ⟨[], []⟩

/-- Model of `boost::num_vertices`. -/
def num_vertices (g : graph_t) : Nat := g.vertices.length

/-- Model of `boost::num_edges`. -/
def num_edges (g : graph_t) : Nat := g.edges.length

/-- Model of `boost::add_vertex(properties, graph)`: the descriptor returned is the
number of the new vertex. -/
def add_vertex (p : vertex_properties_s) (g : graph_t) : graph_t :=
  { g with vertices := g.vertices ++ [p] }

/-- Model of `boost::add_edge(u, v, graph)` for the `setS` edge container: an edge
that is already present is not inserted a second time. -/
def add_edge (u v : vertex_descriptor_t) (g : graph_t) : graph_t :=
  if (u, v) ∈ g.edges then g else { g with edges := g.edges ++ [(u, v)] }

/-- Model of `boost::clear_vertex(v, graph)`: removes every edge into or out of `v`. -/
def clear_vertex (v : vertex_descriptor_t) (g : graph_t) : graph_t :=
  { g with edges := g.edges.filter (fun e => !(e.1 == v || e.2 == v)) }

/-- Model of `boost::remove_vertex(v, graph)`. -/
def remove_vertex (v : vertex_descriptor_t) (g : graph_t) : graph_t :=
  { g with vertices := g.vertices.filter (fun w => !(w == v)) }

/-- Model of `boost::out_edges(v, graph)`. -/
def out_edges (v : vertex_descriptor_t) (g : graph_t) :
    List (vertex_descriptor_t × vertex_descriptor_t) :=
  g.edges.filter (fun e => e.1 == v)

/-- Model of `boost::in_edges(v, graph)`. -/
def in_edges (v : vertex_descriptor_t) (g : graph_t) :
    List (vertex_descriptor_t × vertex_descriptor_t) :=
  g.edges.filter (fun e => e.2 == v)

/-- The type invariant of `graph_t`: no vertex twice, no parallel edges, and every
edge joins two vertices of the graph. -/
def graph_t.wf (g : graph_t) : Prop :=
  g.vertices.Nodup ∧ g.edges.Nodup ∧ ∀ e ∈ g.edges, e.1 ∈ g.vertices ∧ e.2 ∈ g.vertices

instance (g : graph_t) : Decidable g.wf := by
  unfold graph_t.wf; infer_instance

/-- The edge relation of a graph. -/
def graph_t.adj (g : graph_t) (u v : vertex_descriptor_t) : Prop := (u, v) ∈ g.edges

/-- A graph has a directed cycle when some vertex reaches itself along one or more
edges; a self-loop is a cycle of length one. -/
def has_cycle (g : graph_t) : Prop := ∃ v, Relation.TransGen g.adj v v

/-- A topological order of a graph: a listing of its vertices, each once, in which
the source of every edge stands before its target. -/
def is_topological_order (g : graph_t) (l : List vertex_descriptor_t) : Prop :=
  l.Nodup ∧ (∀ v, v ∈ l ↔ v ∈ g.vertices) ∧ ∀ e ∈ g.edges, [e.1, e.2].Sublist l

/-! ## helpers.cpp: detect_cycles -/

/-- Modelled from the spec: the loop of `depth_first_visit` over a list of targets,
from `boost/graph/depth_first_search.hpp`, which is not among the sources.  A gray
target is a back edge, on which `topo_sort_visitor::back_edge` throws `not_a_dag`
(`none`); a black target is skipped; a white target is visited by `visit`. -/
def dfs_scan (visit : List vertex_descriptor_t → vertex_descriptor_t →
      Option (List vertex_descriptor_t))
    (gray : List vertex_descriptor_t) :
    List vertex_descriptor_t → List vertex_descriptor_t → Option (List vertex_descriptor_t)
  | black, [] => some black
  | black, w :: ws =>
    if w ∈ gray then none
    else if w ∈ black then dfs_scan visit gray black ws
    else match visit black w with
      | none => none
      | some black' => dfs_scan visit gray black' ws

/-- Modelled from the spec: `depth_first_visit` with the topological-sort visitor
(section 4.C: DFS with finish-time check, a back edge is the cycle signal).  `gray` is
the stack of discovered, unfinished vertices, `black` the finished vertices, most
recent first.  The vertex `u` turns gray, its out-edges are scanned in enumeration
order, then `u` turns black.  The fuel bounds the recursion depth; `depth_first_search`
passes the number of vertices, which the depth cannot exceed. -/
def dfs_visit (g : graph_t) :
    Nat → List vertex_descriptor_t → List vertex_descriptor_t → vertex_descriptor_t →
      Option (List vertex_descriptor_t)
  | 0, _, _, _ => none
  | fuel + 1, gray, black, u =>
    match dfs_scan (fun b w => dfs_visit g fuel (u :: gray) b w) (u :: gray) black
        ((out_edges u g).map Prod.snd) with
    | none => none
    | some black' => some (u :: black')

/-- Modelled from the spec: `boost::depth_first_search`: every vertex, in enumeration
order, is visited if it is still white. -/
def depth_first_search (g : graph_t) : Option (List vertex_descriptor_t) :=
  dfs_scan (fun b w => dfs_visit g g.vertices.length [] b w) [] [] g.vertices

/-- Modelled from the spec: `boost::topological_sort`: the vertices are written to the
output in finish order (a reverse topological order), or `not_a_dag` is thrown
(`none`). -/
def topological_sort (g : graph_t) : Option (List vertex_descriptor_t) :=
  (depth_first_search g).map List.reverse

/-- Detect cycles in the graph (helpers.cpp): `true` when `boost::topological_sort`
throws `not_a_dag`, `false` otherwise. -/
def detect_cycles (g : graph_t) : Bool :=
  match topological_sort g with
  | none => true
  | some _ => false

/-! ## helpers.cpp: tarjans_subgraphs -/

/-- Reachability along zero or more edges. -/
def reachable (g : graph_t) (u v : vertex_descriptor_t) : Prop :=
  Relation.ReflTransGen g.adj u v

/-- Two vertices are strongly connected when each is reachable from the other. -/
def strongly_connected (g : graph_t) (u v : vertex_descriptor_t) : Prop :=
  reachable g u v ∧ reachable g v u

/-- Modelled from the spec: the contract of `boost::strong_components`, which is not
among the sources (section 4.B and the glossary entry SCC).  The routine returns the
number of components and writes a component index for every vertex index; the indices
used are exactly `0 .. numSCCs - 1`, and two vertices get the same index exactly when
each is reachable from the other. -/
def strong_components_contract (g : graph_t) (r : Nat × List Nat) : Prop :=
  r.2.length = g.vertices.length ∧
  (∀ c ∈ r.2, c < r.1) ∧
  (∀ k, k < r.1 → k ∈ r.2) ∧
  ∀ (i j : Nat) (u v : vertex_descriptor_t), g.vertices[i]? = some u → g.vertices[j]? = some v →
    (r.2[i]? = r.2[j]? ↔ strongly_connected g u v)

/-- The loop "Group vertices by component and add them to the subgraphs" of
`tarjans_subgraphs`, over the vertex indices `i = 0, 1, ...` in ascending order:
`pending` holds the pairs (vertexIndexToComponentIndex[i], graph[indexToVertex[i]])
not yet processed. -/
def tarjans_add_vertices :
    List (Nat × vertex_properties_s) → List graph_t → List graph_t
  | [], subgraphs => subgraphs
  | (componentIndex, vertexProperties) :: pending, subgraphs =>
    tarjans_add_vertices pending
      (subgraphs.modify (add_vertex vertexProperties) componentIndex)

/-- The loop "Add edges to the subgraphs" of `tarjans_subgraphs`: an edge is copied
into the subgraph of its source when source and target have the same component
index.  `vertexToIndex` is the position of a descriptor in the enumeration of the
vertices, and `vertexIndexToSubgraphVertex[i]` is the descriptor of the copy of
vertex `i`, which carries the same number. -/
def tarjans_add_edges (vertices : List vertex_descriptor_t)
    (vertexIndexToComponentIndex : List Nat) :
    List (vertex_descriptor_t × vertex_descriptor_t) → List graph_t → List graph_t
  | [], subgraphs => subgraphs
  | (source, target) :: pending, subgraphs =>
    let sourceVertexIndex := vertices.indexOf source
    let targetVertexIndex := vertices.indexOf target
    let sourceComponentIndex := vertexIndexToComponentIndex.getD sourceVertexIndex 0
    let targetComponentIndex := vertexIndexToComponentIndex.getD targetVertexIndex 0
    if sourceComponentIndex = targetComponentIndex then
      tarjans_add_edges vertices vertexIndexToComponentIndex pending
        (subgraphs.modify
          (add_edge (vertices.getD sourceVertexIndex 0) (vertices.getD targetVertexIndex 0))
          sourceComponentIndex)
    else
      tarjans_add_edges vertices vertexIndexToComponentIndex pending subgraphs

/-- Run Tarjan's algorithm to find the strongly connected components (helpers.cpp).
`strong_components` stands for `boost::strong_components`, returning `numSCCs` and the
vector `vertexIndexToComponentIndex`.  The set `componentsVerticesIndex` of the source
is filled but never read and is left out. -/
def tarjans_subgraphs (strong_components : graph_t → Nat × List Nat) (graph : graph_t) :
    List graph_t :=
  let r := strong_components graph
  let numSCCs := r.1
  let vertexIndexToComponentIndex := r.2
  let subgraphs := List.replicate numSCCs graph_t.empty
  let subgraphs := tarjans_add_vertices
    ((List.range graph.vertices.length).map
      (fun i => (vertexIndexToComponentIndex.getD i 0, graph.vertices.getD i 0)))
    subgraphs
  tarjans_add_edges graph.vertices vertexIndexToComponentIndex graph.edges subgraphs

/-! ## helpers.hpp: mapsort; unordered maps and sets -/

/-- Model of `std::unordered_map<K, V>`: the entries in iteration order, no key
twice. -/
abbrev unordered_map (K V : Type) := List (K × V)

/-- Model of `map.find(key)` / `map.contains(key)` / reading `map[key]` of a present
key. -/
def map_find {K V : Type} [DecidableEq K] : unordered_map K V → K → Option V
  | [], _ => none
  | (k, v) :: m, key => if k = key then some v else map_find m key

/-- Model of `map[key] = value`. -/
def map_assign {K V : Type} [DecidableEq K] : unordered_map K V → K → V → unordered_map K V
  | [], key, value => [(key, value)]
  | (k, v) :: m, key, value =>
    if k = key then (k, value) :: m else (k, v) :: map_assign m key value

/-- Model of `map.erase(key)`. -/
def map_erase {K V : Type} [DecidableEq K] (m : unordered_map K V) (key : K) :
    unordered_map K V :=
  m.filter (fun p => !(decide (p.1 = key)))

/-- Model of `map[key]++` on a map of counters: an absent key is inserted with the
value-initialised count 0 and then incremented. -/
def map_increment {K : Type} [DecidableEq K] : unordered_map K Nat → K → unordered_map K Nat
  | [], key => [(key, 1)]
  | (k, c) :: m, key => if k = key then (k, c + 1) :: m else (k, c) :: map_increment m key

/-- Model of `set.insert(x)` on a `std::unordered_set`, kept as the list of its
elements in iteration order. -/
def set_insert {K : Type} [DecidableEq K] (s : List K) (x : K) : List K :=
  if x ∈ s then s else s ++ [x]

/-- Sort the map by values (helpers.hpp).  `std_sort` stands for `std::sort`, which is
library code: it receives the comparison on pairs and the pairs in the iteration order
of the map. -/
def mapsort {T V : Type} (std_sort : (T × V → T × V → Bool) → List (T × V) → List (T × V))
    (map : unordered_map T V) (compare : V → V → Bool) : List T :=
  let pairs := std_sort (fun a b => compare a.2 b.2) map
  pairs.map Prod.fst

/-! ## simulation.cpp -/

/-- Map of vertices to their unnormalized traffic. -/
abbrev unnormalized_vertex_traffic_map_t := unordered_map vertex_descriptor_t Nat

/-- Map of vertices to their normalized traffic, over the number type `D` that stands
for `double`. -/
abbrev normalized_vertex_traffic_map_t (D : Type) := unordered_map vertex_descriptor_t D

/-- The operations on `double` that `simulate` uses.  Floating point is not modelled:
the arithmetic is a parameter, so that what is proved of `simulate` holds for every
implementation of these operations. -/
structure double_ops (D : Type) where
  /-- The literal `0`. -/
  zero : D
  /-- The quotient `(double)a / (double)b` of two counters. -/
  ratio : Nat → Nat → D
  /-- The value `std::abs(a - b)`. -/
  abs_sub : D → D → D
  /-- The sum `a + b`. -/
  add : D → D → D
  /-- The comparison `a < b`. -/
  lt : D → D → Bool

/-- Exact rational arithmetic as an instance of the operations. -/
def exact_ops : double_ops ℚ where
  zero := 0
  ratio := fun a b => (a : ℚ) / (b : ℚ)
  abs_sub := fun a b => |a - b|
  add := fun a b => a + b
  lt := fun a b => decide (a < b)

/-- The vector `vertexToOutVertices[v]` built at the start of `simulate`: the targets
of the out-edges of `v` in enumeration order; a descriptor that is no vertex of the
component has no entry, and reading it yields the empty vector. -/
def out_vertices (component : graph_t) (v : vertex_descriptor_t) : List vertex_descriptor_t :=
  if v ∈ component.vertices then (out_edges v component).map Prod.snd else []

/-- The loop over `steps` of one agent in `simulate`.  `gen s start end` stands for
`random_integer(start, end)` called in generator state `s`.  `currentVertex` is `none`
for the null descriptor that `indexToVertex[i]` yields at an index that has no entry.
The source indexes `outEdges` without a bounds check; an index that the generator
leaves out of range is reported as an error here. -/
def simulate_steps {S : Type} (gen : S → Nat → Nat → Nat × S) (component : graph_t) :
    Nat → Option vertex_descriptor_t → unnormalized_vertex_traffic_map_t → S →
      Except String (unnormalized_vertex_traffic_map_t × S)
  | 0, _, unnormalizedTraffic, s => .ok (unnormalizedTraffic, s)
  | steps + 1, currentVertex, unnormalizedTraffic, s =>
    let outEdges := match currentVertex with
      | none => []
      | some v => out_vertices component v
    let outDegree := outEdges.length
    if outDegree = 0 then
      .error "The graph is not strongly connected"
    else if outDegree = 1 then
      match outEdges[0]? with
      | none => .error "index out of range"
      | some nextVertex =>
        simulate_steps gen component steps (some nextVertex)
          (map_increment unnormalizedTraffic nextVertex) s
    else
      let r := gen s 0 outDegree
      match outEdges[r.1]? with
      | none => .error "index out of range"
      | some nextVertex =>
        simulate_steps gen component steps (some nextVertex)
          (map_increment unnormalizedTraffic nextVertex) r.2

/-- The loop over `agents` of one batch in `simulate`: each agent starts at
`indexToVertex[random_integer(0, num_vertices)]` and walks `steps` steps. -/
def simulate_agents {S : Type} (gen : S → Nat → Nat → Nat × S) (component : graph_t)
    (steps : Nat) :
    Nat → unnormalized_vertex_traffic_map_t → S →
      Except String (unnormalized_vertex_traffic_map_t × S)
  | 0, unnormalizedTraffic, s => .ok (unnormalizedTraffic, s)
  | agents + 1, unnormalizedTraffic, s =>
    let r := gen s 0 (num_vertices component)
    let currentVertex := component.vertices[r.1]?
    match simulate_steps gen component steps currentVertex unnormalizedTraffic r.2 with
    | .error e => .error e
    | .ok (unnormalizedTraffic', s') =>
      simulate_agents gen component steps agents unnormalizedTraffic' s'

/-- The loop of `simulate` that computes the normalized traffic difference of a batch
and updates the previous normalized traffic, over the entries of the traffic map. -/
def simulate_difference {D : Type} (ops : double_ops D) (totalTraffic : Nat) :
    List (vertex_descriptor_t × Nat) → D → normalized_vertex_traffic_map_t D →
      D × normalized_vertex_traffic_map_t D
  | [], difference, previousNormalizedTraffic => (difference, previousNormalizedTraffic)
  | (vertexDescriptor, traffic) :: rest, difference, previousNormalizedTraffic =>
    let oldNormalizedTraffic := match map_find previousNormalizedTraffic vertexDescriptor with
      | some x => x
      | none => ops.zero
    let newNormalizedTraffic := ops.ratio traffic totalTraffic
    simulate_difference ops totalTraffic rest
      (ops.add difference (ops.abs_sub newNormalizedTraffic oldNormalizedTraffic))
      (map_assign previousNormalizedTraffic vertexDescriptor newNormalizedTraffic)

/-- The loop over batches of `simulate`, with `remaining` batches still allowed and
`batch` batches already run.  Besides the traffic and the generator state it returns
the number of batches that were run.  Counters are natural numbers: every unit of
`totalTraffic` is one executed step, so the 64-bit counters of the source do not wrap
in a run that ends. -/
def simulate_batches {S D : Type} (gen : S → Nat → Nat → Nat × S) (ops : double_ops D)
    (component : graph_t) (agents steps : Nat) (change_threshold : D) :
    Nat → Nat → unnormalized_vertex_traffic_map_t → normalized_vertex_traffic_map_t D → S →
      Except String (unnormalized_vertex_traffic_map_t × S × Nat)
  | 0, batch, unnormalizedTraffic, _, s => .ok (unnormalizedTraffic, s, batch)
  | remaining + 1, batch, unnormalizedTraffic, previousNormalizedTraffic, s =>
    match simulate_agents gen component steps agents unnormalizedTraffic s with
    | .error e => .error e
    | .ok (unnormalizedTraffic', s') =>
      let totalTraffic := (batch + 1) * agents * steps
      let d := simulate_difference ops totalTraffic unnormalizedTraffic' ops.zero
        previousNormalizedTraffic
      if ops.lt d.1 change_threshold then
        .ok (unnormalizedTraffic', s', batch + 1)
      else
        simulate_batches gen ops component agents steps change_threshold remaining (batch + 1)
          unnormalizedTraffic' d.2 s'

/-- The traffic map `simulate` starts from: `unnormalizedTraffic[v] = 0` for every
vertex in enumeration order. -/
def initial_traffic (component : graph_t) : unnormalized_vertex_traffic_map_t :=
  component.vertices.foldl (fun m v => map_assign m v 0) []

/-- The run of `simulate` together with the number of batches it ran. -/
def simulate_run {S D : Type} (gen : S → Nat → Nat → Nat × S) (ops : double_ops D)
    (component : graph_t) (agents steps batches : Nat) (change_threshold : D) (s : S) :
    Except String (unnormalized_vertex_traffic_map_t × S × Nat) :=
  simulate_batches gen ops component agents steps change_threshold batches 0
    (initial_traffic component) [] s

/-- Simulate the traffic of a component (simulation.cpp): the unnormalized traffic
map and the generator state after the run, or the exception thrown. -/
def simulate {S D : Type} (gen : S → Nat → Nat → Nat × S) (ops : double_ops D)
    (component : graph_t) (agents steps batches : Nat) (change_threshold : D) (s : S) :
    Except String (unnormalized_vertex_traffic_map_t × S) :=
  match simulate_run gen ops component agents steps batches change_threshold s with
  | .error e => .error e
  | .ok r => .ok (r.1, r.2.1)

/-- The generator answers within the requested range `[start, end)`. -/
def gen_in_range {S : Type} (gen : S → Nat → Nat → Nat × S) : Prop :=
  ∀ s a b, a < b → a ≤ (gen s a b).1 ∧ (gen s a b).1 < b

/-- The traffic recorded for a vertex (0 for a vertex without entry). -/
def traffic_at (m : unnormalized_vertex_traffic_map_t) (v : vertex_descriptor_t) : Nat :=
  match map_find m v with
  | some c => c
  | none => 0

/-! ## output.cpp -/

/-- The loops "Write the vertices" of `serialize_output` and "Write the sources" of
`serialize_input`: every number is written in decimal, and a space is written after it
when another number follows (`std::next(vertex) != vertices.end()`). -/
def write_numbers : List Nat → String
  | [] => ""
  | [number] => toString number
  | number :: next :: rest => toString number ++ " " ++ write_numbers (next :: rest)

/-- Serialize the output (output.cpp): the size of the set and `std::endl`, then the
numbers in iteration order.  The stream is the text written to it; a write does not
fail. -/
def serialize_output (vertices : List vertex_properties_s) : String :=
  toString vertices.length ++ "\n" ++ write_numbers vertices

/-! ## solver.cpp -/

namespace solver

/-- Compare two integers such that they are sorted in ascending order. -/
def trafficCompare (a b : Nat) : Bool := decide (a < b)

/-- The loop "Add in edges" of the solver: an in-edge of the new vertex is added when
its source is already in the acyclic graph. -/
def add_in_edges (cloneVertexDescriptor : vertex_descriptor_t)
    (acyclicVertices : unordered_map vertex_properties_s vertex_descriptor_t) :
    List (vertex_descriptor_t × vertex_descriptor_t) → graph_t → graph_t
  | [], acyclicGraph => acyclicGraph
  | edgeDescriptor :: rest, acyclicGraph =>
    let sourceProperties := edgeDescriptor.1
    match map_find acyclicVertices sourceProperties with
    | none => add_in_edges cloneVertexDescriptor acyclicVertices rest acyclicGraph
    | some cloneSourceDescriptor =>
      add_in_edges cloneVertexDescriptor acyclicVertices rest
        (add_edge cloneSourceDescriptor cloneVertexDescriptor acyclicGraph)

/-- The loop "Add out edges" of the solver: an out-edge of the new vertex is added
when its target is already in the acyclic graph. -/
def add_out_edges (cloneVertexDescriptor : vertex_descriptor_t)
    (acyclicVertices : unordered_map vertex_properties_s vertex_descriptor_t) :
    List (vertex_descriptor_t × vertex_descriptor_t) → graph_t → graph_t
  | [], acyclicGraph => acyclicGraph
  | edgeDescriptor :: rest, acyclicGraph =>
    let targetProperties := edgeDescriptor.2
    match map_find acyclicVertices targetProperties with
    | none => add_out_edges cloneVertexDescriptor acyclicVertices rest acyclicGraph
    | some cloneTargetDescriptor =>
      add_out_edges cloneVertexDescriptor acyclicVertices rest
        (add_edge cloneVertexDescriptor cloneTargetDescriptor acyclicGraph)

/-- The state of the greedy loop: the acyclic graph under construction and the map
`acyclicVertices` from vertex properties to descriptors of that graph. -/
structure reduce_state where
  acyclicGraph : graph_t
  acyclicVertices : unordered_map vertex_properties_s vertex_descriptor_t
deriving DecidableEq, Repr

/-- The state after the insertion of a vertex and of its edges, before the cycle
test. -/
def insert_vertex (subgraph : graph_t) (st : reduce_state)
    (subgraphVertexDescriptor : vertex_descriptor_t) : reduce_state :=
  let vertexProperties := subgraphVertexDescriptor
  let cloneVertexDescriptor := vertexProperties
  let acyclicGraph := add_vertex vertexProperties st.acyclicGraph
  let acyclicVertices := map_assign st.acyclicVertices vertexProperties cloneVertexDescriptor
  let acyclicGraph := add_in_edges cloneVertexDescriptor acyclicVertices
    (in_edges subgraphVertexDescriptor subgraph) acyclicGraph
  let acyclicGraph := add_out_edges cloneVertexDescriptor acyclicVertices
    (out_edges subgraphVertexDescriptor subgraph) acyclicGraph
  ⟨acyclicGraph, acyclicVertices⟩

/-- One iteration of the loop "Build the acyclic graph vertex by vertex": the vertex
is inserted with its edges from and to the vertices already present, and the changes
are reverted if the graph is cyclic. -/
def reduce_step (subgraph : graph_t) (st : reduce_state)
    (subgraphVertexDescriptor : vertex_descriptor_t) : reduce_state :=
  let inserted := insert_vertex subgraph st subgraphVertexDescriptor
  if detect_cycles inserted.acyclicGraph then
    ⟨remove_vertex subgraphVertexDescriptor
        (clear_vertex subgraphVertexDescriptor inserted.acyclicGraph),
      map_erase inserted.acyclicVertices subgraphVertexDescriptor⟩
  else inserted

/-- The greedy loop over the vertices in the order `sorted`. -/
def reduce (subgraph : graph_t) (sorted : List vertex_descriptor_t) : reduce_state :=
  sorted.foldl (reduce_step subgraph) ⟨graph_t.empty, []⟩

/-- The loop "Add all vertices to remove which are not in the acyclic graph". -/
def collect_cut (acyclicVertices : unordered_map vertex_properties_s vertex_descriptor_t) :
    List vertex_descriptor_t → List vertex_properties_s → List vertex_properties_s
  | [], cutVertices => cutVertices
  | vertexDescriptor :: rest, cutVertices =>
    match map_find acyclicVertices vertexDescriptor with
    | none => collect_cut acyclicVertices rest (set_insert cutVertices vertexDescriptor)
    | some _ => collect_cut acyclicVertices rest cutVertices

/-- The loop of the solver over the subgraphs: a subgraph with a single vertex is
skipped; any other subgraph is simulated, its vertices are sorted by traffic and
reinserted greedily, and the vertices left out join the cut set. -/
def process_subgraphs {S D : Type} (gen : S → Nat → Nat → Nat × S) (ops : double_ops D)
    (std_sort : (vertex_descriptor_t × Nat → vertex_descriptor_t × Nat → Bool) →
      List (vertex_descriptor_t × Nat) → List (vertex_descriptor_t × Nat))
    (agents steps batches : Nat) (changeThreshold : D) :
    List graph_t → List vertex_properties_s → S → Except String (List vertex_properties_s × S)
  | [], cutVertices, s => .ok (cutVertices, s)
  | subgraph :: rest, cutVertices, s =>
    let subgraphVertices := num_vertices subgraph
    if subgraphVertices = 1 then
      process_subgraphs gen ops std_sort agents steps batches changeThreshold rest cutVertices s
    else
      match simulate gen ops subgraph agents steps batches changeThreshold s with
      | .error e => .error e
      | .ok (traffic, s') =>
        let sorted := mapsort std_sort traffic trafficCompare
        let st := reduce subgraph sorted
        process_subgraphs gen ops std_sort agents steps batches changeThreshold rest
          (collect_cut st.acyclicVertices sorted cutVertices) s'

/-- The cut set the solver computes for a decoded graph (solver.cpp, from "Run
Tarjans" to the end of the loop over the subgraphs). -/
def cut_vertices {S D : Type} (strong_components : graph_t → Nat × List Nat)
    (gen : S → Nat → Nat → Nat × S) (ops : double_ops D)
    (std_sort : (vertex_descriptor_t × Nat → vertex_descriptor_t × Nat → Bool) →
      List (vertex_descriptor_t × Nat) → List (vertex_descriptor_t × Nat))
    (graph : graph_t) (agents steps batches : Nat) (changeThreshold : D) (s : S) :
    Except String (List vertex_properties_s) :=
  let subgraphs := tarjans_subgraphs strong_components graph
  match process_subgraphs gen ops std_sort agents steps batches changeThreshold subgraphs [] s with
  | .error e => .error e
  | .ok r => .ok r.1

/-- The solver on a decoded graph (solver.cpp `main` after `deserialize_input`): the
text written to the output file, or the exception that ends the run. -/
def main {S D : Type} (strong_components : graph_t → Nat × List Nat)
    (gen : S → Nat → Nat → Nat × S) (ops : double_ops D)
    (std_sort : (vertex_descriptor_t × Nat → vertex_descriptor_t × Nat → Bool) →
      List (vertex_descriptor_t × Nat) → List (vertex_descriptor_t × Nat))
    (graph : graph_t) (agents steps batches : Nat) (changeThreshold : D) (s : S) :
    Except String String :=
  match cut_vertices strong_components gen ops std_sort graph agents steps batches
      changeThreshold s with
  | .error e => .error e
  | .ok cutVertices => .ok (serialize_output cutVertices)

end solver

/-! ## Notions used in the statements and proofs -/

/-- The graph left when the vertices in `cut` are removed together with their
incident edges. -/
def remove_vertices (g : graph_t) (cut : List vertex_descriptor_t) : graph_t :=
  ⟨g.vertices.filter (fun v => decide (v ∉ cut)),
    g.edges.filter (fun e => decide (e.1 ∉ cut) && decide (e.2 ∉ cut))⟩

/-- A feedback vertex set: a set of vertices whose removal leaves no directed
cycle. -/
def is_feedback_vertex_set (g : graph_t) (cut : List vertex_descriptor_t) : Prop :=
  ¬ has_cycle (remove_vertices g cut)

/-- The subgraph induced by the vertices in `keep`. -/
def induced_subgraph (g : graph_t) (keep : List vertex_descriptor_t) : graph_t :=
  ⟨g.vertices.filter (fun v => decide (v ∈ keep)),
    g.edges.filter (fun e => decide (e.1 ∈ keep) && decide (e.2 ∈ keep))⟩

/-- The finished list of a search, most recent first, is topologically ordered: the
targets of every edge out of an entry stand behind it. -/
def topo_ok (g : graph_t) : List vertex_descriptor_t → Prop
  | [] => True
  | u :: rest => (∀ w, g.adj u w → w ∈ rest) ∧ topo_ok g rest

/-- The invariant of the finished list during a search with stack `gray`. -/
def black_inv (g : graph_t) (gray black : List vertex_descriptor_t) : Prop :=
  topo_ok g black ∧ black.Nodup ∧ (∀ x ∈ black, x ∈ g.vertices) ∧ ∀ x ∈ gray, x ∉ black

/-- The invariant of the greedy loop. -/
def reduce_inv (subgraph : graph_t) (st : solver.reduce_state) : Prop :=
  st.acyclicVertices.map Prod.fst = st.acyclicGraph.vertices ∧
  (∀ p ∈ st.acyclicVertices, p.2 = p.1) ∧
  st.acyclicGraph.vertices.Nodup ∧
  (∀ e ∈ st.acyclicGraph.edges, e ∈ subgraph.edges ∧
    e.1 ∈ st.acyclicGraph.vertices ∧ e.2 ∈ st.acyclicGraph.vertices) ∧
  (∀ e ∈ subgraph.edges, e.1 ∈ st.acyclicGraph.vertices → e.2 ∈ st.acyclicGraph.vertices →
    e ∈ st.acyclicGraph.edges) ∧
  ¬ has_cycle st.acyclicGraph

/-- The component index that the component map assigns to a vertex. -/
def component_of (g : graph_t) (r : Nat × List Nat) (v : vertex_descriptor_t) : Nat :=
  r.2.getD (g.vertices.indexOf v) 0

/-- What `tarjans_subgraphs` needs from the component map: a component index below
`numSCCs` for every vertex index. -/
def component_map_valid (g : graph_t) (r : Nat × List Nat) : Prop :=
  r.2.length = g.vertices.length ∧ ∀ c ∈ r.2, c < r.1

/-- The edges copied into subgraph `k` from a list of edges, inserted in order. -/
def copy_edges (vertices : List vertex_descriptor_t) (vertexIndexToComponentIndex : List Nat)
    (k : Nat) : List (vertex_descriptor_t × vertex_descriptor_t) → graph_t → graph_t
  | [], g => g
  | (source, target) :: pending, g =>
    if vertexIndexToComponentIndex.getD (vertices.indexOf source) 0 =
          vertexIndexToComponentIndex.getD (vertices.indexOf target) 0 ∧
        vertexIndexToComponentIndex.getD (vertices.indexOf source) 0 = k then
      copy_edges vertices vertexIndexToComponentIndex k pending
        (add_edge (vertices.getD (vertices.indexOf source) 0)
          (vertices.getD (vertices.indexOf target) 0) g)
    else copy_edges vertices vertexIndexToComponentIndex k pending g

/-- The vertices copied into subgraph `k`, in enumeration order. -/
def component_vertices (g : graph_t) (r : Nat × List Nat) (k : Nat) : List vertex_descriptor_t :=
  (((List.range g.vertices.length).map
    (fun i => (r.2.getD i 0, g.vertices.getD i 0))).filter (fun p => p.1 = k)).map Prod.snd

/-- The sum of all counts of a traffic map. -/
def traffic_total (m : unnormalized_vertex_traffic_map_t) : Nat := (m.map Prod.snd).sum

/-! ## Test graphs and instances of the library parameters -/

/-- The graph of `build_one_scc` in the tests: five vertices, one strongly connected
component. -/
def build_one_scc : graph_t :=
  ⟨[1, 2, 3, 4, 5], [(3, 1), (5, 1), (1, 2), (2, 3), (1, 4), (4, 5)]⟩

/-- The graph of the test `tarjans_subgraphs.all_sccs`: no cycle, five components. -/
def build_all_sccs : graph_t := ⟨[1, 2, 3, 4, 5], [(1, 2), (2, 3), (4, 5)]⟩

/-- A graph of two vertices joined in both directions. -/
def two_cycle : graph_t := ⟨[1, 2], [(1, 2), (2, 1)]⟩

/-- An input graph with a self-loop on vertex 1 and an isolated vertex 2 (the input
text `2`, `1 1`, `0`). -/
def self_loop_input : graph_t := ⟨[1, 2], [(1, 1)]⟩

/-- A generator that always answers the start of the requested range; its state counts
the calls. -/
def first_gen : Nat → Nat → Nat → Nat × Nat := fun s start _ => (start, s + 1)

/-- Insertion into a list ordered by `lt`, behind the entries that are not greater. -/
def ordered_insert {α : Type} (lt : α → α → Bool) (a : α) : List α → List α
  | [] => [a]
  | b :: l => if lt a b then a :: b :: l else b :: ordered_insert lt a l

/-- An insertion sort, one instance of `std::sort`. -/
def insertion_sort {α : Type} (lt : α → α → Bool) (l : List α) : List α :=
  l.foldr (ordered_insert lt) []

/-- A component map that numbers the components by vertex index, one per vertex. -/
def index_components (g : graph_t) : Nat × List Nat :=
  (g.vertices.length, List.range g.vertices.length)

/-- A component map that puts every vertex into component 0. -/
def one_component (g : graph_t) : Nat × List Nat :=
  (1, List.replicate g.vertices.length 0)

instance (g : graph_t) (r : Nat × List Nat) : Decidable (component_map_valid g r) := by
  unfold component_map_valid; infer_instance

/-! ## Further notions for the simulator -/

/-- What the early-exit test needs from the arithmetic when the threshold is `0`: a
sum of absolute differences, started at `0`, is never below `0`.  It holds in exact
arithmetic and for IEEE doubles (where the sum is non-negative or NaN). -/
def difference_never_below_zero {D : Type} (ops : double_ops D) : Prop :=
  ∃ P : D → Prop, P ops.zero ∧ (∀ x a b, P x → P (ops.add x (ops.abs_sub a b))) ∧
    ∀ x, P x → ops.lt x ops.zero = false

/-- A component in which vertex 1 has the single out-edge to vertex 2 and vertex 2 has
no out-edge. -/
def dead_end : graph_t := ⟨[1, 2], [(1, 2)]⟩

/-! ## helpers.cpp: only_whitespace_remaining; reading numbers from a stream -/

/-- Model of `std::isspace` in the "C" locale: space, horizontal tab, line feed,
vertical tab, form feed and carriage return. -/
def isspace (c : Char) : Bool :=
  c == ' ' || c == '\t' || c == '\n' || c == Char.ofNat 11 || c == Char.ofNat 12 || c == '\r'

/-- Check if the only remaining characters in the input are whitespace (helpers.cpp);
the stream is the list of its remaining characters. -/
def only_whitespace_remaining (input : List Char) : Bool :=
  input.all isspace

/-- The value of a decimal digit character. -/
def digit_value (c : Char) : Nat := c.toNat - 48

/-- Modelled from the spec: the digits of a number are read as far as they go and
accumulated in base ten (section 6.1: tokens are whitespace-delimited decimal numbers);
the result is the number read so far and the rest of the stream. -/
def read_digits : List Char → Nat → Nat × List Char
  | [], value => (value, [])
  | c :: rest, value =>
    if c.isDigit then read_digits rest (value * 10 + digit_value c) else (value, c :: rest)

/-- Modelled from the spec: `input >> value` for a `std::size_t`, which is library code
(`std::istream::operator>>`, `std::num_get`).  Leading whitespace is skipped, then a
decimal number is read; `none` stands for a failed extraction (end of stream or no
digit).  As in the C++ library a sign may precede the digits, a negated number wraps
modulo 2^64, and a number that does not fit 64 bits fails. -/
def read_size_t (input : List Char) : Option (Nat × List Char) :=
  let input := input.dropWhile isspace
  let negative := decide (input.head? = some '-')
  let input := if input.head? = some '-' ∨ input.head? = some '+' then input.tail else input
  match input.head? with
  | none => none
  | some c =>
    if c.isDigit then
      let r := read_digits input 0
      if 2 ^ 64 ≤ r.1 then none
      else some (if negative then (2 ^ 64 - r.1) % 2 ^ 64 else r.1, r.2)
    else none

/-! ## input.cpp -/

/-- The exceptions of `deserialize_input`, one constructor per `throw`; all are
`std::invalid_argument` except `vector_index_out_of_range`, which stands for the
unchecked access `vertices[sourceIndex]` beyond the end of the vector (undefined
behaviour in the source). -/
inductive input_error where
  | missing_num_vertices
  | num_vertices_out_of_range
  | missing_in_vertex_count (destinationIndex : Nat)
  | in_vertex_count_out_of_range (destinationIndex : Nat)
  | missing_source_index (destinationIndex : Nat)
  | source_index_out_of_range (destinationIndex : Nat)
  | extra_data
  | num_edges_out_of_range
  | vector_index_out_of_range
deriving DecidableEq, Repr

/-- Whether the exception is a `std::invalid_argument` thrown by the decoder (an
input-format error). -/
def input_error.is_invalid_argument : input_error → Bool
  | .vector_index_out_of_range => false
  | _ => true

/-- The message of the exception, for an input with `numVertices` vertices. -/
def input_error.what (numVertices : Nat) : input_error → String
  | .missing_num_vertices => "The input file does not contain the number of vertices"
  | .num_vertices_out_of_range =>
    "The number of vertices must be between " ++ toString MIN_VERTICES ++ " and " ++
      toString MAX_VERTICES
  | .missing_in_vertex_count destinationIndex =>
    "The input file does not contain the number of in vertices for vertex " ++
      toString destinationIndex ++ " (0-indexed)"
  | .in_vertex_count_out_of_range destinationIndex =>
    "The number of in vertices must be between 0 and " ++ toString numVertices ++
      " for vertex " ++ toString destinationIndex ++ " (0-indexed)"
  | .missing_source_index destinationIndex =>
    "The input file does not contain the source index for vertex " ++
      toString destinationIndex ++ " (0-indexed)"
  | .source_index_out_of_range destinationIndex =>
    "The destination index must be between 1 and " ++ toString numVertices ++
      " for vertex " ++ toString destinationIndex ++ " (0-indexed)"
  | .extra_data => "The input file contains extra data"
  | .num_edges_out_of_range =>
    "The number of edges must be between " ++ toString MIN_EDGES ++ " and " ++
      toString MAX_EDGES
  | .vector_index_out_of_range => "vector index out of range"

/-- The loop "Read the adjacent vertices" of `deserialize_input` for one destination,
with `remaining` source indices still to read.  The decrement `sourceIndex--` is taken
modulo 2^64. -/
def read_adjacent (numVertices : Nat) (vertices : List vertex_descriptor_t)
    (destinationIndex : Nat) :
    Nat → List Char → graph_t → Except input_error (List Char × graph_t)
  | 0, input, graph => .ok (input, graph)
  | remaining + 1, input, graph =>
    match read_size_t input with
    | none => .error (.missing_source_index destinationIndex)
    | some (sourceIndex, input) =>
      if sourceIndex < 1 ∧ numVertices < sourceIndex then
        .error (.source_index_out_of_range destinationIndex)
      else
        let sourceIndex := (sourceIndex + 2 ^ 64 - 1) % 2 ^ 64
        match vertices[sourceIndex]?, vertices[destinationIndex]? with
        | some source, some target =>
          read_adjacent numVertices vertices destinationIndex remaining input
            (add_edge source target graph)
        | _, _ => .error .vector_index_out_of_range

/-- The loop "Read the edges" of `deserialize_input` over the destinations, with
`remaining` destinations still to read, the next one being `destinationIndex`. -/
def read_edges (numVertices : Nat) (vertices : List vertex_descriptor_t) :
    Nat → Nat → List Char → graph_t → Except input_error (List Char × graph_t)
  | 0, _, input, graph => .ok (input, graph)
  | remaining + 1, destinationIndex, input, graph =>
    match read_size_t input with
    | none => .error (.missing_in_vertex_count destinationIndex)
    | some (inVertexCount, input) =>
      if numVertices < inVertexCount then
        .error (.in_vertex_count_out_of_range destinationIndex)
      else
        match read_adjacent numVertices vertices destinationIndex inVertexCount input graph with
        | .error e => .error e
        | .ok (input, graph) =>
          read_edges numVertices vertices remaining (destinationIndex + 1) input graph

/-- Deserialize the input (input.cpp): the graph, or the exception thrown.  The vector
`vertices` holds the descriptors of the vertices 1, ..., numVertices in this order. -/
def deserialize_input (input : List Char) : Except input_error graph_t :=
  match read_size_t input with
  | none => .error .missing_num_vertices
  | some (numVertices, input) =>
    if numVertices < MIN_VERTICES ∨ MAX_VERTICES < numVertices then
      .error .num_vertices_out_of_range
    else
      let vertices := (List.range numVertices).map (fun vertexIndex => vertexIndex + 1)
      let graph := vertices.foldl (fun graph v => add_vertex v graph) graph_t.empty
      match read_edges numVertices vertices numVertices 0 input graph with
      | .error e => .error e
      | .ok (input, graph) =>
        if !only_whitespace_remaining input then
          .error .extra_data
        else if num_edges graph < MIN_EDGES ∨ MAX_EDGES < num_edges graph then
          .error .num_edges_out_of_range
        else
          .ok graph

/-! ## Well-formed input texts (section 6.1) -/

/-- The number that a string of decimal digits denotes. -/
def decimal_value (digits : List Char) : Nat :=
  digits.foldl (fun value c => value * 10 + digit_value c) 0

/-- A number as it stands in a text: the whitespace in front of it and its digits. -/
abbrev token := List Char × List Char

/-- The number that a token denotes. -/
def token.value (t : token) : Nat := decimal_value t.2

/-- A token is whitespace followed by at least one decimal digit. -/
def is_token (t : token) : Prop :=
  (∀ c ∈ t.1, isspace c = true) ∧ t.2 ≠ [] ∧ ∀ c ∈ t.2, c.isDigit = true

instance (t : token) : Decidable (is_token t) := by
  unfold is_token; infer_instance

/-- A token that is separated from what stands before it: at least one whitespace
character in front. -/
def is_separated_token (t : token) : Prop := is_token t ∧ t.1 ≠ []

instance (t : token) : Decidable (is_separated_token t) := by
  unfold is_separated_token; infer_instance

/-- The text of a list of tokens. -/
def tokens_text : List token → List Char
  | [] => []
  | t :: ts => t.1 ++ t.2 ++ tokens_text ts

/-- The record of one vertex in an input text: the token of the in-degree and the
tokens of the source indices. -/
abbrev record := token × List token

/-- The text of a list of records. -/
def records_text : List record → List Char
  | [] => []
  | r :: rs => r.1.1 ++ r.1.2 ++ tokens_text r.2 ++ records_text rs

/-- The edges listed by the records, the first record being that of the vertex with
index `destinationIndex` (number `destinationIndex + 1`), in the order of the text. -/
def listed_edges : Nat → List record → List (vertex_descriptor_t × vertex_descriptor_t)
  | _, [] => []
  | destinationIndex, r :: rs =>
    r.2.map (fun s => (s.value, destinationIndex + 1)) ++ listed_edges (destinationIndex + 1) rs

/-- The record of a vertex in an input for `numVertices` vertices is well-formed: the
count equals the number of source tokens, is at most `numVertices`, and every source
index lies in `[1, numVertices]`; every token is separated by whitespace. -/
def is_record (numVertices : Nat) (r : record) : Prop :=
  is_separated_token r.1 ∧ r.1.value = r.2.length ∧ r.2.length ≤ numVertices ∧
  ∀ s ∈ r.2, is_separated_token s ∧ 1 ≤ s.value ∧ s.value ≤ numVertices

instance (numVertices : Nat) (r : record) : Decidable (is_record numVertices r) := by
  unfold is_record; infer_instance

/-- The text of an input: the token of the number of vertices, the records of the
vertices and trailing characters. -/
def input_text (n : token) (records : List record) (trailing : List Char) : List Char :=
  n.1 ++ n.2 ++ (records_text records ++ trailing)

/-- A well-formed input text (section 6.1): `N` in `[2, 10000]`, one well-formed record
per vertex, tokens separated by arbitrary whitespace, only whitespace after the last
token, and at most 100000 distinct edges. -/
def well_formed_input (n : token) (records : List record) (trailing : List Char) : Prop :=
  is_token n ∧ MIN_VERTICES ≤ n.value ∧ n.value ≤ MAX_VERTICES ∧ records.length = n.value ∧
  (∀ r ∈ records, is_record n.value r) ∧ (∀ c ∈ trailing, isspace c = true) ∧
  (listed_edges 0 records).dedup.length ≤ MAX_EDGES

instance (n : token) (records : List record) (trailing : List Char) :
    Decidable (well_formed_input n records trailing) := by
  unfold well_formed_input; infer_instance

/-- The rest of a stream does not continue a number: it does not start with a
digit. -/
def no_digit_head (rest : List Char) : Prop := ∀ c, rest.head? = some c → c.isDigit = false

/-! ## Example input texts -/

/-- The token of `N` in the sample input `test/0-sample-in.txt`. -/
def sample_num_vertices : token := ([], ['5'])

/-- The records of the sample input `test/0-sample-in.txt`, whose text is
`"5\n2 3 5\n1 1\n1 2\n1 1\n1 4"`. -/
def sample_records : List record :=
  [((['\n'], ['2']), [([' '], ['3']), ([' '], ['5'])]),
   ((['\n'], ['1']), [([' '], ['1'])]),
   ((['\n'], ['1']), [([' '], ['2'])]),
   ((['\n'], ['1']), [([' '], ['1'])]),
   ((['\n'], ['1']), [([' '], ['4'])])]

/-- The token of `N` in an input for two vertices. -/
def two_vertices : token := ([], ['2'])

/-- The records of the text `"2\n0\n2 1 2"`: vertex 1 has in-degree 0 and vertex 2 has
in-degree 2, the number of vertices. -/
def extreme_count_records : List record :=
  [((['\n'], ['0']), []), ((['\n'], ['2']), [([' '], ['1']), ([' '], ['2'])])]

/-- The record of vertex 1 in the text `"2\n0\n3 1 2 1"`. -/
def empty_record : List record := [((['\n'], ['0']), [])]

/-- The count token of vertex 2 in the text `"2\n0\n3 1 2 1"`. -/
def count_three : token := (['\n'], ['3'])

/-- The token of `N` in the text `"1\n0"`. -/
def one_vertex : token := ([], ['1'])

/-- The records of the text `"2\n2 2 2\n0"`, which lists the edge `2 → 1` twice. -/
def duplicate_source_records : List record :=
  [((['\n'], ['2']), [([' '], ['2']), ([' '], ['2'])]), ((['\n'], ['0']), [])]

/-- The count token of vertex 2 in the text `"2\n0\n2 1"`. -/
def count_two : token := (['\n'], ['2'])

/-- The source tokens of vertex 2 in the text `"2\n0\n2 1"`. -/
def one_source : List token := [([' '], ['1'])]

/-- The number tokens of the output text `"2\n3 5\n"`. -/
def sample_cut_tokens : List token := [(['\n'], ['3']), ([' '], ['5'])]

/-- The count token of the output text `"10001 1"`. -/
def count_too_large : token := ([], ['1', '0', '0', '0', '1'])

/-! ## input.cpp: serialize_input -/

/-- Model of `set.insert(x)` on a `std::set<std::size_t>`, kept as the list of its
elements in iteration order, which is ascending. -/
def ordered_set_insert (x : Nat) : List Nat → List Nat
  | [] => [x]
  | y :: s =>
    if x < y then x :: y :: s
    else if x = y then y :: s
    else y :: ordered_set_insert x s

/-- Model of `map[key].insert(x)` on a `std::map<std::size_t, std::set<std::size_t>>`,
kept as the list of its entries in iteration order, which is ascending in the keys: an
absent key is first inserted with the empty set. -/
def ordered_map_insert (key x : Nat) : List (Nat × List Nat) → List (Nat × List Nat)
  | [] => [(key, ordered_set_insert x [])]
  | (k, s) :: m =>
    if key < k then (key, ordered_set_insert x []) :: (k, s) :: m
    else if key = k then (k, ordered_set_insert x s) :: m
    else (k, s) :: ordered_map_insert key x m

/-- The loop "Extract the original number and sort the graph" of `serialize_input`:
for every vertex and every in-edge of it, the number of the source is inserted into the
set of the target. -/
def sorted_graph (graph : graph_t) : List (Nat × List Nat) :=
  graph.vertices.foldl
    (fun sortedGraph vertexDescriptor =>
      (in_edges vertexDescriptor graph).foldl
        (fun sortedGraph edgeDescriptor =>
          ordered_map_insert edgeDescriptor.2 edgeDescriptor.1 sortedGraph)
        sortedGraph)
    []

/-- The loop "Write the vertices" of `serialize_input` over the entries of
`sortedGraph`: the size of the set, a space and the sources, and `std::endl` when
another entry follows. -/
def write_entries : List (Nat × List Nat) → String
  | [] => ""
  | [entry] => toString entry.2.length ++ " " ++ write_numbers entry.2
  | entry :: next :: rest =>
    toString entry.2.length ++ " " ++ write_numbers entry.2 ++ "\n" ++
      write_entries (next :: rest)

/-- Serialize the graph (input.cpp).  The stream is the text written to it; a write
does not fail. -/
def serialize_input (graph : graph_t) : String :=
  toString (num_vertices graph) ++ "\n" ++ write_entries (sorted_graph graph)

/-! ## output.cpp: deserialize_output -/

/-- The exceptions that `deserialize_output` throws, all of them
`std::invalid_argument`. -/
inductive output_error where
  | missing_num_vertices
  | num_vertices_out_of_range
  | missing_vertex (vertexIndex : Nat)
  | extra_data
deriving DecidableEq, Repr

/-- The message of the exception. -/
def output_error.what : output_error → String
  | .missing_num_vertices => "The input file does not contain the number of vertices"
  | .num_vertices_out_of_range =>
    "The number of vertices must be between 0 and " ++ toString MAX_VERTICES
  | .missing_vertex vertexIndex =>
    "The input file does not contain the vertex index for vertex " ++
      toString vertexIndex ++ " (0-indexed)"
  | .extra_data => "The input file contains extra data"

/-- The loop "Read the vertices" of `deserialize_output`, with `remaining` numbers
still to read, the next one having index `vertexIndex`. -/
def read_vertices :
    Nat → Nat → List Char → List vertex_properties_s →
      Except output_error (List Char × List vertex_properties_s)
  | 0, _, input, vertices => .ok (input, vertices)
  | remaining + 1, vertexIndex, input, vertices =>
    match read_size_t input with
    | none => .error (.missing_vertex vertexIndex)
    | some (vertex, input) =>
      read_vertices remaining (vertexIndex + 1) input (set_insert vertices vertex)

/-- Deserialize the output (output.cpp): the set of vertices, or the exception
thrown. -/
def deserialize_output (input : List Char) : Except output_error (List vertex_properties_s) :=
  match read_size_t input with
  | none => .error .missing_num_vertices
  | some (numVertices, input) =>
    if MAX_VERTICES < numVertices then
      .error .num_vertices_out_of_range
    else
      match read_vertices numVertices 0 input [] with
      | .error e => .error e
      | .ok (input, vertices) =>
        if !only_whitespace_remaining input then
          .error .extra_data
        else
          .ok vertices

/-! ## verifier.cpp -/

namespace verifier

/-- The loop "Remove vertices" of the verifier over the vertices of the graph: a
vertex whose number is in the set is cleared and removed. -/
def remove_listed (vertices : List vertex_properties_s) :
    List vertex_descriptor_t → graph_t → graph_t
  | [], graph => graph
  | start :: next, graph =>
    if start ∈ vertices then
      remove_listed vertices next (remove_vertex start (clear_vertex start graph))
    else
      remove_listed vertices next graph

/-- The verifier on a decoded graph and a decoded set of vertices (verifier.cpp `main`
after `deserialize_output`): the exit code and the verdict printed. -/
def main (graph : graph_t) (vertices : List vertex_properties_s) : Nat × String :=
  let graph := remove_listed vertices graph.vertices graph
  if detect_cycles graph then (1, "Cycle(s) detected") else (0, "No cycle detected")

end verifier

/-! ## Texts in the statements about the decoders and the serializers -/

/-- No number stands at the head of the stream: after the whitespace the stream ends,
or a character follows that is neither a digit nor a sign. -/
def no_number_ahead (rest : List Char) : Prop :=
  ∀ c, (rest.dropWhile isspace).head? = some c → c.isDigit = false ∧ c ≠ '+' ∧ c ≠ '-'

/-- The in-neighbours of vertex `i` in a graph whose vertices are numbered from 1, in
ascending order, each once. -/
def in_neighbours (g : graph_t) (i : vertex_descriptor_t) : List vertex_descriptor_t :=
  ((List.range (num_vertices g)).map (fun s => s + 1)).filter (fun s => decide ((s, i) ∈ g.edges))

/-- The record of vertex `i` as section 6.1 describes it: the in-degree followed by the
numbers of the in-neighbours, separated by single spaces. -/
def vertex_record (g : graph_t) (i : vertex_descriptor_t) : String :=
  " ".intercalate ((toString (in_edges i g).length :: (in_neighbours g i).map toString))

/-- The input text of section 6.1 for a graph whose vertices are numbered from 1: the
number of vertices, a newline, and the records of the vertices 1, 2, ... in this
order, separated by newlines. -/
def input_lines (g : graph_t) : String :=
  toString (num_vertices g) ++ "\n" ++
    "\n".intercalate ((List.range (num_vertices g)).map (fun i => vertex_record g (i + 1)))

/-- The token of a number written in decimal after the separator `sep`. -/
def number_token (sep : List Char) (number : Nat) : token := (sep, (toString number).toList)

/-- The output text of section 6.2 for a list of numbers: their count, a newline, and
the numbers separated by single spaces. -/
def output_text (numbers : List Nat) : String :=
  toString numbers.length ++ "\n" ++ " ".intercalate (numbers.map toString)

/-- The record that `serialize_input` writes for an entry of `sortedGraph`: the size
of the set after a newline, and the sources after single spaces. -/
def record_of_entry (entry : Nat × List Nat) : record :=
  (number_token ['\n'] entry.2.length, entry.2.map (number_token [' ']))

/-! ## Sample graphs for the reducer and the simulator -/

/-- A graph of two vertices joined in both directions, with a self-loop on vertex 1. -/
def two_cycle_with_loop : graph_t := ⟨[1, 2], [(1, 1), (1, 2), (2, 1)]⟩

/-- The graph of `build_loop` in the tests of the simulator: the centre 1 with an edge
to and an edge from each of the leaves 2, 3 and 4. -/
def build_loop : graph_t :=
  ⟨[1, 2, 3, 4], [(1, 2), (1, 3), (1, 4), (2, 1), (3, 1), (4, 1)]⟩

/-- Spec-side notion of a star-loop component: a well-formed graph with a centre vertex
and at least one other vertex (the leaves), whose edges are exactly one edge from the
centre to every leaf and one edge from every leaf to the centre. -/
def star_loop (g : graph_t) (centre : vertex_descriptor_t) : Prop :=
  g.wf ∧ centre ∈ g.vertices ∧ (∃ leaf ∈ g.vertices, leaf ≠ centre) ∧
  (∀ leaf ∈ g.vertices, leaf ≠ centre → (centre, leaf) ∈ g.edges ∧ (leaf, centre) ∈ g.edges) ∧
  ∀ e ∈ g.edges, (e.1 = centre ∧ e.2 ≠ centre) ∨ (e.2 = centre ∧ e.1 ≠ centre)

instance (g : graph_t) (centre : vertex_descriptor_t) : Decidable (star_loop g centre) := by
  unfold star_loop; infer_instance

/-- The leaves of a star-loop component: its vertices other than the centre. -/
def star_leaves (g : graph_t) (centre : vertex_descriptor_t) : List vertex_descriptor_t :=
  g.vertices.filter (fun v => decide (v ≠ centre))

/-! ## The calls of the generator -/

/-- Ghost instrumentation of the generator: the state is paired with the log of the calls
`random_integer(start, end)` made so far, in the order of the calls; the answers and the
generator state are those of `gen`. -/
def logging_gen {S : Type} (gen : S → Nat → Nat → Nat × S) :
    S × List (Nat × Nat) → Nat → Nat → Nat × (S × List (Nat × Nat)) :=
  fun s start stop => ((gen s.1 start stop).1, ((gen s.1 start stop).2, s.2 ++ [(start, stop)]))

/-! ## The arithmetic of `double` -/

/-- A value of the type `double` (IEEE 754 binary64).  `finite negative mantissa exponent`
stands for the number `± mantissa * 2 ^ exponent / 2 ^ 1074` (`n <<< k` is `n * 2 ^ k`), with `mantissa < 2 ^ 53`,
`exponent ≤ 2045`, and `2 ^ 52 ≤ mantissa` unless `exponent = 0`. -/
inductive ieee_double where
  | finite (negative : Bool) (mantissa exponent : Nat)
  | infinity (negative : Bool)
  | nan
  deriving DecidableEq

/-- The number of binary digits of `n`, counted with at most `fuel` halvings. -/
def bit_length : Nat → Nat → Nat
  | 0, _ => 0
  | fuel + 1, n => if n = 0 then 0 else bit_length fuel (n / 2) + 1

/-- Rounding of the rational number `± numerator / denominator`, given in units of
`2 ^ -1074`, to the nearest `double`, ties to the even mantissa (the rounding mode in
which the arithmetic of `double` runs); a result beyond the largest finite `double` is
an infinity. -/
def round_to_double (negative : Bool) (numerator denominator : Nat) : ieee_double :=
  let floor := numerator / denominator
  let exponent := bit_length floor floor - 53
  let divisor := denominator <<< exponent
  let quotient := numerator / divisor
  let remainder := numerator % divisor
  let mantissa :=
    if 2 * remainder < divisor then quotient
    else if 2 * remainder = divisor then (if quotient % 2 = 0 then quotient else quotient + 1)
    else quotient + 1
  if mantissa = 2 ^ 53 then
    if 2045 < exponent + 1 then .infinity negative else .finite negative (2 ^ 52) (exponent + 1)
  else
    if 2045 < exponent then .infinity negative else .finite negative mantissa exponent

/-- The conversion `(double)n` of a counter. -/
def double_of_size_t (n : Nat) : ieee_double := round_to_double false (n <<< 1074) 1

/-- The quotient `x / y` of two values of type `double`. -/
def ieee_div : ieee_double → ieee_double → ieee_double
  | .nan, _ => .nan
  | _, .nan => .nan
  | .infinity _, .infinity _ => .nan
  | .infinity s, .finite t _ _ => .infinity (s != t)
  | .finite s _ _, .infinity t => .finite (s != t) 0 0
  | .finite s m e, .finite t n f =>
    if n = 0 then (if m = 0 then .nan else .infinity (s != t))
    else round_to_double (s != t) ((m <<< e) <<< 1074) (n <<< f)

/-- The number that a finite `double` stands for, in units of `2 ^ -1074`. -/
def scaled_value (negative : Bool) (mantissa exponent : Nat) : Int :=
  if negative then - ((mantissa <<< exponent : Nat) : Int)
  else ((mantissa <<< exponent : Nat) : Int)

/-- The sum `x + y` of two values of type `double`. -/
def ieee_add : ieee_double → ieee_double → ieee_double
  | .nan, _ => .nan
  | _, .nan => .nan
  | .infinity s, .infinity t => if s = t then .infinity s else .nan
  | .infinity s, .finite _ _ _ => .infinity s
  | .finite _ _ _, .infinity t => .infinity t
  | .finite s m e, .finite t n f =>
    let sum := scaled_value s m e + scaled_value t n f
    if sum = 0 then .finite (s && t) 0 0
    else round_to_double (decide (sum < 0)) sum.natAbs 1

/-- The value `std::abs(x - y)` of two values of type `double`. -/
def ieee_abs_sub : ieee_double → ieee_double → ieee_double
  | .nan, _ => .nan
  | _, .nan => .nan
  | .infinity s, .infinity t => if s = t then .nan else .infinity false
  | .infinity _, .finite _ _ _ => .infinity false
  | .finite _ _ _, .infinity _ => .infinity false
  | .finite s m e, .finite t n f =>
    round_to_double false (scaled_value s m e - scaled_value t n f).natAbs 1

/-- The comparison `x < y` of two values of type `double`; it is false when either is
a NaN. -/
def ieee_lt : ieee_double → ieee_double → Bool
  | .nan, _ => false
  | _, .nan => false
  | .infinity s, .infinity t => s && !t
  | .infinity s, .finite _ _ _ => s
  | .finite _ _ _, .infinity t => !t
  | .finite s m e, .finite t n f => decide (scaled_value s m e < scaled_value t n f)

/-- The arithmetic of `double` as an instance of the operations that `simulate` uses:
the counters are converted to `double` and divided, and every operation rounds its exact
result to the nearest `double`. -/
def ieee_ops : double_ops ieee_double where
  zero := .finite false 0 0
  ratio := fun a b => ieee_div (double_of_size_t a) (double_of_size_t b)
  abs_sub := ieee_abs_sub
  add := ieee_add
  lt := ieee_lt

/-- A component of six vertices on one directed cycle. -/
def six_cycle : graph_t :=
  ⟨[1, 2, 3, 4, 5, 6], [(1, 2), (2, 3), (3, 4), (4, 5), (5, 6), (6, 1)]⟩

/-- A component of nine vertices on one directed cycle. -/
def nine_cycle : graph_t :=
  ⟨[1, 2, 3, 4, 5, 6, 7, 8, 9],
    [(1, 2), (2, 3), (3, 4), (4, 5), (5, 6), (6, 7), (7, 8), (8, 9), (9, 1)]⟩

/-- What the drift of the first batch needs from the arithmetic, for a relative rounding
error of at most `u` per operation.  `value` reads an element of `D` that stands for a
number as that number.  The quotient of two counters `a ≤ b` below `2 ^ 64` and the sum of
two non-negative numbers of sum at most 4 are within the factors `1 - u` and `1 + u` of
the exact results, `std::abs(x - 0)` is `x` for a non-negative `x`, and `<` compares the
numbers.  It holds in exact arithmetic with `u = 0`, and in the arithmetic of `double`
with `u = 2 ^ -51` (a conversion, a division and a sum round to nearest, each within
`2 ^ -53`). -/
def rounds_within {D : Type} (ops : double_ops D) (value : D → Option ℚ) (u : ℚ) : Prop :=
  value ops.zero = some 0 ∧
  (∀ a b : Nat, 0 < b → a ≤ b → b < 2 ^ 64 →
    ∃ q, value (ops.ratio a b) = some q ∧
      (1 - u) * ((a : ℚ) / (b : ℚ)) ≤ q ∧ q ≤ (1 + u) * ((a : ℚ) / (b : ℚ))) ∧
  (∀ x p, value x = some p → 0 ≤ p → value (ops.abs_sub x ops.zero) = some p) ∧
  (∀ x y p q, value x = some p → value y = some q → 0 ≤ p → 0 ≤ q → p + q ≤ 4 →
    ∃ r, value (ops.add x y) = some r ∧ (1 - u) * (p + q) ≤ r ∧ r ≤ (1 + u) * (p + q)) ∧
  ∀ x y p q, value x = some p → value y = some q → ops.lt x y = decide (p < q)

/-- The number that a value of type `double` stands for: none for an infinity, a NaN and
a triple that is not the representation of a `double`. -/
def ieee_value : ieee_double → Option ℚ
  | .finite negative mantissa exponent =>
    if mantissa < 2 ^ 53 ∧ exponent ≤ 2045 ∧ (exponent = 0 ∨ 2 ^ 52 ≤ mantissa) then
      some ((if negative then -1 else 1) * ((mantissa : ℚ) * 2 ^ exponent / 2 ^ 1074))
    else none
  | .infinity _ => none
  | .nan => none

/-! # Properties -/

/-! ## Cycle detection -/
theorem mem_out_targets (g : graph_t) (u w : vertex_descriptor_t) :
    w ∈ (out_edges u g).map Prod.snd ↔ g.adj u w := by
  unfold out_edges graph_t.adj
  simp only [List.mem_map, List.mem_filter, beq_iff_eq]
  constructor
  · rintro ⟨⟨a, b⟩, ⟨hmem, ha⟩, hb⟩
    simp only at ha hb
    subst ha; subst hb; exact hmem
  · intro h
    exact ⟨(u, w), ⟨h, rfl⟩, rfl⟩

theorem dfs_scan_some (visit : List vertex_descriptor_t → vertex_descriptor_t →
      Option (List vertex_descriptor_t)) (gray : List vertex_descriptor_t)
    (Q : List vertex_descriptor_t → Prop) :
    ∀ (ws black black' : List vertex_descriptor_t),
      (∀ b w b', w ∈ ws → w ∉ gray → w ∉ b → visit b w = some b' → Q b →
        Q b' ∧ (∀ x ∈ b, x ∈ b') ∧ w ∈ b') →
      dfs_scan visit gray black ws = some black' → Q black →
      Q black' ∧ (∀ x ∈ black, x ∈ black') ∧ (∀ w ∈ ws, w ∈ black') := by
  intro ws
  induction ws with
  | nil =>
    intro black black' _ h hQ
    simp only [dfs_scan, Option.some.injEq] at h
    subst h
    exact ⟨hQ, fun _ hx => hx, fun _ hw => by cases hw⟩
  | cons w ws ih =>
    intro black black' hv h hQ
    have hv' : ∀ b w' b', w' ∈ ws → w' ∉ gray → w' ∉ b → visit b w' = some b' → Q b →
        Q b' ∧ (∀ x ∈ b, x ∈ b') ∧ w' ∈ b' :=
      fun b w' b' hw' => hv b w' b' (List.mem_cons_of_mem _ hw')
    unfold dfs_scan at h
    by_cases hg : w ∈ gray
    · simp [hg] at h
    · simp only [hg, if_false] at h
      by_cases hb : w ∈ black
      · simp only [hb, if_true] at h
        obtain ⟨h1, h2, h3⟩ := ih black black' hv' h hQ
        refine ⟨h1, h2, ?_⟩
        intro x hx
        rcases List.mem_cons.mp hx with rfl | hx
        · exact h2 _ hb
        · exact h3 _ hx
      · simp only [hb, if_false] at h
        cases hvis : visit black w with
        | none => simp [hvis] at h
        | some b1 =>
          simp only [hvis] at h
          obtain ⟨q1, s1, m1⟩ := hv black w b1 (List.mem_cons_self _ _) hg hb hvis hQ
          obtain ⟨h1, h2, h3⟩ := ih b1 black' hv' h q1
          refine ⟨h1, fun x hx => h2 _ (s1 _ hx), ?_⟩
          intro x hx
          rcases List.mem_cons.mp hx with rfl | hx
          · exact h2 _ m1
          · exact h3 _ hx

theorem dfs_scan_none (visit : List vertex_descriptor_t → vertex_descriptor_t →
      Option (List vertex_descriptor_t)) (gray : List vertex_descriptor_t) (P : Prop) :
    ∀ (ws black : List vertex_descriptor_t),
      (∀ w, w ∈ ws → w ∈ gray → P) →
      (∀ b w, w ∈ ws → w ∉ gray → visit b w = none → P) →
      dfs_scan visit gray black ws = none → P := by
  intro ws
  induction ws with
  | nil =>
    intro black _ _ h
    simp [dfs_scan] at h
  | cons w ws ih =>
    intro black hgray hvis h
    have hgray' : ∀ w', w' ∈ ws → w' ∈ gray → P :=
      fun w' hw' => hgray w' (List.mem_cons_of_mem _ hw')
    have hvis' : ∀ b w', w' ∈ ws → w' ∉ gray → visit b w' = none → P :=
      fun b w' hw' => hvis b w' (List.mem_cons_of_mem _ hw')
    unfold dfs_scan at h
    by_cases hg : w ∈ gray
    · exact hgray w (List.mem_cons_self _ _) hg
    · simp only [hg, if_false] at h
      by_cases hb : w ∈ black
      · simp only [hb, if_true] at h
        exact ih black hgray' hvis' h
      · simp only [hb, if_false] at h
        cases hv : visit black w with
        | none => exact hvis black w (List.mem_cons_self _ _) hg hv
        | some b1 =>
          simp only [hv] at h
          exact ih b1 hgray' hvis' h

theorem dfs_visit_some (g : graph_t)
    (hE : ∀ e ∈ g.edges, e.1 ∈ g.vertices ∧ e.2 ∈ g.vertices) :
    ∀ (fuel : Nat) (gray black black' : List vertex_descriptor_t) (u : vertex_descriptor_t),
      u ∈ g.vertices → u ∉ gray → u ∉ black →
      dfs_visit g fuel gray black u = some black' → black_inv g gray black →
      black_inv g gray black' ∧ (∀ x ∈ black, x ∈ black') ∧ u ∈ black' := by
  intro fuel
  induction fuel with
  | zero =>
    intro gray black black' u _ _ _ h
    simp [dfs_visit] at h
  | succ fuel ih =>
    intro gray black black' u huV hug hub h hinv
    unfold dfs_visit at h
    cases hs : dfs_scan (fun b w => dfs_visit g fuel (u :: gray) b w) (u :: gray) black
        ((out_edges u g).map Prod.snd) with
    | none => simp [hs] at h
    | some b1 =>
      simp only [hs, Option.some.injEq] at h
      subst h
      have hinv0 : black_inv g (u :: gray) black := by
        obtain ⟨a, b, c, d⟩ := hinv
        refine ⟨a, b, c, ?_⟩
        intro x hx
        rcases List.mem_cons.mp hx with rfl | hx
        · exact hub
        · exact d x hx
      obtain ⟨⟨t1, n1, v1, d1⟩, s1, m1⟩ :=
        dfs_scan_some (fun b w => dfs_visit g fuel (u :: gray) b w) (u :: gray)
          (fun b => black_inv g (u :: gray) b)
          ((out_edges u g).map Prod.snd) black b1
          (by
            intro b w b' hw hwg hwb hvis hQ
            have hadj : g.adj u w := (mem_out_targets g u w).mp hw
            exact ih (u :: gray) b b' w (hE _ hadj).2 hwg hwb hvis hQ)
          hs hinv0
      have hub1 : u ∉ b1 := d1 u (List.mem_cons_self _ _)
      refine ⟨⟨⟨?_, t1⟩, List.nodup_cons.mpr ⟨hub1, n1⟩, ?_, ?_⟩, ?_, List.mem_cons_self _ _⟩
      · intro w hw
        exact m1 w ((mem_out_targets g u w).mpr hw)
      · intro x hx
        rcases List.mem_cons.mp hx with rfl | hx
        · exact huV
        · exact v1 x hx
      · intro x hx hx'
        rcases List.mem_cons.mp hx' with rfl | hx'
        · exact hug hx
        · exact d1 x (List.mem_cons_of_mem _ hx) hx'
      · intro x hx
        exact List.mem_cons_of_mem _ (s1 x hx)

theorem dfs_visit_none (g : graph_t)
    (hE : ∀ e ∈ g.edges, e.1 ∈ g.vertices ∧ e.2 ∈ g.vertices) :
    ∀ (fuel : Nat) (gray black : List vertex_descriptor_t) (u : vertex_descriptor_t),
      gray.Nodup → (∀ x ∈ gray, x ∈ g.vertices) → u ∈ g.vertices → u ∉ gray →
      g.vertices.length ≤ fuel + gray.length →
      (∀ x ∈ gray, Relation.TransGen g.adj x u) →
      dfs_visit g fuel gray black u = none → has_cycle g := by
  intro fuel
  induction fuel with
  | zero =>
    intro gray black u hnd hsub huV hug hlen _ _
    exfalso
    have hnd' : (u :: gray).Nodup := List.nodup_cons.mpr ⟨hug, hnd⟩
    have hsub' : (u :: gray) ⊆ g.vertices := by
      intro x hx
      rcases List.mem_cons.mp hx with rfl | hx
      · exact huV
      · exact hsub x hx
    have := (List.subperm_of_subset hnd' hsub').length_le
    simp only [List.length_cons] at this
    omega
  | succ fuel ih =>
    intro gray black u hnd hsub huV hug hlen hpath h
    unfold dfs_visit at h
    cases hs : dfs_scan (fun b w => dfs_visit g fuel (u :: gray) b w) (u :: gray) black
        ((out_edges u g).map Prod.snd) with
    | some b1 => simp [hs] at h
    | none =>
      refine dfs_scan_none (fun b w => dfs_visit g fuel (u :: gray) b w) (u :: gray)
        (has_cycle g) ((out_edges u g).map Prod.snd) black ?_ ?_ hs
      · intro w hw hwg
        have hadj : g.adj u w := (mem_out_targets g u w).mp hw
        rcases List.mem_cons.mp hwg with rfl | hwg
        · exact ⟨w, Relation.TransGen.single hadj⟩
        · exact ⟨w, Relation.TransGen.tail (hpath w hwg) hadj⟩
      · intro b w hw hwg hvis
        have hadj : g.adj u w := (mem_out_targets g u w).mp hw
        refine ih (u :: gray) b w (List.nodup_cons.mpr ⟨hug, hnd⟩) ?_ (hE _ hadj).2 hwg ?_ ?_ hvis
        · intro x hx
          rcases List.mem_cons.mp hx with rfl | hx
          · exact huV
          · exact hsub x hx
        · simp only [List.length_cons]; omega
        · intro x hx
          rcases List.mem_cons.mp hx with rfl | hx
          · exact Relation.TransGen.single hadj
          · exact Relation.TransGen.tail (hpath x hx) hadj

theorem depth_first_search_none (g : graph_t)
    (hE : ∀ e ∈ g.edges, e.1 ∈ g.vertices ∧ e.2 ∈ g.vertices)
    (h : depth_first_search g = none) : has_cycle g := by
  unfold depth_first_search at h
  refine dfs_scan_none _ [] (has_cycle g) g.vertices [] ?_ ?_ h
  · intro w _ hw
    cases hw
  · intro b w hw _ hvis
    exact dfs_visit_none g hE g.vertices.length [] b w List.nodup_nil
      (fun x hx => by cases hx) hw (List.not_mem_nil _) (by simp)
      (fun x hx => by cases hx) hvis

theorem depth_first_search_some (g : graph_t)
    (hE : ∀ e ∈ g.edges, e.1 ∈ g.vertices ∧ e.2 ∈ g.vertices)
    (black : List vertex_descriptor_t) (h : depth_first_search g = some black) :
    black_inv g [] black ∧ ∀ v ∈ g.vertices, v ∈ black := by
  unfold depth_first_search at h
  obtain ⟨h1, _, h3⟩ := dfs_scan_some _ [] (fun b => black_inv g [] b) g.vertices [] black
    (by
      intro b w b' hw hwg hwb hvis hQ
      exact dfs_visit_some g hE g.vertices.length [] b b' w hw hwg hwb hvis hQ)
    h ⟨trivial, List.nodup_nil, (fun x hx => by cases hx), (fun x hx => by cases hx)⟩
  exact ⟨h1, h3⟩

theorem topo_ok_sublist (g : graph_t) :
    ∀ (l : List vertex_descriptor_t) (u w : vertex_descriptor_t),
      topo_ok g l → u ∈ l → g.adj u w → [u, w].Sublist l := by
  intro l
  induction l with
  | nil => intro u w _ hu; cases hu
  | cons x l ih =>
    intro u w ht hu hadj
    obtain ⟨hx, hl⟩ := ht
    rcases List.mem_cons.mp hu with rfl | hu
    · exact List.Sublist.cons₂ _ (List.singleton_sublist.mpr (hx w hadj))
    · exact List.Sublist.cons _ (ih u w hl hu hadj)

theorem pair_sublist_indexOf :
    ∀ (l : List vertex_descriptor_t) (a b : vertex_descriptor_t),
      l.Nodup → [a, b].Sublist l → l.indexOf a < l.indexOf b := by
  intro l
  induction l with
  | nil => intro a b _ h; cases h
  | cons x l ih =>
    intro a b hnd h
    obtain ⟨hx, hnd'⟩ := List.nodup_cons.mp hnd
    rcases List.sublist_cons_iff.mp h with h' | ⟨r, hr, h'⟩
    · have ha : a ∈ l := h'.subset (by simp)
      have hb : b ∈ l := h'.subset (by simp)
      have hax : a ≠ x := fun e => hx (e ▸ ha)
      have hbx : b ≠ x := fun e => hx (e ▸ hb)
      rw [List.indexOf_cons_ne _ (Ne.symm hax), List.indexOf_cons_ne _ (Ne.symm hbx)]
      exact Nat.succ_lt_succ (ih a b hnd' h')
    · simp only [List.cons.injEq] at hr
      obtain ⟨rfl, rfl⟩ := hr
      have hb : b ∈ l := List.singleton_sublist.mp h'
      have hbx : b ≠ a := fun e => hx (e ▸ hb)
      rw [List.indexOf_cons_self, List.indexOf_cons_ne _ (Ne.symm hbx)]
      exact Nat.succ_pos _

theorem topological_order_acyclic (g : graph_t) (l : List vertex_descriptor_t)
    (h : is_topological_order g l) : ¬ has_cycle g := by
  obtain ⟨hnd, _, hedge⟩ := h
  have hmono : ∀ a b, Relation.TransGen g.adj a b → l.indexOf a < l.indexOf b := by
    intro a b hab
    induction hab with
    | single hab => exact pair_sublist_indexOf l _ _ hnd (hedge (_, _) hab)
    | tail _ hbc ih => exact lt_trans ih (pair_sublist_indexOf l _ _ hnd (hedge (_, _) hbc))
  rintro ⟨v, hv⟩
  exact lt_irrefl _ (hmono v v hv)

theorem black_is_topological_order (g : graph_t)
    (hE : ∀ e ∈ g.edges, e.1 ∈ g.vertices ∧ e.2 ∈ g.vertices)
    (black : List vertex_descriptor_t) (h : depth_first_search g = some black) :
    is_topological_order g black := by
  obtain ⟨⟨ht, hnd, hsub, _⟩, hall⟩ := depth_first_search_some g hE black h
  refine ⟨hnd, fun v => ⟨hsub v, hall v⟩, ?_⟩
  intro e he
  exact topo_ok_sublist g black e.1 e.2 ht (hall _ (hE e he).1) he

theorem detect_cycles_eq_true_iff (g : graph_t)
    (hE : ∀ e ∈ g.edges, e.1 ∈ g.vertices ∧ e.2 ∈ g.vertices) :
    detect_cycles g = true ↔ has_cycle g := by
  unfold detect_cycles topological_sort
  cases h : depth_first_search g with
  | none =>
    simp only [Option.map_none', true_iff]
    exact depth_first_search_none g hE h
  | some black =>
    simp only [Option.map_some', false_iff, Bool.false_eq_true]
    exact topological_order_acyclic g black (black_is_topological_order g hE black h)

/-! ## Greedy reduction -/

theorem has_cycle_mono (g h : graph_t) (hsub : ∀ e ∈ g.edges, e ∈ h.edges)
    (hc : has_cycle g) : has_cycle h := by
  obtain ⟨v, hv⟩ := hc
  exact ⟨v, Relation.TransGen.mono (fun a b hab => hsub (a, b) hab) hv⟩

theorem mem_add_edge (u v : vertex_descriptor_t) (g : graph_t)
    (e : vertex_descriptor_t × vertex_descriptor_t) :
    e ∈ (add_edge u v g).edges ↔ e ∈ g.edges ∨ e = (u, v) := by
  unfold add_edge
  by_cases h : (u, v) ∈ g.edges
  · simp only [h, if_true]
    constructor
    · exact Or.inl
    · rintro (h' | rfl)
      · exact h'
      · exact h
  · simp [h]

theorem add_edge_vertices (u v : vertex_descriptor_t) (g : graph_t) :
    (add_edge u v g).vertices = g.vertices := by
  unfold add_edge
  split <;> rfl

theorem map_find_eq_none {K V : Type} [DecidableEq K] (m : unordered_map K V) (key : K) :
    map_find m key = none ↔ key ∉ m.map Prod.fst := by
  induction m with
  | nil => simp [map_find]
  | cons p m ih =>
    obtain ⟨k, v⟩ := p
    by_cases h : k = key
    · simp [map_find, h]
    · simp only [map_find, h, if_false, ih, List.map_cons, List.mem_cons, not_or]
      constructor
      · intro h'; exact ⟨fun e => h e.symm, h'⟩
      · intro h'; exact h'.2

theorem map_find_some_mem {K V : Type} [DecidableEq K] (m : unordered_map K V) (key : K)
    (value : V) (h : map_find m key = some value) : (key, value) ∈ m := by
  induction m with
  | nil => simp [map_find] at h
  | cons p m ih =>
    obtain ⟨k, v⟩ := p
    by_cases hk : k = key
    · simp only [map_find, hk, if_true, Option.some.injEq] at h
      subst hk; subst h
      exact List.mem_cons_self _ _
    · simp only [map_find, hk, if_false] at h
      exact List.mem_cons_of_mem _ (ih h)

theorem map_find_isSome_of_mem {K V : Type} [DecidableEq K] (m : unordered_map K V) (key : K)
    (h : key ∈ m.map Prod.fst) : ∃ value, map_find m key = some value := by
  cases hf : map_find m key with
  | none => exact absurd h ((map_find_eq_none m key).mp hf)
  | some value => exact ⟨value, rfl⟩

theorem map_assign_of_not_mem {K V : Type} [DecidableEq K] (m : unordered_map K V) (key : K)
    (value : V) (h : key ∉ m.map Prod.fst) : map_assign m key value = m ++ [(key, value)] := by
  induction m with
  | nil => rfl
  | cons p m ih =>
    obtain ⟨k, v⟩ := p
    simp only [List.map_cons, List.mem_cons, not_or] at h
    have hk : ¬ k = key := fun e => h.1 e.symm
    simp only [map_assign, hk, if_false, ih h.2, List.cons_append]

theorem map_erase_append_self {K V : Type} [DecidableEq K] (m : unordered_map K V) (key : K)
    (value : V) (h : key ∉ m.map Prod.fst) : map_erase (m ++ [(key, value)]) key = m := by
  unfold map_erase
  rw [List.filter_append]
  have h1 : m.filter (fun p => !(decide (p.1 = key))) = m := by
    rw [List.filter_eq_self]
    intro p hp
    have : p.1 ≠ key := fun e => h (e ▸ List.mem_map_of_mem Prod.fst hp)
    simp [this]
  rw [h1]
  simp

theorem mem_add_in_edges (c : vertex_descriptor_t)
    (m : unordered_map vertex_properties_s vertex_descriptor_t) :
    ∀ (l : List (vertex_descriptor_t × vertex_descriptor_t)) (g : graph_t)
      (e : vertex_descriptor_t × vertex_descriptor_t),
      e ∈ (solver.add_in_edges c m l g).edges ↔
        e ∈ g.edges ∨ ∃ x ∈ l, ∃ d, map_find m x.1 = some d ∧ e = (d, c) := by
  intro l
  induction l with
  | nil => intro g e; simp [solver.add_in_edges]
  | cons x l ih =>
    intro g e
    unfold solver.add_in_edges
    cases hf : map_find m x.1 with
    | none =>
      simp only [ih, List.mem_cons, exists_eq_or_imp, hf]
      simp
    | some d =>
      simp only [ih, mem_add_edge, List.mem_cons, exists_eq_or_imp, hf, Option.some.injEq,
        exists_eq_left']
      tauto

theorem add_in_edges_vertices (c : vertex_descriptor_t)
    (m : unordered_map vertex_properties_s vertex_descriptor_t) :
    ∀ (l : List (vertex_descriptor_t × vertex_descriptor_t)) (g : graph_t),
      (solver.add_in_edges c m l g).vertices = g.vertices := by
  intro l
  induction l with
  | nil => intro g; rfl
  | cons x l ih =>
    intro g
    unfold solver.add_in_edges
    cases hf : map_find m x.1 with
    | none => simp only [hf, ih]
    | some d => simp only [hf, ih, add_edge_vertices]

theorem mem_add_out_edges (c : vertex_descriptor_t)
    (m : unordered_map vertex_properties_s vertex_descriptor_t) :
    ∀ (l : List (vertex_descriptor_t × vertex_descriptor_t)) (g : graph_t)
      (e : vertex_descriptor_t × vertex_descriptor_t),
      e ∈ (solver.add_out_edges c m l g).edges ↔
        e ∈ g.edges ∨ ∃ x ∈ l, ∃ d, map_find m x.2 = some d ∧ e = (c, d) := by
  intro l
  induction l with
  | nil => intro g e; simp [solver.add_out_edges]
  | cons x l ih =>
    intro g e
    unfold solver.add_out_edges
    cases hf : map_find m x.2 with
    | none =>
      simp only [ih, List.mem_cons, exists_eq_or_imp, hf]
      simp
    | some d =>
      simp only [ih, mem_add_edge, List.mem_cons, exists_eq_or_imp, hf, Option.some.injEq,
        exists_eq_left']
      tauto

theorem add_out_edges_vertices (c : vertex_descriptor_t)
    (m : unordered_map vertex_properties_s vertex_descriptor_t) :
    ∀ (l : List (vertex_descriptor_t × vertex_descriptor_t)) (g : graph_t),
      (solver.add_out_edges c m l g).vertices = g.vertices := by
  intro l
  induction l with
  | nil => intro g; rfl
  | cons x l ih =>
    intro g
    unfold solver.add_out_edges
    cases hf : map_find m x.2 with
    | none => simp only [hf, ih]
    | some d => simp only [hf, ih, add_edge_vertices]

theorem insert_vertex_spec (subgraph : graph_t) (st : solver.reduce_state)
    (v : vertex_descriptor_t) (hinv : reduce_inv subgraph st)
    (hv : v ∉ st.acyclicGraph.vertices) :
    (solver.insert_vertex subgraph st v).acyclicVertices = st.acyclicVertices ++ [(v, v)] ∧
    (solver.insert_vertex subgraph st v).acyclicGraph.vertices = st.acyclicGraph.vertices ++ [v] ∧
    ∀ e, e ∈ (solver.insert_vertex subgraph st v).acyclicGraph.edges ↔
      e ∈ st.acyclicGraph.edges ∨
        (e ∈ subgraph.edges ∧ (e.1 = v ∨ e.2 = v) ∧
          e.1 ∈ st.acyclicGraph.vertices ++ [v] ∧ e.2 ∈ st.acyclicGraph.vertices ++ [v]) := by
  obtain ⟨hkeys, hid, hnd, hsound, hcomplete, hacyc⟩ := hinv
  have hvk : v ∉ st.acyclicVertices.map Prod.fst := by rw [hkeys]; exact hv
  have hassign := map_assign_of_not_mem st.acyclicVertices v v hvk
  have hfind : ∀ x d, map_find (st.acyclicVertices ++ [(v, v)]) x = some d ↔
      (d = x ∧ x ∈ st.acyclicGraph.vertices ++ [v]) := by
    intro x d
    constructor
    · intro h
      have hmem := map_find_some_mem _ _ _ h
      rcases List.mem_append.mp hmem with hm | hm
      · have := hid _ hm
        simp only at this
        refine ⟨this, List.mem_append_left _ ?_⟩
        rw [← hkeys]
        exact List.mem_map_of_mem Prod.fst hm
      · simp only [List.mem_singleton, Prod.mk.injEq] at hm
        obtain ⟨rfl, rfl⟩ := hm
        exact ⟨rfl, by simp⟩
    · rintro ⟨rfl, hx⟩
      have hx' : d ∈ (st.acyclicVertices ++ [(v, v)]).map Prod.fst := by
        rw [List.map_append, hkeys]; simpa using hx
      obtain ⟨d', hd'⟩ := map_find_isSome_of_mem _ _ hx'
      have hmem := map_find_some_mem _ _ _ hd'
      have : d' = d := by
        rcases List.mem_append.mp hmem with hm | hm
        · exact hid _ hm
        · simp only [List.mem_singleton, Prod.mk.injEq] at hm
          exact hm.2.symm ▸ hm.1.symm ▸ rfl
      rw [hd', this]
  refine ⟨?_, ?_, ?_⟩
  · simp only [solver.insert_vertex, hassign]
  · simp only [solver.insert_vertex, add_out_edges_vertices, add_in_edges_vertices, add_vertex]
  · intro e
    simp only [solver.insert_vertex, hassign, mem_add_out_edges, mem_add_in_edges, add_vertex,
      in_edges, out_edges, List.mem_filter, beq_iff_eq, hfind]
    constructor
    · rintro ((h | ⟨x, ⟨hx, hxv⟩, d, ⟨rfl, hd⟩, rfl⟩) | ⟨x, ⟨hx, hxv⟩, d, ⟨rfl, hd⟩, rfl⟩)
      · exact Or.inl h
      · right
        refine ⟨?_, Or.inr rfl, hd, by simp⟩
        rw [← hxv]; exact hx
      · right
        refine ⟨?_, Or.inl rfl, by simp, hd⟩
        rw [← hxv]; exact hx
    · rintro (h | ⟨he, (h1 | h2), ha, hb⟩)
      · exact Or.inl (Or.inl h)
      · right
        exact ⟨e, ⟨he, h1⟩, e.2, ⟨rfl, hb⟩, by rw [← h1]⟩
      · left; right
        exact ⟨e, ⟨he, h2⟩, e.1, ⟨rfl, ha⟩, by rw [← h2]⟩

theorem add_edge_edges_append (u v : vertex_descriptor_t) (g : graph_t) :
    ∃ extra, (add_edge u v g).edges = g.edges ++ extra ∧ ∀ e ∈ extra, e = (u, v) := by
  unfold add_edge
  by_cases h : (u, v) ∈ g.edges
  · exact ⟨[], by simp [h]⟩
  · exact ⟨[(u, v)], by simp [h]⟩

theorem add_in_edges_append (c : vertex_descriptor_t)
    (m : unordered_map vertex_properties_s vertex_descriptor_t) :
    ∀ (l : List (vertex_descriptor_t × vertex_descriptor_t)) (g : graph_t),
      ∃ extra, (solver.add_in_edges c m l g).edges = g.edges ++ extra ∧
        ∀ e ∈ extra, e.2 = c := by
  intro l
  induction l with
  | nil => intro g; exact ⟨[], by simp [solver.add_in_edges]⟩
  | cons x l ih =>
    intro g
    unfold solver.add_in_edges
    cases hf : map_find m x.1 with
    | none => simpa only [hf] using ih g
    | some d =>
      simp only [hf]
      obtain ⟨ex1, h1, h1'⟩ := add_edge_edges_append d c g
      obtain ⟨ex2, h2, h2'⟩ := ih (add_edge d c g)
      refine ⟨ex1 ++ ex2, by rw [h2, h1, List.append_assoc], ?_⟩
      intro e he
      rcases List.mem_append.mp he with he | he
      · rw [h1' e he]
      · exact h2' e he

theorem add_out_edges_append (c : vertex_descriptor_t)
    (m : unordered_map vertex_properties_s vertex_descriptor_t) :
    ∀ (l : List (vertex_descriptor_t × vertex_descriptor_t)) (g : graph_t),
      ∃ extra, (solver.add_out_edges c m l g).edges = g.edges ++ extra ∧
        ∀ e ∈ extra, e.1 = c := by
  intro l
  induction l with
  | nil => intro g; exact ⟨[], by simp [solver.add_out_edges]⟩
  | cons x l ih =>
    intro g
    unfold solver.add_out_edges
    cases hf : map_find m x.2 with
    | none => simpa only [hf] using ih g
    | some d =>
      simp only [hf]
      obtain ⟨ex1, h1, h1'⟩ := add_edge_edges_append c d g
      obtain ⟨ex2, h2, h2'⟩ := ih (add_edge c d g)
      refine ⟨ex1 ++ ex2, by rw [h2, h1, List.append_assoc], ?_⟩
      intro e he
      rcases List.mem_append.mp he with he | he
      · rw [h1' e he]
      · exact h2' e he

/-- Rolling back an insertion restores the state: the vertex list, the edge list and
the map are those from before the insertion. -/
theorem rollback_restores (subgraph : graph_t) (st : solver.reduce_state)
    (v : vertex_descriptor_t) (hinv : reduce_inv subgraph st)
    (hv : v ∉ st.acyclicGraph.vertices) :
    (⟨remove_vertex v (clear_vertex v (solver.insert_vertex subgraph st v).acyclicGraph),
      map_erase (solver.insert_vertex subgraph st v).acyclicVertices v⟩ :
        solver.reduce_state) = st := by
  obtain ⟨hM, hV, _⟩ := insert_vertex_spec subgraph st v hinv hv
  obtain ⟨hkeys, hid, hnd, hsound, hcomplete, hacyc⟩ := hinv
  have hvk : v ∉ st.acyclicVertices.map Prod.fst := by rw [hkeys]; exact hv
  have hE : ∃ extra, (solver.insert_vertex subgraph st v).acyclicGraph.edges =
      st.acyclicGraph.edges ++ extra ∧ ∀ e ∈ extra, e.1 = v ∨ e.2 = v := by
    simp only [solver.insert_vertex]
    obtain ⟨ex1, h1, h1'⟩ := add_in_edges_append v (map_assign st.acyclicVertices v v)
      (in_edges v subgraph) (add_vertex v st.acyclicGraph)
    obtain ⟨ex2, h2, h2'⟩ := add_out_edges_append v (map_assign st.acyclicVertices v v)
      (out_edges v subgraph) (solver.add_in_edges v (map_assign st.acyclicVertices v v)
        (in_edges v subgraph) (add_vertex v st.acyclicGraph))
    refine ⟨ex1 ++ ex2, ?_, ?_⟩
    · rw [h2, h1, List.append_assoc]; rfl
    · intro e he
      rcases List.mem_append.mp he with he | he
      · exact Or.inr (h1' e he)
      · exact Or.inl (h2' e he)
  obtain ⟨extra, hE1, hE2⟩ := hE
  have hedges : (clear_vertex v (solver.insert_vertex subgraph st v).acyclicGraph).edges =
      st.acyclicGraph.edges := by
    simp only [clear_vertex, hE1, List.filter_append]
    have h1 : st.acyclicGraph.edges.filter (fun e => !(e.1 == v || e.2 == v)) =
        st.acyclicGraph.edges := by
      rw [List.filter_eq_self]
      intro e he
      obtain ⟨_, ha, hb⟩ := hsound e he
      have h1 : e.1 ≠ v := fun h => hv (h ▸ ha)
      have h2 : e.2 ≠ v := fun h => hv (h ▸ hb)
      simp [h1, h2]
    have h2 : extra.filter (fun e => !(e.1 == v || e.2 == v)) = [] := by
      rw [List.filter_eq_nil_iff]
      intro e he
      rcases hE2 e he with h | h <;> simp [h]
    rw [h1, h2, List.append_nil]
  have hverts : (remove_vertex v
      (clear_vertex v (solver.insert_vertex subgraph st v).acyclicGraph)).vertices =
      st.acyclicGraph.vertices := by
    simp only [remove_vertex, clear_vertex, hV, List.filter_append]
    have h1 : st.acyclicGraph.vertices.filter (fun w => !(w == v)) = st.acyclicGraph.vertices := by
      rw [List.filter_eq_self]
      intro w hw
      have : w ≠ v := fun h => hv (h ▸ hw)
      simp [this]
    rw [h1]
    simp
  have hmap : map_erase (solver.insert_vertex subgraph st v).acyclicVertices v =
      st.acyclicVertices := by
    rw [hM]; exact map_erase_append_self _ _ _ hvk
  have hg : remove_vertex v (clear_vertex v (solver.insert_vertex subgraph st v).acyclicGraph) =
      st.acyclicGraph := by
    cases hst : st.acyclicGraph with
    | mk vs es =>
      rw [hst] at hverts hedges
      have h3 : (remove_vertex v
          (clear_vertex v (solver.insert_vertex subgraph st v).acyclicGraph)).edges = es := by
        simpa only [remove_vertex] using hedges
      cases hr : remove_vertex v
          (clear_vertex v (solver.insert_vertex subgraph st v).acyclicGraph) with
      | mk vs' es' =>
        rw [hr] at hverts h3
        simp only at hverts h3
        rw [hverts, h3]
  rw [hg, hmap]

theorem reduce_step_inv (subgraph : graph_t) (st : solver.reduce_state)
    (v : vertex_descriptor_t) (hinv : reduce_inv subgraph st)
    (hv : v ∉ st.acyclicGraph.vertices) :
    reduce_inv subgraph (solver.reduce_step subgraph st v) ∧
      ∀ x ∈ (solver.reduce_step subgraph st v).acyclicGraph.vertices,
        x ∈ st.acyclicGraph.vertices ∨ x = v := by
  by_cases hc : detect_cycles (solver.insert_vertex subgraph st v).acyclicGraph = true
  · have hstep : solver.reduce_step subgraph st v = st := by
      unfold solver.reduce_step
      rw [if_pos hc]
      exact rollback_restores subgraph st v hinv hv
    rw [hstep]
    exact ⟨hinv, fun x hx => Or.inl hx⟩
  · have hstep : solver.reduce_step subgraph st v = solver.insert_vertex subgraph st v := by
      unfold solver.reduce_step
      rw [if_neg hc]
    rw [hstep]
    obtain ⟨hM, hV, hEdges⟩ := insert_vertex_spec subgraph st v hinv hv
    obtain ⟨hkeys, hid, hnd, hsound, hcomplete, hacyc⟩ := hinv
    have hsound' : ∀ e ∈ (solver.insert_vertex subgraph st v).acyclicGraph.edges,
        e ∈ subgraph.edges ∧
        e.1 ∈ (solver.insert_vertex subgraph st v).acyclicGraph.vertices ∧
        e.2 ∈ (solver.insert_vertex subgraph st v).acyclicGraph.vertices := by
      intro e he
      rw [hV]
      rcases (hEdges e).mp he with h | ⟨h1, _, h3, h4⟩
      · obtain ⟨a, b, c⟩ := hsound e h
        exact ⟨a, List.mem_append_left _ b, List.mem_append_left _ c⟩
      · exact ⟨h1, h3, h4⟩
    refine ⟨⟨?_, ?_, ?_, hsound', ?_, ?_⟩, ?_⟩
    · rw [hM, hV, List.map_append, hkeys]; rfl
    · intro p hp
      rw [hM] at hp
      rcases List.mem_append.mp hp with hp | hp
      · exact hid p hp
      · simp only [List.mem_singleton] at hp
        rw [hp]
    · rw [hV]
      exact List.Nodup.append hnd (List.nodup_singleton v)
        (by simpa [List.disjoint_singleton] using hv)
    · intro e he ha hb
      rw [hV] at ha hb
      rw [hEdges]
      by_cases h1 : e.1 = v
      · exact Or.inr ⟨he, Or.inl h1, ha, hb⟩
      · by_cases h2 : e.2 = v
        · exact Or.inr ⟨he, Or.inr h2, ha, hb⟩
        · left
          refine hcomplete e he ?_ ?_
          · simpa [h1] using ha
          · simpa [h2] using hb
    · intro hcyc
      apply hc
      exact (detect_cycles_eq_true_iff _ (fun e he => (hsound' e he).2)).mpr hcyc
    · intro x hx
      rw [hV] at hx
      simpa using hx

theorem reduce_inv_init (subgraph : graph_t) :
    reduce_inv subgraph ⟨graph_t.empty, []⟩ := by
  refine ⟨rfl, (fun p hp => by cases hp), List.nodup_nil, (fun e he => by cases he),
    (fun e _ ha => by cases ha), ?_⟩
  rintro ⟨v, hv⟩
  have : ∀ a b, Relation.TransGen graph_t.empty.adj a b → False := by
    intro a b hab
    induction hab with
    | single h => cases h
    | tail _ h _ => cases h
  exact this v v hv

theorem reduce_foldl_inv (subgraph : graph_t) :
    ∀ (l : List vertex_descriptor_t) (st : solver.reduce_state),
      reduce_inv subgraph st → l.Nodup → (∀ x ∈ l, x ∉ st.acyclicGraph.vertices) →
      reduce_inv subgraph (l.foldl (solver.reduce_step subgraph) st) ∧
        ∀ x ∈ (l.foldl (solver.reduce_step subgraph) st).acyclicGraph.vertices,
          x ∈ st.acyclicGraph.vertices ∨ x ∈ l := by
  intro l
  induction l with
  | nil => intro st hinv _ _; exact ⟨hinv, fun x hx => Or.inl hx⟩
  | cons v l ih =>
    intro st hinv hnd hfresh
    obtain ⟨hvl, hnd'⟩ := List.nodup_cons.mp hnd
    obtain ⟨hinv', hsub⟩ := reduce_step_inv subgraph st v hinv (hfresh v (List.mem_cons_self _ _))
    have hfresh' : ∀ x ∈ l, x ∉ (solver.reduce_step subgraph st v).acyclicGraph.vertices := by
      intro x hx hx'
      rcases hsub x hx' with h | h
      · exact hfresh x (List.mem_cons_of_mem _ hx) h
      · exact hvl (h ▸ hx)
    obtain ⟨h1, h2⟩ := ih (solver.reduce_step subgraph st v) hinv' hnd' hfresh'
    refine ⟨h1, ?_⟩
    intro x hx
    rcases h2 x hx with h | h
    · rcases hsub x h with h' | h'
      · exact Or.inl h'
      · exact Or.inr (h' ▸ List.mem_cons_self _ _)
    · exact Or.inr (List.mem_cons_of_mem _ h)

theorem reduce_inv_reduce (subgraph : graph_t) (sorted : List vertex_descriptor_t)
    (hnd : sorted.Nodup) : reduce_inv subgraph (solver.reduce subgraph sorted) :=
  (reduce_foldl_inv subgraph sorted ⟨graph_t.empty, []⟩ (reduce_inv_init subgraph) hnd
    (fun _ _ h => by cases h)).1

theorem mem_set_insert {K : Type} [DecidableEq K] (s : List K) (x y : K) :
    y ∈ set_insert s x ↔ y ∈ s ∨ y = x := by
  unfold set_insert
  by_cases h : x ∈ s
  · simp only [h, if_true]
    constructor
    · exact Or.inl
    · rintro (h' | rfl)
      · exact h'
      · exact h
  · simp [h]

theorem mem_collect_cut (m : unordered_map vertex_properties_s vertex_descriptor_t) :
    ∀ (l : List vertex_descriptor_t) (cut : List vertex_properties_s) (v : vertex_properties_s),
      v ∈ solver.collect_cut m l cut ↔ v ∈ cut ∨ (v ∈ l ∧ map_find m v = none) := by
  intro l
  induction l with
  | nil => intro cut v; simp [solver.collect_cut]
  | cons x l ih =>
    intro cut v
    unfold solver.collect_cut
    cases hf : map_find m x with
    | none =>
      simp only [hf, ih, mem_set_insert, List.mem_cons]
      constructor
      · rintro ((h | rfl) | ⟨h1, h2⟩)
        · exact Or.inl h
        · exact Or.inr ⟨Or.inl rfl, hf⟩
        · exact Or.inr ⟨Or.inr h1, h2⟩
      · rintro (h | ⟨(rfl | h1), h2⟩)
        · exact Or.inl (Or.inl h)
        · exact Or.inl (Or.inr rfl)
        · exact Or.inr ⟨h1, h2⟩
    | some d =>
      simp only [hf, ih, List.mem_cons]
      constructor
      · rintro (h | ⟨h1, h2⟩)
        · exact Or.inl h
        · exact Or.inr ⟨Or.inr h1, h2⟩
      · rintro (h | ⟨(rfl | h1), h2⟩)
        · exact Or.inl h
        · rw [hf] at h2; cases h2
        · exact Or.inr ⟨h1, h2⟩

/-! ## Strongly connected subgraphs -/

theorem tarjans_add_vertices_get :
    ∀ (pending : List (Nat × vertex_properties_s)) (subgraphs : List graph_t) (k : Nat),
      (tarjans_add_vertices pending subgraphs)[k]? =
        (subgraphs[k]?).map (fun g =>
          ⟨g.vertices ++ (pending.filter (fun p => p.1 = k)).map Prod.snd, g.edges⟩) := by
  intro pending
  induction pending with
  | nil =>
    intro subgraphs k
    simp only [tarjans_add_vertices, List.filter_nil, List.map_nil, List.append_nil]
    cases subgraphs[k]? <;> rfl
  | cons p pending ih =>
    intro subgraphs k
    obtain ⟨c, v⟩ := p
    simp only [tarjans_add_vertices, ih, List.getElem?_modify]
    cases subgraphs[k]? with
    | none => rfl
    | some g =>
      by_cases hck : c = k
      · subst hck
        simp [add_vertex, List.filter_cons]
      · simp [hck, List.filter_cons]

theorem tarjans_add_vertices_length :
    ∀ (pending : List (Nat × vertex_properties_s)) (subgraphs : List graph_t),
      (tarjans_add_vertices pending subgraphs).length = subgraphs.length := by
  intro pending
  induction pending with
  | nil => intro subgraphs; rfl
  | cons p pending ih =>
    intro subgraphs
    obtain ⟨c, v⟩ := p
    simp only [tarjans_add_vertices, ih, List.length_modify]

theorem tarjans_add_edges_get (vertices : List vertex_descriptor_t) (comp : List Nat) :
    ∀ (pending : List (vertex_descriptor_t × vertex_descriptor_t)) (subgraphs : List graph_t)
      (k : Nat),
      (tarjans_add_edges vertices comp pending subgraphs)[k]? =
        (subgraphs[k]?).map (copy_edges vertices comp k pending) := by
  intro pending
  induction pending with
  | nil =>
    intro subgraphs k
    simp only [tarjans_add_edges, copy_edges]
    cases subgraphs[k]? <;> rfl
  | cons e pending ih =>
    intro subgraphs k
    obtain ⟨s, t⟩ := e
    simp only [tarjans_add_edges, copy_edges]
    by_cases hst : comp.getD (vertices.indexOf s) 0 = comp.getD (vertices.indexOf t) 0
    · simp only [hst, if_true, true_and, ih, List.getElem?_modify]
      cases subgraphs[k]? with
      | none => rfl
      | some g =>
        simp only [Option.map_eq_map, Option.map_some']
        split_ifs <;> rfl
    · simp only [hst, if_false, false_and, ih]

theorem tarjans_add_edges_length (vertices : List vertex_descriptor_t) (comp : List Nat) :
    ∀ (pending : List (vertex_descriptor_t × vertex_descriptor_t)) (subgraphs : List graph_t),
      (tarjans_add_edges vertices comp pending subgraphs).length = subgraphs.length := by
  intro pending
  induction pending with
  | nil => intro subgraphs; rfl
  | cons e pending ih =>
    intro subgraphs
    obtain ⟨s, t⟩ := e
    simp only [tarjans_add_edges]
    split
    · rw [ih, List.length_modify]
    · rw [ih]

theorem copy_edges_vertices (vertices : List vertex_descriptor_t) (comp : List Nat) (k : Nat) :
    ∀ (pending : List (vertex_descriptor_t × vertex_descriptor_t)) (g : graph_t),
      (copy_edges vertices comp k pending g).vertices = g.vertices := by
  intro pending
  induction pending with
  | nil => intro g; rfl
  | cons e pending ih =>
    intro g
    obtain ⟨s, t⟩ := e
    simp only [copy_edges]
    split
    · rw [ih, add_edge_vertices]
    · rw [ih]

theorem mem_copy_edges (vertices : List vertex_descriptor_t) (comp : List Nat) (k : Nat) :
    ∀ (pending : List (vertex_descriptor_t × vertex_descriptor_t)) (g : graph_t)
      (e : vertex_descriptor_t × vertex_descriptor_t),
      e ∈ (copy_edges vertices comp k pending g).edges ↔
        e ∈ g.edges ∨ ∃ x ∈ pending,
          comp.getD (vertices.indexOf x.1) 0 = comp.getD (vertices.indexOf x.2) 0 ∧
          comp.getD (vertices.indexOf x.1) 0 = k ∧
          e = (vertices.getD (vertices.indexOf x.1) 0, vertices.getD (vertices.indexOf x.2) 0) := by
  intro pending
  induction pending with
  | nil => intro g e; simp [copy_edges]
  | cons x pending ih =>
    intro g e
    obtain ⟨s, t⟩ := x
    simp only [copy_edges]
    split
    · rename_i h
      simp only [ih, mem_add_edge, List.mem_cons, exists_eq_or_imp]
      constructor
      · rintro ((h1 | h1) | h1)
        · exact Or.inl h1
        · exact Or.inr (Or.inl ⟨h.1, h.2, h1⟩)
        · exact Or.inr (Or.inr h1)
      · rintro (h1 | ⟨_, _, h1⟩ | h1)
        · exact Or.inl (Or.inl h1)
        · exact Or.inl (Or.inr h1)
        · exact Or.inr h1
    · rename_i h
      simp only [ih, List.mem_cons, exists_eq_or_imp]
      constructor
      · rintro (h1 | h1)
        · exact Or.inl h1
        · exact Or.inr (Or.inr h1)
      · rintro (h1 | ⟨a, b, _⟩ | h1)
        · exact Or.inl h1
        · exact absurd ⟨a, b⟩ h
        · exact Or.inr h1

theorem tarjans_subgraphs_length (sc : graph_t → Nat × List Nat) (g : graph_t) :
    (tarjans_subgraphs sc g).length = (sc g).1 := by
  simp only [tarjans_subgraphs, tarjans_add_edges_length, tarjans_add_vertices_length,
    List.length_replicate]

theorem tarjans_subgraphs_get (sc : graph_t → Nat × List Nat) (g : graph_t) (k : Nat)
    (hk : k < (sc g).1) :
    (tarjans_subgraphs sc g)[k]? =
      some (copy_edges g.vertices (sc g).2 k g.edges ⟨component_vertices g (sc g) k, []⟩) := by
  simp only [tarjans_subgraphs, tarjans_add_edges_get, tarjans_add_vertices_get,
    List.getElem?_replicate, hk, if_true, Option.map_some', graph_t.empty, List.nil_append,
    component_vertices]

theorem getD_indexOf (l : List vertex_descriptor_t) (v : vertex_descriptor_t) (h : v ∈ l) :
    l.getD (l.indexOf v) 0 = v := by
  rw [List.getD_eq_getElem?_getD, List.getElem?_indexOf h]
  rfl

theorem range_map_getD (l : List vertex_descriptor_t) :
    (List.range l.length).map (fun i => l.getD i 0) = l := by
  apply List.ext_getElem
  · simp
  · intro i h1 h2
    simp only [List.getElem_map, List.getElem_range, List.getD_eq_getElem?_getD]
    rw [List.getElem?_eq_getElem h2]
    rfl

theorem component_vertices_eq (g : graph_t) (r : Nat × List Nat) (k : Nat) :
    component_vertices g r k =
      ((List.range g.vertices.length).filter (fun i => decide (r.2.getD i 0 = k))).map
        (fun i => g.vertices.getD i 0) := by
  unfold component_vertices
  rw [List.filter_map, List.map_map]
  rfl

theorem component_vertices_sublist (g : graph_t) (r : Nat × List Nat) (k : Nat) :
    (component_vertices g r k).Sublist g.vertices := by
  rw [component_vertices_eq]
  have h := List.Sublist.map (fun i => g.vertices.getD i 0)
    (List.filter_sublist (p := fun i => decide (r.2.getD i 0 = k))
      (List.range g.vertices.length))
  rw [range_map_getD] at h
  exact h

theorem mem_component_vertices (g : graph_t) (r : Nat × List Nat) (k : Nat)
    (v : vertex_descriptor_t) (hnd : g.vertices.Nodup) :
    v ∈ component_vertices g r k ↔ v ∈ g.vertices ∧ component_of g r v = k := by
  constructor
  · intro h
    have hv : v ∈ g.vertices := (component_vertices_sublist g r k).subset h
    refine ⟨hv, ?_⟩
    rw [component_vertices_eq] at h
    simp only [List.mem_map, List.mem_filter, List.mem_range, decide_eq_true_eq] at h
    obtain ⟨i, ⟨hi, hc⟩, hiv⟩ := h
    have hvi : g.vertices[i] = v := by
      rw [List.getD_eq_getElem?_getD, List.getElem?_eq_getElem hi] at hiv
      exact hiv
    have : g.vertices.indexOf v = i := by
      rw [← hvi]; exact List.indexOf_getElem hnd i hi
    unfold component_of
    rw [this]; exact hc
  · rintro ⟨hv, hc⟩
    rw [component_vertices_eq]
    simp only [List.mem_map, List.mem_filter, List.mem_range, decide_eq_true_eq]
    exact ⟨g.vertices.indexOf v, ⟨List.indexOf_lt_length.mpr hv, hc⟩, getD_indexOf _ _ hv⟩

theorem component_of_lt (g : graph_t) (r : Nat × List Nat) (hvalid : component_map_valid g r)
    (v : vertex_descriptor_t) (hv : v ∈ g.vertices) : component_of g r v < r.1 := by
  obtain ⟨hlen, hlt⟩ := hvalid
  have hi : g.vertices.indexOf v < r.2.length := by
    rw [hlen]; exact List.indexOf_lt_length.mpr hv
  unfold component_of
  rw [List.getD_eq_getElem?_getD, List.getElem?_eq_getElem hi]
  exact hlt _ (List.getElem_mem _)

/-- The subgraph with index `k`, read off the definition of `tarjans_subgraphs`. -/
theorem tarjans_subgraphs_spec (sc : graph_t → Nat × List Nat) (g : graph_t)
    (hwf : g.wf) (k : Nat) (sg : graph_t) (h : (tarjans_subgraphs sc g)[k]? = some sg) :
    k < (sc g).1 ∧ sg.vertices = component_vertices g (sc g) k ∧
    ∀ e, e ∈ sg.edges ↔
      e ∈ g.edges ∧ component_of g (sc g) e.1 = component_of g (sc g) e.2 ∧
        component_of g (sc g) e.1 = k := by
  have hk : k < (sc g).1 := by
    rw [← tarjans_subgraphs_length sc g]
    exact (List.getElem?_eq_some_iff.mp h).1
  rw [tarjans_subgraphs_get sc g k hk] at h
  simp only [Option.some.injEq] at h
  subst h
  refine ⟨hk, copy_edges_vertices _ _ _ _ _, ?_⟩
  intro e
  rw [mem_copy_edges]
  obtain ⟨_, _, hE⟩ := hwf
  constructor
  · rintro (h | ⟨x, hx, h1, h2, rfl⟩)
    · cases h
    · rw [getD_indexOf _ _ (hE x hx).1, getD_indexOf _ _ (hE x hx).2]
      exact ⟨hx, h1, h2⟩
  · rintro ⟨he, h1, h2⟩
    right
    refine ⟨e, he, h1, h2, ?_⟩
    rw [getD_indexOf _ _ (hE e he).1, getD_indexOf _ _ (hE e he).2]

theorem tarjans_subgraphs_get_component (sc : graph_t → Nat × List Nat) (g : graph_t)
    (hvalid : component_map_valid g (sc g)) (v : vertex_descriptor_t) (hv : v ∈ g.vertices) :
    ∃ sg, (tarjans_subgraphs sc g)[component_of g (sc g) v]? = some sg :=
  ⟨_, tarjans_subgraphs_get sc g _ (component_of_lt g (sc g) hvalid v hv)⟩

theorem contract_valid (g : graph_t) (r : Nat × List Nat)
    (h : strong_components_contract g r) : component_map_valid g r :=
  ⟨h.1, h.2.1⟩

theorem contract_component_of (g : graph_t) (r : Nat × List Nat)
    (h : strong_components_contract g r) (u v : vertex_descriptor_t)
    (hu : u ∈ g.vertices) (hv : v ∈ g.vertices) :
    component_of g r u = component_of g r v ↔ strongly_connected g u v := by
  obtain ⟨hlen, _, _, hiff⟩ := h
  have hi : g.vertices.indexOf u < r.2.length := by
    rw [hlen]; exact List.indexOf_lt_length.mpr hu
  have hj : g.vertices.indexOf v < r.2.length := by
    rw [hlen]; exact List.indexOf_lt_length.mpr hv
  rw [← hiff _ _ u v (List.getElem?_indexOf hu) (List.getElem?_indexOf hv)]
  unfold component_of
  rw [List.getD_eq_getElem?_getD, List.getD_eq_getElem?_getD, List.getElem?_eq_getElem hi,
    List.getElem?_eq_getElem hj]
  simp

theorem tarjans_subgraph_is_component (sc : graph_t → Nat × List Nat) (g : graph_t)
    (hwf : g.wf) (hsc : strong_components_contract g (sc g)) :
    ∀ sg ∈ tarjans_subgraphs sc g, sg.vertices ≠ [] ∧
      ∀ u ∈ sg.vertices, ∀ v, v ∈ sg.vertices ↔ (v ∈ g.vertices ∧ strongly_connected g u v) := by
  intro sg hsg
  obtain ⟨k, hk⟩ := List.mem_iff_getElem?.mp hsg
  obtain ⟨hlt, hverts, _⟩ := tarjans_subgraphs_spec sc g hwf k sg hk
  constructor
  · obtain ⟨i, hi, hik⟩ := List.mem_iff_getElem.mp (hsc.2.2.1 k hlt)
    have hi' : i < g.vertices.length := by rw [← hsc.1]; exact hi
    have hmem : g.vertices[i] ∈ component_vertices g (sc g) k := by
      rw [mem_component_vertices g (sc g) k _ hwf.1]
      refine ⟨List.getElem_mem _, ?_⟩
      unfold component_of
      rw [List.indexOf_getElem hwf.1 i hi', List.getD_eq_getElem?_getD,
        List.getElem?_eq_getElem hi]
      exact hik
    rw [hverts]
    exact List.ne_nil_of_mem hmem
  · intro u hu v
    rw [hverts, mem_component_vertices g (sc g) k _ hwf.1] at hu
    rw [hverts, mem_component_vertices g (sc g) k _ hwf.1]
    constructor
    · rintro ⟨hv, hvk⟩
      exact ⟨hv, (contract_component_of g (sc g) hsc u v hu.1 hv).mp (by rw [hu.2, hvk])⟩
    · rintro ⟨hv, huv⟩
      exact ⟨hv, by rw [← (contract_component_of g (sc g) hsc u v hu.1 hv).mpr huv, hu.2]⟩

/-! ## Traffic simulation -/

theorem traffic_total_map_increment (m : unnormalized_vertex_traffic_map_t)
    (key : vertex_descriptor_t) :
    traffic_total (map_increment m key) = traffic_total m + 1 := by
  unfold traffic_total
  induction m with
  | nil => simp [map_increment]
  | cons p m ih =>
    obtain ⟨k, c⟩ := p
    by_cases h : k = key
    · simp only [map_increment, h, if_true, List.map_cons, List.sum_cons]
      omega
    · simp only [map_increment, h, if_false, List.map_cons, List.sum_cons, ih]
      omega

theorem keys_map_increment (m : unnormalized_vertex_traffic_map_t)
    (key : vertex_descriptor_t) (hkey : key ∈ m.map Prod.fst) :
    (map_increment m key).map Prod.fst = m.map Prod.fst := by
  induction m with
  | nil => cases hkey
  | cons p m ih =>
    obtain ⟨k, c⟩ := p
    by_cases h : k = key
    · simp only [map_increment, h, if_true, List.map_cons]
    · simp only [map_increment, h, if_false, List.map_cons]
      simp only [List.map_cons, List.mem_cons] at hkey
      rcases hkey with hk | hk
      · exact absurd hk.symm h
      · rw [ih hk]

theorem foldl_map_assign_fresh :
    ∀ (l : List vertex_descriptor_t) (acc : unnormalized_vertex_traffic_map_t),
      l.Nodup → (∀ v ∈ l, v ∉ acc.map Prod.fst) →
      l.foldl (fun m v => map_assign m v 0) acc = acc ++ l.map (fun v => (v, 0)) := by
  intro l
  induction l with
  | nil => intro acc _ _; simp
  | cons v l ih =>
    intro acc hnd hfresh
    obtain ⟨hvl, hnd'⟩ := List.nodup_cons.mp hnd
    simp only [List.foldl_cons]
    rw [map_assign_of_not_mem acc v 0 (hfresh v (List.mem_cons_self _ _)), ih _ hnd']
    · simp
    · intro w hw
      simp only [List.map_append, List.map_cons, List.map_nil, List.mem_append,
        List.mem_singleton, not_or]
      exact ⟨hfresh w (List.mem_cons_of_mem _ hw), fun h => hvl (h ▸ hw)⟩

theorem initial_traffic_eq (g : graph_t) (hnd : g.vertices.Nodup) :
    initial_traffic g = g.vertices.map (fun v => (v, 0)) := by
  unfold initial_traffic
  rw [foldl_map_assign_fresh g.vertices [] hnd (fun _ _ h => by cases h)]
  rfl

theorem initial_traffic_keys (g : graph_t) (hnd : g.vertices.Nodup) :
    (initial_traffic g).map Prod.fst = g.vertices := by
  rw [initial_traffic_eq g hnd, List.map_map]
  exact List.map_id _

theorem initial_traffic_total (g : graph_t) (hnd : g.vertices.Nodup) :
    traffic_total (initial_traffic g) = 0 := by
  rw [initial_traffic_eq g hnd]
  unfold traffic_total
  rw [List.map_map]
  induction g.vertices with
  | nil => rfl
  | cons v l ih => simp only [List.map_cons, List.sum_cons, ih]; rfl

theorem mem_out_vertices (g : graph_t) (hwf : g.wf) (v w : vertex_descriptor_t)
    (h : w ∈ out_vertices g v) : w ∈ g.vertices := by
  unfold out_vertices at h
  by_cases hv : v ∈ g.vertices
  · simp only [hv, if_true] at h
    exact (hwf.2.2 _ ((mem_out_targets g v w).mp h)).2
  · simp only [hv, if_false] at h
    cases h

theorem simulate_steps_ok {S : Type} (gen : S → Nat → Nat → Nat × S) (g : graph_t)
    (hwf : g.wf) :
    ∀ (steps : Nat) (cur : Option vertex_descriptor_t) (t : unnormalized_vertex_traffic_map_t)
      (s : S) (t' : unnormalized_vertex_traffic_map_t) (s' : S),
      t.map Prod.fst = g.vertices →
      simulate_steps gen g steps cur t s = .ok (t', s') →
      t'.map Prod.fst = g.vertices ∧ traffic_total t' = traffic_total t + steps := by
  intro steps
  induction steps with
  | zero =>
    intro cur t s t' s' hkeys h
    simp only [simulate_steps, Except.ok.injEq, Prod.mk.injEq] at h
    rw [← h.1]
    exact ⟨hkeys, rfl⟩
  | succ steps ih =>
    intro cur t s t' s' hkeys h
    have hstep : ∀ (next : vertex_descriptor_t) (s1 : S),
        next ∈ (match cur with
          | none => []
          | some v => out_vertices g v) →
        simulate_steps gen g steps (some next) (map_increment t next) s1 = .ok (t', s') →
        t'.map Prod.fst = g.vertices ∧ traffic_total t' = traffic_total t + (steps + 1) := by
      intro next s1 hnext hrun
      have hmem : next ∈ g.vertices := by
        cases cur with
        | none => cases hnext
        | some v => exact mem_out_vertices g hwf v next hnext
      have hkeys' : (map_increment t next).map Prod.fst = g.vertices := by
        rw [keys_map_increment t next (by rw [hkeys]; exact hmem), hkeys]
      obtain ⟨h1, h2⟩ := ih (some next) (map_increment t next) s1 t' s' hkeys' hrun
      refine ⟨h1, ?_⟩
      rw [h2, traffic_total_map_increment]
      omega
    unfold simulate_steps at h
    simp only at h
    split at h
    · cases h
    · split at h
      · split at h
        · cases h
        · rename_i next hnext
          exact hstep next s (List.getElem?_mem hnext) h
      · split at h
        · cases h
        · rename_i next hnext
          exact hstep next _ (List.getElem?_mem hnext) h

theorem simulate_agents_ok {S : Type} (gen : S → Nat → Nat → Nat × S) (g : graph_t)
    (hwf : g.wf) (steps : Nat) :
    ∀ (agents : Nat) (t : unnormalized_vertex_traffic_map_t)
      (s : S) (t' : unnormalized_vertex_traffic_map_t) (s' : S),
      t.map Prod.fst = g.vertices →
      simulate_agents gen g steps agents t s = .ok (t', s') →
      t'.map Prod.fst = g.vertices ∧ traffic_total t' = traffic_total t + agents * steps := by
  intro agents
  induction agents with
  | zero =>
    intro t s t' s' hkeys h
    simp only [simulate_agents, Except.ok.injEq, Prod.mk.injEq] at h
    rw [← h.1]
    exact ⟨hkeys, by simp⟩
  | succ agents ih =>
    intro t s t' s' hkeys h
    unfold simulate_agents at h
    simp only at h
    split at h
    · cases h
    · rename_i t1 s1 hrun
      obtain ⟨h1, h2⟩ := simulate_steps_ok gen g hwf steps _ t _ t1 s1 hkeys hrun
      obtain ⟨h3, h4⟩ := ih t1 s1 t' s' h1 h
      refine ⟨h3, ?_⟩
      rw [h4, h2, Nat.succ_mul]
      omega

theorem simulate_batches_ok {S D : Type} (gen : S → Nat → Nat → Nat × S) (ops : double_ops D)
    (g : graph_t) (hwf : g.wf) (agents steps : Nat) (change_threshold : D) :
    ∀ (remaining batch : Nat) (t : unnormalized_vertex_traffic_map_t)
      (prev : normalized_vertex_traffic_map_t D) (s : S)
      (t' : unnormalized_vertex_traffic_map_t) (s' : S) (b : Nat),
      t.map Prod.fst = g.vertices →
      simulate_batches gen ops g agents steps change_threshold remaining batch t prev s =
        .ok (t', s', b) →
      t'.map Prod.fst = g.vertices ∧ batch ≤ b ∧ b ≤ batch + remaining ∧
        (0 < remaining → batch < b) ∧
        traffic_total t' = traffic_total t + (b - batch) * (agents * steps) := by
  intro remaining
  induction remaining with
  | zero =>
    intro batch t prev s t' s' b hkeys h
    simp only [simulate_batches, Except.ok.injEq, Prod.mk.injEq] at h
    obtain ⟨h1, _, h3⟩ := h
    subst h1; subst h3
    exact ⟨hkeys, le_refl _, le_refl _, fun h => absurd h (lt_irrefl 0), by simp⟩
  | succ remaining ih =>
    intro batch t prev s t' s' b hkeys h
    unfold simulate_batches at h
    simp only at h
    split at h
    · cases h
    · rename_i t1 s1 hrun
      obtain ⟨h1, h2⟩ := simulate_agents_ok gen g hwf steps agents t s t1 s1 hkeys hrun
      split at h
      · simp only [Except.ok.injEq, Prod.mk.injEq] at h
        obtain ⟨e1, _, e3⟩ := h
        subst e1; subst e3
        refine ⟨h1, by omega, by omega, fun _ => by omega, ?_⟩
        rw [h2]
        simp
      · obtain ⟨k1, k2, k3, _, k5⟩ := ih (batch + 1) t1 _ s1 t' s' b h1 h
        refine ⟨k1, by omega, by omega, fun _ => by omega, ?_⟩
        rw [k5, h2]
        have : b - batch = (b - (batch + 1)) + 1 := by omega
        rw [this, Nat.succ_mul]
        omega

theorem sum_traffic_at (m : unnormalized_vertex_traffic_map_t)
    (hnd : (m.map Prod.fst).Nodup) :
    ((m.map Prod.fst).map (traffic_at m)).sum = traffic_total m := by
  unfold traffic_total
  induction m with
  | nil => rfl
  | cons p m ih =>
    obtain ⟨k, c⟩ := p
    simp only [List.map_cons, List.nodup_cons] at hnd
    obtain ⟨hk, hnd'⟩ := hnd
    simp only [List.map_cons, List.sum_cons]
    have h1 : traffic_at ((k, c) :: m) k = c := by simp [traffic_at, map_find]
    have h2 : (m.map Prod.fst).map (traffic_at ((k, c) :: m)) =
        (m.map Prod.fst).map (traffic_at m) := by
      apply List.map_congr_left
      intro x hx
      have hxk : ¬ k = x := fun e => hk (e ▸ hx)
      simp [traffic_at, map_find, hxk]
    rw [h1, h2, ih hnd']

theorem out_vertices_ne_nil (g : graph_t) (v : vertex_descriptor_t) (hv : v ∈ g.vertices)
    (hout : out_edges v g ≠ []) : (out_vertices g v).length ≠ 0 := by
  unfold out_vertices
  simp only [hv, if_true, List.length_map]
  exact fun h => hout (List.length_eq_zero.mp h)

theorem simulate_steps_total {S : Type} (gen : S → Nat → Nat → Nat × S) (g : graph_t)
    (hwf : g.wf) (hout : ∀ v ∈ g.vertices, out_edges v g ≠ []) (hgen : gen_in_range gen) :
    ∀ (steps : Nat) (v : vertex_descriptor_t) (t : unnormalized_vertex_traffic_map_t) (s : S),
      v ∈ g.vertices → ∃ t' s', simulate_steps gen g steps (some v) t s = .ok (t', s') := by
  intro steps
  induction steps with
  | zero => intro v t s _; exact ⟨t, s, rfl⟩
  | succ steps ih =>
    intro v t s hv
    have hlen := out_vertices_ne_nil g v hv (hout v hv)
    unfold simulate_steps
    simp only [hlen, if_false]
    by_cases h1 : (out_vertices g v).length = 1
    · simp only [h1, if_true]
      have h0 : 0 < (out_vertices g v).length := by omega
      rw [List.getElem?_eq_getElem h0]
      exact ih _ _ _ (mem_out_vertices g hwf v _ (List.getElem_mem _))
    · simp only [h1, if_false]
      have hr := (hgen s 0 (out_vertices g v).length (by omega)).2
      rw [List.getElem?_eq_getElem hr]
      exact ih _ _ _ (mem_out_vertices g hwf v _ (List.getElem_mem _))

theorem simulate_agents_total {S : Type} (gen : S → Nat → Nat → Nat × S) (g : graph_t)
    (hwf : g.wf) (hne : g.vertices ≠ []) (hout : ∀ v ∈ g.vertices, out_edges v g ≠ [])
    (hgen : gen_in_range gen) (steps : Nat) :
    ∀ (agents : Nat) (t : unnormalized_vertex_traffic_map_t) (s : S),
      ∃ t' s', simulate_agents gen g steps agents t s = .ok (t', s') := by
  intro agents
  induction agents with
  | zero => intro t s; exact ⟨t, s, rfl⟩
  | succ agents ih =>
    intro t s
    have hpos : 0 < num_vertices g := List.length_pos.mpr hne
    have hr : (gen s 0 (num_vertices g)).1 < g.vertices.length := (hgen s 0 _ hpos).2
    obtain ⟨t1, s1, h1⟩ := simulate_steps_total gen g hwf hout hgen steps
      (g.vertices[(gen s 0 (num_vertices g)).1]) t (gen s 0 (num_vertices g)).2
      (List.getElem_mem _)
    unfold simulate_agents
    simp only [List.getElem?_eq_getElem hr, h1]
    exact ih t1 s1

theorem simulate_batches_total {S D : Type} (gen : S → Nat → Nat → Nat × S)
    (ops : double_ops D) (g : graph_t)
    (hwf : g.wf) (hne : g.vertices ≠ []) (hout : ∀ v ∈ g.vertices, out_edges v g ≠ [])
    (hgen : gen_in_range gen) (agents steps : Nat) (change_threshold : D) :
    ∀ (remaining batch : Nat) (t : unnormalized_vertex_traffic_map_t)
      (prev : normalized_vertex_traffic_map_t D) (s : S),
      ∃ t' s' b, simulate_batches gen ops g agents steps change_threshold remaining batch t
        prev s = .ok (t', s', b) := by
  intro remaining
  induction remaining with
  | zero => intro batch t prev s; exact ⟨t, s, batch, rfl⟩
  | succ remaining ih =>
    intro batch t prev s
    obtain ⟨t1, s1, h1⟩ := simulate_agents_total gen g hwf hne hout hgen steps agents t s
    unfold simulate_batches
    simp only [h1]
    split
    · exact ⟨_, _, _, rfl⟩
    · exact ih _ _ _ _

theorem simulate_run_sum {S D : Type} (gen : S → Nat → Nat → Nat × S) (ops : double_ops D)
    (component : graph_t) (agents steps batches : Nat) (change_threshold : D) (s : S)
    (hwf : component.wf) (t : unnormalized_vertex_traffic_map_t) (s' : S) (b : Nat)
    (h : simulate_run gen ops component agents steps batches change_threshold s =
      .ok (t, s', b)) :
    t.map Prod.fst = component.vertices ∧ b ≤ batches ∧ (0 < batches → 0 < b) ∧
      (component.vertices.map (traffic_at t)).sum = agents * steps * b := by
  unfold simulate_run at h
  obtain ⟨h1, _, h3, h4, h5⟩ := simulate_batches_ok gen ops component hwf agents steps
    change_threshold batches 0 _ _ s t s' b (initial_traffic_keys component hwf.1) h
  refine ⟨h1, by omega, h4, ?_⟩
  have hnd : (t.map Prod.fst).Nodup := by rw [h1]; exact hwf.1
  rw [← h1, sum_traffic_at t hnd, h5, initial_traffic_total component hwf.1]
  simp only [Nat.sub_zero, Nat.zero_add]
  exact Nat.mul_comm _ _

theorem first_gen_in_range : gen_in_range first_gen := by
  intro s a b hab
  exact ⟨le_refl _, hab⟩

/-! ## Traffic simulation: keys, thresholds, errors -/

theorem map_find_map_increment_ne (m : unnormalized_vertex_traffic_map_t)
    (key v : vertex_descriptor_t) (h : key ≠ v) :
    map_find (map_increment m key) v = map_find m v := by
  induction m with
  | nil => simp [map_increment, map_find, h]
  | cons p m ih =>
    obtain ⟨k, c⟩ := p
    by_cases hk : k = key
    · subst hk
      simp [map_increment, map_find, h]
    · by_cases hv : k = v
      · subst hv
        have hk' : ¬ key = k := fun e => hk e.symm
        simp [map_increment, map_find, hk]
      · simp [map_increment, map_find, hk, hv, ih]

theorem simulate_steps_preserves {S : Type} (gen : S → Nat → Nat → Nat × S) (g : graph_t)
    (P : unnormalized_vertex_traffic_map_t → Prop)
    (hP : ∀ t v w, w ∈ out_vertices g v → P t → P (map_increment t w)) :
    ∀ (steps : Nat) (cur : Option vertex_descriptor_t) (t : unnormalized_vertex_traffic_map_t)
      (s : S) (t' : unnormalized_vertex_traffic_map_t) (s' : S),
      simulate_steps gen g steps cur t s = .ok (t', s') → P t → P t' := by
  intro steps
  induction steps with
  | zero =>
    intro cur t s t' s' h hPt
    simp only [simulate_steps, Except.ok.injEq, Prod.mk.injEq] at h
    rw [← h.1]; exact hPt
  | succ steps ih =>
    intro cur t s t' s' h hPt
    have hstep : ∀ (next : vertex_descriptor_t) (s1 : S),
        next ∈ (match cur with
          | none => []
          | some v => out_vertices g v) →
        simulate_steps gen g steps (some next) (map_increment t next) s1 = .ok (t', s') →
        P t' := by
      intro next s1 hnext hrun
      cases cur with
      | none => cases hnext
      | some v => exact ih _ _ _ _ _ hrun (hP t v next hnext hPt)
    unfold simulate_steps at h
    simp only at h
    split at h
    · cases h
    · split at h
      · split at h
        · cases h
        · rename_i next hnext
          exact hstep next s (List.getElem?_mem hnext) h
      · split at h
        · cases h
        · rename_i next hnext
          exact hstep next _ (List.getElem?_mem hnext) h

theorem simulate_agents_preserves {S : Type} (gen : S → Nat → Nat → Nat × S) (g : graph_t)
    (P : unnormalized_vertex_traffic_map_t → Prop)
    (hP : ∀ t v w, w ∈ out_vertices g v → P t → P (map_increment t w)) (steps : Nat) :
    ∀ (agents : Nat) (t : unnormalized_vertex_traffic_map_t)
      (s : S) (t' : unnormalized_vertex_traffic_map_t) (s' : S),
      simulate_agents gen g steps agents t s = .ok (t', s') → P t → P t' := by
  intro agents
  induction agents with
  | zero =>
    intro t s t' s' h hPt
    simp only [simulate_agents, Except.ok.injEq, Prod.mk.injEq] at h
    rw [← h.1]; exact hPt
  | succ agents ih =>
    intro t s t' s' h hPt
    unfold simulate_agents at h
    simp only at h
    split at h
    · cases h
    · rename_i t1 s1 hrun
      exact ih t1 s1 t' s' h (simulate_steps_preserves gen g P hP steps _ t _ t1 s1 hrun hPt)

theorem simulate_batches_preserves {S D : Type} (gen : S → Nat → Nat → Nat × S)
    (ops : double_ops D) (g : graph_t)
    (P : unnormalized_vertex_traffic_map_t → Prop)
    (hP : ∀ t v w, w ∈ out_vertices g v → P t → P (map_increment t w))
    (agents steps : Nat) (change_threshold : D) :
    ∀ (remaining batch : Nat) (t : unnormalized_vertex_traffic_map_t)
      (prev : normalized_vertex_traffic_map_t D) (s : S)
      (t' : unnormalized_vertex_traffic_map_t) (s' : S) (b : Nat),
      simulate_batches gen ops g agents steps change_threshold remaining batch t prev s =
        .ok (t', s', b) → P t → P t' := by
  intro remaining
  induction remaining with
  | zero =>
    intro batch t prev s t' s' b h hPt
    simp only [simulate_batches, Except.ok.injEq, Prod.mk.injEq] at h
    rw [← h.1]; exact hPt
  | succ remaining ih =>
    intro batch t prev s t' s' b h hPt
    unfold simulate_batches at h
    simp only at h
    split at h
    · cases h
    · rename_i t1 s1 hrun
      have hP1 := simulate_agents_preserves gen g P hP steps agents t s t1 s1 hrun hPt
      split at h
      · simp only [Except.ok.injEq, Prod.mk.injEq] at h
        rw [← h.1]; exact hP1
      · exact ih _ _ _ _ _ _ _ h hP1

theorem simulate_ok_run {S D : Type} (gen : S → Nat → Nat → Nat × S) (ops : double_ops D)
    (component : graph_t) (agents steps batches : Nat) (change_threshold : D) (s : S)
    (t : unnormalized_vertex_traffic_map_t) (s' : S)
    (h : simulate gen ops component agents steps batches change_threshold s = .ok (t, s')) :
    ∃ b, simulate_run gen ops component agents steps batches change_threshold s =
      .ok (t, s', b) := by
  unfold simulate at h
  split at h
  · cases h
  · rename_i r hr
    simp only [Except.ok.injEq, Prod.mk.injEq] at h
    obtain ⟨t1, s1, b⟩ := r
    simp only at h
    exact ⟨b, by rw [hr, h.1, h.2]⟩

theorem map_find_zero_list (l : List vertex_descriptor_t) (v : vertex_descriptor_t)
    (hv : v ∈ l) : map_find (l.map (fun v => (v, 0))) v = some 0 := by
  induction l with
  | nil => cases hv
  | cons w l ih =>
    by_cases hw : w = v
    · simp [map_find, hw]
    · simp only [List.map_cons, map_find, hw, if_false]
      rcases List.mem_cons.mp hv with h | h
      · exact absurd h.symm hw
      · exact ih h

theorem initial_traffic_find (g : graph_t) (hnd : g.vertices.Nodup) (v : vertex_descriptor_t)
    (hv : v ∈ g.vertices) : map_find (initial_traffic g) v = some 0 := by
  rw [initial_traffic_eq g hnd]
  exact map_find_zero_list g.vertices v hv

theorem map_find_map_assign_ne {K V : Type} [DecidableEq K] (m : unordered_map K V)
    (key k' : K) (value : V) (h : key ≠ k') :
    map_find (map_assign m key value) k' = map_find m k' := by
  induction m with
  | nil => simp [map_assign, map_find, h]
  | cons p m ih =>
    obtain ⟨k, v⟩ := p
    by_cases hk : k = key
    · subst hk
      simp [map_assign, map_find, h]
    · by_cases hv : k = k'
      · subst hv
        simp [map_assign, map_find, hk]
      · simp [map_assign, map_find, hk, hv, ih]

theorem simulate_difference_zero_law {D : Type} (ops : double_ops D) (P : D → Prop)
    (hadd : ∀ x a b, P x → P (ops.add x (ops.abs_sub a b))) (totalTraffic : Nat) :
    ∀ (entries : List (vertex_descriptor_t × Nat)) (difference : D)
      (prev : normalized_vertex_traffic_map_t D),
      P difference → P (simulate_difference ops totalTraffic entries difference prev).1 := by
  intro entries
  induction entries with
  | nil => intro difference prev h; exact h
  | cons e entries ih =>
    intro difference prev h
    obtain ⟨k, c⟩ := e
    simp only [simulate_difference]
    exact ih _ _ (hadd _ _ _ h)

theorem simulate_batches_threshold_zero {S D : Type} (gen : S → Nat → Nat → Nat × S)
    (ops : double_ops D) (g : graph_t) (agents steps : Nat)
    (hlaw : difference_never_below_zero ops) :
    ∀ (remaining batch : Nat) (t : unnormalized_vertex_traffic_map_t)
      (prev : normalized_vertex_traffic_map_t D) (s : S)
      (t' : unnormalized_vertex_traffic_map_t) (s' : S) (b : Nat),
      simulate_batches gen ops g agents steps ops.zero remaining batch t prev s =
        .ok (t', s', b) → b = batch + remaining := by
  obtain ⟨P, hzero, hadd, hlt⟩ := hlaw
  intro remaining
  induction remaining with
  | zero =>
    intro batch t prev s t' s' b h
    simp only [simulate_batches, Except.ok.injEq, Prod.mk.injEq] at h
    rw [← h.2.2]; rfl
  | succ remaining ih =>
    intro batch t prev s t' s' b h
    unfold simulate_batches at h
    simp only at h
    split at h
    · cases h
    · rename_i t1 s1 hrun
      split at h
      · rename_i hbreak
        rw [hlt _ (simulate_difference_zero_law ops P hadd _ _ _ _ hzero)] at hbreak
        cases hbreak
      · have := ih _ _ _ _ _ _ _ h
        omega

theorem exact_ops_never_below_zero : difference_never_below_zero exact_ops := by
  refine ⟨fun x => 0 ≤ x, le_refl _, ?_, ?_⟩
  · intro x a b hx
    exact add_nonneg hx (abs_nonneg _)
  · intro x hx
    simp only [exact_ops, decide_eq_false_iff_not, not_lt]
    exact hx

theorem entry_le_traffic_total (t : unnormalized_vertex_traffic_map_t)
    (e : vertex_descriptor_t × Nat) (he : e ∈ t) : e.2 ≤ traffic_total t := by
  unfold traffic_total
  induction t with
  | nil => cases he
  | cons p t ih =>
    simp only [List.map_cons, List.sum_cons]
    rcases List.mem_cons.mp he with h | h
    · rw [h]; omega
    · have := ih h
      omega

theorem map_find_of_mem_nodup {K V : Type} [DecidableEq K] (m : unordered_map K V)
    (hnd : (m.map Prod.fst).Nodup) (key : K) (value : V) (h : (key, value) ∈ m) :
    map_find m key = some value := by
  induction m with
  | nil => cases h
  | cons p m ih =>
    obtain ⟨k, v⟩ := p
    simp only [List.map_cons, List.nodup_cons] at hnd
    rcases List.mem_cons.mp h with h | h
    · simp only [Prod.mk.injEq] at h
      simp [map_find, h.1, h.2]
    · have hk : ¬ k = key := fun e => hnd.1 (e ▸ List.mem_map_of_mem Prod.fst h)
      simp only [map_find, hk, if_false]
      exact ih hnd.2 h

theorem simulate_run_one_batch {S D : Type} (gen : S → Nat → Nat → Nat × S)
    (ops : double_ops D) (component : graph_t) (agents steps : Nat) (change_threshold : D)
    (s : S) :
    simulate_run gen ops component agents steps 1 change_threshold s =
      match simulate_agents gen component steps agents (initial_traffic component) s with
      | .error e => .error e
      | .ok (t, s') => .ok (t, s', 1) := by
  unfold simulate_run
  simp only [simulate_batches]
  cases simulate_agents gen component steps agents (initial_traffic component) s with
  | error e => rfl
  | ok r =>
    obtain ⟨t, s'⟩ := r
    simp only
    split <;> rfl

theorem simulate_two_cycle_run :
    simulate first_gen exact_ops two_cycle 1 2 1 0 0 = .ok ([(1, 1), (2, 1)], 1) := by
  have hagent : simulate_agents first_gen two_cycle 2 1 (initial_traffic two_cycle) 0 =
      .ok ([(1, 1), (2, 1)], 1) := rfl
  unfold simulate
  rw [simulate_run_one_batch, hagent]

/-! ## The vertices a walk examines -/

theorem isspace_not_digit (c : Char) (h : isspace c = true) : c.isDigit = false := by
  unfold isspace at h
  simp only [Bool.or_eq_true, beq_iff_eq] at h
  rcases h with ((((h | h) | h) | h) | h) | h <;> subst h <;> decide

theorem digit_not_space (c : Char) (h : c.isDigit = true) : isspace c = false := by
  cases hs : isspace c with
  | false => rfl
  | true => rw [isspace_not_digit c hs] at h; cases h

theorem dropWhile_isspace_append (ws rest : List Char) (hws : ∀ c ∈ ws, isspace c = true)
    (hrest : ∀ c, rest.head? = some c → isspace c = false) :
    (ws ++ rest).dropWhile isspace = rest := by
  induction ws with
  | nil =>
    cases rest with
    | nil => rfl
    | cons c r =>
      simp only [List.nil_append, List.dropWhile_cons, hrest c rfl]
      rfl
  | cons w ws ih =>
    simp only [List.cons_append, List.dropWhile_cons, hws w (List.mem_cons_self _ _), if_true]
    exact ih (fun c hc => hws c (List.mem_cons_of_mem _ hc))

theorem read_digits_append :
    ∀ (digits rest : List Char) (value : Nat), (∀ c ∈ digits, c.isDigit = true) →
      no_digit_head rest →
      read_digits (digits ++ rest) value =
        (digits.foldl (fun value c => value * 10 + digit_value c) value, rest) := by
  intro digits
  induction digits with
  | nil =>
    intro rest value _ hrest
    cases rest with
    | nil => rfl
    | cons c r =>
      simp only [List.nil_append, read_digits, hrest c rfl, List.foldl_nil]
      rfl
  | cons d digits ih =>
    intro rest value hd hrest
    simp only [List.cons_append, read_digits, hd d (List.mem_cons_self _ _), if_true,
      List.foldl_cons]
    exact ih rest _ (fun c hc => hd c (List.mem_cons_of_mem _ hc)) hrest

/-- Reading a token from a stream: the value of the token, unless it does not fit 64
bits. -/
theorem read_size_t_token (t : token) (rest : List Char) (ht : is_token t)
    (hrest : no_digit_head rest) :
    read_size_t (t.1 ++ t.2 ++ rest) =
      if 2 ^ 64 ≤ t.value then none else some (t.value, rest) := by
  obtain ⟨hws, hne, hdig⟩ := ht
  obtain ⟨d, ds, hds⟩ := List.exists_cons_of_ne_nil hne
  have hd : d.isDigit = true := hdig d (by rw [hds]; exact List.mem_cons_self _ _)
  have hdrop : (t.1 ++ t.2 ++ rest).dropWhile isspace = t.2 ++ rest := by
    rw [List.append_assoc]
    apply dropWhile_isspace_append _ _ hws
    intro c hc
    rw [hds] at hc
    simp only [List.cons_append, List.head?_cons, Option.some.injEq] at hc
    rw [← hc]
    exact digit_not_space d hd
  have hhead : (t.2 ++ rest).head? = some d := by rw [hds]; rfl
  have hminus : d ≠ '-' := by
    intro h; rw [h] at hd; revert hd; decide
  have hplus : d ≠ '+' := by
    intro h; rw [h] at hd; revert hd; decide
  unfold read_size_t
  simp only [hdrop, hhead, Option.some.injEq, hminus, hplus, or_self, if_false, hd, if_true,
    decide_False, Bool.false_eq_true]
  rw [read_digits_append t.2 rest 0 hdig hrest]
  rfl

theorem no_digit_head_of_separated (t : token) (rest : List Char)
    (ht : is_separated_token t) : no_digit_head (t.1 ++ t.2 ++ rest) := by
  obtain ⟨⟨hws, _, _⟩, hne⟩ := ht
  obtain ⟨w, ws, hw⟩ := List.exists_cons_of_ne_nil hne
  intro c hc
  rw [hw] at hc
  simp only [List.cons_append, List.head?_cons, Option.some.injEq] at hc
  rw [← hc]
  exact isspace_not_digit w (hws w (by rw [hw]; exact List.mem_cons_self _ _))

theorem no_digit_head_tokens_text (ts : List token) (rest : List Char)
    (hts : ∀ s ∈ ts, is_separated_token s) (hrest : no_digit_head rest) :
    no_digit_head (tokens_text ts ++ rest) := by
  cases ts with
  | nil => exact hrest
  | cons t ts =>
    simp only [tokens_text, List.append_assoc]
    rw [← List.append_assoc]
    exact no_digit_head_of_separated t _ (hts t (List.mem_cons_self _ _))

theorem no_digit_head_records_text (rs : List record) (rest : List Char)
    (hrs : ∀ r ∈ rs, is_separated_token r.1) (hrest : no_digit_head rest) :
    no_digit_head (records_text rs ++ rest) := by
  cases rs with
  | nil => exact hrest
  | cons r rs =>
    simp only [records_text, List.append_assoc]
    rw [← List.append_assoc]
    exact no_digit_head_of_separated r.1 _ (hrs r (List.mem_cons_self _ _))

theorem no_digit_head_of_whitespace (trailing : List Char)
    (h : ∀ c ∈ trailing, isspace c = true) : no_digit_head trailing := by
  intro c hc
  cases trailing with
  | nil => cases hc
  | cons w ws =>
    simp only [List.head?_cons, Option.some.injEq] at hc
    rw [← hc]
    exact isspace_not_digit w (h w (List.mem_cons_self _ _))

theorem vertex_numbers_get (numVertices i : Nat) (hi : i < numVertices) :
    ((List.range numVertices).map (fun vertexIndex => vertexIndex + 1))[i]? = some (i + 1) := by
  rw [List.getElem?_map, List.getElem?_range hi]
  rfl

theorem read_adjacent_tokens (numVertices destinationIndex : Nat)
    (hd : destinationIndex < numVertices) (hN : numVertices < 2 ^ 64) :
    ∀ (srcs : List token) (rest : List Char) (g : graph_t),
      (∀ s ∈ srcs, is_separated_token s ∧ 1 ≤ s.value ∧ s.value ≤ numVertices) →
      no_digit_head rest →
      read_adjacent numVertices ((List.range numVertices).map (fun vertexIndex => vertexIndex + 1))
          destinationIndex srcs.length (tokens_text srcs ++ rest) g =
        .ok (rest, (srcs.map (fun s => (s.value, destinationIndex + 1))).foldl
          (fun g e => add_edge e.1 e.2 g) g) := by
  intro srcs
  induction srcs with
  | nil => intro rest g _ _; rfl
  | cons s srcs ih =>
    intro rest g hs hrest
    obtain ⟨hsep, h1, h2⟩ := hs s (List.mem_cons_self _ _)
    have hs' : ∀ s' ∈ srcs, is_separated_token s' ∧ 1 ≤ s'.value ∧ s'.value ≤ numVertices :=
      fun s' h' => hs s' (List.mem_cons_of_mem _ h')
    have hnext : no_digit_head (tokens_text srcs ++ rest) :=
      no_digit_head_tokens_text srcs rest (fun s' h' => (hs' s' h').1) hrest
    have hread : read_size_t (s.1 ++ s.2 ++ (tokens_text srcs ++ rest)) =
        some (s.value, tokens_text srcs ++ rest) := by
      rw [read_size_t_token s _ hsep.1 hnext, if_neg (by omega)]
    have hguard : ¬ (s.value < 1 ∧ numVertices < s.value) := by omega
    have hidx : (s.value + 2 ^ 64 - 1) % 2 ^ 64 = s.value - 1 := by
      have : s.value + 2 ^ 64 - 1 = (s.value - 1) + 2 ^ 64 := by omega
      rw [this, Nat.add_mod_right, Nat.mod_eq_of_lt (by omega)]
    have hsrc := vertex_numbers_get numVertices (s.value - 1) (by omega)
    have hsv : s.value - 1 + 1 = s.value := by omega
    rw [hsv] at hsrc
    have hdst := vertex_numbers_get numVertices destinationIndex hd
    simp only [List.length_cons, tokens_text, List.append_assoc]
    rw [← List.append_assoc s.1 s.2]
    simp only [read_adjacent, hread, hguard, if_false, hidx, hsrc, hdst]
    rw [ih rest _ hs' hrest]
    simp only [List.map_cons, List.foldl_cons]

theorem read_edges_records (numVertices : Nat) (hN : numVertices < 2 ^ 64) :
    ∀ (rs : List record) (m destinationIndex : Nat) (rest : List Char) (g : graph_t),
      destinationIndex + rs.length ≤ numVertices →
      (∀ r ∈ rs, is_record numVertices r) →
      no_digit_head rest →
      read_edges numVertices ((List.range numVertices).map (fun vertexIndex => vertexIndex + 1))
          (rs.length + m) destinationIndex (records_text rs ++ rest) g =
        read_edges numVertices
          ((List.range numVertices).map (fun vertexIndex => vertexIndex + 1))
          m (destinationIndex + rs.length) rest
          ((listed_edges destinationIndex rs).foldl (fun g e => add_edge e.1 e.2 g) g) := by
  intro rs
  induction rs with
  | nil =>
    intro m d rest g _ _ _
    simp only [List.length_nil, Nat.zero_add, records_text, List.nil_append, Nat.add_zero,
      listed_edges, List.foldl_nil]
  | cons r rs ih =>
    intro m d rest g hlen hrs hrest
    obtain ⟨hsep, hcount, hle, hsrcs⟩ := hrs r (List.mem_cons_self _ _)
    have hrs' : ∀ r' ∈ rs, is_record numVertices r' :=
      fun r' h' => hrs r' (List.mem_cons_of_mem _ h')
    simp only [List.length_cons] at hlen
    have hnext : no_digit_head (records_text rs ++ rest) :=
      no_digit_head_records_text rs rest (fun r' h' => (hrs' r' h').1) hrest
    have hafter : no_digit_head (tokens_text r.2 ++ (records_text rs ++ rest)) :=
      no_digit_head_tokens_text r.2 _ (fun s h' => (hsrcs s h').1) hnext
    have hread : read_size_t (r.1.1 ++ r.1.2 ++ (tokens_text r.2 ++ (records_text rs ++ rest))) =
        some (r.2.length, tokens_text r.2 ++ (records_text rs ++ rest)) := by
      rw [read_size_t_token r.1 _ hsep.1 hafter, if_neg (by omega), hcount]
    have hguard : ¬ numVertices < r.2.length := by omega
    have hadj := read_adjacent_tokens numVertices d (by omega) hN r.2
      (records_text rs ++ rest) g hsrcs hnext
    have hshape : (r :: rs).length + m = (rs.length + m) + 1 := by
      simp only [List.length_cons]; omega
    rw [hshape]
    simp only [records_text, List.append_assoc]
    rw [← List.append_assoc r.1.1 r.1.2]
    simp only [read_edges, hread, hguard, if_false, hadj]
    rw [ih m (d + 1) rest _ (by omega) hrs' hrest]
    simp only [listed_edges, List.foldl_append, List.length_cons]
    have hd : d + 1 + rs.length = d + (rs.length + 1) := by omega
    rw [hd]

theorem mem_add_edge_edges (u v : vertex_descriptor_t) (g : graph_t)
    (e : vertex_descriptor_t × vertex_descriptor_t) :
    e ∈ (add_edge u v g).edges ↔ e ∈ g.edges ∨ e = (u, v) := by
  unfold add_edge
  split
  · rename_i h
    constructor
    · exact fun he => Or.inl he
    · rintro (he | he)
      · exact he
      · rw [he]; exact h
  · simp only [List.mem_append, List.mem_singleton]

theorem add_edge_edges_nodup (u v : vertex_descriptor_t) (g : graph_t) (h : g.edges.Nodup) :
    (add_edge u v g).edges.Nodup := by
  unfold add_edge
  split
  · exact h
  · rename_i hn
    simp only
    rw [List.nodup_append]
    refine ⟨h, List.nodup_singleton _, ?_⟩
    intro a ha hb
    rw [List.mem_singleton] at hb
    exact hn (hb ▸ ha)

theorem add_edges_spec (l : List (vertex_descriptor_t × vertex_descriptor_t)) :
    ∀ g : graph_t, g.edges.Nodup →
      (l.foldl (fun g e => add_edge e.1 e.2 g) g).vertices = g.vertices ∧
      (l.foldl (fun g e => add_edge e.1 e.2 g) g).edges.Nodup ∧
      ∀ e, e ∈ (l.foldl (fun g e => add_edge e.1 e.2 g) g).edges ↔ e ∈ g.edges ∨ e ∈ l := by
  induction l with
  | nil => intro g h; exact ⟨rfl, h, fun e => by simp⟩
  | cons a l ih =>
    intro g h
    obtain ⟨hv, hnd, hmem⟩ := ih (add_edge a.1 a.2 g) (add_edge_edges_nodup _ _ g h)
    refine ⟨?_, hnd, ?_⟩
    · rw [List.foldl_cons, hv, add_edge_vertices]
    · intro e
      rw [List.foldl_cons, hmem, mem_add_edge_edges, List.mem_cons]
      constructor
      · rintro ((h1 | h1) | h1)
        · exact Or.inl h1
        · exact Or.inr (Or.inl h1)
        · exact Or.inr (Or.inr h1)
      · rintro (h1 | h1 | h1)
        · exact Or.inl (Or.inl h1)
        · exact Or.inl (Or.inr h1)
        · exact Or.inr h1

theorem add_edges_length (l : List (vertex_descriptor_t × vertex_descriptor_t))
    (vs : List vertex_descriptor_t) :
    num_edges (l.foldl (fun g e => add_edge e.1 e.2 g) ⟨vs, []⟩) = l.dedup.length := by
  obtain ⟨_, hnd, hmem⟩ := add_edges_spec l ⟨vs, []⟩ List.nodup_nil
  unfold num_edges
  apply List.Perm.length_eq
  rw [List.perm_ext_iff_of_nodup hnd (List.nodup_dedup l)]
  intro e
  rw [hmem, List.mem_dedup]
  simp

theorem add_vertices_fold (vs : List vertex_descriptor_t) :
    ∀ g : graph_t, vs.foldl (fun graph v => add_vertex v graph) g =
      ⟨g.vertices ++ vs, g.edges⟩ := by
  induction vs with
  | nil => intro g; simp
  | cons v vs ih =>
    intro g
    rw [List.foldl_cons, ih]
    simp [add_vertex]

theorem mem_listed_edges (rs : List record) :
    ∀ (destinationIndex : Nat) (s i : vertex_descriptor_t),
      (s, i) ∈ listed_edges destinationIndex rs ↔
        ∃ idx r, rs[idx]? = some r ∧ i = destinationIndex + idx + 1 ∧
          ∃ tok ∈ r.2, tok.value = s := by
  induction rs with
  | nil => intro d s i; simp [listed_edges]
  | cons r rs ih =>
    intro d s i
    simp only [listed_edges, List.mem_append, List.mem_map, Prod.mk.injEq]
    rw [ih]
    constructor
    · rintro (⟨tok, htok, hv, hi⟩ | ⟨idx, r', hr', hi, htok⟩)
      · refine ⟨0, r, ?_, ?_, tok, htok, hv⟩
        · simp
        · rw [← hi]
      · refine ⟨idx + 1, r', ?_, ?_, htok⟩
        · simpa using hr'
        · rw [hi]; show (d + 1 + idx + 1 : Nat) = d + (idx + 1) + 1; omega
    · rintro ⟨idx, r', hr', hi, tok, htok, hv⟩
      cases idx with
      | zero =>
        simp only [List.getElem?_cons_zero, Option.some.injEq] at hr'
        subst hr'
        exact Or.inl ⟨tok, htok, hv, by rw [hi]⟩
      | succ idx =>
        simp only [List.getElem?_cons_succ] at hr'
        refine Or.inr ⟨idx, r', hr', ?_, tok, htok, hv⟩
        rw [hi]; show (d + (idx + 1) + 1 : Nat) = d + 1 + idx + 1; omega

theorem only_whitespace_remaining_of_whitespace (trailing : List Char)
    (h : ∀ c ∈ trailing, isspace c = true) : only_whitespace_remaining trailing = true := by
  unfold only_whitespace_remaining
  rw [List.all_eq_true]
  exact h

theorem deserialize_input_records (n : token) (records : List record) (trailing : List Char)
    (hn : is_token n) (hmin : MIN_VERTICES ≤ n.value) (hmax : n.value ≤ MAX_VERTICES)
    (hlen : records.length = n.value) (hrec : ∀ r ∈ records, is_record n.value r)
    (htr : ∀ c ∈ trailing, isspace c = true) :
    deserialize_input (input_text n records trailing) =
      if MAX_EDGES < (listed_edges 0 records).dedup.length then
        .error .num_edges_out_of_range
      else
        .ok ((listed_edges 0 records).foldl (fun g e => add_edge e.1 e.2 g)
          ⟨(List.range n.value).map (fun vertexIndex => vertexIndex + 1), []⟩) := by
  have hN : n.value < 2 ^ 64 := by
    have : MAX_VERTICES = 10000 := rfl
    omega
  have htrail : no_digit_head trailing := no_digit_head_of_whitespace trailing htr
  have hnext : no_digit_head (records_text records ++ trailing) :=
    no_digit_head_records_text records trailing (fun r h => (hrec r h).1) htrail
  have hread : read_size_t (n.1 ++ n.2 ++ (records_text records ++ trailing)) =
      some (n.value, records_text records ++ trailing) := by
    rw [read_size_t_token n _ hn hnext, if_neg (by omega)]
  have hguard : ¬ (n.value < MIN_VERTICES ∨ MAX_VERTICES < n.value) := by omega
  have hedges := read_edges_records n.value hN records 0 0 trailing
    ⟨(List.range n.value).map (fun vertexIndex => vertexIndex + 1), []⟩
    (by omega) hrec htrail
  simp only [Nat.add_zero, Nat.zero_add, hlen] at hedges
  have hfold : ((List.range n.value).map (fun vertexIndex => vertexIndex + 1)).foldl
      (fun graph v => add_vertex v graph) graph_t.empty =
      ⟨(List.range n.value).map (fun vertexIndex => vertexIndex + 1), []⟩ := by
    rw [add_vertices_fold]
    rfl
  have hws := only_whitespace_remaining_of_whitespace trailing htr
  have hcount := add_edges_length (listed_edges 0 records)
    ((List.range n.value).map (fun vertexIndex => vertexIndex + 1))
  have hminE : MIN_EDGES = 0 := rfl
  unfold deserialize_input input_text
  simp only [hread, hguard, if_false, hfold, hedges, read_edges, hws, Bool.not_true,
    Bool.false_eq_true, hcount, hminE, Nat.not_lt_zero, false_or]

theorem read_adjacent_error (numVertices : Nat) (vertices : List vertex_descriptor_t)
    (destinationIndex : Nat) :
    ∀ (remaining : Nat) (input : List Char) (g : graph_t) (e : input_error),
      read_adjacent numVertices vertices destinationIndex remaining input g = .error e →
      e = .missing_source_index destinationIndex ∨ e = .vector_index_out_of_range := by
  intro remaining
  induction remaining with
  | zero => intro input g e h; simp [read_adjacent] at h
  | succ remaining ih =>
    intro input g e h
    unfold read_adjacent at h
    cases hr : read_size_t input with
    | none =>
      rw [hr] at h
      simp only [Except.error.injEq] at h
      exact Or.inl h.symm
    | some r =>
      obtain ⟨sourceIndex, input'⟩ := r
      rw [hr] at h
      simp only at h
      rw [if_neg (by omega)] at h
      cases hs : vertices[(sourceIndex + 2 ^ 64 - 1) % 2 ^ 64]? with
      | none =>
        rw [hs] at h
        simp only [Except.error.injEq] at h
        exact Or.inr h.symm
      | some source =>
        cases ht : vertices[destinationIndex]? with
        | none =>
          rw [hs, ht] at h
          simp only [Except.error.injEq] at h
          exact Or.inr h.symm
        | some target =>
          rw [hs, ht] at h
          exact ih _ _ _ h

theorem read_edges_error (numVertices : Nat) (vertices : List vertex_descriptor_t) :
    ∀ (remaining destinationIndex : Nat) (input : List Char) (g : graph_t) (e : input_error),
      read_edges numVertices vertices remaining destinationIndex input g = .error e →
      ∃ d, e = .missing_in_vertex_count d ∨ e = .in_vertex_count_out_of_range d ∨
        e = .missing_source_index d ∨ e = .vector_index_out_of_range := by
  intro remaining
  induction remaining with
  | zero => intro d input g e h; simp [read_edges] at h
  | succ remaining ih =>
    intro d input g e h
    unfold read_edges at h
    cases hr : read_size_t input with
    | none =>
      rw [hr] at h
      simp only [Except.error.injEq] at h
      exact ⟨d, Or.inl h.symm⟩
    | some r =>
      obtain ⟨inVertexCount, input'⟩ := r
      rw [hr] at h
      simp only at h
      by_cases hk : numVertices < inVertexCount
      · rw [if_pos hk] at h
        simp only [Except.error.injEq] at h
        exact ⟨d, Or.inr (Or.inl h.symm)⟩
      · rw [if_neg hk] at h
        cases ha : read_adjacent numVertices vertices d inVertexCount input' g with
        | error e' =>
          rw [ha] at h
          simp only [Except.error.injEq] at h
          subst h
          rcases read_adjacent_error _ _ _ _ _ _ _ ha with h1 | h1
          · exact ⟨d, Or.inr (Or.inr (Or.inl h1))⟩
          · exact ⟨d, Or.inr (Or.inr (Or.inr h1))⟩
        | ok r' =>
          obtain ⟨input'', g'⟩ := r'
          rw [ha] at h
          exact ih _ _ _ _ h

theorem deserialize_input_error (input : List Char) (e : input_error)
    (h : deserialize_input input = .error e) :
    (∀ d, e ≠ .source_index_out_of_range d) ∧
    (e = .num_vertices_out_of_range →
      ∃ numVertices rest, read_size_t input = some (numVertices, rest) ∧
        (numVertices < MIN_VERTICES ∨ MAX_VERTICES < numVertices)) := by
  unfold deserialize_input at h
  cases hr : read_size_t input with
  | none =>
    rw [hr] at h
    simp only [Except.error.injEq] at h
    subst h
    exact ⟨fun d hd => (by cases hd), fun hd => (by cases hd)⟩
  | some r =>
    obtain ⟨numVertices, rest⟩ := r
    rw [hr] at h
    simp only at h
    by_cases hn : numVertices < MIN_VERTICES ∨ MAX_VERTICES < numVertices
    · rw [if_pos hn] at h
      simp only [Except.error.injEq] at h
      subst h
      exact ⟨fun d hd => (by cases hd), fun _ => ⟨numVertices, rest, rfl, hn⟩⟩
    · rw [if_neg hn] at h
      cases he : read_edges numVertices
          ((List.range numVertices).map (fun vertexIndex => vertexIndex + 1)) numVertices 0 rest
          (((List.range numVertices).map (fun vertexIndex => vertexIndex + 1)).foldl
            (fun graph v => add_vertex v graph) graph_t.empty) with
      | error e' =>
        rw [he] at h
        simp only [Except.error.injEq] at h
        subst h
        obtain ⟨d, h1 | h1 | h1 | h1⟩ := read_edges_error _ _ _ _ _ _ _ he <;> subst h1 <;>
          exact ⟨fun d hd => (by cases hd), fun hd => (by cases hd)⟩
      | ok r' =>
        obtain ⟨rest', g⟩ := r'
        rw [he] at h
        simp only at h
        split at h
        · simp only [Except.error.injEq] at h
          subst h
          exact ⟨fun d hd => (by cases hd), fun hd => (by cases hd)⟩
        · split at h
          · simp only [Except.error.injEq] at h
            subst h
            exact ⟨fun d hd => (by cases hd), fun hd => (by cases hd)⟩
          · cases h

theorem no_digit_head_of_no_number_ahead (rest : List Char) (h : no_number_ahead rest) :
    no_digit_head rest := by
  intro c hc
  cases rest with
  | nil => cases hc
  | cons a rest =>
    simp only [List.head?_cons, Option.some.injEq] at hc
    subst hc
    by_cases hs : isspace a = true
    · exact isspace_not_digit a hs
    · have hd : (a :: rest).dropWhile isspace = a :: rest := by
        rw [List.dropWhile_cons_of_neg hs]
      exact (h a (by rw [hd]; rfl)).1

theorem read_size_t_no_number_ahead (rest : List Char) (h : no_number_ahead rest) :
    read_size_t rest = none := by
  unfold read_size_t
  cases hd : rest.dropWhile isspace with
  | nil => rfl
  | cons c tl =>
    obtain ⟨h1, h2, h3⟩ := h c (by rw [hd]; rfl)
    have hm : ¬ (some c = some '-' ∨ some c = some '+') := by
      simp only [Option.some.injEq]
      rintro (h | h)
      · exact h3 h
      · exact h2 h
    simp only [List.head?_cons, if_neg hm, h1, Bool.false_eq_true, if_false]

theorem read_adjacent_tokens_then (numVertices destinationIndex : Nat)
    (hd : destinationIndex < numVertices) (hN : numVertices < 2 ^ 64) :
    ∀ (srcs : List token) (m : Nat) (rest : List Char) (g : graph_t),
      (∀ s ∈ srcs, is_separated_token s ∧ 1 ≤ s.value ∧ s.value ≤ numVertices) →
      no_digit_head rest →
      read_adjacent numVertices ((List.range numVertices).map (fun vertexIndex => vertexIndex + 1))
          destinationIndex (srcs.length + m) (tokens_text srcs ++ rest) g =
        read_adjacent numVertices
          ((List.range numVertices).map (fun vertexIndex => vertexIndex + 1))
          destinationIndex m rest
          ((srcs.map (fun s => (s.value, destinationIndex + 1))).foldl
            (fun g e => add_edge e.1 e.2 g) g) := by
  intro srcs
  induction srcs with
  | nil =>
    intro m rest g _ _
    simp only [List.length_nil, Nat.zero_add, tokens_text, List.nil_append, List.map_nil,
      List.foldl_nil]
  | cons s srcs ih =>
    intro m rest g hs hrest
    obtain ⟨hsep, h1, h2⟩ := hs s (List.mem_cons_self _ _)
    have hs' : ∀ s' ∈ srcs, is_separated_token s' ∧ 1 ≤ s'.value ∧ s'.value ≤ numVertices :=
      fun s' h' => hs s' (List.mem_cons_of_mem _ h')
    have hnext : no_digit_head (tokens_text srcs ++ rest) :=
      no_digit_head_tokens_text srcs rest (fun s' h' => (hs' s' h').1) hrest
    have hread : read_size_t (s.1 ++ s.2 ++ (tokens_text srcs ++ rest)) =
        some (s.value, tokens_text srcs ++ rest) := by
      rw [read_size_t_token s _ hsep.1 hnext, if_neg (by omega)]
    have hguard : ¬ (s.value < 1 ∧ numVertices < s.value) := by omega
    have hidx : (s.value + 2 ^ 64 - 1) % 2 ^ 64 = s.value - 1 := by
      have : s.value + 2 ^ 64 - 1 = (s.value - 1) + 2 ^ 64 := by omega
      rw [this, Nat.add_mod_right, Nat.mod_eq_of_lt (by omega)]
    have hsrc := vertex_numbers_get numVertices (s.value - 1) (by omega)
    have hsv : s.value - 1 + 1 = s.value := by omega
    rw [hsv] at hsrc
    have hdst := vertex_numbers_get numVertices destinationIndex hd
    have hshape : (s :: srcs).length + m = (srcs.length + m) + 1 := by
      simp only [List.length_cons]; omega
    rw [hshape]
    simp only [tokens_text, List.append_assoc]
    rw [← List.append_assoc s.1 s.2]
    simp only [read_adjacent, hread, hguard, if_false, hidx, hsrc, hdst]
    rw [ih m rest _ hs' hrest]
    simp only [List.map_cons, List.foldl_cons]

/-- The decoder on a text that starts with `N` and the well-formed records of the
first vertices: the run goes on with the rest of the text. -/
theorem deserialize_input_after_records (n : token) (records : List record) (rest : List Char)
    (hn : is_token n) (hmin : MIN_VERTICES ≤ n.value) (hmax : n.value ≤ MAX_VERTICES)
    (hlen : records.length ≤ n.value) (hrec : ∀ r ∈ records, is_record n.value r)
    (hrest : no_digit_head rest) :
    (∀ e, read_edges n.value ((List.range n.value).map (fun vertexIndex => vertexIndex + 1))
          (n.value - records.length) records.length rest
          ((listed_edges 0 records).foldl (fun g e => add_edge e.1 e.2 g)
            ⟨(List.range n.value).map (fun vertexIndex => vertexIndex + 1), []⟩) = .error e →
      deserialize_input (n.1 ++ n.2 ++ (records_text records ++ rest)) = .error e) ∧
    (∀ after graph,
      read_edges n.value ((List.range n.value).map (fun vertexIndex => vertexIndex + 1))
          (n.value - records.length) records.length rest
          ((listed_edges 0 records).foldl (fun g e => add_edge e.1 e.2 g)
            ⟨(List.range n.value).map (fun vertexIndex => vertexIndex + 1), []⟩) =
        .ok (after, graph) →
      deserialize_input (n.1 ++ n.2 ++ (records_text records ++ rest)) =
        if !only_whitespace_remaining after then
          .error .extra_data
        else if MAX_EDGES < num_edges graph then
          .error .num_edges_out_of_range
        else
          .ok graph) := by
  have hN : n.value < 2 ^ 64 := by
    have : MAX_VERTICES = 10000 := rfl
    omega
  have hnext : no_digit_head (records_text records ++ rest) :=
    no_digit_head_records_text records rest (fun r h => (hrec r h).1) hrest
  have hread : read_size_t (n.1 ++ n.2 ++ (records_text records ++ rest)) =
      some (n.value, records_text records ++ rest) := by
    rw [read_size_t_token n _ hn hnext, if_neg (by omega)]
  have hguard : ¬ (n.value < MIN_VERTICES ∨ MAX_VERTICES < n.value) := by omega
  have hedges := read_edges_records n.value hN records (n.value - records.length) 0 rest
    ⟨(List.range n.value).map (fun vertexIndex => vertexIndex + 1), []⟩
    (by omega) hrec hrest
  have hsum : records.length + (n.value - records.length) = n.value := by omega
  rw [hsum, Nat.zero_add] at hedges
  have hfold : ((List.range n.value).map (fun vertexIndex => vertexIndex + 1)).foldl
      (fun graph v => add_vertex v graph) graph_t.empty =
      ⟨(List.range n.value).map (fun vertexIndex => vertexIndex + 1), []⟩ := by
    rw [add_vertices_fold]
    rfl
  have hminE : MIN_EDGES = 0 := rfl
  constructor
  · intro e he
    unfold deserialize_input
    rw [hread]
    simp only
    rw [if_neg hguard, hfold, hedges, he]
  · intro after graph he
    unfold deserialize_input
    rw [hread]
    simp only
    rw [if_neg hguard, hfold, hedges, he]
    simp only [hminE, Nat.not_lt_zero, false_or]

theorem read_adjacent_edges_nodup (numVertices : Nat) (vertices : List vertex_descriptor_t)
    (destinationIndex : Nat) :
    ∀ (remaining : Nat) (input : List Char) (g : graph_t) (rest : List Char) (g' : graph_t),
      read_adjacent numVertices vertices destinationIndex remaining input g = .ok (rest, g') →
      g.edges.Nodup → g'.edges.Nodup := by
  intro remaining
  induction remaining with
  | zero =>
    intro input g rest g' h hnd
    simp only [read_adjacent, Except.ok.injEq, Prod.mk.injEq] at h
    rw [← h.2]; exact hnd
  | succ remaining ih =>
    intro input g rest g' h hnd
    unfold read_adjacent at h
    cases hr : read_size_t input with
    | none => rw [hr] at h; cases h
    | some r =>
      obtain ⟨sourceIndex, input'⟩ := r
      rw [hr] at h
      simp only at h
      rw [if_neg (by omega)] at h
      cases hs : vertices[(sourceIndex + 2 ^ 64 - 1) % 2 ^ 64]? with
      | none => rw [hs] at h; cases h
      | some source =>
        cases ht : vertices[destinationIndex]? with
        | none => rw [hs, ht] at h; cases h
        | some target =>
          rw [hs, ht] at h
          exact ih _ _ _ _ h (add_edge_edges_nodup _ _ g hnd)

theorem read_edges_edges_nodup (numVertices : Nat) (vertices : List vertex_descriptor_t) :
    ∀ (remaining destinationIndex : Nat) (input : List Char) (g : graph_t) (rest : List Char)
      (g' : graph_t),
      read_edges numVertices vertices remaining destinationIndex input g = .ok (rest, g') →
      g.edges.Nodup → g'.edges.Nodup := by
  intro remaining
  induction remaining with
  | zero =>
    intro d input g rest g' h hnd
    simp only [read_edges, Except.ok.injEq, Prod.mk.injEq] at h
    rw [← h.2]; exact hnd
  | succ remaining ih =>
    intro d input g rest g' h hnd
    unfold read_edges at h
    cases hr : read_size_t input with
    | none => rw [hr] at h; cases h
    | some r =>
      obtain ⟨inVertexCount, input'⟩ := r
      rw [hr] at h
      simp only at h
      by_cases hk : numVertices < inVertexCount
      · rw [if_pos hk] at h; cases h
      · rw [if_neg hk] at h
        cases ha : read_adjacent numVertices vertices d inVertexCount input' g with
        | error e => rw [ha] at h; cases h
        | ok r' =>
          obtain ⟨input'', g''⟩ := r'
          rw [ha] at h
          exact ih _ _ _ _ _ h (read_adjacent_edges_nodup _ _ _ _ _ _ _ _ ha hnd)

/-- What a successful run of the decoder went through. -/
theorem deserialize_input_ok (input : List Char) (g : graph_t)
    (h : deserialize_input input = .ok g) :
    ∃ numVertices after rest,
      read_size_t input = some (numVertices, after) ∧
      MIN_VERTICES ≤ numVertices ∧ numVertices ≤ MAX_VERTICES ∧
      read_edges numVertices ((List.range numVertices).map (fun vertexIndex => vertexIndex + 1))
        numVertices 0 after
        (((List.range numVertices).map (fun vertexIndex => vertexIndex + 1)).foldl
          (fun graph v => add_vertex v graph) graph_t.empty) = .ok (rest, g) ∧
      (∀ c ∈ rest, isspace c = true) ∧ num_edges g ≤ MAX_EDGES ∧ g.edges.Nodup := by
  unfold deserialize_input at h
  cases hr : read_size_t input with
  | none => rw [hr] at h; cases h
  | some r =>
    obtain ⟨numVertices, after⟩ := r
    rw [hr] at h
    simp only at h
    by_cases hn : numVertices < MIN_VERTICES ∨ MAX_VERTICES < numVertices
    · rw [if_pos hn] at h; cases h
    · rw [if_neg hn] at h
      cases he : read_edges numVertices
          ((List.range numVertices).map (fun vertexIndex => vertexIndex + 1)) numVertices 0 after
          (((List.range numVertices).map (fun vertexIndex => vertexIndex + 1)).foldl
            (fun graph v => add_vertex v graph) graph_t.empty) with
      | error e => rw [he] at h; cases h
      | ok r' =>
        obtain ⟨rest, g'⟩ := r'
        rw [he] at h
        simp only at h
        by_cases hws : only_whitespace_remaining rest = true
        · rw [hws] at h
          simp only [Bool.not_true, Bool.false_eq_true, if_false] at h
          by_cases hcount : num_edges g' < MIN_EDGES ∨ MAX_EDGES < num_edges g'
          · rw [if_pos hcount] at h; cases h
          · rw [if_neg hcount] at h
            simp only [Except.ok.injEq] at h
            subst h
            refine ⟨numVertices, after, rest, rfl, by omega, by omega, he, ?_, by omega, ?_⟩
            · unfold only_whitespace_remaining at hws
              exact List.all_eq_true.mp hws
            · refine read_edges_edges_nodup _ _ _ _ _ _ _ _ he ?_
              rw [add_vertices_fold]
              exact List.nodup_nil
        · have hws' : only_whitespace_remaining rest = false := by
            cases hb : only_whitespace_remaining rest
            · rfl
            · exact absurd hb hws
          rw [hws'] at h
          simp only [Bool.not_false, if_true] at h
          cases h

/-! ## Writing and reading numbers -/

theorem digitChar_digit (k : Nat) (hk : k < 10) :
    (Nat.digitChar k).isDigit = true ∧ digit_value (Nat.digitChar k) = k := by
  interval_cases k <;> exact ⟨by decide, by decide⟩

theorem decimal_value_append_single (l : List Char) (c : Char) :
    decimal_value (l ++ [c]) = decimal_value l * 10 + digit_value c := by
  unfold decimal_value
  rw [List.foldl_append]
  rfl

theorem toDigitsCore_spec :
    ∀ (fuel n : Nat) (ds : List Char), n < fuel →
      ∃ l, Nat.toDigitsCore 10 fuel n ds = l ++ ds ∧ l ≠ [] ∧
        (∀ c ∈ l, c.isDigit = true) ∧ decimal_value l = n := by
  intro fuel
  induction fuel with
  | zero => intro n ds h; omega
  | succ fuel ih =>
    intro n ds h
    obtain ⟨hd1, hd2⟩ := digitChar_digit (n % 10) (Nat.mod_lt _ (by decide))
    unfold Nat.toDigitsCore
    by_cases hz : n / 10 = 0
    · simp only [hz, if_true]
      refine ⟨[Nat.digitChar (n % 10)], rfl, by simp, ?_, ?_⟩
      · intro c hc
        rw [List.mem_singleton] at hc
        rw [hc]; exact hd1
      · have : decimal_value [Nat.digitChar (n % 10)] = digit_value (Nat.digitChar (n % 10)) := by
          simp [decimal_value]
        rw [this, hd2]
        omega
    · simp only [hz, if_false]
      obtain ⟨l, hl, hne, hdig, hval⟩ := ih (n / 10) (Nat.digitChar (n % 10) :: ds) (by omega)
      refine ⟨l ++ [Nat.digitChar (n % 10)], ?_, by simp, ?_, ?_⟩
      · rw [hl]; simp
      · intro c hc
        rw [List.mem_append, List.mem_singleton] at hc
        rcases hc with hc | hc
        · exact hdig c hc
        · rw [hc]; exact hd1
      · rw [decimal_value_append_single, hval, hd2]
        omega

theorem toString_digits (number : Nat) :
    (toString number).toList ≠ [] ∧ (∀ c ∈ (toString number).toList, c.isDigit = true) ∧
    decimal_value (toString number).toList = number := by
  obtain ⟨l, hl, hne, hdig, hval⟩ := toDigitsCore_spec (number + 1) number [] (by omega)
  have h : (toString number).toList = l := by
    have : (toString number).toList = Nat.toDigitsCore 10 (number + 1) number [] := rfl
    rw [this, hl, List.append_nil]
  rw [h]
  exact ⟨hne, hdig, hval⟩

theorem number_token_value (sep : List Char) (number : Nat) :
    (number_token sep number).value = number :=
  (toString_digits number).2.2

theorem number_token_is_token (sep : List Char) (number : Nat)
    (hsep : ∀ c ∈ sep, isspace c = true) : is_token (number_token sep number) :=
  ⟨hsep, (toString_digits number).1, (toString_digits number).2.1⟩

/-! ## The decoder of the output (output.cpp) -/

theorem set_insert_nodup {K : Type} [DecidableEq K] (s : List K) (x : K) (h : s.Nodup) :
    (set_insert s x).Nodup := by
  unfold set_insert
  split
  · exact h
  · rename_i hx
    rw [List.nodup_append]
    refine ⟨h, List.nodup_singleton _, ?_⟩
    intro a ha hb
    rw [List.mem_singleton] at hb
    exact hx (hb ▸ ha)

theorem set_insert_fold {K : Type} [DecidableEq K] (l : List K) :
    ∀ s : List K, s.Nodup →
      (l.foldl set_insert s).Nodup ∧ ∀ x, x ∈ l.foldl set_insert s ↔ x ∈ s ∨ x ∈ l := by
  induction l with
  | nil => intro s h; exact ⟨h, fun x => by simp⟩
  | cons a l ih =>
    intro s h
    obtain ⟨hnd, hmem⟩ := ih (set_insert s a) (set_insert_nodup s a h)
    refine ⟨hnd, ?_⟩
    intro x
    rw [List.foldl_cons, hmem, mem_set_insert, List.mem_cons]
    constructor
    · rintro ((h1 | h1) | h1)
      · exact Or.inl h1
      · exact Or.inr (Or.inl h1)
      · exact Or.inr (Or.inr h1)
    · rintro (h1 | h1 | h1)
      · exact Or.inl (Or.inl h1)
      · exact Or.inl (Or.inr h1)
      · exact Or.inr h1

theorem read_vertices_tokens :
    ∀ (vs : List token) (m vertexIndex : Nat) (rest : List Char)
      (vertices : List vertex_properties_s),
      (∀ t ∈ vs, is_separated_token t ∧ t.value < 2 ^ 64) →
      no_digit_head rest →
      read_vertices (vs.length + m) vertexIndex (tokens_text vs ++ rest) vertices =
        read_vertices m (vertexIndex + vs.length) rest
          ((vs.map token.value).foldl set_insert vertices) := by
  intro vs
  induction vs with
  | nil =>
    intro m i rest vertices _ _
    simp only [List.length_nil, Nat.zero_add, tokens_text, List.nil_append, Nat.add_zero,
      List.map_nil, List.foldl_nil]
  | cons t vs ih =>
    intro m i rest vertices hvs hrest
    obtain ⟨hsep, hlt⟩ := hvs t (List.mem_cons_self _ _)
    have hvs' : ∀ t' ∈ vs, is_separated_token t' ∧ t'.value < 2 ^ 64 :=
      fun t' h' => hvs t' (List.mem_cons_of_mem _ h')
    have hnext : no_digit_head (tokens_text vs ++ rest) :=
      no_digit_head_tokens_text vs rest (fun t' h' => (hvs' t' h').1) hrest
    have hread : read_size_t (t.1 ++ t.2 ++ (tokens_text vs ++ rest)) =
        some (t.value, tokens_text vs ++ rest) := by
      rw [read_size_t_token t _ hsep.1 hnext, if_neg (by omega)]
    have hshape : (t :: vs).length + m = (vs.length + m) + 1 := by
      simp only [List.length_cons]; omega
    rw [hshape]
    simp only [tokens_text, List.append_assoc]
    rw [← List.append_assoc t.1 t.2]
    simp only [read_vertices, hread]
    rw [ih m (i + 1) rest _ hvs' hrest]
    simp only [List.map_cons, List.foldl_cons, List.length_cons]
    have hi : i + 1 + vs.length = i + (vs.length + 1) := by omega
    rw [hi]

/-- The decoder of the output on a text that starts with the count and some numbers:
the run goes on with the rest of the text. -/
theorem deserialize_output_after_numbers (m : token) (vs : List token) (rest : List Char)
    (hm : is_token m) (hmax : m.value ≤ MAX_VERTICES) (hlen : vs.length ≤ m.value)
    (hvs : ∀ t ∈ vs, is_separated_token t ∧ t.value < 2 ^ 64) (hrest : no_digit_head rest) :
    (∀ e, read_vertices (m.value - vs.length) vs.length rest
          ((vs.map token.value).foldl set_insert []) = .error e →
      deserialize_output (m.1 ++ m.2 ++ (tokens_text vs ++ rest)) = .error e) ∧
    (∀ after vertices, read_vertices (m.value - vs.length) vs.length rest
          ((vs.map token.value).foldl set_insert []) = .ok (after, vertices) →
      deserialize_output (m.1 ++ m.2 ++ (tokens_text vs ++ rest)) =
        if !only_whitespace_remaining after then .error .extra_data else .ok vertices) := by
  have hM : m.value < 2 ^ 64 := by
    have : MAX_VERTICES = 10000 := rfl
    omega
  have hnext : no_digit_head (tokens_text vs ++ rest) :=
    no_digit_head_tokens_text vs rest (fun t h => (hvs t h).1) hrest
  have hread : read_size_t (m.1 ++ m.2 ++ (tokens_text vs ++ rest)) =
      some (m.value, tokens_text vs ++ rest) := by
    rw [read_size_t_token m _ hm hnext, if_neg (by omega)]
  have hrun := read_vertices_tokens vs (m.value - vs.length) 0 rest [] hvs hrest
  have hsum : vs.length + (m.value - vs.length) = m.value := by omega
  rw [hsum, Nat.zero_add] at hrun
  constructor
  · intro e he
    unfold deserialize_output
    rw [hread]
    simp only
    rw [if_neg (by omega), hrun, he]
  · intro after vertices he
    unfold deserialize_output
    rw [hread]
    simp only
    rw [if_neg (by omega), hrun, he]

/-! ## The serializer of the output (output.cpp) -/

theorem intercalate_go_eq (s : String) :
    ∀ (l : List String) (acc : String),
      String.intercalate.go acc s l = acc ++ String.intercalate.go "" s l := by
  intro l
  induction l with
  | nil => intro acc; simp [String.intercalate.go]
  | cons a l ih =>
    intro acc
    simp only [String.intercalate.go]
    rw [ih (acc ++ s ++ a), ih ("" ++ s ++ a)]
    simp only [String.append_assoc, String.empty_append]

theorem intercalate_cons_cons (s a b : String) (l : List String) :
    s.intercalate (a :: b :: l) = a ++ s ++ s.intercalate (b :: l) := by
  simp only [String.intercalate, String.intercalate.go]
  rw [intercalate_go_eq s l (a ++ s ++ b), intercalate_go_eq s l b]
  simp only [String.append_assoc]

theorem write_numbers_eq_intercalate :
    ∀ numbers : List Nat, write_numbers numbers = " ".intercalate (numbers.map toString)
  | [] => rfl
  | [_] => rfl
  | a :: b :: rest => by
    rw [write_numbers, write_numbers_eq_intercalate (b :: rest)]
    simp only [List.map_cons]
    rw [intercalate_cons_cons]

theorem write_numbers_tokens :
    ∀ (number : Nat) (numbers : List Nat),
      (write_numbers (number :: numbers)).toList =
        (toString number).toList ++ tokens_text (numbers.map (number_token [' ']))
  | _, [] => by simp [write_numbers, tokens_text]
  | a, b :: rest => by
    rw [write_numbers, String.toList, String.data_append, String.data_append]
    have h := write_numbers_tokens b rest
    rw [String.toList] at h
    rw [h]
    simp only [List.map_cons, tokens_text, number_token, String.toList, List.append_assoc]

theorem set_insert_fold_nodup {K : Type} [DecidableEq K] (l : List K) :
    ∀ s : List K, (s ++ l).Nodup → l.foldl set_insert s = s ++ l := by
  induction l with
  | nil => intro s _; simp
  | cons a l ih =>
    intro s h
    have ha : a ∉ s := by
      intro hs
      rw [List.nodup_append] at h
      exact h.2.2 hs (List.mem_cons_self _ _)
    have hstep : set_insert s a = s ++ [a] := by
      unfold set_insert
      rw [if_neg ha]
    rw [List.foldl_cons, hstep, ih (s ++ [a]) (by simpa using h)]
    simp

theorem serialize_output_round_trip (vertices : List vertex_properties_s)
    (hnd : vertices.Nodup) (hlen : vertices.length ≤ MAX_VERTICES)
    (hsize : ∀ v ∈ vertices, v < 2 ^ 64) :
    deserialize_output (serialize_output vertices).toList = .ok vertices := by
  have hm := number_token_is_token [] vertices.length (fun c hc => by cases hc)
  have hmv := number_token_value [] vertices.length
  cases vertices with
  | nil => rfl
  | cons v vs =>
    have htext : (serialize_output (v :: vs)).toList =
        (number_token [] (v :: vs).length).1 ++ (number_token [] (v :: vs).length).2 ++
          (tokens_text (number_token ['\n'] v :: vs.map (number_token [' '])) ++ []) := by
      unfold serialize_output
      rw [String.toList, String.data_append, String.data_append]
      have h := write_numbers_tokens v vs
      rw [String.toList] at h
      rw [h]
      simp only [tokens_text, number_token, String.toList, List.append_assoc, List.nil_append,
        List.append_nil]
    have htokens : ∀ t ∈ number_token ['\n'] v :: vs.map (number_token [' ']),
        is_separated_token t ∧ t.value < 2 ^ 64 := by
      intro t ht
      rw [List.mem_cons, List.mem_map] at ht
      rcases ht with rfl | ⟨w, hw, rfl⟩
      · refine ⟨⟨number_token_is_token _ _ (fun c hc => ?_), by simp [number_token]⟩, ?_⟩
        · rw [List.mem_singleton] at hc
          rw [hc]; rfl
        · rw [number_token_value]
          exact hsize v (List.mem_cons_self _ _)
      · refine ⟨⟨number_token_is_token _ _ (fun c hc => ?_), by simp [number_token]⟩, ?_⟩
        · rw [List.mem_singleton] at hc
          rw [hc]; rfl
        · rw [number_token_value]
          exact hsize w (List.mem_cons_of_mem _ hw)
    have hcount : (number_token ['\n'] v :: vs.map (number_token [' '])).length =
        (number_token [] (v :: vs).length).value := by
      rw [hmv]
      simp
    have hvalues : (number_token ['\n'] v :: vs.map (number_token [' '])).map token.value =
        v :: vs := by
      simp only [List.map_cons, List.map_map, number_token_value]
      congr 1
      apply List.map_id''
      intro w
      exact number_token_value _ w
    rw [htext]
    rw [(deserialize_output_after_numbers _ _ [] hm (by rw [hmv]; exact hlen) (by omega) htokens
      (fun c hc => by cases hc)).2 [] (v :: vs) (by
        rw [hcount, Nat.sub_self, hvalues, set_insert_fold_nodup _ [] (by simpa using hnd)]
        rfl)]
    rfl

/-! ## The solver -/

theorem process_subgraphs_singletons {S D : Type} (gen : S → Nat → Nat → Nat × S)
    (ops : double_ops D)
    (std_sort : (vertex_descriptor_t × Nat → vertex_descriptor_t × Nat → Bool) →
      List (vertex_descriptor_t × Nat) → List (vertex_descriptor_t × Nat))
    (agents steps batches : Nat) (changeThreshold : D) :
    ∀ (subgraphs : List graph_t) (cutVertices : List vertex_properties_s) (s : S),
      (∀ sg ∈ subgraphs, num_vertices sg = 1) →
      solver.process_subgraphs gen ops std_sort agents steps batches changeThreshold subgraphs
        cutVertices s = .ok (cutVertices, s) := by
  intro subgraphs
  induction subgraphs with
  | nil => intro cutVertices s _; rfl
  | cons sg rest ih =>
    intro cutVertices s h
    unfold solver.process_subgraphs
    simp only [h sg (List.mem_cons_self _ _), if_true]
    exact ih cutVertices s (fun sg' hsg' => h sg' (List.mem_cons_of_mem _ hsg'))

theorem strongly_connected_cycle (g : graph_t) (u v : vertex_descriptor_t) (hne : u ≠ v)
    (h : strongly_connected g u v) : has_cycle g := by
  obtain ⟨huv, hvu⟩ := h
  have h1 : Relation.TransGen g.adj u v := by
    rcases Relation.reflTransGen_iff_eq_or_transGen.mp huv with h | h
    · exact absurd h.symm hne
    · exact h
  have h2 : Relation.TransGen g.adj v u := by
    rcases Relation.reflTransGen_iff_eq_or_transGen.mp hvu with h | h
    · exact absurd h hne
    · exact h
  exact ⟨u, h1.trans h2⟩

theorem length_eq_one_of_all_eq (l : List vertex_descriptor_t) (hnd : l.Nodup) (hne : l ≠ [])
    (h : ∀ a ∈ l, ∀ b ∈ l, a = b) : l.length = 1 := by
  match l, hnd, hne, h with
  | [], _, hne, _ => exact absurd rfl hne
  | [_], _, _, _ => rfl
  | a :: b :: rest, hnd, _, h =>
    have hab : a = b := h a (by simp) b (by simp)
    rw [hab] at hnd
    simp at hnd

theorem tarjans_subgraphs_acyclic (sc : graph_t → Nat × List Nat) (g : graph_t)
    (hwf : g.wf) (hsc : strong_components_contract g (sc g)) (hacyc : ¬ has_cycle g) :
    ∀ sg ∈ tarjans_subgraphs sc g, num_vertices sg = 1 ∧ sg.edges = [] := by
  intro sg hsg
  obtain ⟨k, hk⟩ := List.mem_iff_getElem?.mp hsg
  obtain ⟨hlt, hverts, hedges⟩ := tarjans_subgraphs_spec sc g hwf k sg hk
  have hinj : ∀ a ∈ g.vertices, ∀ b ∈ g.vertices,
      component_of g (sc g) a = component_of g (sc g) b → a = b := by
    intro a ha b hb hab
    by_contra hne
    exact hacyc (strongly_connected_cycle g a b hne
      ((contract_component_of g (sc g) hsc a b ha hb).mp hab))
  constructor
  · unfold num_vertices
    rw [hverts]
    apply length_eq_one_of_all_eq
    · exact List.Nodup.sublist (component_vertices_sublist g (sc g) k) hwf.1
    · obtain ⟨i, hi, hik⟩ := List.mem_iff_getElem.mp (hsc.2.2.1 k hlt)
      have hi' : i < g.vertices.length := by rw [← hsc.1]; exact hi
      have hmem : g.vertices[i] ∈ component_vertices g (sc g) k := by
        rw [mem_component_vertices g (sc g) k _ hwf.1]
        refine ⟨List.getElem_mem _, ?_⟩
        unfold component_of
        rw [List.indexOf_getElem hwf.1 i hi', List.getD_eq_getElem?_getD,
          List.getElem?_eq_getElem hi]
        exact hik
      exact List.ne_nil_of_mem hmem
    · intro a ha b hb
      rw [mem_component_vertices g (sc g) k _ hwf.1] at ha hb
      exact hinj a ha.1 b hb.1 (by rw [ha.2, hb.2])
  · apply List.eq_nil_iff_forall_not_mem.mpr
    intro e he
    obtain ⟨he', hsame, _⟩ := (hedges e).mp he
    have hloop : e.1 = e.2 := hinj _ (hwf.2.2 e he').1 _ (hwf.2.2 e he').2 hsame
    apply hacyc
    refine ⟨e.1, Relation.TransGen.single ?_⟩
    have hpair : (e.1, e.1) = e := Prod.ext rfl hloop
    unfold graph_t.adj
    rw [hpair]
    exact he'

/-- For a graph whose edges all lead from a smaller to a larger vertex number, numbering
the components by vertex index meets the contract of `boost::strong_components`. -/
theorem contract_of_increasing (g : graph_t) (hnd : g.vertices.Nodup)
    (hinc : ∀ e ∈ g.edges, e.1 < e.2) :
    strong_components_contract g (g.vertices.length, List.range g.vertices.length) := by
  have hle : ∀ a b, reachable g a b → a ≤ b := by
    intro a b hab
    induction hab with
    | refl => exact le_refl _
    | tail _ hbc ih => exact le_trans ih (le_of_lt (hinc (_, _) hbc))
  refine ⟨by simp, ?_, ?_, ?_⟩
  · intro c hc
    simpa using hc
  · intro k hk
    simpa using hk
  · intro i j u v hi hj
    obtain ⟨hi', hiu⟩ := List.getElem?_eq_some_iff.mp hi
    obtain ⟨hj', hjv⟩ := List.getElem?_eq_some_iff.mp hj
    simp only
    rw [List.getElem?_range hi', List.getElem?_range hj', Option.some.injEq]
    constructor
    · intro hij
      subst hij
      rw [hiu] at hjv
      subst hjv
      exact ⟨Relation.ReflTransGen.refl, Relation.ReflTransGen.refl⟩
    · rintro ⟨h1, h2⟩
      have huv : u = v := le_antisymm (hle u v h1) (hle v u h2)
      rw [← hiu, ← hjv] at huv
      exact (List.Nodup.getElem_inj_iff hnd).mp huv

theorem contract_of_strongly_connected (g : graph_t) (hne : g.vertices ≠ [])
    (hall : ∀ u ∈ g.vertices, ∀ v ∈ g.vertices, strongly_connected g u v) :
    strong_components_contract g (one_component g) := by
  refine ⟨by simp [one_component], ?_, ?_, ?_⟩
  · intro c hc
    simp only [one_component, List.mem_replicate] at hc
    simp [one_component, hc.2]
  · intro k hk
    simp only [one_component] at hk
    have hk0 : k = 0 := by omega
    subst hk0
    simp only [one_component, List.mem_replicate, and_true]
    exact fun h => hne (List.length_eq_zero.mp h)
  · intro i j u v hi hj
    obtain ⟨hi', _⟩ := List.getElem?_eq_some_iff.mp hi
    obtain ⟨hj', _⟩ := List.getElem?_eq_some_iff.mp hj
    simp only [one_component, List.getElem?_replicate, hi', hj', if_true, true_iff]
    exact hall u (List.getElem?_mem hi) v (List.getElem?_mem hj)

theorem two_cycle_strongly_connected :
    ∀ u ∈ two_cycle.vertices, ∀ v ∈ two_cycle.vertices, strongly_connected two_cycle u v := by
  have h12 : reachable two_cycle 1 2 :=
    Relation.ReflTransGen.single (by unfold graph_t.adj two_cycle; decide)
  have h21 : reachable two_cycle 2 1 :=
    Relation.ReflTransGen.single (by unfold graph_t.adj two_cycle; decide)
  intro u hu v hv
  simp only [two_cycle, List.mem_cons, List.mem_singleton, List.not_mem_nil, or_false] at hu hv
  rcases hu with rfl | rfl <;> rcases hv with rfl | rfl
  · exact ⟨Relation.ReflTransGen.refl, Relation.ReflTransGen.refl⟩
  · exact ⟨h12, h21⟩
  · exact ⟨h21, h12⟩
  · exact ⟨Relation.ReflTransGen.refl, Relation.ReflTransGen.refl⟩

theorem self_loop_input_contract :
    strong_components_contract self_loop_input (index_components self_loop_input) := by
  have hreach : ∀ a b, reachable self_loop_input a b → a = b := by
    intro a b hab
    induction hab with
    | refl => rfl
    | tail _ hbc ih =>
      have : (_, _) ∈ [((1 : Nat), (1 : Nat))] := hbc
      simp only [List.mem_singleton, Prod.mk.injEq] at this
      rw [ih, this.1, this.2]
  refine ⟨by decide, by decide, by decide, ?_⟩
  intro i j u v hi hj
  obtain ⟨hi', hiu⟩ := List.getElem?_eq_some_iff.mp hi
  obtain ⟨hj', hjv⟩ := List.getElem?_eq_some_iff.mp hj
  have hnd : self_loop_input.vertices.Nodup := by decide
  simp only [index_components]
  rw [List.getElem?_range hi', List.getElem?_range hj', Option.some.injEq]
  constructor
  · intro hij
    subst hij
    rw [hiu] at hjv
    subst hjv
    exact ⟨Relation.ReflTransGen.refl, Relation.ReflTransGen.refl⟩
  · rintro ⟨h1, _⟩
    have huv := hreach u v h1
    rw [← hiu, ← hjv] at huv
    exact (List.Nodup.getElem_inj_iff hnd).mp huv

/-! ## The verifier (verifier.cpp) -/

theorem remove_listed_spec (cut : List vertex_properties_s) :
    ∀ (l : List vertex_descriptor_t) (g : graph_t),
      verifier.remove_listed cut l g =
        ⟨g.vertices.filter (fun v => decide (¬ (v ∈ l ∧ v ∈ cut))),
          g.edges.filter (fun e => decide (¬ (e.1 ∈ l ∧ e.1 ∈ cut)) &&
            decide (¬ (e.2 ∈ l ∧ e.2 ∈ cut)))⟩ := by
  intro l
  induction l with
  | nil =>
    intro g
    simp [verifier.remove_listed]
  | cons a l ih =>
    intro g
    unfold verifier.remove_listed
    by_cases ha : a ∈ cut
    · rw [if_pos ha, ih]
      simp only [remove_vertex, clear_vertex, List.filter_filter]
      congr 1
      · apply List.filter_congr
        intro v _
        by_cases hva : v = a
        · subst hva
          simp [ha]
        · simp [hva]
      · apply List.filter_congr
        intro e _
        by_cases h1 : e.1 = a <;> by_cases h2 : e.2 = a <;> simp [h1, h2, ha]
    · rw [if_neg ha, ih]
      congr 1
      · apply List.filter_congr
        intro v _
        by_cases hva : v = a
        · subst hva
          simp [ha]
        · simp [hva]
      · apply List.filter_congr
        intro e _
        by_cases h1 : e.1 = a <;> by_cases h2 : e.2 = a <;> simp [h1, h2, ha]

theorem remove_listed_vertices (g : graph_t) (cut : List vertex_properties_s) (hwf : g.wf) :
    verifier.remove_listed cut g.vertices g = remove_vertices g cut := by
  rw [remove_listed_spec]
  unfold remove_vertices
  congr 1
  · apply List.filter_congr
    intro v hv
    simp [hv]
  · apply List.filter_congr
    intro e he
    simp [(hwf.2.2 e he).1, (hwf.2.2 e he).2]

theorem remove_vertices_endpoints (g : graph_t) (cut : List vertex_descriptor_t) (hwf : g.wf) :
    ∀ e ∈ (remove_vertices g cut).edges,
      e.1 ∈ (remove_vertices g cut).vertices ∧ e.2 ∈ (remove_vertices g cut).vertices := by
  intro e he
  simp only [remove_vertices, List.mem_filter, Bool.and_eq_true, decide_eq_true_eq] at he ⊢
  exact ⟨⟨(hwf.2.2 e he.1).1, he.2.1⟩, ⟨(hwf.2.2 e he.1).2, he.2.2⟩⟩

theorem remove_vertices_congr (g : graph_t) (cut others : List vertex_descriptor_t)
    (hwf : g.wf) (h : ∀ v ∈ g.vertices, v ∈ others ↔ v ∈ cut) :
    remove_vertices g others = remove_vertices g cut := by
  unfold remove_vertices
  congr 1
  · apply List.filter_congr
    intro v hv
    simp [h v hv]
  · apply List.filter_congr
    intro e he
    simp [h e.1 (hwf.2.2 e he).1, h e.2 (hwf.2.2 e he).2]

/-! ## The cut set of the solver -/

theorem copy_edges_edges_nodup (vertices : List vertex_descriptor_t) (comp : List Nat) (k : Nat) :
    ∀ (pending : List (vertex_descriptor_t × vertex_descriptor_t)) (g : graph_t),
      g.edges.Nodup → (copy_edges vertices comp k pending g).edges.Nodup := by
  intro pending
  induction pending with
  | nil => intro g h; exact h
  | cons e pending ih =>
    intro g h
    obtain ⟨s, t⟩ := e
    unfold copy_edges
    split
    · exact ih _ (add_edge_edges_nodup _ _ g h)
    · exact ih _ h

theorem tarjans_subgraphs_wf (sc : graph_t → Nat × List Nat) (g : graph_t) (hwf : g.wf) :
    ∀ sg ∈ tarjans_subgraphs sc g, sg.wf ∧ ∀ v ∈ sg.vertices, v ∈ g.vertices := by
  intro sg hsg
  obtain ⟨k, hk⟩ := List.mem_iff_getElem?.mp hsg
  obtain ⟨hlt, hverts, hedges⟩ := tarjans_subgraphs_spec sc g hwf k sg hk
  have hsub := component_vertices_sublist g (sc g) k
  refine ⟨⟨?_, ?_, ?_⟩, ?_⟩
  · rw [hverts]
    exact List.Nodup.sublist hsub hwf.1
  · rw [tarjans_subgraphs_get sc g k hlt] at hk
    simp only [Option.some.injEq] at hk
    rw [← hk]
    exact copy_edges_edges_nodup _ _ _ _ _ List.nodup_nil
  · intro e he
    obtain ⟨hg, h1, h2⟩ := (hedges e).mp he
    rw [hverts, mem_component_vertices g (sc g) k _ hwf.1,
      mem_component_vertices g (sc g) k _ hwf.1]
    exact ⟨⟨(hwf.2.2 e hg).1, h2⟩, ⟨(hwf.2.2 e hg).2, by rw [← h1]; exact h2⟩⟩
  · intro v hv
    rw [hverts] at hv
    exact hsub.subset hv

theorem collect_cut_nodup (m : unordered_map vertex_properties_s vertex_descriptor_t) :
    ∀ (l : List vertex_descriptor_t) (cut : List vertex_properties_s),
      cut.Nodup → (solver.collect_cut m l cut).Nodup := by
  intro l
  induction l with
  | nil => intro cut h; exact h
  | cons x l ih =>
    intro cut h
    unfold solver.collect_cut
    cases map_find m x with
    | none => exact ih _ (set_insert_nodup cut x h)
    | some _ => exact ih _ h

theorem process_subgraphs_cut {S D : Type} (gen : S → Nat → Nat → Nat × S)
    (ops : double_ops D)
    (std_sort : (vertex_descriptor_t × Nat → vertex_descriptor_t × Nat → Bool) →
      List (vertex_descriptor_t × Nat) → List (vertex_descriptor_t × Nat))
    (hsort : ∀ cmp l, (std_sort cmp l).Perm l)
    (agents steps batches : Nat) (changeThreshold : D) :
    ∀ (subgraphs : List graph_t) (cutVertices : List vertex_properties_s) (s : S)
      (cut : List vertex_properties_s) (s' : S),
      (∀ sg ∈ subgraphs, sg.wf) →
      solver.process_subgraphs gen ops std_sort agents steps batches changeThreshold subgraphs
        cutVertices s = .ok (cut, s') →
      cutVertices.Nodup →
      cut.Nodup ∧ ∀ v ∈ cut, v ∈ cutVertices ∨ ∃ sg ∈ subgraphs, v ∈ sg.vertices := by
  intro subgraphs
  induction subgraphs with
  | nil =>
    intro cutVertices s cut s' _ h hnd
    simp only [solver.process_subgraphs, Except.ok.injEq, Prod.mk.injEq] at h
    rw [← h.1]
    exact ⟨hnd, fun v hv => Or.inl hv⟩
  | cons sg rest ih =>
    intro cutVertices s cut s' hwf h hnd
    have hwf' : ∀ sg' ∈ rest, sg'.wf := fun sg' h' => hwf sg' (List.mem_cons_of_mem _ h')
    unfold solver.process_subgraphs at h
    simp only at h
    by_cases hone : num_vertices sg = 1
    · rw [if_pos hone] at h
      obtain ⟨h1, h2⟩ := ih cutVertices s cut s' hwf' h hnd
      refine ⟨h1, fun v hv => ?_⟩
      rcases h2 v hv with h3 | ⟨sg', hsg', h3⟩
      · exact Or.inl h3
      · exact Or.inr ⟨sg', List.mem_cons_of_mem _ hsg', h3⟩
    · rw [if_neg hone] at h
      cases hsim : simulate gen ops sg agents steps batches changeThreshold s with
      | error e => rw [hsim] at h; cases h
      | ok r =>
        obtain ⟨traffic, s1⟩ := r
        rw [hsim] at h
        simp only at h
        obtain ⟨b, hrun⟩ := simulate_ok_run gen ops sg agents steps batches changeThreshold s
          traffic s1 hsim
        obtain ⟨hkeys, _⟩ := simulate_run_sum gen ops sg agents steps batches changeThreshold s
          (hwf sg (List.mem_cons_self _ _)) traffic s1 b hrun
        obtain ⟨h1, h2⟩ := ih _ s1 cut s' hwf' h (collect_cut_nodup _ _ _ hnd)
        refine ⟨h1, fun v hv => ?_⟩
        rcases h2 v hv with h3 | ⟨sg', hsg', h3⟩
        · rw [mem_collect_cut] at h3
          rcases h3 with h4 | ⟨h4, _⟩
          · exact Or.inl h4
          · refine Or.inr ⟨sg, List.mem_cons_self _ _, ?_⟩
            unfold mapsort at h4
            simp only [List.mem_map] at h4
            obtain ⟨p, hp, hpv⟩ := h4
            rw [← hkeys, ← hpv]
            exact List.mem_map_of_mem _ ((hsort _ _).mem_iff.mp hp)
        · exact Or.inr ⟨sg', List.mem_cons_of_mem _ hsg', h3⟩

theorem cut_vertices_spec {S D : Type} (sc : graph_t → Nat × List Nat)
    (gen : S → Nat → Nat → Nat × S) (ops : double_ops D)
    (std_sort : (vertex_descriptor_t × Nat → vertex_descriptor_t × Nat → Bool) →
      List (vertex_descriptor_t × Nat) → List (vertex_descriptor_t × Nat))
    (hsort : ∀ cmp l, (std_sort cmp l).Perm l)
    (g : graph_t) (agents steps batches : Nat) (changeThreshold : D) (s : S)
    (cut : List vertex_properties_s) (hwf : g.wf)
    (h : solver.cut_vertices sc gen ops std_sort g agents steps batches changeThreshold s =
      .ok cut) :
    cut.Nodup ∧ ∀ v ∈ cut, v ∈ g.vertices := by
  unfold solver.cut_vertices at h
  simp only at h
  cases hp : solver.process_subgraphs gen ops std_sort agents steps batches changeThreshold
      (tarjans_subgraphs sc g) [] s with
  | error e => rw [hp] at h; cases h
  | ok r =>
    obtain ⟨cut', s'⟩ := r
    rw [hp] at h
    simp only [Except.ok.injEq] at h
    subst h
    obtain ⟨h1, h2⟩ := process_subgraphs_cut gen ops std_sort hsort agents steps batches
      changeThreshold _ [] s cut' s' (fun sg hsg => (tarjans_subgraphs_wf sc g hwf sg hsg).1) hp
      List.nodup_nil
    refine ⟨h1, fun v hv => ?_⟩
    rcases h2 v hv with h3 | ⟨sg, hsg, h3⟩
    · cases h3
    · exact (tarjans_subgraphs_wf sc g hwf sg hsg).2 v h3

theorem ordered_insert_perm {α : Type} (lt : α → α → Bool) (a : α) :
    ∀ l : List α, (ordered_insert lt a l).Perm (a :: l) := by
  intro l
  induction l with
  | nil => exact List.Perm.refl _
  | cons b l ih =>
    unfold ordered_insert
    split
    · exact List.Perm.refl _
    · exact (List.Perm.cons b ih).trans (List.Perm.swap a b l)

theorem insertion_sort_perm {α : Type} (lt : α → α → Bool) :
    ∀ l : List α, (insertion_sort lt l).Perm l := by
  intro l
  induction l with
  | nil => exact List.Perm.refl _
  | cons a l ih =>
    unfold insertion_sort at ih ⊢
    rw [List.foldr_cons]
    exact (ordered_insert_perm lt a _).trans (List.Perm.cons a ih)

theorem two_cycle_cut :
    solver.cut_vertices one_component first_gen exact_ops insertion_sort two_cycle 1 2 1 0 0 =
      .ok [1] := by
  have hsub : tarjans_subgraphs one_component two_cycle = [two_cycle] := by decide
  unfold solver.cut_vertices
  simp only [hsub]
  unfold solver.process_subgraphs
  have hne : ¬ num_vertices two_cycle = 1 := by decide
  simp only [if_neg hne, simulate_two_cycle_run]
  rfl

/-! ## The splitter on a graph without a cycle -/

theorem acyclic_component_count (g : graph_t) (r : Nat × List Nat) (hwf : g.wf)
    (hsc : strong_components_contract g r) (hacyc : ¬ has_cycle g) :
    r.1 = g.vertices.length := by
  obtain ⟨hlen, hlt, hall, hiff⟩ := hsc
  have hnd : r.2.Nodup := by
    rw [List.nodup_iff_getElem?_ne_getElem?]
    intro i j hij hj heq
    have hi' : i < g.vertices.length := by omega
    have hj' : j < g.vertices.length := by omega
    have hsc := (hiff i j g.vertices[i] g.vertices[j] (List.getElem?_eq_getElem hi')
      (List.getElem?_eq_getElem hj')).mp heq
    have hne : g.vertices[i] ≠ g.vertices[j] := by
      intro h
      have := (List.Nodup.getElem_inj_iff hwf.1).mp h
      omega
    exact hacyc (strongly_connected_cycle g _ _ hne hsc)
  have hperm : r.2.Perm (List.range r.1) := by
    rw [List.perm_ext_iff_of_nodup hnd (List.nodup_range r.1)]
    intro k
    rw [List.mem_range]
    exact ⟨hlt k, hall k⟩
  rw [← hlen, hperm.length_eq, List.length_range]

/-! ## The serializer of the input (input.cpp) -/

theorem mem_ordered_set_insert (x y : Nat) :
    ∀ s : List Nat, y ∈ ordered_set_insert x s ↔ y = x ∨ y ∈ s := by
  intro s
  induction s with
  | nil => simp [ordered_set_insert]
  | cons z s ih =>
    unfold ordered_set_insert
    by_cases h1 : x < z
    · rw [if_pos h1]
      simp only [List.mem_cons]
    · rw [if_neg h1]
      by_cases h2 : x = z
      · rw [if_pos h2]
        subst h2
        simp only [List.mem_cons]
        constructor
        · exact fun h => Or.inr h
        · rintro (h | h)
          · exact Or.inl h
          · exact h
      · rw [if_neg h2]
        simp only [List.mem_cons, ih]
        constructor
        · rintro (h | h | h)
          · exact Or.inr (Or.inl h)
          · exact Or.inl h
          · exact Or.inr (Or.inr h)
        · rintro (h | h | h)
          · exact Or.inr (Or.inl h)
          · exact Or.inl h
          · exact Or.inr (Or.inr h)

theorem ordered_set_insert_sorted (x : Nat) :
    ∀ s : List Nat, s.Pairwise (fun a b => a < b) →
      (ordered_set_insert x s).Pairwise (fun a b => a < b) := by
  intro s
  induction s with
  | nil => intro _; simp [ordered_set_insert]
  | cons z s ih =>
    intro h
    rw [List.pairwise_cons] at h
    unfold ordered_set_insert
    by_cases h1 : x < z
    · rw [if_pos h1, List.pairwise_cons]
      refine ⟨?_, List.pairwise_cons.mpr h⟩
      intro a ha
      rw [List.mem_cons] at ha
      rcases ha with rfl | ha
      · exact h1
      · exact lt_trans h1 (h.1 a ha)
    · rw [if_neg h1]
      by_cases h2 : x = z
      · rw [if_pos h2]
        exact List.pairwise_cons.mpr h
      · rw [if_neg h2, List.pairwise_cons]
        refine ⟨?_, ih h.2⟩
        intro a ha
        rw [mem_ordered_set_insert] at ha
        rcases ha with rfl | ha
        · omega
        · exact h.1 a ha

theorem mem_keys_ordered_map_insert (k x k' : Nat) :
    ∀ m : List (Nat × List Nat),
      k' ∈ (ordered_map_insert k x m).map Prod.fst ↔ k' = k ∨ k' ∈ m.map Prod.fst := by
  intro m
  induction m with
  | nil => simp [ordered_map_insert]
  | cons e m ih =>
    obtain ⟨k0, s0⟩ := e
    unfold ordered_map_insert
    by_cases h1 : k < k0
    · rw [if_pos h1]
      simp only [List.map_cons, List.mem_cons]
    · rw [if_neg h1]
      by_cases h2 : k = k0
      · rw [if_pos h2]
        subst h2
        simp only [List.map_cons, List.mem_cons]
        constructor
        · exact fun h => Or.inr h
        · rintro (h | h)
          · exact Or.inl h
          · exact h
      · rw [if_neg h2]
        simp only [List.map_cons, List.mem_cons, ih]
        constructor
        · rintro (h | h | h)
          · exact Or.inr (Or.inl h)
          · exact Or.inl h
          · exact Or.inr (Or.inr h)
        · rintro (h | h | h)
          · exact Or.inr (Or.inl h)
          · exact Or.inl h
          · exact Or.inr (Or.inr h)

theorem ordered_map_insert_sorted (k x : Nat) :
    ∀ m : List (Nat × List Nat), (m.map Prod.fst).Pairwise (fun a b => a < b) →
      ((ordered_map_insert k x m).map Prod.fst).Pairwise (fun a b => a < b) := by
  intro m
  induction m with
  | nil => intro _; simp [ordered_map_insert]
  | cons e m ih =>
    obtain ⟨k0, s0⟩ := e
    intro h
    simp only [List.map_cons] at h
    rw [List.pairwise_cons] at h
    unfold ordered_map_insert
    by_cases h1 : k < k0
    · rw [if_pos h1]
      simp only [List.map_cons]
      rw [List.pairwise_cons]
      refine ⟨?_, List.pairwise_cons.mpr h⟩
      intro a ha
      rw [List.mem_cons] at ha
      rcases ha with rfl | ha
      · exact h1
      · exact lt_trans h1 (h.1 a ha)
    · rw [if_neg h1]
      by_cases h2 : k = k0
      · rw [if_pos h2]
        simp only [List.map_cons]
        exact List.pairwise_cons.mpr h
      · rw [if_neg h2]
        simp only [List.map_cons]
        rw [List.pairwise_cons]
        refine ⟨?_, ih h.2⟩
        intro a ha
        rw [mem_keys_ordered_map_insert] at ha
        rcases ha with rfl | ha
        · omega
        · exact h.1 a ha

theorem map_find_none_of_lt (k : Nat) :
    ∀ m : List (Nat × List Nat), (∀ a ∈ m.map Prod.fst, k < a) → map_find m k = none := by
  intro m
  induction m with
  | nil => intro _; rfl
  | cons e m ih =>
    obtain ⟨k0, s0⟩ := e
    intro h
    have h0 : k < k0 := h k0 (by simp)
    have hne : ¬ k0 = k := by omega
    simp only [map_find, if_neg hne]
    exact ih (fun a ha => h a (by simp only [List.map_cons, List.mem_cons]; exact Or.inr ha))

theorem map_find_ordered_map_insert (k x k' : Nat) :
    ∀ m : List (Nat × List Nat), (m.map Prod.fst).Pairwise (fun a b => a < b) →
      map_find (ordered_map_insert k x m) k' =
        if k' = k then some (ordered_set_insert x ((map_find m k).getD []))
        else map_find m k' := by
  intro m
  induction m with
  | nil =>
    intro _
    by_cases h : k' = k
    · subst h
      simp [ordered_map_insert, map_find]
    · have h' : ¬ k = k' := fun e => h e.symm
      simp [ordered_map_insert, map_find, h, h']
  | cons e m ih =>
    obtain ⟨k0, s0⟩ := e
    intro hs
    simp only [List.map_cons] at hs
    rw [List.pairwise_cons] at hs
    unfold ordered_map_insert
    by_cases h1 : k < k0
    · rw [if_pos h1]
      have hnone : map_find ((k0, s0) :: m) k = none := by
        apply map_find_none_of_lt
        intro a ha
        simp only [List.map_cons, List.mem_cons] at ha
        rcases ha with rfl | ha
        · exact h1
        · exact lt_trans h1 (hs.1 a ha)
      by_cases h : k' = k
      · subst h
        rw [if_pos rfl, hnone]
        simp [map_find]
      · have h' : ¬ k = k' := fun e => h e.symm
        rw [if_neg h]
        simp only [map_find, if_neg h']
    · rw [if_neg h1]
      by_cases h2 : k = k0
      · rw [if_pos h2]
        subst h2
        by_cases h : k' = k
        · subst h
          simp [map_find]
        · have h' : ¬ k = k' := fun e => h e.symm
          rw [if_neg h]
          simp only [map_find, if_neg h']
      · rw [if_neg h2]
        by_cases h : k' = k
        · subst h
          have h3 : ¬ k0 = k' := fun e => h2 e.symm
          rw [if_pos rfl]
          simp only [map_find, if_neg h3]
          rw [ih hs.2, if_pos rfl]
        · rw [if_neg h]
          by_cases h3 : k0 = k'
          · simp only [map_find, if_pos h3]
          · simp only [map_find, if_neg h3]
            rw [ih hs.2, if_neg h]

theorem map_eq_of_keys :
    ∀ m : List (Nat × List Nat), (m.map Prod.fst).Nodup →
      m = (m.map Prod.fst).map (fun k => (k, (map_find m k).getD [])) := by
  intro m
  induction m with
  | nil => intro _; rfl
  | cons e m ih =>
    obtain ⟨k0, s0⟩ := e
    intro h
    simp only [List.map_cons] at h
    rw [List.nodup_cons] at h
    simp only [List.map_cons, map_find, if_true, Option.getD_some]
    congr 1
    conv_lhs => rw [ih h.2]
    apply List.map_congr_left
    intro k hk
    have hne : ¬ k0 = k := fun e => h.1 (e ▸ hk)
    simp only [if_neg hne]

/-- The invariant of the loop that fills `sortedGraph`, for the list `E` of the edges
inserted so far. -/
theorem sorted_graph_step (m : List (Nat × List Nat)) (E : List (Nat × Nat)) (e : Nat × Nat)
    (h : (m.map Prod.fst).Pairwise (fun a b => a < b) ∧
      (∀ k, k ∈ m.map Prod.fst ↔ ∃ s, (s, k) ∈ E) ∧
      ∀ k, ((map_find m k).getD []).Pairwise (fun a b => a < b) ∧
        ∀ s, s ∈ (map_find m k).getD [] ↔ (s, k) ∈ E) :
    ((ordered_map_insert e.2 e.1 m).map Prod.fst).Pairwise (fun a b => a < b) ∧
      (∀ k, k ∈ (ordered_map_insert e.2 e.1 m).map Prod.fst ↔ ∃ s, (s, k) ∈ E ++ [e]) ∧
      ∀ k, ((map_find (ordered_map_insert e.2 e.1 m) k).getD []).Pairwise (fun a b => a < b) ∧
        ∀ s, s ∈ (map_find (ordered_map_insert e.2 e.1 m) k).getD [] ↔ (s, k) ∈ E ++ [e] := by
  obtain ⟨x, t⟩ := e
  obtain ⟨h1, h2, h3⟩ := h
  refine ⟨ordered_map_insert_sorted t x m h1, ?_, ?_⟩
  · intro k
    rw [mem_keys_ordered_map_insert, h2]
    simp only [List.mem_append, List.mem_singleton, Prod.mk.injEq]
    constructor
    · rintro (rfl | ⟨s, hs⟩)
      · exact ⟨x, Or.inr ⟨rfl, rfl⟩⟩
      · exact ⟨s, Or.inl hs⟩
    · rintro ⟨s, hs | ⟨_, rfl⟩⟩
      · exact Or.inr ⟨s, hs⟩
      · exact Or.inl rfl
  · intro k
    rw [map_find_ordered_map_insert t x k m h1]
    by_cases hk : k = t
    · subst hk
      rw [if_pos rfl]
      simp only [Option.getD_some]
      refine ⟨ordered_set_insert_sorted x _ (h3 k).1, ?_⟩
      intro s
      rw [mem_ordered_set_insert, (h3 k).2]
      simp only [List.mem_append, List.mem_singleton, Prod.mk.injEq, and_true]
      constructor
      · rintro (h | h)
        · exact Or.inr h
        · exact Or.inl h
      · rintro (h | h)
        · exact Or.inr h
        · exact Or.inl h
    · rw [if_neg hk]
      refine ⟨(h3 k).1, ?_⟩
      intro s
      rw [(h3 k).2]
      simp only [List.mem_append, List.mem_singleton, Prod.mk.injEq]
      constructor
      · exact fun h => Or.inl h
      · rintro (h | ⟨_, h⟩)
        · exact h
        · exact absurd h hk

theorem sorted_graph_inner (l : List (Nat × Nat)) :
    ∀ (m : List (Nat × List Nat)) (E : List (Nat × Nat)),
      ((m.map Prod.fst).Pairwise (fun a b => a < b) ∧
        (∀ k, k ∈ m.map Prod.fst ↔ ∃ s, (s, k) ∈ E) ∧
        ∀ k, ((map_find m k).getD []).Pairwise (fun a b => a < b) ∧
          ∀ s, s ∈ (map_find m k).getD [] ↔ (s, k) ∈ E) →
      (((l.foldl (fun sortedGraph edgeDescriptor =>
            ordered_map_insert edgeDescriptor.2 edgeDescriptor.1 sortedGraph) m).map
          Prod.fst).Pairwise (fun a b => a < b) ∧
        (∀ k, k ∈ (l.foldl (fun sortedGraph edgeDescriptor =>
            ordered_map_insert edgeDescriptor.2 edgeDescriptor.1 sortedGraph) m).map Prod.fst ↔
          ∃ s, (s, k) ∈ E ++ l) ∧
        ∀ k, ((map_find (l.foldl (fun sortedGraph edgeDescriptor =>
            ordered_map_insert edgeDescriptor.2 edgeDescriptor.1 sortedGraph) m) k).getD
            []).Pairwise (fun a b => a < b) ∧
          ∀ s, s ∈ (map_find (l.foldl (fun sortedGraph edgeDescriptor =>
            ordered_map_insert edgeDescriptor.2 edgeDescriptor.1 sortedGraph) m) k).getD [] ↔
            (s, k) ∈ E ++ l) := by
  induction l with
  | nil =>
    intro m E h
    simpa using h
  | cons e l ih =>
    intro m E h
    have := ih _ _ (sorted_graph_step m E e h)
    simpa [List.append_assoc] using this

theorem sorted_graph_outer (g : graph_t) (vs : List vertex_descriptor_t) :
    ∀ (m : List (Nat × List Nat)) (E : List (Nat × Nat)),
      ((m.map Prod.fst).Pairwise (fun a b => a < b) ∧
        (∀ k, k ∈ m.map Prod.fst ↔ ∃ s, (s, k) ∈ E) ∧
        ∀ k, ((map_find m k).getD []).Pairwise (fun a b => a < b) ∧
          ∀ s, s ∈ (map_find m k).getD [] ↔ (s, k) ∈ E) →
      ∃ E' : List (Nat × Nat),
        (∀ e, e ∈ E' ↔ e ∈ E ∨ ∃ v ∈ vs, e ∈ in_edges v g) ∧
        ((vs.foldl (fun sortedGraph vertexDescriptor =>
            (in_edges vertexDescriptor g).foldl (fun sortedGraph edgeDescriptor =>
              ordered_map_insert edgeDescriptor.2 edgeDescriptor.1 sortedGraph) sortedGraph)
            m).map Prod.fst).Pairwise (fun a b => a < b) ∧
        (∀ k, k ∈ (vs.foldl (fun sortedGraph vertexDescriptor =>
            (in_edges vertexDescriptor g).foldl (fun sortedGraph edgeDescriptor =>
              ordered_map_insert edgeDescriptor.2 edgeDescriptor.1 sortedGraph) sortedGraph)
            m).map Prod.fst ↔ ∃ s, (s, k) ∈ E') ∧
        ∀ k, ((map_find (vs.foldl (fun sortedGraph vertexDescriptor =>
            (in_edges vertexDescriptor g).foldl (fun sortedGraph edgeDescriptor =>
              ordered_map_insert edgeDescriptor.2 edgeDescriptor.1 sortedGraph) sortedGraph)
            m) k).getD []).Pairwise (fun a b => a < b) ∧
          ∀ s, s ∈ (map_find (vs.foldl (fun sortedGraph vertexDescriptor =>
            (in_edges vertexDescriptor g).foldl (fun sortedGraph edgeDescriptor =>
              ordered_map_insert edgeDescriptor.2 edgeDescriptor.1 sortedGraph) sortedGraph)
            m) k).getD [] ↔ (s, k) ∈ E' := by
  induction vs with
  | nil =>
    intro m E h
    exact ⟨E, fun e => by simp, h⟩
  | cons v vs ih =>
    intro m E h
    obtain ⟨E', hE', hJ⟩ := ih _ _ (sorted_graph_inner (in_edges v g) m E h)
    refine ⟨E', ?_, hJ⟩
    intro e
    rw [hE']
    simp only [List.mem_append, List.mem_cons, exists_eq_or_imp]
    constructor
    · rintro ((h1 | h1) | h1)
      · exact Or.inl h1
      · exact Or.inr (Or.inl h1)
      · exact Or.inr (Or.inr h1)
    · rintro (h1 | h1 | h1)
      · exact Or.inl (Or.inl h1)
      · exact Or.inl (Or.inr h1)
      · exact Or.inr h1

/-- The map `sortedGraph` that `serialize_input` builds: its keys ascend, a number is a
key exactly when an edge enters it, and the set of a key holds, in ascending order,
exactly the sources of the edges that enter it. -/
theorem sorted_graph_spec (g : graph_t) (hwf : g.wf) :
    ((sorted_graph g).map Prod.fst).Pairwise (fun a b => a < b) ∧
    (∀ k, k ∈ (sorted_graph g).map Prod.fst ↔ ∃ s, (s, k) ∈ g.edges) ∧
    ∀ k, ((map_find (sorted_graph g) k).getD []).Pairwise (fun a b => a < b) ∧
      ∀ s, s ∈ (map_find (sorted_graph g) k).getD [] ↔ (s, k) ∈ g.edges := by
  obtain ⟨E', hE', h1, h2, h3⟩ := sorted_graph_outer g g.vertices [] []
    ⟨by simp, by simp, fun k => ⟨by simp [map_find], by simp [map_find]⟩⟩
  have hE : ∀ e, e ∈ E' ↔ e ∈ g.edges := by
    intro e
    rw [hE']
    simp only [List.not_mem_nil, false_or, in_edges, List.mem_filter, beq_iff_eq]
    constructor
    · rintro ⟨v, _, he, _⟩
      exact he
    · intro he
      exact ⟨e.2, (hwf.2.2 e he).2, he, rfl⟩
  have h2' : ∀ k, k ∈ (sorted_graph g).map Prod.fst ↔ ∃ s, (s, k) ∈ E' := h2
  have h3' : ∀ k, ((map_find (sorted_graph g) k).getD []).Pairwise (fun a b => a < b) ∧
      ∀ s, s ∈ (map_find (sorted_graph g) k).getD [] ↔ (s, k) ∈ E' := h3
  refine ⟨h1, ?_, ?_⟩
  · intro k
    rw [h2']
    simp only [hE]
  · intro k
    refine ⟨(h3' k).1, fun s => ?_⟩
    rw [(h3' k).2, hE]

theorem vertex_numbers_sorted (N : Nat) :
    ((List.range N).map (fun s => s + 1)).Pairwise (fun a b => a < b) := by
  rw [List.pairwise_map]
  exact (List.pairwise_lt_range N).imp (fun h => Nat.succ_lt_succ h)

theorem mem_vertex_numbers (N v : Nat) :
    v ∈ (List.range N).map (fun s => s + 1) ↔ 1 ≤ v ∧ v ≤ N := by
  simp only [List.mem_map, List.mem_range]
  constructor
  · rintro ⟨a, ha, rfl⟩
    omega
  · rintro ⟨h1, h2⟩
    exact ⟨v - 1, by omega, by omega⟩

theorem sorted_eq_of_mem_iff (l₁ l₂ : List Nat) (h₁ : l₁.Pairwise (fun a b => a < b))
    (h₂ : l₂.Pairwise (fun a b => a < b)) (h : ∀ x, x ∈ l₁ ↔ x ∈ l₂) : l₁ = l₂ := by
  have hn₁ : l₁.Nodup := h₁.imp (fun hab => Nat.ne_of_lt hab)
  have hn₂ : l₂.Nodup := h₂.imp (fun hab => Nat.ne_of_lt hab)
  have hperm : l₁.Perm l₂ := (List.perm_ext_iff_of_nodup hn₁ hn₂).mpr h
  exact List.eq_of_perm_of_sorted hperm (h₁.imp (fun hab => Nat.le_of_lt hab))
    (h₂.imp (fun hab => Nat.le_of_lt hab))

theorem num_vertices_of_numbered (g : graph_t) (N : Nat) (hwf : g.wf)
    (hverts : ∀ v : Nat, v ∈ g.vertices ↔ 1 ≤ v ∧ v ≤ N) : num_vertices g = N := by
  have hperm : g.vertices.Perm ((List.range N).map (fun s => s + 1)) := by
    rw [List.perm_ext_iff_of_nodup hwf.1
      ((vertex_numbers_sorted N).imp (fun hab => Nat.ne_of_lt hab))]
    intro v
    rw [hverts, mem_vertex_numbers]
  unfold num_vertices
  rw [hperm.length_eq]
  simp

theorem mem_in_neighbours (g : graph_t) (N : Nat) (hwf : g.wf)
    (hverts : ∀ v : Nat, v ∈ g.vertices ↔ 1 ≤ v ∧ v ≤ N) (s i : Nat) :
    s ∈ in_neighbours g i ↔ (s, i) ∈ g.edges := by
  unfold in_neighbours
  rw [num_vertices_of_numbered g N hwf hverts]
  simp only [List.mem_filter, decide_eq_true_eq, mem_vertex_numbers]
  constructor
  · exact fun h => h.2
  · intro h
    exact ⟨(hverts s).mp (hwf.2.2 _ h).1, h⟩

theorem in_neighbours_sorted (g : graph_t) (i : Nat) :
    (in_neighbours g i).Pairwise (fun a b => a < b) := by
  unfold in_neighbours
  exact (vertex_numbers_sorted _).filter _

theorem in_neighbours_length (g : graph_t) (N : Nat) (hwf : g.wf)
    (hverts : ∀ v : Nat, v ∈ g.vertices ↔ 1 ≤ v ∧ v ≤ N) (i : Nat) :
    (in_neighbours g i).length = (in_edges i g).length := by
  have hnd : ((in_edges i g).map Prod.fst).Nodup := by
    apply List.Nodup.map_on
    · intro a ha b hb hab
      simp only [in_edges, List.mem_filter, beq_iff_eq] at ha hb
      exact Prod.ext hab (by rw [ha.2, hb.2])
    · exact hwf.2.1.filter _
  have hperm : (in_neighbours g i).Perm ((in_edges i g).map Prod.fst) := by
    rw [List.perm_ext_iff_of_nodup
      ((in_neighbours_sorted g i).imp (fun hab => Nat.ne_of_lt hab)) hnd]
    intro s
    rw [mem_in_neighbours g N hwf hverts]
    simp only [in_edges, List.mem_map, List.mem_filter, beq_iff_eq]
    constructor
    · intro h
      exact ⟨(s, i), ⟨h, rfl⟩, rfl⟩
    · rintro ⟨⟨a, b⟩, ⟨h1, h2⟩, h3⟩
      simp only at h2 h3
      subst h2 h3
      exact h1
  rw [hperm.length_eq, List.length_map]

theorem in_neighbours_ne_nil (g : graph_t) (N : Nat) (hwf : g.wf)
    (hverts : ∀ v : Nat, v ∈ g.vertices ↔ 1 ≤ v ∧ v ≤ N) (i : Nat) (h : in_edges i g ≠ []) :
    in_neighbours g i ≠ [] := by
  intro hnil
  have := in_neighbours_length g N hwf hverts i
  rw [hnil] at this
  exact h (List.length_eq_zero.mp this.symm)

/-- The map `sortedGraph` of a graph whose vertices are numbered `1, ..., N`: one
entry for every vertex that an edge enters, in ascending order, with the in-neighbours
in ascending order. -/
theorem sorted_graph_eq (g : graph_t) (N : Nat) (hwf : g.wf)
    (hverts : ∀ v : Nat, v ∈ g.vertices ↔ 1 ≤ v ∧ v ≤ N) :
    sorted_graph g =
      (((List.range N).map (fun s => s + 1)).filter
        (fun k => decide (in_edges k g ≠ []))).map (fun k => (k, in_neighbours g k)) := by
  obtain ⟨h1, h2, h3⟩ := sorted_graph_spec g hwf
  have hkeys : (sorted_graph g).map Prod.fst =
      ((List.range N).map (fun s => s + 1)).filter (fun k => decide (in_edges k g ≠ [])) := by
    apply sorted_eq_of_mem_iff _ _ h1 ((vertex_numbers_sorted N).filter _)
    intro k
    rw [h2]
    simp only [List.mem_filter, decide_eq_true_eq, mem_vertex_numbers]
    constructor
    · rintro ⟨s, hs⟩
      refine ⟨(hverts k).mp (hwf.2.2 _ hs).2, ?_⟩
      intro hnil
      have : (s, k) ∈ in_edges k g := by
        simp only [in_edges, List.mem_filter, beq_iff_eq]
        exact ⟨hs, trivial⟩
      rw [hnil] at this
      cases this
    · rintro ⟨_, hne⟩
      obtain ⟨e, he⟩ := List.exists_mem_of_ne_nil _ hne
      simp only [in_edges, List.mem_filter, beq_iff_eq] at he
      exact ⟨e.1, by rw [← he.2]; exact he.1⟩
  have hnd : ((sorted_graph g).map Prod.fst).Nodup := h1.imp (fun hab => Nat.ne_of_lt hab)
  have hm := map_eq_of_keys (sorted_graph g) hnd
  rw [hkeys] at hm
  rw [hm]
  apply List.map_congr_left
  intro k _
  congr 1
  apply sorted_eq_of_mem_iff _ _ (h3 k).1 (in_neighbours_sorted g k)
  intro s
  rw [(h3 k).2, mem_in_neighbours g N hwf hverts]

/-! ### The text written -/

theorem write_entries_eq_intercalate :
    ∀ entries : List (Nat × List Nat),
      write_entries entries = "\n".intercalate
        (entries.map (fun entry => toString entry.2.length ++ " " ++ write_numbers entry.2))
  | [] => rfl
  | [_] => rfl
  | a :: b :: rest => by
    rw [write_entries, write_entries_eq_intercalate (b :: rest)]
    simp only [List.map_cons]
    rw [intercalate_cons_cons]

theorem vertex_record_eq (g : graph_t) (N : Nat) (hwf : g.wf)
    (hverts : ∀ v : Nat, v ∈ g.vertices ↔ 1 ≤ v ∧ v ≤ N) (i : Nat) (h : in_edges i g ≠ []) :
    vertex_record g i =
      toString (in_neighbours g i).length ++ " " ++ write_numbers (in_neighbours g i) := by
  unfold vertex_record
  obtain ⟨a, l, hl⟩ := List.exists_cons_of_ne_nil (in_neighbours_ne_nil g N hwf hverts i h)
  rw [in_neighbours_length g N hwf hverts i, write_numbers_eq_intercalate, hl]
  simp only [List.map_cons]
  rw [intercalate_cons_cons]

theorem serialize_input_eq_input_lines (g : graph_t) (N : Nat) (hwf : g.wf)
    (hverts : ∀ v : Nat, v ∈ g.vertices ↔ 1 ≤ v ∧ v ≤ N)
    (hin : ∀ v ∈ g.vertices, in_edges v g ≠ []) :
    serialize_input g = input_lines g := by
  have hN := num_vertices_of_numbered g N hwf hverts
  have hall : ((List.range N).map (fun s => s + 1)).filter
      (fun k => decide (in_edges k g ≠ [])) = (List.range N).map (fun s => s + 1) := by
    rw [List.filter_eq_self]
    intro k hk
    rw [mem_vertex_numbers] at hk
    simp only [decide_eq_true_eq]
    exact hin k ((hverts k).mpr hk)
  unfold serialize_input input_lines
  rw [sorted_graph_eq g N hwf hverts, hall, write_entries_eq_intercalate, hN]
  congr 2
  simp only [List.map_map]
  apply List.map_congr_left
  intro i hi
  rw [List.mem_range] at hi
  simp only [Function.comp]
  rw [vertex_record_eq g N hwf hverts (i + 1)
    (hin (i + 1) ((hverts (i + 1)).mpr ⟨by omega, by omega⟩))]

/-! ### Reading the text back -/

theorem write_numbers_separated (numbers : List Nat) (h : numbers ≠ []) :
    ' ' :: (write_numbers numbers).toList = tokens_text (numbers.map (number_token [' '])) := by
  obtain ⟨a, l, rfl⟩ := List.exists_cons_of_ne_nil h
  rw [write_numbers_tokens]
  simp only [List.map_cons, tokens_text, number_token, List.singleton_append, List.cons_append,
    List.nil_append]

theorem write_entry_record (entry : Nat × List Nat) (h : entry.2 ≠ []) (rest : List Char) :
    '\n' :: ((toString entry.2.length ++ " " ++ write_numbers entry.2).toList ++ rest) =
      (record_of_entry entry).1.1 ++ (record_of_entry entry).1.2 ++
        tokens_text (record_of_entry entry).2 ++ rest := by
  have h1 := write_numbers_separated entry.2 h
  simp only [record_of_entry, number_token, String.toList, String.data_append] at h1 ⊢
  rw [← h1]
  simp only [List.singleton_append, List.cons_append, List.append_assoc, List.nil_append]

theorem write_entries_records :
    ∀ entries : List (Nat × List Nat), entries ≠ [] → (∀ entry ∈ entries, entry.2 ≠ []) →
      '\n' :: (write_entries entries).toList = records_text (entries.map record_of_entry)
  | [], h, _ => absurd rfl h
  | [entry], _, hne => by
    have h := write_entry_record entry (hne entry (List.mem_singleton_self _)) []
    simp only [List.append_nil] at h
    simp only [write_entries, List.map_cons, List.map_nil, records_text, List.append_nil]
    exact h
  | entry :: next :: rest, _, hne => by
    have ih := write_entries_records (next :: rest) (by simp)
      (fun e he => hne e (List.mem_cons_of_mem _ he))
    have h := write_entry_record entry (hne entry (List.mem_cons_self _ _))
      ('\n' :: (write_entries (next :: rest)).toList)
    rw [write_entries]
    simp only [String.toList, String.data_append] at h ih ⊢
    rw [List.map_cons, records_text, ← ih, ← h]
    simp only [List.append_assoc, List.cons_append, List.nil_append]

/-- The text that `serialize_input` writes, as the token of `N`, the records of the
entries of `sortedGraph` and trailing whitespace. -/
theorem serialize_input_text (g : graph_t) (h : ∀ entry ∈ sorted_graph g, entry.2 ≠ []) :
    ∃ trailing : List Char, (∀ c ∈ trailing, isspace c = true) ∧
      (serialize_input g).toList =
        (number_token [] (num_vertices g)).1 ++ (number_token [] (num_vertices g)).2 ++
          (records_text ((sorted_graph g).map record_of_entry) ++ trailing) := by
  unfold serialize_input
  cases hm : sorted_graph g with
  | nil =>
    refine ⟨['\n'], ?_, ?_⟩
    · intro c hc
      rw [List.mem_singleton] at hc
      rw [hc]; rfl
    · simp only [write_entries, List.map_nil, records_text, List.nil_append, number_token,
        String.toList, String.data_append, List.append_assoc]
      rfl
  | cons entry rest =>
    refine ⟨[], fun c hc => (by cases hc), ?_⟩
    have hrec := write_entries_records (entry :: rest) (by simp)
      (fun e he => h e (by rw [hm]; exact he))
    simp only [String.toList, String.data_append] at hrec ⊢
    rw [List.append_nil, ← hrec]
    simp only [number_token, String.toList, List.nil_append, List.append_assoc]
    rfl

theorem in_neighbours_length_le (g : graph_t) (i : Nat) :
    (in_neighbours g i).length ≤ num_vertices g := by
  unfold in_neighbours
  refine le_trans (List.length_filter_le _ _) ?_
  simp

theorem record_of_entry_is_record (g : graph_t) (N : Nat) (hwf : g.wf)
    (hverts : ∀ v : Nat, v ∈ g.vertices ↔ 1 ≤ v ∧ v ≤ N) (k : Nat) :
    is_record N (record_of_entry (k, in_neighbours g k)) := by
  have hN := num_vertices_of_numbered g N hwf hverts
  have hsep : ∀ (sep : Char), isspace sep = true → ∀ number,
      is_separated_token (number_token [sep] number) := by
    intro sep hs number
    refine ⟨number_token_is_token _ _ (fun c hc => ?_), by simp [number_token]⟩
    rw [List.mem_singleton] at hc
    rw [hc]; exact hs
  refine ⟨hsep '\n' rfl _, ?_, ?_, ?_⟩
  · simp only [record_of_entry, number_token_value, List.length_map]
  · simp only [record_of_entry, List.length_map]
    rw [← hN]
    exact in_neighbours_length_le g k
  · intro s hs
    simp only [record_of_entry, List.mem_map] at hs
    obtain ⟨x, hx, rfl⟩ := hs
    rw [number_token_value]
    rw [mem_in_neighbours g N hwf hverts] at hx
    exact ⟨hsep ' ' rfl x, (hverts x).mp (hwf.2.2 _ hx).1⟩

theorem serialize_input_records (g : graph_t) (N : Nat) (hwf : g.wf)
    (hverts : ∀ v : Nat, v ∈ g.vertices ↔ 1 ≤ v ∧ v ≤ N) :
    (∀ entry ∈ sorted_graph g, entry.2 ≠ []) ∧
    (∀ r ∈ (sorted_graph g).map record_of_entry, is_record N r) ∧
    ((sorted_graph g).map record_of_entry).length =
      (((List.range N).map (fun s => s + 1)).filter
        (fun k => decide (in_edges k g ≠ []))).length := by
  rw [sorted_graph_eq g N hwf hverts]
  refine ⟨?_, ?_, by simp⟩
  · intro entry he
    simp only [List.mem_map, List.mem_filter, decide_eq_true_eq] at he
    obtain ⟨k, ⟨_, hk⟩, rfl⟩ := he
    exact in_neighbours_ne_nil g N hwf hverts k hk
  · intro r hr
    simp only [List.mem_map, List.mem_filter, decide_eq_true_eq] at hr
    obtain ⟨entry, ⟨k, _, rfl⟩, rfl⟩ := hr
    exact record_of_entry_is_record g N hwf hverts k

/-- Decoding the text of `serialize_input` fails when a vertex has no in-edge: the text
holds fewer than `N` records. -/
theorem serialize_input_missing_record (g : graph_t) (N : Nat) (hwf : g.wf)
    (hverts : ∀ v : Nat, v ∈ g.vertices ↔ 1 ≤ v ∧ v ≤ N) (hmin : 2 ≤ N) (hmax : N ≤ 10000)
    (hsome : ∃ v ∈ g.vertices, in_edges v g = []) :
    deserialize_input (serialize_input g).toList =
      .error (.missing_in_vertex_count ((sorted_graph g).map record_of_entry).length) := by
  have hN := num_vertices_of_numbered g N hwf hverts
  obtain ⟨hne, hrec, hlen⟩ := serialize_input_records g N hwf hverts
  obtain ⟨trailing, htr, htext⟩ := serialize_input_text g hne
  have hcount : ((sorted_graph g).map record_of_entry).length < N := by
    rw [hlen]
    have hlt : (((List.range N).map (fun s => s + 1)).filter
        (fun k => decide (in_edges k g ≠ []))).length <
        ((List.range N).map (fun s => s + 1)).length := by
      rw [List.length_filter_lt_length_iff_exists]
      obtain ⟨v, hv, hnil⟩ := hsome
      exact ⟨v, (mem_vertex_numbers N v).mpr ((hverts v).mp hv), by simp [hnil]⟩
    simpa using hlt
  have hnone : no_number_ahead trailing := by
    intro c hc
    have hall : trailing.dropWhile isspace = [] := by
      rw [List.dropWhile_eq_nil_iff]
      exact htr
    rw [hall] at hc
    cases hc
  have hval : (number_token [] (num_vertices g)).value = N := by
    rw [number_token_value, hN]
  have htok := number_token_is_token [] (num_vertices g) (fun c hc => by cases hc)
  rw [htext]
  apply (deserialize_input_after_records _ _ trailing htok (by rw [hval]; exact hmin)
    (by rw [hval]; exact hmax) (by rw [hval]; omega) (by rw [hval]; exact hrec)
    (no_digit_head_of_no_number_ahead trailing hnone)).1
  obtain ⟨j, hj⟩ : ∃ j, (number_token [] (num_vertices g)).value -
      ((sorted_graph g).map record_of_entry).length = j + 1 :=
    ⟨N - ((sorted_graph g).map record_of_entry).length - 1, by rw [hval]; omega⟩
  rw [hj]
  unfold read_edges
  rw [read_size_t_no_number_ahead trailing hnone]

/-- Decoding the text of `serialize_input` gives the vertices and the edges of the
graph back when every vertex has an in-edge. -/
theorem serialize_input_round_trip (g : graph_t) (N : Nat) (hwf : g.wf)
    (hverts : ∀ v : Nat, v ∈ g.vertices ↔ 1 ≤ v ∧ v ≤ N) (hmin : 2 ≤ N) (hmax : N ≤ 10000)
    (hedges : num_edges g ≤ 100000) (hin : ∀ v ∈ g.vertices, in_edges v g ≠ []) :
    ∃ decoded, deserialize_input (serialize_input g).toList = .ok decoded ∧
      decoded.vertices = (List.range N).map (fun vertexIndex => vertexIndex + 1) ∧
      ∀ e, e ∈ decoded.edges ↔ e ∈ g.edges := by
  have hN := num_vertices_of_numbered g N hwf hverts
  obtain ⟨hne, hrec, hlen⟩ := serialize_input_records g N hwf hverts
  obtain ⟨trailing, htr, htext⟩ := serialize_input_text g hne
  have hall : ((List.range N).map (fun s => s + 1)).filter
      (fun k => decide (in_edges k g ≠ [])) = (List.range N).map (fun s => s + 1) := by
    rw [List.filter_eq_self]
    intro k hk
    rw [mem_vertex_numbers] at hk
    simp only [decide_eq_true_eq]
    exact hin k ((hverts k).mpr hk)
  have hsg : sorted_graph g =
      ((List.range N).map (fun s => s + 1)).map (fun k => (k, in_neighbours g k)) := by
    rw [sorted_graph_eq g N hwf hverts, hall]
  have hval : (number_token [] (num_vertices g)).value = N := by
    rw [number_token_value, hN]
  have htok := number_token_is_token [] (num_vertices g) (fun c hc => by cases hc)
  have hlisted : ∀ s i : Nat, (s, i) ∈ listed_edges 0 ((sorted_graph g).map record_of_entry) ↔
      (s, i) ∈ g.edges := by
    intro s i
    rw [mem_listed_edges, hsg]
    simp only [List.map_map, List.getElem?_map, List.getElem?_range, Nat.zero_add]
    constructor
    · rintro ⟨idx, r, hr, hi, tok, htok', hs⟩
      by_cases hidx : idx < N
      · rw [List.getElem?_range hidx] at hr
        simp only [Option.map_some', Function.comp, Option.some.injEq] at hr
        subst hr
        simp only [record_of_entry, List.mem_map] at htok'
        obtain ⟨x, hx, rfl⟩ := htok'
        rw [number_token_value] at hs
        subst hs
        rw [mem_in_neighbours g N hwf hverts] at hx
        rw [hi]
        exact hx
      · rw [List.getElem?_eq_none (by simpa using hidx)] at hr
        cases hr
    · intro he
      have hi := (hverts i).mp (hwf.2.2 _ he).2
      have hlt : i - 1 < N := by omega
      refine ⟨i - 1, record_of_entry (i, in_neighbours g i), ?_,
        (Nat.sub_add_cancel hi.1).symm, number_token [' '] s, ?_, number_token_value _ s⟩
      · rw [List.getElem?_range hlt]
        simp only [Option.map_some', Function.comp]
        have : i - 1 + 1 = i := by omega
        rw [this]
      · simp only [record_of_entry, List.mem_map]
        exact ⟨s, (mem_in_neighbours g N hwf hverts s i).mpr he, rfl⟩
  have hdedup : (listed_edges 0 ((sorted_graph g).map record_of_entry)).dedup.length ≤
      MAX_EDGES := by
    have hperm : (listed_edges 0 ((sorted_graph g).map record_of_entry)).dedup.Perm g.edges := by
      rw [List.perm_ext_iff_of_nodup (List.nodup_dedup _) hwf.2.1]
      rintro ⟨s, i⟩
      rw [List.mem_dedup]
      exact hlisted s i
    rw [hperm.length_eq]
    exact hedges
  have hrun := deserialize_input_records (number_token [] (num_vertices g))
    ((sorted_graph g).map record_of_entry) trailing htok (by rw [hval]; exact hmin)
    (by rw [hval]; exact hmax) (by rw [hval, hlen, hall]; simp) (by rw [hval]; exact hrec) htr
  rw [if_neg (by omega)] at hrun
  unfold input_text at hrun
  obtain ⟨hv, _, hmem⟩ := add_edges_spec (listed_edges 0 ((sorted_graph g).map record_of_entry))
    ⟨(List.range (number_token [] (num_vertices g)).value).map
      (fun vertexIndex => vertexIndex + 1), []⟩ List.nodup_nil
  refine ⟨_, by rw [htext]; exact hrun, by rw [hv, hval], ?_⟩
  rintro ⟨s, i⟩
  rw [hmem]
  simp only [List.not_mem_nil, false_or]
  exact hlisted s i

/-! ## The solver returns a cut set -/

theorem component_out_edges (sc : graph_t → Nat × List Nat) (g : graph_t) (hwf : g.wf)
    (hsc : strong_components_contract g (sc g)) :
    ∀ sg ∈ tarjans_subgraphs sc g, num_vertices sg ≠ 1 →
      ∀ u ∈ sg.vertices, out_edges u sg ≠ [] := by
  intro sg hsg hone u hu
  obtain ⟨k, hk⟩ := List.mem_iff_getElem?.mp hsg
  obtain ⟨_, hverts, hedges⟩ := tarjans_subgraphs_spec sc g hwf k sg hk
  obtain ⟨hne, hcomp⟩ := tarjans_subgraph_is_component sc g hwf hsc sg hsg
  have hnd : sg.vertices.Nodup := (tarjans_subgraphs_wf sc g hwf sg hsg).1.1
  have hother : ∃ v ∈ sg.vertices, v ≠ u := by
    by_contra hall
    apply hone
    apply length_eq_one_of_all_eq sg.vertices hnd hne
    intro a ha b hb
    have h1 : a = u := by
      by_contra h
      exact hall ⟨a, ha, h⟩
    have h2 : b = u := by
      by_contra h
      exact hall ⟨b, hb, h⟩
    rw [h1, h2]
  obtain ⟨v, hv, hvu⟩ := hother
  obtain ⟨_, huv, hvu'⟩ := (hcomp u hu v).mp hv
  obtain ⟨hug, _⟩ := (hcomp u hu u).mp hu
  rcases Relation.ReflTransGen.cases_head huv with h | ⟨w, huw, hwv⟩
  · exact absurd h.symm hvu
  · have hwg : w ∈ g.vertices := (hwf.2.2 (u, w) huw).2
    have hw : w ∈ sg.vertices :=
      (hcomp u hu w).mpr ⟨hwg, Relation.ReflTransGen.single huw, hwv.trans hvu'⟩
    have hku : component_of g (sc g) u = k := by
      rw [hverts, mem_component_vertices g (sc g) k u hwf.1] at hu
      exact hu.2
    have hkw : component_of g (sc g) w = k := by
      rw [hverts, mem_component_vertices g (sc g) k w hwf.1] at hw
      exact hw.2
    have hedge : (u, w) ∈ sg.edges := (hedges (u, w)).mpr ⟨huw, by rw [hku, hkw], hku⟩
    intro hnil
    have hmem : (u, w) ∈ out_edges u sg := by
      simp only [out_edges, List.mem_filter, beq_self_eq_true, and_true]
      exact hedge
    rw [hnil] at hmem
    cases hmem

theorem process_subgraphs_total {S D : Type} (gen : S → Nat → Nat → Nat × S)
    (ops : double_ops D)
    (std_sort : (vertex_descriptor_t × Nat → vertex_descriptor_t × Nat → Bool) →
      List (vertex_descriptor_t × Nat) → List (vertex_descriptor_t × Nat))
    (hgen : gen_in_range gen) (agents steps batches : Nat) (changeThreshold : D) :
    ∀ (subgraphs : List graph_t) (cutVertices : List vertex_properties_s) (s : S),
      (∀ sg ∈ subgraphs, sg.wf ∧ sg.vertices ≠ [] ∧
        (num_vertices sg ≠ 1 → ∀ u ∈ sg.vertices, out_edges u sg ≠ [])) →
      ∃ r, solver.process_subgraphs gen ops std_sort agents steps batches changeThreshold
        subgraphs cutVertices s = .ok r := by
  intro subgraphs
  induction subgraphs with
  | nil => intro cutVertices s _; exact ⟨_, rfl⟩
  | cons sg rest ih =>
    intro cutVertices s h
    have h' := fun sg' hsg' => h sg' (List.mem_cons_of_mem _ hsg')
    obtain ⟨hwf, hne, hout⟩ := h sg (List.mem_cons_self _ _)
    unfold solver.process_subgraphs
    simp only
    by_cases hone : num_vertices sg = 1
    · rw [if_pos hone]
      exact ih cutVertices s h'
    · rw [if_neg hone]
      obtain ⟨t, s', b, hb⟩ := simulate_batches_total gen ops sg hwf hne (hout hone) hgen agents
        steps changeThreshold batches 0 (initial_traffic sg) [] s
      have hrun : simulate_run gen ops sg agents steps batches changeThreshold s =
          .ok (t, s', b) := hb
      have hsim : simulate gen ops sg agents steps batches changeThreshold s = .ok (t, s') := by
        unfold simulate
        rw [hrun]
      rw [hsim]
      exact ih _ s' h'

theorem cut_vertices_total {S D : Type} (sc : graph_t → Nat × List Nat)
    (gen : S → Nat → Nat → Nat × S) (ops : double_ops D)
    (std_sort : (vertex_descriptor_t × Nat → vertex_descriptor_t × Nat → Bool) →
      List (vertex_descriptor_t × Nat) → List (vertex_descriptor_t × Nat))
    (g : graph_t) (agents steps batches : Nat) (changeThreshold : D) (s : S)
    (hwf : g.wf) (hsc : strong_components_contract g (sc g)) (hgen : gen_in_range gen) :
    ∃ cut, solver.cut_vertices sc gen ops std_sort g agents steps batches changeThreshold s =
      .ok cut := by
  obtain ⟨r, hr⟩ := process_subgraphs_total gen ops std_sort hgen agents steps batches
    changeThreshold (tarjans_subgraphs sc g) [] s
    (fun sg hsg => ⟨(tarjans_subgraphs_wf sc g hwf sg hsg).1,
      (tarjans_subgraph_is_component sc g hwf hsc sg hsg).1,
      component_out_edges sc g hwf hsc sg hsg⟩)
  refine ⟨r.1, ?_⟩
  unfold solver.cut_vertices
  simp only [hr]

/-! ## The greedy loop, iteration by iteration -/

theorem reduce_take_succ (subgraph : graph_t) (sorted : List vertex_descriptor_t) (k : Nat)
    (v : vertex_descriptor_t) (hk : sorted[k]? = some v) :
    solver.reduce subgraph (sorted.take (k + 1)) =
      solver.reduce_step subgraph (solver.reduce subgraph (sorted.take k)) v := by
  unfold solver.reduce
  rw [List.take_succ, hk, List.foldl_append]
  rfl

theorem reduce_drop (subgraph : graph_t) (sorted : List vertex_descriptor_t) (k : Nat) :
    solver.reduce subgraph sorted =
      (sorted.drop k).foldl (solver.reduce_step subgraph)
        (solver.reduce subgraph (sorted.take k)) := by
  unfold solver.reduce
  rw [← List.foldl_append, List.take_append_drop]

theorem not_mem_take_of_nodup (sorted : List vertex_descriptor_t) (hnd : sorted.Nodup) (k : Nat)
    (v : vertex_descriptor_t) (hk : sorted[k]? = some v) : v ∉ sorted.take k := by
  intro hv
  obtain ⟨i, hi⟩ := List.mem_iff_getElem?.mp hv
  rw [List.getElem?_take] at hi
  split at hi
  · rename_i hlt
    have hklen : k < sorted.length := (List.getElem?_eq_some_iff.mp hk).1
    exact (List.nodup_iff_getElem?_ne_getElem?.mp hnd) i k hlt hklen (by rw [hi, hk])
  · cases hi

theorem not_mem_drop_of_nodup (sorted : List vertex_descriptor_t) (hnd : sorted.Nodup) (k : Nat)
    (v : vertex_descriptor_t) (hk : sorted[k]? = some v) : v ∉ sorted.drop (k + 1) := by
  intro hv
  obtain ⟨i, hi⟩ := List.mem_iff_getElem?.mp hv
  rw [List.getElem?_drop] at hi
  have hlen : k + 1 + i < sorted.length := (List.getElem?_eq_some_iff.mp hi).1
  exact (List.nodup_iff_getElem?_ne_getElem?.mp hnd) k (k + 1 + i) (by omega) hlen
    (by rw [hi, hk])

theorem reduce_take_vertices (subgraph : graph_t) (sorted : List vertex_descriptor_t)
    (hnd : sorted.Nodup) (k : Nat) :
    reduce_inv subgraph (solver.reduce subgraph (sorted.take k)) ∧
    ∀ x ∈ (solver.reduce subgraph (sorted.take k)).acyclicGraph.vertices, x ∈ sorted.take k := by
  obtain ⟨h1, h2⟩ := reduce_foldl_inv subgraph (sorted.take k) ⟨graph_t.empty, []⟩
    (reduce_inv_init subgraph) (List.Nodup.sublist (List.take_sublist k sorted) hnd)
    (fun _ _ h => by cases h)
  refine ⟨h1, fun x hx => ?_⟩
  rcases h2 x hx with h | h
  · cases h
  · exact h

theorem reduce_next_fresh (subgraph : graph_t) (sorted : List vertex_descriptor_t)
    (hnd : sorted.Nodup) (k : Nat) (v : vertex_descriptor_t) (hk : sorted[k]? = some v) :
    v ∉ (solver.reduce subgraph (sorted.take k)).acyclicGraph.vertices :=
  fun h => not_mem_take_of_nodup sorted hnd k v hk
    ((reduce_take_vertices subgraph sorted hnd k).2 v h)

theorem reduce_step_cases (subgraph : graph_t) (st : solver.reduce_state)
    (v : vertex_descriptor_t) (hinv : reduce_inv subgraph st)
    (hv : v ∉ st.acyclicGraph.vertices) :
    (detect_cycles (solver.insert_vertex subgraph st v).acyclicGraph = true ∧
      solver.reduce_step subgraph st v = st) ∨
    (detect_cycles (solver.insert_vertex subgraph st v).acyclicGraph = false ∧
      solver.reduce_step subgraph st v = solver.insert_vertex subgraph st v) := by
  cases hc : detect_cycles (solver.insert_vertex subgraph st v).acyclicGraph with
  | true =>
    left
    refine ⟨rfl, ?_⟩
    unfold solver.reduce_step
    rw [if_pos hc]
    exact rollback_restores subgraph st v hinv hv
  | false =>
    right
    refine ⟨rfl, ?_⟩
    unfold solver.reduce_step
    simp only [hc, Bool.false_eq_true, if_false]

theorem reduce_foldl_mono (subgraph : graph_t) :
    ∀ (l : List vertex_descriptor_t) (st : solver.reduce_state),
      reduce_inv subgraph st → l.Nodup → (∀ x ∈ l, x ∉ st.acyclicGraph.vertices) →
      ∀ x ∈ st.acyclicGraph.vertices,
        x ∈ (l.foldl (solver.reduce_step subgraph) st).acyclicGraph.vertices := by
  intro l
  induction l with
  | nil => intro st _ _ _ x hx; exact hx
  | cons v l ih =>
    intro st hinv hnd hfresh x hx
    obtain ⟨hvl, hnd'⟩ := List.nodup_cons.mp hnd
    have hv := hfresh v (List.mem_cons_self _ _)
    obtain ⟨hinv', hsub⟩ := reduce_step_inv subgraph st v hinv hv
    have hfresh' : ∀ y ∈ l, y ∉ (solver.reduce_step subgraph st v).acyclicGraph.vertices := by
      intro y hy hy'
      rcases hsub y hy' with h | h
      · exact hfresh y (List.mem_cons_of_mem _ hy) h
      · exact hvl (h ▸ hy)
    rw [List.foldl_cons]
    apply ih _ hinv' hnd' hfresh'
    rcases reduce_step_cases subgraph st v hinv hv with ⟨_, h⟩ | ⟨_, h⟩
    · rw [h]; exact hx
    · rw [h, (insert_vertex_spec subgraph st v hinv hv).2.1]
      exact List.mem_append_left _ hx

theorem inserted_graph_edges (subgraph : graph_t) (st : solver.reduce_state)
    (v : vertex_descriptor_t) (hinv : reduce_inv subgraph st)
    (hv : v ∉ st.acyclicGraph.vertices) :
    ∀ e, e ∈ (solver.insert_vertex subgraph st v).acyclicGraph.edges ↔
      e ∈ subgraph.edges ∧ e.1 ∈ st.acyclicGraph.vertices ++ [v] ∧
        e.2 ∈ st.acyclicGraph.vertices ++ [v] := by
  obtain ⟨_, _, hEdges⟩ := insert_vertex_spec subgraph st v hinv hv
  obtain ⟨_, _, _, hsound, hcomplete, _⟩ := hinv
  intro e
  rw [hEdges]
  constructor
  · rintro (h | ⟨h1, _, h3, h4⟩)
    · obtain ⟨a, b, c⟩ := hsound e h
      exact ⟨a, List.mem_append_left _ b, List.mem_append_left _ c⟩
    · exact ⟨h1, h3, h4⟩
  · rintro ⟨h1, h3, h4⟩
    by_cases ha : e.1 = v
    · exact Or.inr ⟨h1, Or.inl ha, h3, h4⟩
    · by_cases hb : e.2 = v
      · exact Or.inr ⟨h1, Or.inr hb, h3, h4⟩
      · left
        refine hcomplete e h1 ?_ ?_
        · simpa [ha] using h3
        · simpa [hb] using h4

theorem rejected_of_not_retained (subgraph : graph_t) (sorted : List vertex_descriptor_t)
    (hnd : sorted.Nodup) (k : Nat) (v : vertex_descriptor_t) (hk : sorted[k]? = some v)
    (hout : v ∉ (solver.reduce subgraph sorted).acyclicGraph.vertices) :
    detect_cycles (solver.insert_vertex subgraph (solver.reduce subgraph (sorted.take k))
      v).acyclicGraph = true ∧
    solver.reduce subgraph (sorted.take (k + 1)) = solver.reduce subgraph (sorted.take k) := by
  obtain ⟨hinv, _⟩ := reduce_take_vertices subgraph sorted hnd k
  have hv := reduce_next_fresh subgraph sorted hnd k v hk
  rw [reduce_take_succ subgraph sorted k v hk]
  rcases reduce_step_cases subgraph _ v hinv hv with ⟨h1, h2⟩ | ⟨_, h2⟩
  · exact ⟨h1, h2⟩
  · exfalso
    apply hout
    obtain ⟨hinv', hvs⟩ := reduce_take_vertices subgraph sorted hnd (k + 1)
    rw [reduce_drop subgraph sorted (k + 1)]
    apply reduce_foldl_mono subgraph _ _ hinv'
      (List.Nodup.sublist (List.drop_sublist _ sorted) hnd)
    · intro x hx hx'
      have h1 := hvs x hx'
      have hdis := List.disjoint_take_drop hnd (Nat.le_refl (k + 1))
      exact hdis h1 hx
    · rw [reduce_take_succ subgraph sorted k v hk, h2,
        (insert_vertex_spec subgraph _ v hinv hv).2.1]
      simp

theorem retained_subset (subgraph : graph_t) (sorted : List vertex_descriptor_t)
    (hnd : sorted.Nodup) (k : Nat) :
    ∀ x ∈ (solver.reduce subgraph (sorted.take k)).acyclicGraph.vertices,
      x ∈ (solver.reduce subgraph sorted).acyclicGraph.vertices := by
  obtain ⟨hinv, hvs⟩ := reduce_take_vertices subgraph sorted hnd k
  rw [reduce_drop subgraph sorted k]
  apply reduce_foldl_mono subgraph _ _ hinv (List.Nodup.sublist (List.drop_sublist _ sorted) hnd)
  intro x hx hx'
  exact List.disjoint_take_drop hnd (Nat.le_refl k) (hvs x hx') hx

/-! ## Vertices with a self-loop -/

theorem self_loop_not_retained (subgraph : graph_t) (sorted : List vertex_descriptor_t)
    (hnd : sorted.Nodup) (v : vertex_descriptor_t) (hv : v ∈ sorted)
    (hloop : (v, v) ∈ subgraph.edges) :
    v ∉ (solver.reduce subgraph sorted).acyclicVertices.map Prod.fst ∧
    ∃ k, sorted[k]? = some v ∧
      (v, v) ∈ (solver.insert_vertex subgraph (solver.reduce subgraph (sorted.take k))
        v).acyclicGraph.edges ∧
      detect_cycles (solver.insert_vertex subgraph (solver.reduce subgraph (sorted.take k))
        v).acyclicGraph = true ∧
      solver.reduce subgraph (sorted.take (k + 1)) = solver.reduce subgraph (sorted.take k) := by
  obtain ⟨k, hk⟩ := List.mem_iff_getElem?.mp hv
  obtain ⟨hinv, _⟩ := reduce_take_vertices subgraph sorted hnd k
  have hfresh := reduce_next_fresh subgraph sorted hnd k v hk
  have hedges := inserted_graph_edges subgraph _ v hinv hfresh
  have hV := (insert_vertex_spec subgraph _ v hinv hfresh).2.1
  have hin : (v, v) ∈ (solver.insert_vertex subgraph (solver.reduce subgraph (sorted.take k))
      v).acyclicGraph.edges := by
    rw [hedges]
    exact ⟨hloop, by simp, by simp⟩
  have hdet : detect_cycles (solver.insert_vertex subgraph
      (solver.reduce subgraph (sorted.take k)) v).acyclicGraph = true := by
    rw [detect_cycles_eq_true_iff _ (fun e he => by
      rw [hV]
      exact ((hedges e).mp he).2)]
    exact ⟨v, Relation.TransGen.single hin⟩
  have hstep : solver.reduce subgraph (sorted.take (k + 1)) =
      solver.reduce subgraph (sorted.take k) := by
    rw [reduce_take_succ subgraph sorted k v hk]
    unfold solver.reduce_step
    rw [if_pos hdet]
    exact rollback_restores subgraph _ v hinv hfresh
  refine ⟨?_, k, hk, hin, hdet, hstep⟩
  intro hmem
  obtain ⟨hkeys, _⟩ := reduce_inv_reduce subgraph sorted hnd
  rw [hkeys, reduce_drop subgraph sorted (k + 1), hstep] at hmem
  obtain ⟨_, hsub⟩ := reduce_foldl_inv subgraph (sorted.drop (k + 1)) _ hinv
    (List.Nodup.sublist (List.drop_sublist _ sorted) hnd)
    (fun x hx hx' => by
      have h1 := (reduce_take_vertices subgraph sorted hnd k).2 x hx'
      exact List.disjoint_take_drop hnd (Nat.le_succ k) h1 hx)
  rcases hsub v hmem with h | h
  · exact hfresh h
  · exact not_mem_drop_of_nodup sorted hnd k v hk h

theorem collect_cut_superset (m : unordered_map vertex_properties_s vertex_descriptor_t)
    (l : List vertex_descriptor_t) (cut : List vertex_properties_s) :
    ∀ x ∈ cut, x ∈ solver.collect_cut m l cut := by
  intro x hx
  rw [mem_collect_cut]
  exact Or.inl hx

theorem process_subgraphs_self_loops {S D : Type} (gen : S → Nat → Nat → Nat × S)
    (ops : double_ops D)
    (std_sort : (vertex_descriptor_t × Nat → vertex_descriptor_t × Nat → Bool) →
      List (vertex_descriptor_t × Nat) → List (vertex_descriptor_t × Nat))
    (hsort : ∀ cmp l, (std_sort cmp l).Perm l)
    (agents steps batches : Nat) (changeThreshold : D) :
    ∀ (subgraphs : List graph_t) (cutVertices : List vertex_properties_s) (s : S)
      (cut : List vertex_properties_s) (s' : S),
      (∀ sg ∈ subgraphs, sg.wf) →
      solver.process_subgraphs gen ops std_sort agents steps batches changeThreshold subgraphs
        cutVertices s = .ok (cut, s') →
      (∀ x ∈ cutVertices, x ∈ cut) ∧
      ∀ sg ∈ subgraphs, num_vertices sg ≠ 1 → ∀ v ∈ sg.vertices, (v, v) ∈ sg.edges →
        v ∈ cut := by
  intro subgraphs
  induction subgraphs with
  | nil =>
    intro cutVertices s cut s' _ h
    simp only [solver.process_subgraphs, Except.ok.injEq, Prod.mk.injEq] at h
    rw [← h.1]
    exact ⟨fun x hx => hx, fun sg hsg => by cases hsg⟩
  | cons sg rest ih =>
    intro cutVertices s cut s' hwf h
    have hwf' : ∀ sg' ∈ rest, sg'.wf := fun sg' h' => hwf sg' (List.mem_cons_of_mem _ h')
    unfold solver.process_subgraphs at h
    simp only at h
    by_cases hone : num_vertices sg = 1
    · rw [if_pos hone] at h
      obtain ⟨h1, h2⟩ := ih cutVertices s cut s' hwf' h
      refine ⟨h1, fun sg' hsg' hne v hv hloop => ?_⟩
      rcases List.mem_cons.mp hsg' with rfl | hsg'
      · exact absurd hone hne
      · exact h2 sg' hsg' hne v hv hloop
    · rw [if_neg hone] at h
      cases hsim : simulate gen ops sg agents steps batches changeThreshold s with
      | error e => rw [hsim] at h; cases h
      | ok r =>
        obtain ⟨traffic, s1⟩ := r
        rw [hsim] at h
        simp only at h
        obtain ⟨b, hrun⟩ := simulate_ok_run gen ops sg agents steps batches changeThreshold s
          traffic s1 hsim
        obtain ⟨hkeys, _⟩ := simulate_run_sum gen ops sg agents steps batches changeThreshold s
          (hwf sg (List.mem_cons_self _ _)) traffic s1 b hrun
        obtain ⟨h1, h2⟩ := ih _ s1 cut s' hwf' h
        have hperm : (mapsort std_sort traffic solver.trafficCompare).Perm sg.vertices := by
          unfold mapsort
          rw [← hkeys]
          exact (hsort _ _).map Prod.fst
        refine ⟨fun x hx => h1 x (collect_cut_superset _ _ _ x hx),
          fun sg' hsg' hne v hv hloop => ?_⟩
        rcases List.mem_cons.mp hsg' with rfl | hsg'
        · apply h1
          rw [mem_collect_cut]
          right
          have hnd : (mapsort std_sort traffic solver.trafficCompare).Nodup :=
            hperm.nodup_iff.mpr (hwf sg' (List.mem_cons_self _ _)).1
          have hmem : v ∈ mapsort std_sort traffic solver.trafficCompare :=
            hperm.mem_iff.mpr hv
          exact ⟨hmem, (map_find_eq_none _ _).mpr
            (self_loop_not_retained sg' _ hnd v hmem hloop).1⟩
        · exact h2 sg' hsg' hne v hv hloop

theorem cut_vertices_self_loops {S D : Type} (sc : graph_t → Nat × List Nat)
    (gen : S → Nat → Nat → Nat × S) (ops : double_ops D)
    (std_sort : (vertex_descriptor_t × Nat → vertex_descriptor_t × Nat → Bool) →
      List (vertex_descriptor_t × Nat) → List (vertex_descriptor_t × Nat))
    (hsort : ∀ cmp l, (std_sort cmp l).Perm l)
    (g : graph_t) (agents steps batches : Nat) (changeThreshold : D) (s : S)
    (cut : List vertex_properties_s) (hwf : g.wf)
    (h : solver.cut_vertices sc gen ops std_sort g agents steps batches changeThreshold s =
      .ok cut) :
    ∀ sg ∈ tarjans_subgraphs sc g, num_vertices sg ≠ 1 → ∀ v ∈ sg.vertices,
      (v, v) ∈ g.edges → v ∈ cut := by
  intro sg hsg hne v hv hloop
  unfold solver.cut_vertices at h
  simp only at h
  cases hp : solver.process_subgraphs gen ops std_sort agents steps batches changeThreshold
      (tarjans_subgraphs sc g) [] s with
  | error e => rw [hp] at h; cases h
  | ok r =>
    obtain ⟨cut', s'⟩ := r
    rw [hp] at h
    simp only [Except.ok.injEq] at h
    subst h
    obtain ⟨_, h2⟩ := process_subgraphs_self_loops gen ops std_sort hsort agents steps batches
      changeThreshold _ [] s cut' s' (fun sg hsg => (tarjans_subgraphs_wf sc g hwf sg hsg).1) hp
    apply h2 sg hsg hne v hv
    obtain ⟨k, hk⟩ := List.mem_iff_getElem?.mp hsg
    obtain ⟨_, hverts, hedges⟩ := tarjans_subgraphs_spec sc g hwf k sg hk
    rw [hedges]
    rw [hverts, mem_component_vertices g (sc g) k v hwf.1] at hv
    exact ⟨hloop, rfl, hv.2⟩

theorem two_cycle_with_loop_cut :
    solver.cut_vertices one_component first_gen exact_ops insertion_sort two_cycle_with_loop
      1 2 1 0 0 = .ok [1] := by
  have hsub : tarjans_subgraphs one_component two_cycle_with_loop = [two_cycle_with_loop] := by
    decide
  have hagent : simulate_agents first_gen two_cycle_with_loop 2 1
      (initial_traffic two_cycle_with_loop) 0 = .ok ([(1, 2), (2, 0)], 3) := rfl
  have hsim : simulate first_gen exact_ops two_cycle_with_loop 1 2 1 0 0 =
      .ok ([(1, 2), (2, 0)], 3) := by
    unfold simulate
    rw [simulate_run_one_batch, hagent]
  unfold solver.cut_vertices
  simp only [hsub]
  unfold solver.process_subgraphs
  have hne : ¬ num_vertices two_cycle_with_loop = 1 := by decide
  simp only [if_neg hne, hsim]
  rfl

/-! ## Counting in a list without duplicates -/

theorem count_one_of_nodup {α : Type} [BEq α] [LawfulBEq α] (l : List α) (a : α)
    (hnd : l.Nodup) (h : a ∈ l) : l.count a = 1 := by
  induction l with
  | nil => cases h
  | cons b l ih =>
    rw [List.nodup_cons] at hnd
    rw [List.count_cons]
    by_cases hba : b = a
    · subst hba
      have : List.count b l = 0 := List.count_eq_zero.mpr hnd.1
      simp [this]
    · have hmem : a ∈ l := by
        rcases List.mem_cons.mp h with e | e
        · exact absurd e.symm hba
        · exact e
      have hbeq : (b == a) = false := by simpa using hba
      rw [ih hnd.2 hmem, hbeq]
      rfl

/-! ## The simulator on a star-loop component -/

theorem map_find_map_increment_self (m : unnormalized_vertex_traffic_map_t)
    (key : vertex_descriptor_t) :
    map_find (map_increment m key) key = some (traffic_at m key + 1) := by
  induction m with
  | nil => simp [map_increment, map_find, traffic_at]
  | cons p m ih =>
    obtain ⟨k, c⟩ := p
    by_cases hk : k = key
    · simp [map_increment, map_find, traffic_at, hk]
    · simp only [map_increment, map_find, traffic_at, hk, if_false] at ih ⊢
      exact ih

theorem traffic_at_map_increment (m : unnormalized_vertex_traffic_map_t)
    (key v : vertex_descriptor_t) :
    traffic_at (map_increment m key) v = traffic_at m v + (if key = v then 1 else 0) := by
  by_cases h : key = v
  · subst h
    simp only [if_true]
    rw [traffic_at, map_find_map_increment_self]
  · simp only [h, if_false, Nat.add_zero]
    unfold traffic_at
    rw [map_find_map_increment_ne m key v h]

theorem eq_singleton_of_nodup {α : Type} (l : List α) (a : α) (hnd : l.Nodup)
    (hall : ∀ x ∈ l, x = a) (hmem : a ∈ l) : l = [a] := by
  cases l with
  | nil => cases hmem
  | cons b l =>
    have hb : b = a := hall b (List.mem_cons_self _ _)
    subst hb
    rw [List.nodup_cons] at hnd
    cases l with
    | nil => rfl
    | cons c l =>
      have hc : c = b := hall c (List.mem_cons_of_mem _ (List.mem_cons_self _ _))
      exact absurd (hc ▸ List.mem_cons_self _ _) hnd.1

theorem star_leaf_out (g : graph_t) (centre : vertex_descriptor_t) (hstar : star_loop g centre)
    (v : vertex_descriptor_t) (hv : v ∈ g.vertices) (hvc : v ≠ centre) :
    out_vertices g v = [centre] := by
  obtain ⟨hwf, _, _, hall, honly⟩ := hstar
  have hout : out_edges v g = [(v, centre)] := by
    apply eq_singleton_of_nodup
    · exact List.Nodup.filter _ hwf.2.1
    · intro x hx
      unfold out_edges at hx
      simp only [List.mem_filter, beq_iff_eq] at hx
      obtain ⟨hxe, hx1⟩ := hx
      rcases honly x hxe with h | h
      · exact absurd (hx1.symm.trans h.1) hvc
      · exact Prod.ext hx1 h.1
    · unfold out_edges
      simp only [List.mem_filter, beq_iff_eq]
      exact ⟨(hall v hv hvc).2, trivial⟩
  unfold out_vertices
  rw [if_pos hv, hout]
  rfl

theorem star_centre_out (g : graph_t) (centre : vertex_descriptor_t)
    (hstar : star_loop g centre) :
    out_vertices g centre ≠ [] ∧
    ∀ w ∈ out_vertices g centre, w ∈ g.vertices ∧ w ≠ centre := by
  obtain ⟨hwf, hc, ⟨leaf, hleaf, hne⟩, hall, honly⟩ := hstar
  constructor
  · intro h
    have hlen := out_vertices_ne_nil g centre hc (by
      intro h0
      have hmem : (centre, leaf) ∈ out_edges centre g := by
        unfold out_edges
        simp only [List.mem_filter, beq_iff_eq]
        exact ⟨(hall leaf hleaf hne).1, trivial⟩
      rw [h0] at hmem
      cases hmem)
    rw [h] at hlen
    exact hlen rfl
  · intro w hw
    refine ⟨mem_out_vertices g hwf centre w hw, ?_⟩
    unfold out_vertices at hw
    rw [if_pos hc] at hw
    have hadj := (mem_out_targets g centre w).mp hw
    unfold graph_t.adj at hadj
    rcases honly _ hadj with h | h
    · exact h.2
    · exact absurd rfl h.2

theorem star_out_edges (g : graph_t) (centre : vertex_descriptor_t)
    (hstar : star_loop g centre) : ∀ v ∈ g.vertices, out_edges v g ≠ [] := by
  intro v hv h
  have hnil : out_vertices g v = [] := by
    unfold out_vertices
    rw [if_pos hv, h]
    rfl
  by_cases hvc : v = centre
  · subst hvc
    exact (star_centre_out g v hstar).1 hnil
  · rw [star_leaf_out g centre hstar v hv hvc] at hnil
    cases hnil

theorem simulate_steps_star {S : Type} (gen : S → Nat → Nat → Nat × S) (g : graph_t)
    (centre : vertex_descriptor_t) (hstar : star_loop g centre) (hgen : gen_in_range gen) :
    ∀ (steps : Nat) (cur : vertex_descriptor_t) (t : unnormalized_vertex_traffic_map_t) (s : S),
      cur ∈ g.vertices →
      ∃ t' s', simulate_steps gen g steps (some cur) t s = .ok (t', s') ∧
        traffic_at t' centre =
          traffic_at t centre + (if cur = centre then steps / 2 else (steps + 1) / 2) := by
  intro steps
  induction steps with
  | zero =>
    intro cur t s _
    refine ⟨t, s, rfl, ?_⟩
    split <;> simp
  | succ steps ih =>
    intro cur t s hcur
    by_cases hc : cur = centre
    · subst hc
      obtain ⟨hne, hleaves⟩ := star_centre_out g cur hstar
      have hlen : (out_vertices g cur).length ≠ 0 := fun h => hne (List.length_eq_zero.mp h)
      have hleaf : ∀ (w : vertex_descriptor_t) (s1 : S), w ∈ out_vertices g cur →
          ∃ t' s', simulate_steps gen g steps (some w) (map_increment t w) s1 = .ok (t', s') ∧
            traffic_at t' cur = traffic_at t cur + (steps + 1) / 2 := by
        intro w s1 hw
        obtain ⟨hwv, hwc⟩ := hleaves w hw
        obtain ⟨t', s', hrun, htr⟩ := ih w (map_increment t w) s1 hwv
        refine ⟨t', s', hrun, ?_⟩
        rw [htr, traffic_at_map_increment, if_neg hwc, if_neg hwc]
        rfl
      unfold simulate_steps
      simp only [hlen, if_false, if_true]
      by_cases h1 : (out_vertices g cur).length = 1
      · simp only [h1, if_true]
        have h0 : 0 < (out_vertices g cur).length := by omega
        rw [List.getElem?_eq_getElem h0]
        exact hleaf _ s (List.getElem_mem _)
      · simp only [h1, if_false]
        have hr := (hgen s 0 (out_vertices g cur).length (by omega)).2
        rw [List.getElem?_eq_getElem hr]
        exact hleaf _ _ (List.getElem_mem _)
    · have hout := star_leaf_out g centre hstar cur hcur hc
      obtain ⟨t', s', hrun, htr⟩ := ih centre (map_increment t centre) s hstar.2.1
      refine ⟨t', s', ?_, ?_⟩
      · unfold simulate_steps
        simp only [hout, List.length_singleton, if_true]
        exact hrun
      · rw [htr, traffic_at_map_increment]
        simp only [if_true, hc, if_false]
        omega

theorem simulate_agents_star {S : Type} (gen : S → Nat → Nat → Nat × S) (g : graph_t)
    (centre : vertex_descriptor_t) (hstar : star_loop g centre) (hgen : gen_in_range gen)
    (steps : Nat) (heven : steps % 2 = 0) :
    ∀ (agents : Nat) (t : unnormalized_vertex_traffic_map_t) (s : S),
      ∃ t' s', simulate_agents gen g steps agents t s = .ok (t', s') ∧
        traffic_at t' centre = traffic_at t centre + agents * (steps / 2) := by
  intro agents
  induction agents with
  | zero => intro t s; exact ⟨t, s, rfl, by simp⟩
  | succ agents ih =>
    intro t s
    have hpos : 0 < num_vertices g := List.length_pos.mpr (List.ne_nil_of_mem hstar.2.1)
    have hr : (gen s 0 (num_vertices g)).1 < g.vertices.length := (hgen s 0 _ hpos).2
    obtain ⟨t1, s1, h1, htr1⟩ := simulate_steps_star gen g centre hstar hgen steps
      (g.vertices[(gen s 0 (num_vertices g)).1]) t (gen s 0 (num_vertices g)).2
      (List.getElem_mem _)
    obtain ⟨t2, s2, h2, htr2⟩ := ih t1 s1
    refine ⟨t2, s2, ?_, ?_⟩
    · unfold simulate_agents
      simp only [List.getElem?_eq_getElem hr, h1]
      exact h2
    · rw [htr2, htr1, Nat.succ_mul]
      have hhalf : (steps + 1) / 2 = steps / 2 := by omega
      split <;> omega

theorem sum_split_at {f : vertex_descriptor_t → Nat} (l : List vertex_descriptor_t)
    (c : vertex_descriptor_t) (hnd : l.Nodup) (hc : c ∈ l) :
    (l.map f).sum = f c + ((l.filter (fun v => decide (v ≠ c))).map f).sum := by
  induction l with
  | nil => cases hc
  | cons a l ih =>
    rw [List.nodup_cons] at hnd
    by_cases hac : a = c
    · subst hac
      have hfil : l.filter (fun v => !decide (v = a)) = l := by
        apply List.filter_eq_self.mpr
        intro x hx
        simp only [Bool.not_eq_true', decide_eq_false_iff_not]
        exact fun e => hnd.1 (e ▸ hx)
      simp [List.filter_cons, hfil]
    · have hcl : c ∈ l := by
        rcases List.mem_cons.mp hc with e | e
        · exact absurd e.symm hac
        · exact e
      simp only [List.map_cons, List.sum_cons, List.filter_cons, ne_eq, hac, not_false_eq_true,
        decide_True, if_true]
      rw [ih hnd.2 hcl]
      simp only [ne_eq]
      omega

/-! ## The calls of `random_integer` made by the simulator -/

theorem logging_gen_in_range {S : Type} (gen : S → Nat → Nat → Nat × S)
    (hgen : gen_in_range gen) : gen_in_range (logging_gen gen) := by
  intro s a b hab
  exact hgen s.1 a b hab

theorem logging_gen_fst {S : Type} (gen : S → Nat → Nat → Nat × S) (s : S)
    (log : List (Nat × Nat)) (a b : Nat) :
    (logging_gen gen (s, log) a b).1 = (gen s a b).1 := rfl

theorem logging_gen_snd {S : Type} (gen : S → Nat → Nat → Nat × S) (s : S)
    (log : List (Nat × Nat)) (a b : Nat) :
    (logging_gen gen (s, log) a b).2 = ((gen s a b).2, log ++ [(a, b)]) := rfl

theorem simulate_steps_erase {S : Type} (gen : S → Nat → Nat → Nat × S) (g : graph_t) :
    ∀ (steps : Nat) (cur : Option vertex_descriptor_t) (t : unnormalized_vertex_traffic_map_t)
      (s : S) (log : List (Nat × Nat)),
      (simulate_steps (logging_gen gen) g steps cur t (s, log)).map (fun r => (r.1, r.2.1)) =
        simulate_steps gen g steps cur t s := by
  intro steps
  induction steps with
  | zero => intro cur t s log; rfl
  | succ steps ih =>
    intro cur t s log
    cases cur with
    | none => rfl
    | some v =>
      simp only [simulate_steps]
      generalize out_vertices g v = outs
      by_cases h0 : outs.length = 0
      · simp only [h0, if_true]
        rfl
      · simp only [h0, if_false]
        by_cases h1 : outs.length = 1
        · simp only [h1, if_true]
          cases outs[0]? with
          | none => rfl
          | some next => exact ih _ _ _ _
        · simp only [h1, if_false]
          show Except.map _ (match outs[(gen s 0 outs.length).1]? with
            | none => Except.error "index out of range"
            | some nextVertex => simulate_steps (logging_gen gen) g steps (some nextVertex)
                (map_increment t nextVertex)
                ((gen s 0 outs.length).2, log ++ [(0, outs.length)])) = _
          cases outs[(gen s 0 outs.length).1]? with
          | none => rfl
          | some next => exact ih _ _ _ _

theorem simulate_agents_erase {S : Type} (gen : S → Nat → Nat → Nat × S) (g : graph_t)
    (steps : Nat) :
    ∀ (agents : Nat) (t : unnormalized_vertex_traffic_map_t) (s : S) (log : List (Nat × Nat)),
      (simulate_agents (logging_gen gen) g steps agents t (s, log)).map
          (fun r => (r.1, r.2.1)) =
        simulate_agents gen g steps agents t s := by
  intro agents
  induction agents with
  | zero => intro t s log; rfl
  | succ agents ih =>
    intro t s log
    have herase := simulate_steps_erase gen g steps
      (g.vertices[(gen s 0 (num_vertices g)).1]?) t (gen s 0 (num_vertices g)).2
      (log ++ [(0, num_vertices g)])
    simp only [simulate_agents, logging_gen_fst, logging_gen_snd]
    rw [← herase]
    cases simulate_steps (logging_gen gen) g steps
        (g.vertices[(gen s 0 (num_vertices g)).1]?) t
        ((gen s 0 (num_vertices g)).2, log ++ [(0, num_vertices g)]) with
    | error e => rfl
    | ok r =>
      obtain ⟨t1, s1, log1⟩ := r
      exact ih t1 s1 log1

theorem simulate_batches_erase {S D : Type} (gen : S → Nat → Nat → Nat × S)
    (ops : double_ops D) (g : graph_t) (agents steps : Nat) (change_threshold : D) :
    ∀ (remaining batch : Nat) (t : unnormalized_vertex_traffic_map_t)
      (prev : normalized_vertex_traffic_map_t D) (s : S) (log : List (Nat × Nat)),
      (simulate_batches (logging_gen gen) ops g agents steps change_threshold remaining batch t
          prev (s, log)).map (fun r => (r.1, r.2.1.1, r.2.2)) =
        simulate_batches gen ops g agents steps change_threshold remaining batch t prev s := by
  intro remaining
  induction remaining with
  | zero => intro batch t prev s log; rfl
  | succ remaining ih =>
    intro batch t prev s log
    have herase := simulate_agents_erase gen g steps agents t s log
    simp only [simulate_batches]
    rw [← herase]
    cases simulate_agents (logging_gen gen) g steps agents t (s, log) with
    | error e => rfl
    | ok r =>
      obtain ⟨t1, s1, log1⟩ := r
      show Except.map _ (if ops.lt (simulate_difference ops ((batch + 1) * agents * steps) t1
          ops.zero prev).1 change_threshold = true then Except.ok (t1, (s1, log1), batch + 1)
        else simulate_batches (logging_gen gen) ops g agents steps change_threshold remaining
          (batch + 1) t1 (simulate_difference ops ((batch + 1) * agents * steps) t1 ops.zero
            prev).2 (s1, log1)) =
        if ops.lt (simulate_difference ops ((batch + 1) * agents * steps) t1
          ops.zero prev).1 change_threshold = true then Except.ok (t1, s1, batch + 1)
        else simulate_batches gen ops g agents steps change_threshold remaining
          (batch + 1) t1 (simulate_difference ops ((batch + 1) * agents * steps) t1 ops.zero
            prev).2 s1
      by_cases hlt : ops.lt (simulate_difference ops ((batch + 1) * agents * steps) t1
          ops.zero prev).1 change_threshold = true
      · rw [if_pos hlt, if_pos hlt]
        rfl
      · rw [if_neg hlt, if_neg hlt]
        exact ih _ _ _ _ _

theorem simulate_steps_no_draw {S : Type} (gen : S → Nat → Nat → Nat × S) (g : graph_t)
    (hone : ∀ v ∈ g.vertices, (out_vertices g v).length = 1) :
    ∀ (steps : Nat) (cur : Option vertex_descriptor_t) (t : unnormalized_vertex_traffic_map_t)
      (s : S) (t' : unnormalized_vertex_traffic_map_t) (s' : S),
      simulate_steps gen g steps cur t s = .ok (t', s') → s' = s := by
  intro steps
  induction steps with
  | zero =>
    intro cur t s t' s' h
    simp only [simulate_steps, Except.ok.injEq, Prod.mk.injEq] at h
    exact h.2.symm
  | succ steps ih =>
    intro cur t s t' s' h
    cases cur with
    | none => cases h
    | some v =>
      have hlen : (out_vertices g v).length ≤ 1 := by
        by_cases hv : v ∈ g.vertices
        · exact le_of_eq (hone v hv)
        · simp [out_vertices, hv]
      simp only [simulate_steps] at h
      generalize out_vertices g v = outs at h hlen
      by_cases h0 : outs.length = 0
      · simp only [h0, if_true] at h
        cases h
      · have h1 : outs.length = 1 := by omega
        simp only [h1, if_true] at h
        split at h
        · cases h
        · split at h
          · cases h
          · exact ih _ _ _ _ _ h

theorem simulate_agents_draws {S : Type} (gen : S → Nat → Nat → Nat × S) (g : graph_t)
    (hone : ∀ v ∈ g.vertices, (out_vertices g v).length = 1) (steps : Nat) :
    ∀ (agents : Nat) (t : unnormalized_vertex_traffic_map_t) (s : S) (log : List (Nat × Nat))
      (t' : unnormalized_vertex_traffic_map_t) (s' : S) (log' : List (Nat × Nat)),
      simulate_agents (logging_gen gen) g steps agents t (s, log) = .ok (t', (s', log')) →
      log' = log ++ List.replicate agents (0, num_vertices g) := by
  intro agents
  induction agents with
  | zero =>
    intro t s log t' s' log' h
    simp only [simulate_agents, Except.ok.injEq, Prod.mk.injEq] at h
    simp [← h.2.2]
  | succ agents ih =>
    intro t s log t' s' log' h
    simp only [simulate_agents] at h
    split at h
    · cases h
    · rename_i t1 s1 hrun
      have hs1 := simulate_steps_no_draw (logging_gen gen) g hone steps _ _ _ _ _ hrun
      rw [hs1] at h
      have hrec := ih t1 _ _ t' s' log' h
      rw [hrec]
      show (log ++ [(0, num_vertices g)]) ++ _ = _
      rw [List.append_assoc, List.replicate_succ]
      rfl

theorem simulate_batches_draws {S D : Type} (gen : S → Nat → Nat → Nat × S)
    (ops : double_ops D) (g : graph_t)
    (hone : ∀ v ∈ g.vertices, (out_vertices g v).length = 1) (agents steps : Nat)
    (change_threshold : D) :
    ∀ (remaining batch : Nat) (t : unnormalized_vertex_traffic_map_t)
      (prev : normalized_vertex_traffic_map_t D) (s : S) (log : List (Nat × Nat))
      (t' : unnormalized_vertex_traffic_map_t) (s' : S) (log' : List (Nat × Nat)) (b : Nat),
      simulate_batches (logging_gen gen) ops g agents steps change_threshold remaining batch t
        prev (s, log) = .ok (t', (s', log'), b) →
      batch ≤ b ∧ log' = log ++ List.replicate (agents * (b - batch)) (0, num_vertices g) := by
  intro remaining
  induction remaining with
  | zero =>
    intro batch t prev s log t' s' log' b h
    simp only [simulate_batches, Except.ok.injEq, Prod.mk.injEq] at h
    obtain ⟨_, ⟨_, hlog⟩, hb⟩ := h
    subst hb
    simp [← hlog]
  | succ remaining ih =>
    intro batch t prev s log t' s' log' b h
    simp only [simulate_batches] at h
    split at h
    · cases h
    · rename_i t1 sl1 hrun
      obtain ⟨s1, log1⟩ := sl1
      have hlog1 := simulate_agents_draws gen g hone steps agents t s log t1 s1 log1 hrun
      split at h
      · simp only [Except.ok.injEq, Prod.mk.injEq] at h
        obtain ⟨_, ⟨_, hlog⟩, hb⟩ := h
        subst hb
        refine ⟨Nat.le_succ _, ?_⟩
        rw [← hlog, hlog1, Nat.add_sub_cancel_left, Nat.mul_one]
      · obtain ⟨hle, hlog⟩ := ih _ _ _ _ _ _ _ _ _ h
        refine ⟨by omega, ?_⟩
        rw [hlog, hlog1, List.append_assoc, ← List.replicate_add]
        congr 2
        have hb : b - batch = (b - (batch + 1)) + 1 := by omega
        rw [hb, Nat.mul_add, Nat.mul_one, Nat.add_comm]

/-! ## The drift of the first batch -/

theorem sum_ratio (totalTraffic : Nat) (entries : List (vertex_descriptor_t × Nat)) :
    (entries.map (fun e => (e.2 : ℚ) / (totalTraffic : ℚ))).sum =
      (traffic_total entries : ℚ) / (totalTraffic : ℚ) := by
  unfold traffic_total
  induction entries with
  | nil => simp
  | cons p entries ih =>
    simp only [List.map_cons, List.sum_cons, Nat.cast_add, add_div, ih]

theorem exact_ops_rounds_within : rounds_within exact_ops some 0 := by
  refine ⟨rfl, ?_, ?_, ?_, ?_⟩
  · intro a b _ _ _
    exact ⟨_, rfl, by simp [exact_ops], by simp [exact_ops]⟩
  · intro x p hx hp
    simp only [Option.some.injEq] at hx
    subst hx
    simp only [exact_ops, sub_zero, abs_of_nonneg hp]
  · intro x y p q hx hy _ _ _
    simp only [Option.some.injEq] at hx hy
    subst hx hy
    exact ⟨_, rfl, by simp [exact_ops], by simp [exact_ops]⟩
  · intro x y p q hx hy
    simp only [Option.some.injEq] at hx hy
    subst hx hy
    rfl

theorem simulate_difference_rounded {D : Type} (ops : double_ops D) (value : D → Option ℚ)
    (u : ℚ) (hlaw : rounds_within ops value u) (hu0 : 0 ≤ u) (hu1 : u ≤ 1)
    (totalTraffic : Nat) (hpos : 0 < totalTraffic) (hbound : totalTraffic < 2 ^ 64) :
    ∀ (entries : List (vertex_descriptor_t × Nat)) (k : Nat) (difference : D) (δ σ : ℚ)
      (prev : normalized_vertex_traffic_map_t D),
      (entries.map Prod.fst).Nodup →
      (∀ key ∈ entries.map Prod.fst, map_find prev key = none) →
      (∀ e ∈ entries, e.2 ≤ totalTraffic) →
      value difference = some δ → 0 ≤ σ →
      (1 - u) ^ (k + 1) * σ ≤ δ → δ ≤ (1 + u) ^ (k + 1) * σ →
      σ + (entries.map (fun e => (e.2 : ℚ) / (totalTraffic : ℚ))).sum ≤ 1 →
      (1 + u) ^ (k + 1 + entries.length) ≤ 2 →
      ∃ δ', value (simulate_difference ops totalTraffic entries difference prev).1 = some δ' ∧
        (1 - u) ^ (k + 1 + entries.length) *
            (σ + (entries.map (fun e => (e.2 : ℚ) / (totalTraffic : ℚ))).sum) ≤ δ' ∧
        δ' ≤ (1 + u) ^ (k + 1 + entries.length) *
            (σ + (entries.map (fun e => (e.2 : ℚ) / (totalTraffic : ℚ))).sum) := by
  obtain ⟨_, hratio, habs, hadd, _⟩ := hlaw
  intro entries
  induction entries with
  | nil =>
    intro k difference δ σ prev _ _ _ hval _ hlo hhi _ _
    exact ⟨δ, hval, by simpa using hlo, by simpa using hhi⟩
  | cons p entries ih =>
    intro k difference δ σ prev hnd hfresh hle hval hσ hlo hhi hsum hpow
    obtain ⟨key, c⟩ := p
    simp only [List.map_cons, List.nodup_cons] at hnd
    simp only [List.map_cons, List.sum_cons] at hsum
    have hkey : map_find prev key = none := hfresh key (by simp)
    have hc : c ≤ totalTraffic := hle (key, c) (List.mem_cons_self _ _)
    obtain ⟨r, hr, hrlo, hrhi⟩ := hratio c totalTraffic hpos hc hbound
    have hT : (0 : ℚ) < (totalTraffic : ℚ) := Nat.cast_pos.mpr hpos
    have hq0 : (0 : ℚ) ≤ (c : ℚ) / (totalTraffic : ℚ) :=
      div_nonneg (Nat.cast_nonneg c) (le_of_lt hT)
    have hq1 : (c : ℚ) / (totalTraffic : ℚ) ≤ 1 := by
      rw [div_le_one hT]
      exact Nat.cast_le.mpr hc
    have hrest0 : 0 ≤ (entries.map (fun e => (e.2 : ℚ) / (totalTraffic : ℚ))).sum := by
      apply List.sum_nonneg
      intro x hx
      obtain ⟨e, _, rfl⟩ := List.mem_map.mp hx
      exact div_nonneg (Nat.cast_nonneg _) (le_of_lt hT)
    have h1u : 0 ≤ 1 - u := by linarith
    have h1u' : 1 - u ≤ 1 := by linarith
    have hu1' : 1 ≤ 1 + u := by linarith
    have hr0 : 0 ≤ r := le_trans (mul_nonneg h1u hq0) hrlo
    have hpowk : (1 + u) ^ (k + 1) ≤ 2 :=
      le_trans (pow_le_pow_right₀ hu1' (by omega)) hpow
    have hpow1 : 1 + u ≤ (1 + u) ^ (k + 1) := by
      calc 1 + u = (1 + u) ^ 1 := (pow_one _).symm
        _ ≤ (1 + u) ^ (k + 1) := pow_le_pow_right₀ hu1' (by omega)
    have hlow1 : (1 - u) ^ (k + 1) ≤ 1 - u := by
      calc (1 - u) ^ (k + 1) ≤ (1 - u) ^ 1 := pow_le_pow_of_le_one h1u h1u' (by omega)
        _ = 1 - u := pow_one _
    have hσ1 : σ ≤ 1 := by linarith
    have hδ0 : 0 ≤ δ := le_trans (mul_nonneg (pow_nonneg h1u _) hσ) hlo
    have hδ2 : δ ≤ 2 := by
      calc δ ≤ (1 + u) ^ (k + 1) * σ := hhi
        _ ≤ 2 * 1 := mul_le_mul hpowk hσ1 hσ (by norm_num)
        _ = 2 := by norm_num
    have hr2 : r ≤ 2 := by
      calc r ≤ (1 + u) * ((c : ℚ) / (totalTraffic : ℚ)) := hrhi
        _ ≤ 2 * 1 := mul_le_mul (le_trans hpow1 hpowk) hq1 hq0 (by norm_num)
        _ = 2 := by norm_num
    have habsr := habs _ r hr hr0
    obtain ⟨δ1, hδ1, hδ1lo, hδ1hi⟩ := hadd difference _ δ r hval habsr hδ0 hr0 (by linarith)
    have hrest : ∀ key' ∈ entries.map Prod.fst,
        map_find (map_assign prev key (ops.ratio c totalTraffic)) key' = none := by
      intro key' hk'
      have hne : key ≠ key' := fun e => hnd.1 (e ▸ hk')
      rw [map_find_map_assign_ne prev key key' _ hne]
      exact hfresh key' (by simp only [List.map_cons, List.mem_cons]; exact Or.inr hk')
    have hlo' : (1 - u) ^ (k + 1 + 1) * (σ + (c : ℚ) / (totalTraffic : ℚ)) ≤ δ1 := by
      have hsumlo : (1 - u) ^ (k + 1) * (σ + (c : ℚ) / (totalTraffic : ℚ)) ≤ δ + r := by
        have h1 : (1 - u) ^ (k + 1) * ((c : ℚ) / (totalTraffic : ℚ)) ≤
            (1 - u) * ((c : ℚ) / (totalTraffic : ℚ)) := mul_le_mul_of_nonneg_right hlow1 hq0
        rw [mul_add]
        linarith
      calc (1 - u) ^ (k + 1 + 1) * (σ + (c : ℚ) / (totalTraffic : ℚ))
          = (1 - u) * ((1 - u) ^ (k + 1) * (σ + (c : ℚ) / (totalTraffic : ℚ))) := by
            rw [pow_succ]; ring
        _ ≤ (1 - u) * (δ + r) := mul_le_mul_of_nonneg_left hsumlo h1u
        _ ≤ δ1 := hδ1lo
    have hhi' : δ1 ≤ (1 + u) ^ (k + 1 + 1) * (σ + (c : ℚ) / (totalTraffic : ℚ)) := by
      have hsumhi : δ + r ≤ (1 + u) ^ (k + 1) * (σ + (c : ℚ) / (totalTraffic : ℚ)) := by
        have h1 : (1 + u) * ((c : ℚ) / (totalTraffic : ℚ)) ≤
            (1 + u) ^ (k + 1) * ((c : ℚ) / (totalTraffic : ℚ)) :=
          mul_le_mul_of_nonneg_right hpow1 hq0
        rw [mul_add]
        linarith
      calc δ1 ≤ (1 + u) * (δ + r) := hδ1hi
        _ ≤ (1 + u) * ((1 + u) ^ (k + 1) * (σ + (c : ℚ) / (totalTraffic : ℚ))) :=
            mul_le_mul_of_nonneg_left hsumhi (by linarith)
        _ = (1 + u) ^ (k + 1 + 1) * (σ + (c : ℚ) / (totalTraffic : ℚ)) := by
            rw [pow_succ]; ring
    have hlen : k + 1 + (entries.length + 1) = k + 1 + 1 + entries.length := by omega
    obtain ⟨δ', hδ', hlo2, hhi2⟩ := ih (k + 1) _ δ1 (σ + (c : ℚ) / (totalTraffic : ℚ)) _
      hnd.2 hrest (fun e he => hle e (List.mem_cons_of_mem _ he)) hδ1 (by linarith) hlo' hhi'
      (by linarith) (by rw [← hlen]; exact hpow)
    refine ⟨δ', ?_, ?_, ?_⟩
    · simp only [simulate_difference, hkey]
      exact hδ'
    · simp only [List.map_cons, List.sum_cons, List.length_cons]
      rw [hlen, ← add_assoc]
      exact hlo2
    · simp only [List.map_cons, List.sum_cons, List.length_cons]
      rw [hlen, ← add_assoc]
      exact hhi2

theorem first_batch_difference {S D : Type} (gen : S → Nat → Nat → Nat × S)
    (ops : double_ops D) (value : D → Option ℚ) (u : ℚ) (hlaw : rounds_within ops value u)
    (hu0 : 0 ≤ u) (hu1 : u ≤ 1) (g : graph_t) (hwf : g.wf) (agents steps : Nat)
    (hagents : 0 < agents) (hsteps : 0 < steps) (hcount : agents * steps < 2 ^ 64)
    (hpow : (1 + u) ^ (num_vertices g + 1) ≤ 2) (s : S)
    (t1 : unnormalized_vertex_traffic_map_t) (s1 : S)
    (h : simulate_agents gen g steps agents (initial_traffic g) s = .ok (t1, s1)) :
    ∃ δ, value (simulate_difference ops ((0 + 1) * agents * steps) t1 ops.zero []).1 = some δ ∧
      (1 - u) ^ (num_vertices g + 1) ≤ δ ∧ δ ≤ (1 + u) ^ (num_vertices g + 1) := by
  obtain ⟨hkeys, htotal⟩ := simulate_agents_ok gen g hwf steps agents (initial_traffic g) s t1 s1
    (initial_traffic_keys g hwf.1) h
  rw [initial_traffic_total g hwf.1, Nat.zero_add] at htotal
  have hT : (0 + 1) * agents * steps = agents * steps := by rw [Nat.zero_add, Nat.one_mul]
  rw [hT]
  have hpos : 0 < agents * steps := Nat.mul_pos hagents hsteps
  have hlen : t1.length = num_vertices g := by
    have := congrArg List.length hkeys
    simpa [num_vertices] using this
  have hsum : (t1.map (fun e => (e.2 : ℚ) / ((agents * steps : Nat) : ℚ))).sum = 1 := by
    rw [sum_ratio, htotal]
    exact div_self (Nat.cast_ne_zero.mpr (by omega))
  have hnd : (t1.map Prod.fst).Nodup := by rw [hkeys]; exact hwf.1
  obtain ⟨δ, hδ, hlo, hhi⟩ := simulate_difference_rounded ops value u hlaw hu0 hu1
    (agents * steps) hpos hcount t1 0 ops.zero 0 0 [] hnd (fun _ _ => rfl)
    (fun e he => by
      have := entry_le_traffic_total t1 e he
      rw [htotal] at this
      exact this)
    hlaw.1 (le_refl _) (by simp) (by simp) (by rw [hsum]; norm_num)
    (by rw [Nat.zero_add, hlen, Nat.add_comm]; exact hpow)
  rw [hsum, Nat.zero_add, hlen, Nat.add_comm 1] at hlo hhi
  exact ⟨δ, hδ, by simpa using hlo, by simpa using hhi⟩

set_option maxRecDepth 8000 in
theorem double_of_one : double_of_size_t 1 = .finite false (2 ^ 52) 1022 := by decide

set_option maxRecDepth 8000 in
theorem six_cycle_run :
    (simulate_difference ieee_ops ((0 + 1) * 1 * 6)
      [(1, 1), (2, 1), (3, 1), (4, 1), (5, 1), (6, 1)] ieee_ops.zero []).1 =
      .finite false (2 ^ 53 - 1) 1021 ∧
    simulate_run first_gen ieee_ops six_cycle 1 6 2 (double_of_size_t 1) 0 =
      .ok ([(1, 1), (2, 1), (3, 1), (4, 1), (5, 1), (6, 1)], 1, 1) :=
  ⟨rfl, rfl⟩

set_option maxRecDepth 8000 in
theorem nine_cycle_run :
    (simulate_difference ieee_ops ((0 + 1) * 1 * 9)
      [(1, 1), (2, 1), (3, 1), (4, 1), (5, 1), (6, 1), (7, 1), (8, 1), (9, 1)]
      ieee_ops.zero []).1 = .finite false (2 ^ 52 + 1) 1022 ∧
    simulate_run first_gen ieee_ops nine_cycle 1 9 3 (.finite false (2 ^ 52 + 1) 1022) 0 =
      .ok ([(1, 2), (2, 2), (3, 2), (4, 2), (5, 2), (6, 2), (7, 2), (8, 2), (9, 2)], 2, 2) :=
  ⟨rfl, rfl⟩

/-! ## Rounding to `double` -/

theorem bit_length_zero (fuel : Nat) : bit_length fuel 0 = 0 := by
  cases fuel <;> simp [bit_length]

theorem bit_length_spec :
    ∀ (fuel n : Nat), n ≤ fuel →
      n < 2 ^ bit_length fuel n ∧ (n ≠ 0 → 2 ^ (bit_length fuel n - 1) ≤ n) := by
  intro fuel
  induction fuel with
  | zero =>
    intro n hn
    have h0 : n = 0 := by omega
    subst h0
    exact ⟨by simp [bit_length], fun h => absurd rfl h⟩
  | succ fuel ih =>
    intro n hn
    by_cases h0 : n = 0
    · subst h0
      exact ⟨by simp [bit_length], fun h => absurd rfl h⟩
    · have hhalf : n / 2 ≤ fuel := by omega
      obtain ⟨hlt, hge⟩ := ih (n / 2) hhalf
      simp only [bit_length, h0, if_false, Nat.add_sub_cancel]
      constructor
      · rw [pow_succ]
        omega
      · intro _
        by_cases h2 : n / 2 = 0
        · rw [h2, bit_length_zero]
          simp only [pow_zero]
          omega
        · have h3 := hge h2
          have hpos : 0 < bit_length fuel (n / 2) := by
            by_contra hc
            have hz : bit_length fuel (n / 2) = 0 := by omega
            rw [hz] at hlt
            simp only [pow_zero] at hlt
            omega
          have hsplit : bit_length fuel (n / 2) = (bit_length fuel (n / 2) - 1) + 1 := by omega
          rw [hsplit, pow_succ]
          omega

theorem round_half_even_spec (N D : Nat) (hD : 0 < D) (mantissa : Nat)
    (hm : mantissa =
      if 2 * (N % D) < D then N / D
      else if 2 * (N % D) = D then (if (N / D) % 2 = 0 then N / D else N / D + 1)
      else N / D + 1) :
    N / D ≤ mantissa ∧ mantissa ≤ N / D + 1 ∧
    2 * (mantissa * D) ≤ 2 * N + D ∧ 2 * N ≤ 2 * (mantissa * D) + D ∧
    (N % D = 0 → mantissa = N / D) := by
  have hdm := Nat.div_add_mod N D
  have hmod := Nat.mod_lt N hD
  have hQ : (N / D + 1) * D = D * (N / D) + D := by ring
  have hQ0 : (N / D) * D = D * (N / D) := Nat.mul_comm _ _
  split at hm
  · subst hm
    refine ⟨le_refl _, Nat.le_succ _, ?_, ?_, fun _ => rfl⟩ <;> rw [hQ0] <;> omega
  · split at hm
    · split at hm
      · subst hm
        refine ⟨le_refl _, Nat.le_succ _, ?_, ?_, fun _ => rfl⟩ <;> rw [hQ0] <;> omega
      · subst hm
        refine ⟨Nat.le_succ _, le_refl _, ?_, ?_, fun h => ?_⟩
        · rw [hQ]; omega
        · rw [hQ]; omega
        · omega
    · subst hm
      refine ⟨Nat.le_succ _, le_refl _, ?_, ?_, fun h => ?_⟩
      · rw [hQ]; omega
      · rw [hQ]; omega
      · omega

theorem round_to_double_spec (negative : Bool) (N d K : Nat) (hd : 0 < d) (hK : K ≤ 2000)
    (hN : N < d * 2 ^ K) :
    ∃ m e, round_to_double negative N d = .finite negative m e ∧
      m < 2 ^ 53 ∧ e ≤ 2045 ∧ (e = 0 ∨ 2 ^ 52 ≤ m) ∧
      (2 ^ 52 * d ≤ N →
        2 ^ 53 * (m * 2 ^ e * d) ≤ (2 ^ 53 + 1) * N ∧
        (2 ^ 53 - 1) * N ≤ 2 ^ 53 * (m * 2 ^ e * d)) ∧
      (N % d = 0 → N / d < 2 ^ 53 → m = N / d ∧ e = 0) := by
  obtain ⟨hlt, hge⟩ := bit_length_spec (N / d) (N / d) (le_refl _)
  have hfl : N / d < 2 ^ K := (Nat.div_lt_iff_lt_mul hd).mpr (by rw [Nat.mul_comm]; exact hN)
  have hL : bit_length (N / d) (N / d) ≤ 2000 := by
    by_contra hc
    have h0 : N / d ≠ 0 := by
      intro h0
      rw [h0, bit_length_zero] at hc
      omega
    have h1 := hge h0
    have h2 : 2 ^ K ≤ 2 ^ (bit_length (N / d) (N / d) - 1) :=
      Nat.pow_le_pow_right Nat.zero_lt_two
        (le_trans hK (Nat.le_sub_one_of_lt (Nat.lt_of_not_le hc)))
    exact absurd (lt_of_le_of_lt (le_trans h2 h1) hfl) (lt_irrefl _)
  generalize hLdef : bit_length (N / d) (N / d) = L at hlt hge hL
  have hpow : 0 < 2 ^ (L - 53) := Nat.two_pow_pos _
  have hD : 0 < d * 2 ^ (L - 53) := Nat.mul_pos hd hpow
  have hQ : N / (d * 2 ^ (L - 53)) = N / d / 2 ^ (L - 53) := (Nat.div_div_eq_div_mul _ _ _).symm
  have hQlt : N / (d * 2 ^ (L - 53)) < 2 ^ 53 := by
    rw [hQ, Nat.div_lt_iff_lt_mul hpow]
    by_cases h53 : L ≤ 53
    · have : L - 53 = 0 := by omega
      rw [this, pow_zero, Nat.mul_one]
      exact lt_of_lt_of_le hlt (Nat.pow_le_pow_right (by decide) h53)
    · have : L = 53 + (L - 53) := by omega
      rw [← pow_add, ← this]
      exact hlt
  have hnormal : L - 53 = 0 ∨
      (2 ^ 52 ≤ N / (d * 2 ^ (L - 53)) ∧ 2 ^ (52 + (L - 53)) * d ≤ N) := by
    by_cases h53 : L ≤ 53
    · left; omega
    · right
      have h0 : N / d ≠ 0 := by
        intro h0
        rw [h0] at hLdef
        rw [bit_length_zero] at hLdef
        omega
      have h1 := hge h0
      have hexp : L - 1 = 52 + (L - 53) := by omega
      rw [hexp] at h1
      constructor
      · rw [hQ, Nat.le_div_iff_mul_le hpow, ← pow_add]
        exact h1
      · exact (Nat.le_div_iff_mul_le hd).mp h1
  obtain ⟨hm1, hm2, hm3, hm4, hm5⟩ := round_half_even_spec N (d * 2 ^ (L - 53)) hD _ rfl
  generalize hmdef : (if 2 * (N % (d * 2 ^ (L - 53))) < d * 2 ^ (L - 53) then
      N / (d * 2 ^ (L - 53))
    else if 2 * (N % (d * 2 ^ (L - 53))) = d * 2 ^ (L - 53) then
      (if (N / (d * 2 ^ (L - 53))) % 2 = 0 then N / (d * 2 ^ (L - 53))
        else N / (d * 2 ^ (L - 53)) + 1)
    else N / (d * 2 ^ (L - 53)) + 1) = mantissa at hm1 hm2 hm3 hm4 hm5
  have hround : round_to_double negative N d =
      if mantissa = 2 ^ 53 then
        (if 2045 < L - 53 + 1 then .infinity negative
          else .finite negative (2 ^ 52) (L - 53 + 1))
      else
        (if 2045 < L - 53 then .infinity negative else .finite negative mantissa (L - 53)) := by
    simp only [round_to_double, hLdef, Nat.shiftLeft_eq, hmdef]
  have herr : 2 ^ 52 * d ≤ N →
      2 ^ 53 * (mantissa * 2 ^ (L - 53) * d) ≤ (2 ^ 53 + 1) * N ∧
      (2 ^ 53 - 1) * N ≤ 2 ^ 53 * (mantissa * 2 ^ (L - 53) * d) := by
    intro hbig
    have hulp : 2 ^ 52 * (d * 2 ^ (L - 53)) ≤ N := by
      rcases hnormal with h | ⟨_, h⟩
      · rw [h, pow_zero, Nat.mul_one]; exact hbig
      · calc 2 ^ 52 * (d * 2 ^ (L - 53)) = 2 ^ (52 + (L - 53)) * d := by rw [pow_add]; ring
          _ ≤ N := h
    have hre : mantissa * 2 ^ (L - 53) * d = mantissa * (d * 2 ^ (L - 53)) := by ring
    rw [hre]
    generalize mantissa * (d * 2 ^ (L - 53)) = M at hm3 hm4
    generalize d * 2 ^ (L - 53) = D at hm3 hm4 hulp
    constructor <;> omega
  have hexact : N % d = 0 → N / d < 2 ^ 53 → mantissa = N / d ∧ L - 53 = 0 := by
    intro hmod hsmall
    have hL53 : L ≤ 53 := by
      by_contra hc
      have h0 : N / d ≠ 0 := by
        intro h0
        rw [h0, bit_length_zero] at hLdef
        omega
      have h1 := hge h0
      have h2 : 2 ^ 53 ≤ 2 ^ (L - 1) := Nat.pow_le_pow_right Nat.zero_lt_two (by omega)
      omega
    have he : L - 53 = 0 := by omega
    rw [he] at hm5
    simp only [pow_zero, Nat.mul_one] at hm5
    exact ⟨hm5 hmod, he⟩
  rw [hround]
  by_cases htop : mantissa = 2 ^ 53
  · rw [if_pos htop, if_neg (by omega)]
    refine ⟨2 ^ 52, L - 53 + 1, rfl, by decide, by omega, Or.inr (le_refl _), ?_, ?_⟩
    · intro hbig
      have hsame : 2 ^ 52 * 2 ^ (L - 53 + 1) * d = mantissa * 2 ^ (L - 53) * d := by
        rw [htop, pow_succ]; ring
      rw [hsame]
      exact herr hbig
    · intro hmod hsmall
      have := (hexact hmod hsmall).1
      omega
  · rw [if_neg htop, if_neg (by omega)]
    refine ⟨mantissa, L - 53, rfl, by omega, by omega, ?_, herr, hexact⟩
    rcases hnormal with h | ⟨h, _⟩
    · exact Or.inl h
    · exact Or.inr (le_trans h hm1)

theorem round_value (N d K : Nat) (hd : 0 < d) (hK : K ≤ 2000) (hN : N < d * 2 ^ K) :
    ∃ m e, round_to_double false N d = .finite false m e ∧
      ieee_value (.finite false m e) = some ((m : ℚ) * 2 ^ e / 2 ^ 1074) ∧
      (2 ^ 52 * d ≤ N →
        (1 - 1 / 2 ^ 53) * ((N : ℚ) / d) ≤ (m : ℚ) * 2 ^ e ∧
        (m : ℚ) * 2 ^ e ≤ (1 + 1 / 2 ^ 53) * ((N : ℚ) / d)) ∧
      (N % d = 0 → N / d < 2 ^ 53 → (m : ℚ) * 2 ^ e = (N : ℚ) / d) := by
  obtain ⟨m, e, hround, hm, he, hcanon, herr, hexact⟩ :=
    round_to_double_spec false N d K hd hK hN
  have hdq : (0 : ℚ) < (d : ℚ) := Nat.cast_pos.mpr hd
  refine ⟨m, e, hround, ?_, ?_, ?_⟩
  · simp only [ieee_value, hm, he, hcanon, and_self, if_true, Bool.false_eq_true, if_false,
      one_mul]
  · intro hbig
    obtain ⟨h1, h2⟩ := herr hbig
    have h1q : ((2 : ℚ) ^ 53) * ((m : ℚ) * 2 ^ e * d) ≤ (2 ^ 53 + 1) * (N : ℚ) := by
      exact_mod_cast h1
    have h2q : ((2 : ℚ) ^ 53) * (N : ℚ) ≤ 2 ^ 53 * ((m : ℚ) * 2 ^ e * d) + N := by
      have : 2 ^ 53 * N ≤ 2 ^ 53 * (m * 2 ^ e * d) + N := by omega
      exact_mod_cast this
    constructor
    · rw [← sub_nonneg]
      have : (m : ℚ) * 2 ^ e - (1 - 1 / 2 ^ 53) * ((N : ℚ) / d) =
          (2 ^ 53 * ((m : ℚ) * 2 ^ e * d) + N - 2 ^ 53 * (N : ℚ)) / (2 ^ 53 * d) := by
        field_simp
        ring
      rw [this]
      apply div_nonneg
      · linarith
      · positivity
    · rw [← sub_nonneg]
      have : (1 + 1 / 2 ^ 53) * ((N : ℚ) / d) - (m : ℚ) * 2 ^ e =
          ((2 ^ 53 + 1) * (N : ℚ) - 2 ^ 53 * ((m : ℚ) * 2 ^ e * d)) / (2 ^ 53 * d) := by
        field_simp
        ring
      rw [this]
      apply div_nonneg
      · linarith
      · positivity
  · intro hmod hsmall
    obtain ⟨hm', he'⟩ := hexact hmod hsmall
    rw [hm', he', pow_zero, mul_one]
    have hdvd : d ∣ N := Nat.dvd_of_mod_eq_zero hmod
    rw [Nat.cast_div hdvd (ne_of_gt hdq)]

theorem bit_length_unique (n L : Nat) (hlo : 2 ^ (L - 1) ≤ n) (hhi : n < 2 ^ L) (hL : 0 < L) :
    bit_length n n = L := by
  obtain ⟨hlt, hge⟩ := bit_length_spec n n (le_refl _)
  have hn : n ≠ 0 := by
    have : 0 < 2 ^ (L - 1) := Nat.two_pow_pos _
    omega
  have h1 := hge hn
  have h2 : L - 1 < bit_length n n :=
    (Nat.pow_lt_pow_iff_right (by decide : 1 < 2)).mp (lt_of_le_of_lt hlo hlt)
  have h3 : bit_length n n - 1 < L :=
    (Nat.pow_lt_pow_iff_right (by decide : 1 < 2)).mp (lt_of_le_of_lt h1 hhi)
  omega

theorem round_to_double_exact (negative : Bool) (m e : Nat) (hm : m < 2 ^ 53)
    (he : e ≤ 2045) (hc : e = 0 ∨ 2 ^ 52 ≤ m) :
    round_to_double negative (m <<< e) 1 = .finite negative m e := by
  have hpow : 0 < 2 ^ e := Nat.two_pow_pos _
  have hL : bit_length (m * 2 ^ e) (m * 2 ^ e) - 53 = e := by
    rcases hc with h0 | hbig
    · subst h0
      rw [pow_zero, Nat.mul_one]
      obtain ⟨_, hge⟩ := bit_length_spec m m (le_refl _)
      by_contra hne
      have hm0 : m ≠ 0 := by
        intro h
        rw [h, bit_length_zero] at hne
        omega
      have h1 := hge hm0
      have h2 : 2 ^ 53 ≤ 2 ^ (bit_length m m - 1) :=
        Nat.pow_le_pow_right Nat.zero_lt_two (by omega)
      omega
    · have hlen : bit_length (m * 2 ^ e) (m * 2 ^ e) = 53 + e := by
        apply bit_length_unique
        · have : 53 + e - 1 = 52 + e := by omega
          rw [this, pow_add]
          exact Nat.mul_le_mul_right _ hbig
        · rw [pow_add]
          exact Nat.mul_lt_mul_of_pos_right hm hpow
        · omega
      rw [hlen]
      omega
  simp only [round_to_double, Nat.shiftLeft_eq, Nat.div_one, Nat.one_mul, hL,
    Nat.mul_div_cancel _ hpow, Nat.mul_mod_left, Nat.mul_zero, hpow, if_true]
  rw [if_neg (by omega), if_neg (by omega)]

theorem scaled_value_cast (s : Bool) (m e : Nat) (p : ℚ)
    (h : ieee_value (.finite s m e) = some p) :
    ((scaled_value s m e : Int) : ℚ) = p * 2 ^ 1074 ∧ m < 2 ^ 53 ∧ e ≤ 2045 ∧
      (e = 0 ∨ 2 ^ 52 ≤ m) := by
  simp only [ieee_value] at h
  split at h
  · rename_i hc
    simp only [Option.some.injEq] at h
    refine ⟨?_, hc⟩
    rw [← h]
    have hP : ((2 : ℚ) ^ 1074) ≠ 0 := pow_ne_zero _ (by norm_num)
    cases s
    · simp only [scaled_value, Nat.shiftLeft_eq, Bool.false_eq_true, if_false, one_mul]
      push_cast
      field_simp
    · simp only [scaled_value, Nat.shiftLeft_eq, if_true]
      push_cast
      field_simp
  · cases h

theorem ieee_value_finite (x : ieee_double) (p : ℚ) (h : ieee_value x = some p) :
    ∃ s m e, x = .finite s m e := by
  cases x with
  | finite s m e => exact ⟨s, m, e, rfl⟩
  | infinity s => cases h
  | nan => cases h

theorem ieee_zero_value : ieee_value ieee_ops.zero = some 0 := by
  simp [ieee_ops, ieee_value]

theorem ieee_lt_value (x y : ieee_double) (p q : ℚ) (hx : ieee_value x = some p)
    (hy : ieee_value y = some q) : ieee_ops.lt x y = decide (p < q) := by
  obtain ⟨s, m, e, rfl⟩ := ieee_value_finite x p hx
  obtain ⟨t, n, f, rfl⟩ := ieee_value_finite y q hy
  obtain ⟨h1, _⟩ := scaled_value_cast s m e p hx
  obtain ⟨h2, _⟩ := scaled_value_cast t n f q hy
  have hP : (0 : ℚ) < 2 ^ 1074 := pow_pos (by norm_num) _
  simp only [ieee_ops, ieee_lt]
  rw [decide_eq_decide, ← Int.cast_lt (R := ℚ), h1, h2]
  exact mul_lt_mul_right hP

theorem ieee_abs_sub_zero (x : ieee_double) (p : ℚ) (hx : ieee_value x = some p)
    (hp : 0 ≤ p) : ieee_value (ieee_ops.abs_sub x ieee_ops.zero) = some p := by
  obtain ⟨s, m, e, rfl⟩ := ieee_value_finite x p hx
  obtain ⟨h1, hm, he, hc⟩ := scaled_value_cast s m e p hx
  have hP : (0 : ℚ) < 2 ^ 1074 := pow_pos (by norm_num) _
  have hnat : (scaled_value s m e - scaled_value false 0 0).natAbs = m <<< e := by
    cases s <;> simp [scaled_value]
  simp only [ieee_ops, ieee_abs_sub]
  rw [hnat, round_to_double_exact false m e hm he hc]
  have hval : ieee_value (.finite false m e) = some ((m : ℚ) * 2 ^ e / 2 ^ 1074) := by
    simp only [ieee_value, hm, he, hc, and_self, if_true, Bool.false_eq_true, if_false,
      one_mul]
  rw [hval]
  apply congrArg some
  cases s
  · simp only [ieee_value, hm, he, hc, and_self, if_true, Bool.false_eq_true, if_false,
      one_mul, Option.some.injEq] at hx
    exact hx
  · simp only [ieee_value, hm, he, hc, and_self, if_true, Option.some.injEq] at hx
    have hM : (0 : ℚ) ≤ (m : ℚ) * 2 ^ e / 2 ^ 1074 :=
      div_nonneg (mul_nonneg (Nat.cast_nonneg m) (pow_nonneg (by norm_num) e)) (le_of_lt hP)
    have : (m : ℚ) * 2 ^ e / 2 ^ 1074 = 0 := by linarith
    rw [this] at hx ⊢
    linarith

theorem widen_lower (ε u r x : ℚ) (hεu : ε ≤ u) (hx : 0 ≤ x) (h : (1 - ε) * x ≤ r) :
    (1 - u) * x ≤ r := by
  have : (1 - u) * x ≤ (1 - ε) * x := mul_le_mul_of_nonneg_right (by linarith) hx
  linarith

theorem widen_upper (ε u r x : ℚ) (hεu : ε ≤ u) (hx : 0 ≤ x) (h : r ≤ (1 + ε) * x) :
    r ≤ (1 + u) * x := by
  have : (1 + ε) * x ≤ (1 + u) * x := mul_le_mul_of_nonneg_right (by linarith) hx
  linarith

theorem ieee_add_value (x y : ieee_double) (p q : ℚ) (hx : ieee_value x = some p)
    (hy : ieee_value y = some q) (hp : 0 ≤ p) (hq : 0 ≤ q) (hsum : p + q ≤ 4) :
    ∃ r, ieee_value (ieee_ops.add x y) = some r ∧
      (1 - 1 / 2 ^ 51) * (p + q) ≤ r ∧ r ≤ (1 + 1 / 2 ^ 51) * (p + q) := by
  obtain ⟨s, m, e, rfl⟩ := ieee_value_finite x p hx
  obtain ⟨t, n, f, rfl⟩ := ieee_value_finite y q hy
  obtain ⟨h1, _⟩ := scaled_value_cast s m e p hx
  obtain ⟨h2, _⟩ := scaled_value_cast t n f q hy
  have hP : (0 : ℚ) < 2 ^ 1074 := pow_pos (by norm_num) _
  have hpq : 0 ≤ p + q := by linarith
  have hεu : (1 : ℚ) / 2 ^ 53 ≤ 1 / 2 ^ 51 := by norm_num
  have hcast : ((scaled_value s m e + scaled_value t n f : Int) : ℚ) = (p + q) * 2 ^ 1074 := by
    rw [Int.cast_add, h1, h2]
    ring
  simp only [ieee_ops, ieee_add]
  by_cases hz : scaled_value s m e + scaled_value t n f = 0
  · rw [if_pos hz]
    rw [hz, Int.cast_zero] at hcast
    have hzero : p + q = 0 := by
      rcases mul_eq_zero.mp hcast.symm with h | h
      · exact h
      · exact absurd h (ne_of_gt hP)
    refine ⟨0, ?_, by rw [hzero]; simp, by rw [hzero]; simp⟩
    simp [ieee_value]
  · rw [if_neg hz]
    have hnonneg : 0 ≤ scaled_value s m e + scaled_value t n f := by
      have : (0 : ℚ) ≤ ((scaled_value s m e + scaled_value t n f : Int) : ℚ) := by
        rw [hcast]
        exact mul_nonneg hpq (le_of_lt hP)
      exact Int.cast_nonneg.mp this
    have hdec : decide (scaled_value s m e + scaled_value t n f < 0) = false := by
      rw [decide_eq_false_iff_not]
      omega
    rw [hdec]
    generalize hNdef : (scaled_value s m e + scaled_value t n f).natAbs = N
    have hNcast : (N : ℚ) = (p + q) * 2 ^ 1074 := by
      rw [← hcast, ← hNdef, Nat.cast_natAbs, abs_of_nonneg hnonneg]
    have hN : N < 1 * 2 ^ 1077 := by
      have hq' : (N : ℚ) < ((1 * 2 ^ 1077 : ℕ) : ℚ) := by
        rw [hNcast, Nat.cast_mul, Nat.cast_one, Nat.cast_pow, Nat.cast_ofNat]
        have hsplit : (2 : ℚ) ^ 1077 = 2 ^ 3 * 2 ^ 1074 := by rw [← pow_add]
        rw [one_mul, hsplit]
        have : (p + q) * 2 ^ 1074 ≤ 4 * 2 ^ 1074 := mul_le_mul_of_nonneg_right hsum (le_of_lt hP)
        have h8 : (4 : ℚ) * 2 ^ 1074 < 2 ^ 3 * 2 ^ 1074 :=
          mul_lt_mul_of_pos_right (by norm_num) hP
        linarith
      exact Nat.cast_lt.mp hq'
    obtain ⟨m', e', hround, hval, herr, hexact⟩ :=
      round_value N 1 1077 Nat.one_pos (by decide) hN
    rw [hround, hval]
    refine ⟨_, rfl, ?_, ?_⟩
    · by_cases hbig : 2 ^ 52 * 1 ≤ N
      · have := (herr hbig).1
        rw [Nat.cast_one, div_one, hNcast] at this
        apply widen_lower _ _ _ _ hεu hpq
        rw [le_div_iff₀ hP]
        calc (1 - 1 / 2 ^ 53) * (p + q) * 2 ^ 1074
            = (1 - 1 / 2 ^ 53) * ((p + q) * 2 ^ 1074) := by ring
          _ ≤ _ := this
      · have hsmall : N / 1 < 2 ^ 53 := by
          rw [Nat.div_one]
          omega
        have := hexact (Nat.mod_one N) hsmall
        rw [this, Nat.cast_one, div_one, hNcast, mul_div_assoc, div_self (ne_of_gt hP),
          mul_one]
        apply widen_lower _ _ _ _ (by norm_num : (0 : ℚ) ≤ 1 / 2 ^ 51) hpq
        simp
    · by_cases hbig : 2 ^ 52 * 1 ≤ N
      · have := (herr hbig).2
        rw [Nat.cast_one, div_one, hNcast] at this
        apply widen_upper _ _ _ _ hεu hpq
        rw [div_le_iff₀ hP]
        calc (m' : ℚ) * 2 ^ e' ≤ (1 + 1 / 2 ^ 53) * ((p + q) * 2 ^ 1074) := this
          _ = (1 + 1 / 2 ^ 53) * (p + q) * 2 ^ 1074 := by ring
      · have hsmall : N / 1 < 2 ^ 53 := by
          rw [Nat.div_one]
          omega
        have := hexact (Nat.mod_one N) hsmall
        rw [this, Nat.cast_one, div_one, hNcast, mul_div_assoc, div_self (ne_of_gt hP),
          mul_one]
        apply widen_upper _ _ _ _ (by norm_num : (0 : ℚ) ≤ 1 / 2 ^ 51) hpq
        simp

theorem ratio_bounds (a b P Ma Mb M : ℚ) (ha : 0 ≤ a) (hb : 0 < b) (hP : 0 < P)
    (hMa1 : (1 - 1 / 2 ^ 53) * (a * P) ≤ Ma) (hMa2 : Ma ≤ (1 + 1 / 2 ^ 53) * (a * P))
    (hMb1 : (1 - 1 / 2 ^ 53) * (b * P) ≤ Mb) (hMb2 : Mb ≤ (1 + 1 / 2 ^ 53) * (b * P))
    (hM1 : (1 - 1 / 2 ^ 53) * (Ma * P / Mb) ≤ M) (hM2 : M ≤ (1 + 1 / 2 ^ 53) * (Ma * P / Mb)) :
    (1 - 1 / 2 ^ 51) * (a / b) ≤ M / P ∧ M / P ≤ (1 + 1 / 2 ^ 51) * (a / b) := by
  have hbP : 0 < b * P := mul_pos hb hP
  have hMbpos : 0 < Mb := lt_of_lt_of_le (mul_pos (by norm_num) hbP) hMb1
  have hr : 0 ≤ a / b := div_nonneg ha (le_of_lt hb)
  have hMa0 : 0 ≤ Ma := le_trans (mul_nonneg (by norm_num) (mul_nonneg ha (le_of_lt hP))) hMa1
  have ht0 : 0 ≤ Ma / Mb := div_nonneg hMa0 (le_of_lt hMbpos)
  have hdiv : Ma * P / Mb / P = Ma / Mb := by
    field_simp
    ring
  have hup : Ma / Mb ≤ (1 + 1 / 2 ^ 53) / (1 - 1 / 2 ^ 53) * (a / b) := by
    rw [div_le_iff₀ hMbpos]
    calc Ma ≤ (1 + 1 / 2 ^ 53) * (a * P) := hMa2
      _ = (1 + 1 / 2 ^ 53) / (1 - 1 / 2 ^ 53) * (a / b) * ((1 - 1 / 2 ^ 53) * (b * P)) := by
          field_simp
          ring
      _ ≤ (1 + 1 / 2 ^ 53) / (1 - 1 / 2 ^ 53) * (a / b) * Mb :=
          mul_le_mul_of_nonneg_left hMb1 (mul_nonneg (by norm_num) hr)
  have hlow : (1 - 1 / 2 ^ 53) / (1 + 1 / 2 ^ 53) * (a / b) ≤ Ma / Mb := by
    rw [le_div_iff₀ hMbpos]
    calc (1 - 1 / 2 ^ 53) / (1 + 1 / 2 ^ 53) * (a / b) * Mb
        ≤ (1 - 1 / 2 ^ 53) / (1 + 1 / 2 ^ 53) * (a / b) * ((1 + 1 / 2 ^ 53) * (b * P)) :=
          mul_le_mul_of_nonneg_left hMb2 (mul_nonneg (by norm_num) hr)
      _ = (1 - 1 / 2 ^ 53) * (a * P) := by
          field_simp
          ring
      _ ≤ Ma := hMa1
  constructor
  · calc (1 - 1 / 2 ^ 51) * (a / b)
        ≤ (1 - 1 / 2 ^ 53) * ((1 - 1 / 2 ^ 53) / (1 + 1 / 2 ^ 53) * (a / b)) := by
          rw [← mul_assoc]
          exact mul_le_mul_of_nonneg_right (by norm_num) hr
      _ ≤ (1 - 1 / 2 ^ 53) * (Ma / Mb) := mul_le_mul_of_nonneg_left hlow (by norm_num)
      _ = (1 - 1 / 2 ^ 53) * (Ma * P / Mb) / P := by rw [mul_div_assoc, hdiv]
      _ ≤ M / P := div_le_div_of_nonneg_right hM1 (le_of_lt hP)
  · calc M / P ≤ (1 + 1 / 2 ^ 53) * (Ma * P / Mb) / P :=
          div_le_div_of_nonneg_right hM2 (le_of_lt hP)
      _ = (1 + 1 / 2 ^ 53) * (Ma / Mb) := by rw [mul_div_assoc, hdiv]
      _ ≤ (1 + 1 / 2 ^ 53) * ((1 + 1 / 2 ^ 53) / (1 - 1 / 2 ^ 53) * (a / b)) :=
          mul_le_mul_of_nonneg_left hup (by norm_num)
      _ ≤ (1 + 1 / 2 ^ 51) * (a / b) := by
          rw [← mul_assoc]
          exact mul_le_mul_of_nonneg_right (by norm_num) hr

theorem shift_eq_mul_pow (n k : Nat) : n <<< k = n * 2 ^ k := Nat.shiftLeft_eq n k

theorem double_of_size_t_value (n : Nat) (hn : n < 2 ^ 64) :
    ∃ m e, double_of_size_t n = .finite false m e ∧
      ieee_value (.finite false m e) = some ((m : ℚ) * 2 ^ e / 2 ^ 1074) ∧
      (1 - 1 / 2 ^ 53) * ((n : ℚ) * 2 ^ 1074) ≤ (m : ℚ) * 2 ^ e ∧
      (m : ℚ) * 2 ^ e ≤ (1 + 1 / 2 ^ 53) * ((n : ℚ) * 2 ^ 1074) := by
  have hpos : 0 < 2 ^ 1074 := pow_pos Nat.zero_lt_two 1074
  have hN : n * 2 ^ 1074 < 1 * 2 ^ (64 + 1074) := by
    rw [Nat.one_mul, pow_add]
    exact Nat.mul_lt_mul_of_pos_right hn hpos
  obtain ⟨m, e, hround, hval, herr, hexact⟩ :=
    round_value (n * 2 ^ 1074) 1 (64 + 1074) Nat.one_pos (by decide) hN
  have hcast : ((n * 2 ^ 1074 : ℕ) : ℚ) / ((1 : ℕ) : ℚ) = (n : ℚ) * 2 ^ 1074 := by
    rw [Nat.cast_one, div_one, Nat.cast_mul, Nat.cast_pow, Nat.cast_ofNat]
  refine ⟨m, e, ?_, hval, ?_⟩
  · simp only [double_of_size_t, shift_eq_mul_pow]
    exact hround
  · by_cases h0 : n = 0
    · subst h0
      have hsmall : 0 * 2 ^ 1074 / 1 < 2 ^ 53 := by
        rw [Nat.zero_mul, Nat.zero_div]
        exact pow_pos Nat.zero_lt_two 53
      have := hexact (Nat.mod_one _) hsmall
      rw [this, Nat.zero_mul, Nat.cast_zero, zero_div, zero_mul, mul_zero, mul_zero]
      exact ⟨le_refl _, le_refl _⟩
    · have hbig : 2 ^ 52 * 1 ≤ n * 2 ^ 1074 := by
        rw [Nat.mul_one]
        calc 2 ^ 52 ≤ 2 ^ 1074 := pow_le_pow_right₀ (by decide) (by decide)
          _ ≤ n * 2 ^ 1074 := Nat.le_mul_of_pos_left _ (Nat.pos_of_ne_zero h0)
      have := herr hbig
      rw [hcast] at this
      exact this

theorem ieee_ratio_value (a b : Nat) (hb : 0 < b) (hab : a ≤ b) (hb64 : b < 2 ^ 64) :
    ∃ q, ieee_value (ieee_ops.ratio a b) = some q ∧
      (1 - 1 / 2 ^ 51) * ((a : ℚ) / (b : ℚ)) ≤ q ∧ q ≤ (1 + 1 / 2 ^ 51) * ((a : ℚ) / (b : ℚ)) := by
  obtain ⟨ma, ea, hfa, _, hMa1, hMa2⟩ := double_of_size_t_value a (lt_of_le_of_lt hab hb64)
  obtain ⟨mb, eb, hfb, _, hMb1, hMb2⟩ := double_of_size_t_value b hb64
  have hP : (0 : ℚ) < 2 ^ 1074 := pow_pos (by norm_num) _
  have hP118 : (2 : ℚ) ^ 118 ≤ 2 ^ 1074 := pow_le_pow_right₀ (by norm_num) (by decide)
  have hsplit : (2 : ℚ) ^ 1077 = 2 ^ 3 * 2 ^ 1074 := by rw [← pow_add]
  have haq : (0 : ℚ) ≤ (a : ℚ) := Nat.cast_nonneg a
  have hbq : (1 : ℚ) ≤ (b : ℚ) := by exact_mod_cast hb
  have hb64q : (b : ℚ) ≤ 2 ^ 64 := by exact_mod_cast le_of_lt hb64
  have habq : (a : ℚ) ≤ (b : ℚ) := Nat.cast_le.mpr hab
  have hcastA : ((ma * 2 ^ ea * 2 ^ 1074 : ℕ) : ℚ) = (ma : ℚ) * 2 ^ ea * 2 ^ 1074 := by
    rw [Nat.cast_mul, Nat.cast_mul, Nat.cast_pow, Nat.cast_pow, Nat.cast_ofNat]
  have hcastB : ((mb * 2 ^ eb : ℕ) : ℚ) = (mb : ℚ) * 2 ^ eb := by
    rw [Nat.cast_mul, Nat.cast_pow, Nat.cast_ofNat]
  have hcastK : ((mb * 2 ^ eb * 2 ^ 1077 : ℕ) : ℚ) = (mb : ℚ) * 2 ^ eb * 2 ^ 1077 := by
    rw [Nat.cast_mul, Nat.cast_mul, Nat.cast_pow, Nat.cast_pow, Nat.cast_ofNat]
  have hcastbig : ((2 ^ 52 * (mb * 2 ^ eb) : ℕ) : ℚ) = 2 ^ 52 * ((mb : ℚ) * 2 ^ eb) := by
    rw [Nat.cast_mul, Nat.cast_mul, Nat.cast_pow, Nat.cast_pow, Nat.cast_ofNat]
  obtain ⟨P, hPdef⟩ : ∃ P : ℚ, (2 : ℚ) ^ 1074 = P := ⟨_, rfl⟩
  rw [hPdef] at hMa1 hMa2 hMb1 hMb2 hP hP118 hsplit hcastA
  generalize (ma : ℚ) * 2 ^ ea = A at hMa1 hMa2 hcastA
  generalize (mb : ℚ) * 2 ^ eb = B at hMb1 hMb2 hcastB hcastK hcastbig
  have hbP : 0 < (b : ℚ) * P := mul_pos (by linarith) hP
  have hBpos : 0 < B := lt_of_lt_of_le (mul_pos (by norm_num) hbP) hMb1
  have hdpos : 0 < mb * 2 ^ eb := by
    have : (0 : ℚ) < ((mb * 2 ^ eb : ℕ) : ℚ) := by rw [hcastB]; exact hBpos
    exact Nat.cast_pos.mp this
  have hmb : mb ≠ 0 := by
    intro h
    rw [h, Nat.zero_mul] at hdpos
    exact absurd hdpos (lt_irrefl _)
  have hA0 : 0 ≤ A := le_trans (mul_nonneg (by norm_num) (mul_nonneg haq (le_of_lt hP))) hMa1
  have hAle : A ≤ (1 + 1 / 2 ^ 53) * ((b : ℚ) * P) :=
    le_trans hMa2 (mul_le_mul_of_nonneg_left
      (mul_le_mul_of_nonneg_right habq (le_of_lt hP)) (by norm_num))
  have hN : ma * 2 ^ ea * 2 ^ 1074 < mb * 2 ^ eb * 2 ^ 1077 := by
    have hq : ((ma * 2 ^ ea * 2 ^ 1074 : ℕ) : ℚ) < ((mb * 2 ^ eb * 2 ^ 1077 : ℕ) : ℚ) := by
      rw [hcastA, hcastK, hsplit]
      have h1 : A * P ≤ (1 + 1 / 2 ^ 53) * ((b : ℚ) * P) * P :=
        mul_le_mul_of_nonneg_right hAle (le_of_lt hP)
      have h2 : (1 - 1 / 2 ^ 53) * ((b : ℚ) * P) * (2 ^ 3 * P) ≤ B * (2 ^ 3 * P) :=
        mul_le_mul_of_nonneg_right hMb1 (mul_nonneg (by norm_num) (le_of_lt hP))
      have h3 : (1 + 1 / 2 ^ 53) * ((b : ℚ) * P) * P <
          (1 - 1 / 2 ^ 53) * ((b : ℚ) * P) * (2 ^ 3 * P) := by
        have hX : 0 < (b : ℚ) * P * P := mul_pos hbP hP
        have : (1 + 1 / 2 ^ 53) * ((b : ℚ) * P * P) < (1 - 1 / 2 ^ 53) * 2 ^ 3 * ((b : ℚ) * P * P) :=
          mul_lt_mul_of_pos_right (by norm_num) hX
        calc (1 + 1 / 2 ^ 53) * ((b : ℚ) * P) * P = (1 + 1 / 2 ^ 53) * ((b : ℚ) * P * P) := by ring
          _ < (1 - 1 / 2 ^ 53) * 2 ^ 3 * ((b : ℚ) * P * P) := this
          _ = (1 - 1 / 2 ^ 53) * ((b : ℚ) * P) * (2 ^ 3 * P) := by ring
      linarith
    exact Nat.cast_lt.mp hq
  obtain ⟨m', e', hround, hval, herr, hexact⟩ :=
    round_value (ma * 2 ^ ea * 2 ^ 1074) (mb * 2 ^ eb) 1077 hdpos (by decide) hN
  have hres : ieee_ops.ratio a b = .finite false m' e' := by
    simp only [ieee_ops, hfa, hfb, ieee_div, hmb, if_false, bne_self_eq_false,
      shift_eq_mul_pow]
    exact hround
  rw [hres, hval, hPdef]
  refine ⟨_, rfl, ?_⟩
  rw [hcastA, hcastB] at herr
  by_cases ha0 : a = 0
  · subst ha0
    rw [Nat.cast_zero, zero_mul, mul_zero] at hMa1 hMa2
    have hAz : A = 0 := le_antisymm hMa2 hMa1
    have hNz : ma * 2 ^ ea * 2 ^ 1074 = 0 := by
      have : ((ma * 2 ^ ea * 2 ^ 1074 : ℕ) : ℚ) = 0 := by rw [hcastA, hAz, zero_mul]
      exact Nat.cast_eq_zero.mp this
    have hsmall : ma * 2 ^ ea * 2 ^ 1074 / (mb * 2 ^ eb) < 2 ^ 53 := by
      rw [hNz, Nat.zero_div]
      exact pow_pos Nat.zero_lt_two 53
    have hz := hexact (by rw [hNz, Nat.zero_mod]) hsmall
    rw [hz, hNz]
    simp only [Nat.cast_zero, zero_div, mul_zero]
    exact ⟨le_refl _, le_refl _⟩
  · have ha1 : (1 : ℚ) ≤ (a : ℚ) := by exact_mod_cast Nat.pos_of_ne_zero ha0
    have hbig : 2 ^ 52 * (mb * 2 ^ eb) ≤ ma * 2 ^ ea * 2 ^ 1074 := by
      have hq : ((2 ^ 52 * (mb * 2 ^ eb) : ℕ) : ℚ) ≤ ((ma * 2 ^ ea * 2 ^ 1074 : ℕ) : ℚ) := by
        rw [hcastA, hcastbig]
        have h1 : B ≤ (1 + 1 / 2 ^ 53) * (2 ^ 64 * P) :=
          le_trans hMb2 (mul_le_mul_of_nonneg_left
            (mul_le_mul_of_nonneg_right hb64q (le_of_lt hP)) (by norm_num))
        have h2 : (1 - 1 / 2 ^ 53) * (1 * P) ≤ A :=
          le_trans (mul_le_mul_of_nonneg_left
            (mul_le_mul_of_nonneg_right ha1 (le_of_lt hP)) (by norm_num)) hMa1
        have h3 : 2 ^ 52 * B ≤ 2 ^ 117 * P := by
          calc 2 ^ 52 * B ≤ 2 ^ 52 * ((1 + 1 / 2 ^ 53) * (2 ^ 64 * P)) :=
                mul_le_mul_of_nonneg_left h1 (by norm_num)
            _ = (2 ^ 52 * (1 + 1 / 2 ^ 53) * 2 ^ 64) * P := by ring
            _ ≤ 2 ^ 117 * P := mul_le_mul_of_nonneg_right (by norm_num) (le_of_lt hP)
        have h4 : 2 ^ 117 * P ≤ A * P := by
          apply mul_le_mul_of_nonneg_right _ (le_of_lt hP)
          calc (2 : ℚ) ^ 117 ≤ (1 - 1 / 2 ^ 53) * (1 * 2 ^ 118) := by norm_num
            _ ≤ (1 - 1 / 2 ^ 53) * (1 * P) :=
                mul_le_mul_of_nonneg_left (mul_le_mul_of_nonneg_left hP118 (by norm_num))
                  (by norm_num)
            _ ≤ A := h2
        linarith
      exact Nat.cast_le.mp hq
    obtain ⟨hlo, hhi⟩ := herr hbig
    exact ratio_bounds (a : ℚ) (b : ℚ) P A B _ haq (by linarith) hP hMa1 hMa2 hMb1 hMb2
      hlo hhi

theorem ieee_ops_rounds_within : rounds_within ieee_ops ieee_value (1 / 2 ^ 51) :=
  ⟨ieee_zero_value, ieee_ratio_value, ieee_abs_sub_zero, ieee_add_value, ieee_lt_value⟩

theorem pow_le_two_of_small (u : ℚ) (hu : 0 ≤ u) :
    ∀ m : Nat, (m : ℚ) * u ≤ 1 / 2 → (1 + u) ^ m ≤ 2 := by
  have hstep : ∀ m : Nat, (1 + u) ^ m * (1 - (m : ℚ) * u) ≤ 1 := by
    intro m
    induction m with
    | zero => simp
    | succ m ih =>
      have hpow : 0 ≤ (1 + u) ^ m := pow_nonneg (by linarith) m
      have hsq : 0 ≤ ((m : ℚ) + 1) * u ^ 2 :=
        mul_nonneg (by positivity) (sq_nonneg u)
      calc (1 + u) ^ (m + 1) * (1 - ((m + 1 : ℕ) : ℚ) * u)
          = (1 + u) ^ m * (1 - (m : ℚ) * u - ((m : ℚ) + 1) * u ^ 2) := by
            rw [pow_succ]; push_cast; ring
        _ ≤ (1 + u) ^ m * (1 - (m : ℚ) * u) :=
            mul_le_mul_of_nonneg_left (by linarith) hpow
        _ ≤ 1 := ih
  intro m hm
  have h1 := hstep m
  have hpow : 0 ≤ (1 + u) ^ m := pow_nonneg (by linarith) m
  have h2 : (1 + u) ^ m * (1 / 2) ≤ (1 + u) ^ m * (1 - (m : ℚ) * u) :=
    mul_le_mul_of_nonneg_left (by linarith) hpow
  linarith

/-! ## The claims -/

/-- C2: for a subgraph and every processing order of its vertices, after the greedy
loop the vertices contributed to the cut set are exactly the vertices of the subgraph
that are not retained, they form a feedback vertex set of the subgraph, and the
subgraph induced by the retained vertices has no directed cycle. -/
theorem reduce_cut_is_feedback_vertex_set (subgraph : graph_t)
    (sorted : List vertex_descriptor_t) (hwf : subgraph.wf)
    (hperm : sorted.Perm subgraph.vertices) :
    (∀ v, v ∈ solver.collect_cut (solver.reduce subgraph sorted).acyclicVertices sorted [] ↔
      v ∈ subgraph.vertices ∧
        v ∉ (solver.reduce subgraph sorted).acyclicVertices.map Prod.fst) ∧
    is_feedback_vertex_set subgraph
      (solver.collect_cut (solver.reduce subgraph sorted).acyclicVertices sorted []) ∧
    ¬ has_cycle (induced_subgraph subgraph
      ((solver.reduce subgraph sorted).acyclicVertices.map Prod.fst)) := by
  obtain ⟨hvnd, _, hE⟩ := hwf
  have hnd : sorted.Nodup := hperm.nodup_iff.mpr hvnd
  obtain ⟨hkeys, _, _, _, hcomplete, hacyc⟩ := reduce_inv_reduce subgraph sorted hnd
  have hcut : ∀ v, v ∈ solver.collect_cut (solver.reduce subgraph sorted).acyclicVertices
      sorted [] ↔ v ∈ subgraph.vertices ∧
        v ∉ (solver.reduce subgraph sorted).acyclicVertices.map Prod.fst := by
    intro v
    rw [mem_collect_cut, map_find_eq_none, hperm.mem_iff]
    simp
  refine ⟨hcut, ?_, ?_⟩
  · intro hc
    apply hacyc
    refine has_cycle_mono _ _ ?_ hc
    intro e he
    simp only [remove_vertices, List.mem_filter, Bool.and_eq_true, decide_eq_true_eq] at he
    obtain ⟨he, h1, h2⟩ := he
    rw [hcut] at h1 h2
    rw [hkeys] at h1 h2
    refine hcomplete e he ?_ ?_
    · by_contra h; exact h1 ⟨(hE e he).1, h⟩
    · by_contra h; exact h2 ⟨(hE e he).2, h⟩
  · intro hc
    apply hacyc
    refine has_cycle_mono _ _ ?_ hc
    intro e he
    simp only [induced_subgraph, List.mem_filter, Bool.and_eq_true, decide_eq_true_eq] at he
    obtain ⟨he, h1, h2⟩ := he
    rw [hkeys] at h1 h2
    exact hcomplete e he h1 h2

/-- C3: during the greedy reduction of a subgraph, for every processing order in which
no vertex occurs twice, the graph under construction has no directed cycle at the end
of every loop iteration (the state after `k` iterations is the loop run on the first
`k` vertices of the order), and `detect_cycles` reports none. -/
theorem reduce_acyclic_after_every_iteration (subgraph : graph_t)
    (sorted : List vertex_descriptor_t) (hnd : sorted.Nodup) (k : Nat) :
    ¬ has_cycle (solver.reduce subgraph (sorted.take k)).acyclicGraph ∧
      detect_cycles (solver.reduce subgraph (sorted.take k)).acyclicGraph = false := by
  have hinv := reduce_inv_reduce subgraph (sorted.take k)
    (List.Nodup.sublist (List.take_sublist k sorted) hnd)
  obtain ⟨_, _, _, hsound, _, hacyc⟩ := hinv
  refine ⟨hacyc, ?_⟩
  cases hd : detect_cycles (solver.reduce subgraph (sorted.take k)).acyclicGraph with
  | false => rfl
  | true =>
    exact absurd ((detect_cycles_eq_true_iff _ (fun e he => (hsound e he).2)).mp hd) hacyc

/-- C4: for a graph and a component map that meets the contract of
`boost::strong_components`, two vertices lie in the same returned subgraph exactly
when each is reachable from the other; every returned subgraph is not empty and holds
exactly the vertices of one strongly connected component; and a strongly connected
graph yields exactly one subgraph, with the vertices and the edges of the graph. -/
theorem tarjans_subgraphs_strongly_connected (sc : graph_t → Nat × List Nat) (g : graph_t)
    (hwf : g.wf) (hsc : strong_components_contract g (sc g)) :
    (∀ u ∈ g.vertices, ∀ v ∈ g.vertices,
      (∃ sg ∈ tarjans_subgraphs sc g, u ∈ sg.vertices ∧ v ∈ sg.vertices) ↔
        strongly_connected g u v) ∧
    (∀ sg ∈ tarjans_subgraphs sc g, sg.vertices ≠ [] ∧
      ∀ u ∈ sg.vertices, ∀ v,
        v ∈ sg.vertices ↔ (v ∈ g.vertices ∧ strongly_connected g u v)) ∧
    (g.vertices ≠ [] → (∀ u ∈ g.vertices, ∀ v ∈ g.vertices, strongly_connected g u v) →
      ∃ sg, tarjans_subgraphs sc g = [sg] ∧ (∀ v, v ∈ sg.vertices ↔ v ∈ g.vertices) ∧
        ∀ e, e ∈ sg.edges ↔ e ∈ g.edges) := by
  have hvalid := contract_valid g (sc g) hsc
  refine ⟨?_, tarjans_subgraph_is_component sc g hwf hsc, ?_⟩
  · intro u hu v hv
    rw [← contract_component_of g (sc g) hsc u v hu hv]
    constructor
    · rintro ⟨sg, hsg, hus, hvs⟩
      obtain ⟨k, hk⟩ := List.mem_iff_getElem?.mp hsg
      obtain ⟨_, hverts, _⟩ := tarjans_subgraphs_spec sc g hwf k sg hk
      rw [hverts, mem_component_vertices g (sc g) _ _ hwf.1] at hus hvs
      rw [hus.2, hvs.2]
    · intro hsame
      obtain ⟨sg, hsg⟩ := tarjans_subgraphs_get_component sc g hvalid u hu
      obtain ⟨_, hverts, _⟩ := tarjans_subgraphs_spec sc g hwf _ sg hsg
      refine ⟨sg, List.mem_iff_getElem?.mpr ⟨_, hsg⟩, ?_, ?_⟩
      · rw [hverts, mem_component_vertices g (sc g) _ _ hwf.1]
        exact ⟨hu, rfl⟩
      · rw [hverts, mem_component_vertices g (sc g) _ _ hwf.1]
        exact ⟨hv, hsame.symm⟩
  · intro hne hall
    obtain ⟨v0, hv0⟩ := List.exists_mem_of_ne_nil _ hne
    have hsame : ∀ v ∈ g.vertices, component_of g (sc g) v = component_of g (sc g) v0 :=
      fun v hv => (contract_component_of g (sc g) hsc v v0 hv hv0).mpr (hall v hv v0 hv0)
    have hlt := component_of_lt g (sc g) hvalid v0 hv0
    have honly : ∀ k, k < (sc g).1 → k = component_of g (sc g) v0 := by
      intro k hk
      obtain ⟨i, hi, hik⟩ := List.mem_iff_getElem.mp (hsc.2.2.1 k hk)
      have hi' : i < g.vertices.length := by rw [← hsc.1]; exact hi
      have h1 := hsame (g.vertices[i]) (List.getElem_mem _)
      unfold component_of at h1
      rw [List.indexOf_getElem hwf.1 i hi', List.getD_eq_getElem?_getD,
        List.getElem?_eq_getElem hi] at h1
      rw [← hik]
      exact h1
    have hone : (sc g).1 = 1 := by
      have h0 := honly 0 (by omega)
      by_contra hne1
      have h1 := honly 1 (by omega)
      omega
    have hzero : component_of g (sc g) v0 = 0 := by omega
    have hlen := tarjans_subgraphs_length sc g
    rw [hone] at hlen
    obtain ⟨sg, hsg⟩ := List.length_eq_one.mp hlen
    have hget : (tarjans_subgraphs sc g)[0]? = some sg := by rw [hsg]; rfl
    obtain ⟨_, hverts, hedges⟩ := tarjans_subgraphs_spec sc g hwf 0 sg hget
    refine ⟨sg, hsg, ?_, ?_⟩
    · intro v
      rw [hverts, mem_component_vertices g (sc g) _ _ hwf.1]
      constructor
      · exact fun h => h.1
      · intro hv
        exact ⟨hv, by rw [hsame v hv, hzero]⟩
    · intro e
      rw [hedges]
      constructor
      · exact fun h => h.1
      · intro he
        obtain ⟨ha, hb⟩ := hwf.2.2 e he
        exact ⟨he, by rw [hsame _ ha, hsame _ hb], by rw [hsame _ ha, hzero]⟩

/-- C5: for a graph and a component map that gives every vertex index a component
index below `numSCCs`, the vertex sets of the subgraphs returned by `tarjans_subgraphs`
partition the vertices: every vertex of the graph occurs in the subgraph of its
component, exactly once there, and in no other subgraph, and no subgraph contains a
vertex that is not in the graph. -/
theorem tarjans_subgraphs_partition (sc : graph_t → Nat × List Nat) (g : graph_t)
    (hwf : g.wf) (hvalid : component_map_valid g (sc g)) :
    (∀ v ∈ g.vertices, ∃ sg,
      (tarjans_subgraphs sc g)[component_of g (sc g) v]? = some sg ∧
      v ∈ sg.vertices ∧ sg.vertices.count v = 1 ∧
      ∀ k' sg', (tarjans_subgraphs sc g)[k']? = some sg' → v ∈ sg'.vertices →
        k' = component_of g (sc g) v) ∧
    (∀ sg ∈ tarjans_subgraphs sc g, ∀ v ∈ sg.vertices, v ∈ g.vertices) := by
  constructor
  · intro v hv
    obtain ⟨sg, hsg⟩ := tarjans_subgraphs_get_component sc g hvalid v hv
    obtain ⟨_, hverts, _⟩ := tarjans_subgraphs_spec sc g hwf _ sg hsg
    have hmem : v ∈ sg.vertices := by
      rw [hverts, mem_component_vertices g (sc g) _ v hwf.1]
      exact ⟨hv, rfl⟩
    have hnd : sg.vertices.Nodup := by
      rw [hverts]
      exact List.Nodup.sublist (component_vertices_sublist g (sc g) _) hwf.1
    refine ⟨sg, hsg, hmem, List.count_eq_one_of_mem hnd hmem, ?_⟩
    intro k' sg' hsg' hv'
    obtain ⟨_, hverts', _⟩ := tarjans_subgraphs_spec sc g hwf k' sg' hsg'
    rw [hverts', mem_component_vertices g (sc g) _ v hwf.1] at hv'
    exact hv'.2.symm
  · intro sg hsg v hv
    obtain ⟨k, hk⟩ := List.mem_iff_getElem?.mp hsg
    obtain ⟨_, hverts, _⟩ := tarjans_subgraphs_spec sc g hwf k sg hk
    rw [hverts] at hv
    exact (component_vertices_sublist g (sc g) k).subset hv

/-- C6: for a graph and a component map that gives every vertex index a component
index below `numSCCs`: an edge whose endpoints are assigned the same component appears
in that component's subgraph and in no other; an edge whose endpoints are assigned
different components appears in no returned subgraph; and no returned subgraph
contains an edge that is not an edge of the graph. -/
theorem tarjans_subgraphs_edges (sc : graph_t → Nat × List Nat) (g : graph_t)
    (hwf : g.wf) (hvalid : component_map_valid g (sc g)) :
    (∀ e ∈ g.edges,
      (component_of g (sc g) e.1 = component_of g (sc g) e.2 →
        ∃ sg, (tarjans_subgraphs sc g)[component_of g (sc g) e.1]? = some sg ∧
          e ∈ sg.edges ∧
          ∀ k' sg', (tarjans_subgraphs sc g)[k']? = some sg' → e ∈ sg'.edges →
            k' = component_of g (sc g) e.1) ∧
      (component_of g (sc g) e.1 ≠ component_of g (sc g) e.2 →
        ∀ sg ∈ tarjans_subgraphs sc g, e ∉ sg.edges)) ∧
    (∀ sg ∈ tarjans_subgraphs sc g, ∀ e ∈ sg.edges, e ∈ g.edges) := by
  refine ⟨?_, ?_⟩
  · intro e he
    constructor
    · intro hsame
      obtain ⟨sg, hsg⟩ := tarjans_subgraphs_get_component sc g hvalid e.1 (hwf.2.2 e he).1
      obtain ⟨_, _, hedges⟩ := tarjans_subgraphs_spec sc g hwf _ sg hsg
      refine ⟨sg, hsg, (hedges e).mpr ⟨he, hsame, rfl⟩, ?_⟩
      intro k' sg' hsg' he'
      obtain ⟨_, _, hedges'⟩ := tarjans_subgraphs_spec sc g hwf k' sg' hsg'
      exact ((hedges' e).mp he').2.2.symm
    · intro hdiff sg hsg he'
      obtain ⟨k, hk⟩ := List.mem_iff_getElem?.mp hsg
      obtain ⟨_, _, hedges⟩ := tarjans_subgraphs_spec sc g hwf k sg hk
      exact hdiff ((hedges e).mp he').2.1
  · intro sg hsg e he
    obtain ⟨k, hk⟩ := List.mem_iff_getElem?.mp hsg
    obtain ⟨_, _, hedges⟩ := tarjans_subgraphs_spec sc g hwf k sg hk
    exact ((hedges e).mp he).1

/-- C8: for every graph without a directed cycle, every component map that meets the
contract of `boost::strong_components`, every generator, arithmetic, sort and
parameter setting, the solver computes the empty cut set and writes the text "0"
followed by a newline. -/
theorem solver_acyclic_input {S D : Type} (sc : graph_t → Nat × List Nat)
    (gen : S → Nat → Nat → Nat × S) (ops : double_ops D)
    (std_sort : (vertex_descriptor_t × Nat → vertex_descriptor_t × Nat → Bool) →
      List (vertex_descriptor_t × Nat) → List (vertex_descriptor_t × Nat))
    (g : graph_t) (agents steps batches : Nat) (changeThreshold : D) (s : S)
    (hwf : g.wf) (hsc : strong_components_contract g (sc g)) (hacyc : ¬ has_cycle g) :
    solver.cut_vertices sc gen ops std_sort g agents steps batches changeThreshold s = .ok [] ∧
    solver.main sc gen ops std_sort g agents steps batches changeThreshold s = .ok "0\n" := by
  have hcut : solver.cut_vertices sc gen ops std_sort g agents steps batches changeThreshold s =
      .ok [] := by
    unfold solver.cut_vertices
    simp only [process_subgraphs_singletons gen ops std_sort agents steps batches changeThreshold
      (tarjans_subgraphs sc g) [] s
      (fun sg hsg => (tarjans_subgraphs_acyclic sc g hwf hsc hacyc sg hsg).1)]
  refine ⟨hcut, ?_⟩
  unfold solver.main
  rw [hcut]
  rfl

/-- C1 (the code at the failing input): on the input graph with a self-loop on vertex
1 and an isolated vertex 2, with the component map that `boost::strong_components`
must return up to numbering (one component per vertex), the solver computes the empty
cut set and writes "0", for every generator, arithmetic, sort and parameter setting;
the empty set is no feedback vertex set of the input, whose self-loop is a cycle that
`detect_cycles` reports. -/
theorem solver_self_loop_input_not_feedback_vertex_set :
    self_loop_input.wf ∧
    strong_components_contract self_loop_input (index_components self_loop_input) ∧
    (∀ (S D : Type) (gen : S → Nat → Nat → Nat × S) (ops : double_ops D)
      (std_sort : (vertex_descriptor_t × Nat → vertex_descriptor_t × Nat → Bool) →
        List (vertex_descriptor_t × Nat) → List (vertex_descriptor_t × Nat))
      (agents steps batches : Nat) (changeThreshold : D) (s : S),
      solver.cut_vertices index_components gen ops std_sort self_loop_input agents steps batches
          changeThreshold s = .ok [] ∧
        solver.main index_components gen ops std_sort self_loop_input agents steps batches
          changeThreshold s = .ok "0\n") ∧
    ¬ is_feedback_vertex_set self_loop_input [] ∧
    detect_cycles (remove_vertices self_loop_input []) = true := by
  refine ⟨by decide, self_loop_input_contract, ?_, ?_, by decide⟩
  · intro S D gen ops std_sort agents steps batches changeThreshold s
    have hcut : solver.cut_vertices index_components gen ops std_sort self_loop_input agents
        steps batches changeThreshold s = .ok [] := rfl
    refine ⟨hcut, ?_⟩
    unfold solver.main
    rw [hcut]
    rfl
  · intro h
    apply h
    exact ⟨1, Relation.TransGen.single (by unfold graph_t.adj; decide)⟩

/-- C9 (the code at the failing input): a subgraph that consists of the single vertex 1
with a self-loop is skipped by the loop of the solver: the cut set and the generator
state are passed on unchanged, for every generator, arithmetic, sort and parameter
setting.  The subgraph has a cycle, and the greedy loop, had it been run on it, would
have put vertex 1 into the cut set. -/
theorem solver_skips_self_loop_singleton :
    (∀ (S D : Type) (gen : S → Nat → Nat → Nat × S) (ops : double_ops D)
      (std_sort : (vertex_descriptor_t × Nat → vertex_descriptor_t × Nat → Bool) →
        List (vertex_descriptor_t × Nat) → List (vertex_descriptor_t × Nat))
      (agents steps batches : Nat) (changeThreshold : D) (rest : List graph_t)
      (cutVertices : List vertex_properties_s) (s : S),
      solver.process_subgraphs gen ops std_sort agents steps batches changeThreshold
          (⟨[1], [(1, 1)]⟩ :: rest) cutVertices s =
        solver.process_subgraphs gen ops std_sort agents steps batches changeThreshold
          rest cutVertices s) ∧
    tarjans_subgraphs index_components self_loop_input = [⟨[1], [(1, 1)]⟩, ⟨[2], []⟩] ∧
    detect_cycles ⟨[1], [(1, 1)]⟩ = true ∧
    solver.collect_cut (solver.reduce ⟨[1], [(1, 1)]⟩ [1]).acyclicVertices [1] [] = [1] := by
  refine ⟨?_, by decide, by decide, by decide⟩
  intro S D gen ops std_sort agents steps batches changeThreshold rest cutVertices s
  rfl

/-- C7: for every graph, `detect_cycles` returns true exactly when the graph contains a
directed cycle (a self-loop is a cycle of length one), and returns false exactly when
a topological order of the graph exists. -/
theorem detect_cycles_correct (g : graph_t) (hwf : g.wf) :
    (detect_cycles g = true ↔ has_cycle g) ∧
    (detect_cycles g = false ↔ ∃ l, is_topological_order g l) := by
  have hE := hwf.2.2
  refine ⟨detect_cycles_eq_true_iff g hE, ?_⟩
  constructor
  · intro h
    unfold detect_cycles topological_sort at h
    cases hd : depth_first_search g with
    | none => simp [hd] at h
    | some black => exact ⟨black, black_is_topological_order g hE black hd⟩
  · rintro ⟨l, hl⟩
    cases hd : detect_cycles g with
    | false => rfl
    | true =>
      exact absurd ((detect_cycles_eq_true_iff g hE).mp hd) (topological_order_acyclic g l hl)

theorem detect_cycles_correct_witness :
    build_one_scc.wf ∧
    ((detect_cycles build_one_scc = true ↔ has_cycle build_one_scc) ∧
      (detect_cycles build_one_scc = false ↔ ∃ l, is_topological_order build_one_scc l)) :=
  ⟨by decide, detect_cycles_correct build_one_scc (by decide)⟩

theorem reduce_acyclic_after_every_iteration_witness :
    [3, 5, 2, 4, 1].Nodup ∧
    (¬ has_cycle (solver.reduce build_one_scc ([3, 5, 2, 4, 1].take 5)).acyclicGraph ∧
      detect_cycles (solver.reduce build_one_scc ([3, 5, 2, 4, 1].take 5)).acyclicGraph = false) :=
  ⟨by decide, reduce_acyclic_after_every_iteration build_one_scc [3, 5, 2, 4, 1] (by decide) 5⟩

theorem reduce_cut_is_feedback_vertex_set_witness :
    build_one_scc.wf ∧ [3, 5, 2, 4, 1].Perm build_one_scc.vertices ∧
    ((∀ v, v ∈ solver.collect_cut
        (solver.reduce build_one_scc [3, 5, 2, 4, 1]).acyclicVertices [3, 5, 2, 4, 1] [] ↔
      v ∈ build_one_scc.vertices ∧
        v ∉ (solver.reduce build_one_scc [3, 5, 2, 4, 1]).acyclicVertices.map Prod.fst) ∧
    is_feedback_vertex_set build_one_scc
      (solver.collect_cut (solver.reduce build_one_scc [3, 5, 2, 4, 1]).acyclicVertices
        [3, 5, 2, 4, 1] []) ∧
    ¬ has_cycle (induced_subgraph build_one_scc
      ((solver.reduce build_one_scc [3, 5, 2, 4, 1]).acyclicVertices.map Prod.fst))) :=
  ⟨by decide, by decide,
    reduce_cut_is_feedback_vertex_set build_one_scc [3, 5, 2, 4, 1] (by decide) (by decide)⟩

theorem tarjans_subgraphs_strongly_connected_witness :
    two_cycle.wf ∧ strong_components_contract two_cycle (one_component two_cycle) ∧
    (∀ u ∈ two_cycle.vertices, ∀ v ∈ two_cycle.vertices,
      (∃ sg ∈ tarjans_subgraphs one_component two_cycle, u ∈ sg.vertices ∧ v ∈ sg.vertices) ↔
        strongly_connected two_cycle u v) ∧
    (∀ sg ∈ tarjans_subgraphs one_component two_cycle, sg.vertices ≠ [] ∧
      ∀ u ∈ sg.vertices, ∀ v,
        v ∈ sg.vertices ↔ (v ∈ two_cycle.vertices ∧ strongly_connected two_cycle u v)) ∧
    ∃ sg, tarjans_subgraphs one_component two_cycle = [sg] ∧
      (∀ v, v ∈ sg.vertices ↔ v ∈ two_cycle.vertices) ∧
      ∀ e, e ∈ sg.edges ↔ e ∈ two_cycle.edges :=
  ⟨by decide, contract_of_strongly_connected two_cycle (by decide) two_cycle_strongly_connected,
    (tarjans_subgraphs_strongly_connected one_component two_cycle (by decide)
      (contract_of_strongly_connected two_cycle (by decide) two_cycle_strongly_connected)).1,
    (tarjans_subgraphs_strongly_connected one_component two_cycle (by decide)
      (contract_of_strongly_connected two_cycle (by decide) two_cycle_strongly_connected)).2.1,
    (tarjans_subgraphs_strongly_connected one_component two_cycle (by decide)
      (contract_of_strongly_connected two_cycle (by decide) two_cycle_strongly_connected)).2.2
      (by decide) two_cycle_strongly_connected⟩

theorem tarjans_subgraphs_partition_witness :
    build_all_sccs.wf ∧ component_map_valid build_all_sccs (index_components build_all_sccs) ∧
    ((∀ v ∈ build_all_sccs.vertices, ∃ sg,
      (tarjans_subgraphs index_components build_all_sccs)[
          component_of build_all_sccs (index_components build_all_sccs) v]? = some sg ∧
      v ∈ sg.vertices ∧ sg.vertices.count v = 1 ∧
      ∀ k' sg', (tarjans_subgraphs index_components build_all_sccs)[k']? = some sg' →
        v ∈ sg'.vertices → k' = component_of build_all_sccs (index_components build_all_sccs) v) ∧
    (∀ sg ∈ tarjans_subgraphs index_components build_all_sccs, ∀ v ∈ sg.vertices,
      v ∈ build_all_sccs.vertices)) :=
  ⟨by decide, by decide,
    tarjans_subgraphs_partition index_components build_all_sccs (by decide) (by decide)⟩

theorem tarjans_subgraphs_edges_witness :
    build_one_scc.wf ∧ component_map_valid build_one_scc (one_component build_one_scc) ∧
    ((∀ e ∈ build_one_scc.edges,
      (component_of build_one_scc (one_component build_one_scc) e.1 =
          component_of build_one_scc (one_component build_one_scc) e.2 →
        ∃ sg, (tarjans_subgraphs one_component build_one_scc)[
            component_of build_one_scc (one_component build_one_scc) e.1]? = some sg ∧
          e ∈ sg.edges ∧
          ∀ k' sg', (tarjans_subgraphs one_component build_one_scc)[k']? = some sg' →
            e ∈ sg'.edges → k' = component_of build_one_scc (one_component build_one_scc) e.1) ∧
      (component_of build_one_scc (one_component build_one_scc) e.1 ≠
          component_of build_one_scc (one_component build_one_scc) e.2 →
        ∀ sg ∈ tarjans_subgraphs one_component build_one_scc, e ∉ sg.edges)) ∧
    (∀ sg ∈ tarjans_subgraphs one_component build_one_scc, ∀ e ∈ sg.edges,
      e ∈ build_one_scc.edges)) :=
  ⟨by decide, by decide,
    tarjans_subgraphs_edges one_component build_one_scc (by decide) (by decide)⟩

theorem solver_acyclic_input_witness :
    build_all_sccs.wf ∧
    strong_components_contract build_all_sccs (index_components build_all_sccs) ∧
    ¬ has_cycle build_all_sccs ∧
    (solver.cut_vertices index_components first_gen exact_ops insertion_sort build_all_sccs
        1000 1000 250 (1 / 1000) 0 = .ok [] ∧
      solver.main index_components first_gen exact_ops insertion_sort build_all_sccs
        1000 1000 250 (1 / 1000) 0 = .ok "0\n") :=
  have hacyc : ¬ has_cycle build_all_sccs := fun h =>
    absurd ((detect_cycles_eq_true_iff build_all_sccs (by decide)).mpr h) (by decide)
  ⟨by decide, contract_of_increasing build_all_sccs (by decide) (by decide), hacyc,
    solver_acyclic_input index_components first_gen exact_ops insertion_sort build_all_sccs
      1000 1000 250 (1 / 1000) 0 (by decide)
      (contract_of_increasing build_all_sccs (by decide) (by decide)) hacyc⟩

/-- C10: for every non-empty component in which every vertex has out-degree at least
one, every generator that answers within the requested ranges, every arithmetic and
all agents, steps and batches, `simulate` returns a traffic map, and the traffic summed
over all vertices of the component equals agents * steps * (number of batches that
were run), where at most `batches` batches were run. -/
theorem simulate_traffic_sum {S D : Type} (gen : S → Nat → Nat → Nat × S) (ops : double_ops D)
    (component : graph_t) (agents steps batches : Nat) (change_threshold : D) (s : S)
    (hwf : component.wf) (hne : component.vertices ≠ [])
    (hout : ∀ v ∈ component.vertices, out_edges v component ≠ [])
    (hgen : gen_in_range gen) :
    ∃ t s' b,
      simulate_run gen ops component agents steps batches change_threshold s = .ok (t, s', b) ∧
      simulate gen ops component agents steps batches change_threshold s = .ok (t, s') ∧
      b ≤ batches ∧
      (component.vertices.map (traffic_at t)).sum = agents * steps * b := by
  obtain ⟨t, s', b, h⟩ := simulate_batches_total gen ops component hwf hne hout hgen agents
    steps change_threshold batches 0 (initial_traffic component) [] s
  have hrun : simulate_run gen ops component agents steps batches change_threshold s =
      .ok (t, s', b) := h
  obtain ⟨_, h2, _, h4⟩ := simulate_run_sum gen ops component agents steps batches
    change_threshold s hwf t s' b hrun
  exact ⟨t, s', b, hrun, by unfold simulate; rw [hrun], h2, h4⟩

theorem simulate_traffic_sum_witness :
    build_one_scc.wf ∧ build_one_scc.vertices ≠ [] ∧
    (∀ v ∈ build_one_scc.vertices, out_edges v build_one_scc ≠ []) ∧
    gen_in_range first_gen ∧
    ∃ t s' b,
      simulate_run first_gen exact_ops build_one_scc 2 8 1 0 0 = .ok (t, s', b) ∧
      simulate first_gen exact_ops build_one_scc 2 8 1 0 0 = .ok (t, s') ∧
      b ≤ 1 ∧
      (build_one_scc.vertices.map (traffic_at t)).sum = 2 * 8 * b :=
  ⟨by decide, by decide, by decide, first_gen_in_range,
    simulate_traffic_sum first_gen exact_ops build_one_scc 2 8 1 0 0 (by decide) (by decide)
      (by decide) first_gen_in_range⟩

/-- C11: whenever `simulate` returns, for every generator that answers within the
requested ranges, the keys of the returned traffic map are exactly the vertices of the
component, each once: every vertex has an entry and no key is a non-vertex; a vertex
without in-edges, which no walk can arrive at, has the entry 0. -/
theorem simulate_traffic_keys {S D : Type} (gen : S → Nat → Nat → Nat × S) (ops : double_ops D)
    (component : graph_t) (agents steps batches : Nat) (change_threshold : D) (s : S)
    (t : unnormalized_vertex_traffic_map_t) (s' : S)
    (hwf : component.wf) (_hgen : gen_in_range gen)
    (h : simulate gen ops component agents steps batches change_threshold s = .ok (t, s')) :
    (t.map Prod.fst).Nodup ∧
    (∀ v, v ∈ t.map Prod.fst ↔ v ∈ component.vertices) ∧
    (∀ v ∈ component.vertices, ∃ c, map_find t v = some c) ∧
    (∀ v ∈ component.vertices, in_edges v component = [] → map_find t v = some 0) := by
  obtain ⟨b, hrun⟩ := simulate_ok_run gen ops component agents steps batches change_threshold s
    t s' h
  obtain ⟨hkeys, _, _, _⟩ := simulate_run_sum gen ops component agents steps batches
    change_threshold s hwf t s' b hrun
  refine ⟨by rw [hkeys]; exact hwf.1, fun v => by rw [hkeys], ?_, ?_⟩
  · intro v hv
    exact map_find_isSome_of_mem t v (by rw [hkeys]; exact hv)
  · intro v hv hin
    unfold simulate_run at hrun
    refine simulate_batches_preserves gen ops component (fun t => map_find t v = some 0) ?_
      agents steps change_threshold batches 0 _ _ s t s' b hrun
      (initial_traffic_find component hwf.1 v hv)
    intro t0 u w hw ht0
    have hne : w ≠ v := by
      intro hwv
      have hadj : (u, w) ∈ component.edges := by
        unfold out_vertices at hw
        by_cases hu : u ∈ component.vertices
        · simp only [hu, if_true] at hw
          exact (mem_out_targets component u w).mp hw
        · simp only [hu, if_false] at hw
          cases hw
      have : (u, w) ∈ in_edges v component := by
        unfold in_edges
        simp only [List.mem_filter, beq_iff_eq]
        exact ⟨hadj, hwv⟩
      rw [hin] at this
      cases this
    rw [map_find_map_increment_ne t0 w v hne]
    exact ht0

/-- C13: with change_threshold = 0, for every arithmetic in which a sum of absolute
differences is never below 0, every non-empty component whose vertices all have
out-degree at least one, every generator that answers within the requested ranges and
all agents, steps and batches, `simulate` returns after exactly `batches` batches, and
the returned traffic sums to agents * steps * batches. -/
theorem simulate_threshold_zero {S D : Type} (gen : S → Nat → Nat → Nat × S)
    (ops : double_ops D) (component : graph_t) (agents steps batches : Nat) (s : S)
    (hlaw : difference_never_below_zero ops)
    (hwf : component.wf) (hne : component.vertices ≠ [])
    (hout : ∀ v ∈ component.vertices, out_edges v component ≠ [])
    (hgen : gen_in_range gen) :
    ∃ t s',
      simulate_run gen ops component agents steps batches ops.zero s = .ok (t, s', batches) ∧
      simulate gen ops component agents steps batches ops.zero s = .ok (t, s') ∧
      (component.vertices.map (traffic_at t)).sum = agents * steps * batches := by
  obtain ⟨t, s', b, h⟩ := simulate_batches_total gen ops component hwf hne hout hgen agents
    steps ops.zero batches 0 (initial_traffic component) [] s
  have hb : b = batches := by
    have := simulate_batches_threshold_zero gen ops component agents steps hlaw batches 0 _ _ s
      t s' b h
    omega
  subst hb
  have hrun : simulate_run gen ops component agents steps b ops.zero s = .ok (t, s', b) := h
  obtain ⟨_, _, _, h4⟩ := simulate_run_sum gen ops component agents steps b ops.zero s hwf
    t s' b hrun
  exact ⟨t, s', hrun, by unfold simulate; rw [hrun], h4⟩

theorem simulate_threshold_zero_witness :
    difference_never_below_zero exact_ops ∧ build_one_scc.wf ∧ build_one_scc.vertices ≠ [] ∧
    (∀ v ∈ build_one_scc.vertices, out_edges v build_one_scc ≠ []) ∧
    gen_in_range first_gen ∧
    ∃ t s',
      simulate_run first_gen exact_ops build_one_scc 2 8 3 exact_ops.zero 0 = .ok (t, s', 3) ∧
      simulate first_gen exact_ops build_one_scc 2 8 3 exact_ops.zero 0 = .ok (t, s') ∧
      (build_one_scc.vertices.map (traffic_at t)).sum = 2 * 8 * 3 :=
  ⟨exact_ops_never_below_zero, by decide, by decide, by decide, first_gen_in_range,
    simulate_threshold_zero first_gen exact_ops build_one_scc 2 8 3 0
      exact_ops_never_below_zero (by decide) (by decide) (by decide) first_gen_in_range⟩

/-- C16: for every map (no key twice) and the comparison `a < b` on values, when
`std::sort` returns the pairs rearranged so that no later pair compares below an
earlier one, `mapsort` returns a list that contains every key of the map exactly once
and nothing else, in which the value of a key is at most the value of every later key;
and the solver runs the greedy loop of a subgraph on the list that `mapsort` returns
for the traffic map with `trafficCompare`. -/
theorem mapsort_ascending {T V : Type} [DecidableEq T] [LinearOrder V]
    (std_sort : (T × V → T × V → Bool) → List (T × V) → List (T × V))
    (map : unordered_map T V) (hkeys : (map.map Prod.fst).Nodup)
    (hperm : (std_sort (fun a b => decide (a.2 < b.2)) map).Perm map)
    (hsorted : (std_sort (fun a b => decide (a.2 < b.2)) map).Pairwise
      (fun a b => ¬ decide (b.2 < a.2) = true)) :
    (mapsort std_sort map (fun a b => decide (a < b))).Perm (map.map Prod.fst) ∧
    (mapsort std_sort map (fun a b => decide (a < b))).Nodup ∧
    (∀ k ∈ mapsort std_sort map (fun a b => decide (a < b)), ∃ v, map_find map k = some v) ∧
    (mapsort std_sort map (fun a b => decide (a < b))).Pairwise
      (fun k₁ k₂ => ∀ a b, map_find map k₁ = some a → map_find map k₂ = some b → a ≤ b) ∧
    (∀ (S D : Type) (gen : S → Nat → Nat → Nat × S) (ops : double_ops D)
      (sort : (vertex_descriptor_t × Nat → vertex_descriptor_t × Nat → Bool) →
        List (vertex_descriptor_t × Nat) → List (vertex_descriptor_t × Nat))
      (agents steps batches : Nat) (changeThreshold : D) (subgraph : graph_t)
      (rest : List graph_t) (cutVertices : List vertex_properties_s) (s s' : S)
      (traffic : unnormalized_vertex_traffic_map_t),
      num_vertices subgraph ≠ 1 →
      simulate gen ops subgraph agents steps batches changeThreshold s = .ok (traffic, s') →
      solver.process_subgraphs gen ops sort agents steps batches changeThreshold
          (subgraph :: rest) cutVertices s =
        solver.process_subgraphs gen ops sort agents steps batches changeThreshold rest
          (solver.collect_cut
            (solver.reduce subgraph
              (mapsort sort traffic (fun a b => decide (a < b)))).acyclicVertices
            (mapsort sort traffic (fun a b => decide (a < b))) cutVertices) s') := by
  have hp : (mapsort std_sort map (fun a b => decide (a < b))).Perm (map.map Prod.fst) := by
    unfold mapsort
    exact hperm.map Prod.fst
  refine ⟨hp, hp.nodup_iff.mpr hkeys, ?_, ?_, ?_⟩
  · intro k hk
    exact map_find_isSome_of_mem map k (hp.subset hk)
  · unfold mapsort
    rw [List.pairwise_map]
    refine List.Pairwise.imp_of_mem ?_ hsorted
    intro p q hp' hq' hpq a b ha hb
    have h1 := map_find_of_mem_nodup map hkeys p.1 p.2 (hperm.subset hp')
    have h2 := map_find_of_mem_nodup map hkeys q.1 q.2 (hperm.subset hq')
    rw [h1] at ha
    rw [h2] at hb
    simp only [Option.some.injEq] at ha hb
    rw [← ha, ← hb]
    simpa using hpq
  · intro S D gen ops sort agents steps batches changeThreshold subgraph rest cutVertices s s'
      traffic hnum hsim
    conv_lhs => unfold solver.process_subgraphs
    simp only [hnum, if_false, hsim]
    rfl

theorem mapsort_ascending_witness :
    (([(1, 6), (2, 3), (3, 2), (4, 2), (5, 3)] : unordered_map Nat Nat).map Prod.fst).Nodup ∧
    (insertion_sort (fun a b => decide (a.2 < b.2))
      ([(1, 6), (2, 3), (3, 2), (4, 2), (5, 3)] : unordered_map Nat Nat)).Perm
        [(1, 6), (2, 3), (3, 2), (4, 2), (5, 3)] ∧
    (insertion_sort (fun a b => decide (a.2 < b.2))
      ([(1, 6), (2, 3), (3, 2), (4, 2), (5, 3)] : unordered_map Nat Nat)).Pairwise
        (fun a b => ¬ decide (b.2 < a.2) = true) ∧
    mapsort insertion_sort ([(1, 6), (2, 3), (3, 2), (4, 2), (5, 3)] : unordered_map Nat Nat)
      (fun a b => decide (a < b)) = [4, 3, 5, 2, 1] ∧
    (mapsort insertion_sort ([(1, 6), (2, 3), (3, 2), (4, 2), (5, 3)] : unordered_map Nat Nat)
      (fun a b => decide (a < b))).Perm
        (([(1, 6), (2, 3), (3, 2), (4, 2), (5, 3)] : unordered_map Nat Nat).map Prod.fst) :=
  ⟨by decide, by decide, by decide, by decide,
    (mapsort_ascending insertion_sort
      ([(1, 6), (2, 3), (3, 2), (4, 2), (5, 3)] : unordered_map Nat Nat)
      (by decide) (by decide) (by decide)).1⟩

theorem simulate_traffic_keys_witness :
    two_cycle.wf ∧ gen_in_range first_gen ∧
    simulate first_gen exact_ops two_cycle 1 2 1 0 0 = .ok ([(1, 1), (2, 1)], 1) ∧
    ((([(1, 1), (2, 1)] : unnormalized_vertex_traffic_map_t).map Prod.fst).Nodup ∧
    (∀ v, v ∈ ([(1, 1), (2, 1)] : unnormalized_vertex_traffic_map_t).map Prod.fst ↔
      v ∈ two_cycle.vertices) ∧
    (∀ v ∈ two_cycle.vertices, ∃ c, map_find [(1, 1), (2, 1)] v = some c) ∧
    (∀ v ∈ two_cycle.vertices, in_edges v two_cycle = [] →
      map_find [(1, 1), (2, 1)] v = some 0)) :=
  ⟨by decide, first_gen_in_range, simulate_two_cycle_run,
    simulate_traffic_keys first_gen exact_ops two_cycle 1 2 1 0 0 [(1, 1), (2, 1)] 1
      (by decide) first_gen_in_range simulate_two_cycle_run⟩

/-- C17: for every well-formed input text (`N` in `[2, 10000]`, then for each vertex a
count `k ≤ N` followed by `k` source indices in `[1, N]`, tokens separated by arbitrary
whitespace, at most 100000 distinct edges), `deserialize_input` returns a graph whose
vertices are exactly the numbers `1, ..., N` (in this order, `N` of them), which
satisfies the type invariant, and in which the edge `s → i` exists if and only if `s`
is listed among the sources of vertex `i` (the record with index `i - 1`). -/
theorem deserialize_input_well_formed (n : token) (records : List record)
    (trailing : List Char) (h : well_formed_input n records trailing) :
    ∃ g, deserialize_input (input_text n records trailing) = .ok g ∧
      g.vertices = (List.range n.value).map (fun vertexIndex => vertexIndex + 1) ∧
      num_vertices g = n.value ∧ g.wf ∧
      (∀ v, v ∈ g.vertices ↔ 1 ≤ v ∧ v ≤ n.value) ∧
      ∀ s i, (s, i) ∈ g.edges ↔
        ∃ idx r, records[idx]? = some r ∧ i = idx + 1 ∧ ∃ tok ∈ r.2, tok.value = s := by
  obtain ⟨hn, hmin, hmax, hlen, hrec, htr, hedges⟩ := h
  obtain ⟨hv, hnd, hmem⟩ := add_edges_spec (listed_edges 0 records)
    ⟨(List.range n.value).map (fun vertexIndex => vertexIndex + 1), []⟩ List.nodup_nil
  have hvmem : ∀ v, v ∈ (List.range n.value).map (fun vertexIndex => vertexIndex + 1) ↔
      1 ≤ v ∧ v ≤ n.value := by
    intro v
    simp only [List.mem_map, List.mem_range]
    constructor
    · rintro ⟨a, ha, rfl⟩
      omega
    · rintro ⟨h1, h2⟩
      exact ⟨v - 1, by omega, by omega⟩
  have hedge : ∀ s i, (s, i) ∈ ((listed_edges 0 records).foldl
      (fun g e => add_edge e.1 e.2 g)
      ⟨(List.range n.value).map (fun vertexIndex => vertexIndex + 1), []⟩).edges ↔
      ∃ idx r, records[idx]? = some r ∧ i = idx + 1 ∧ ∃ tok ∈ r.2, tok.value = s := by
    intro s i
    rw [hmem, mem_listed_edges]
    simp only [List.not_mem_nil, false_or, Nat.zero_add]
  refine ⟨_, ?_, hv, ?_, ⟨?_, hnd, ?_⟩, ?_, hedge⟩
  · rw [deserialize_input_records n records trailing hn hmin hmax hlen hrec htr,
      if_neg (by omega)]
  · unfold num_vertices
    rw [hv]
    simp only [List.length_map, List.length_range]
  · rw [hv]
    exact (List.nodup_range n.value).map (fun a b hab => by simpa using hab)
  · rintro ⟨s, i⟩ he
    obtain ⟨idx, r, hr, hi, tok, htok, hs⟩ := (hedge s i).mp he
    obtain ⟨hidx, _⟩ := List.getElem?_eq_some_iff.mp hr
    have hsrc := ((hrec r (List.mem_iff_getElem?.mpr ⟨idx, hr⟩)).2.2.2 tok htok).2
    subst hs hi
    rw [hv]
    exact ⟨(hvmem _).mpr (by omega), (hvmem _).mpr (by omega)⟩
  · intro v
    rw [hv]
    exact hvmem v

theorem deserialize_input_well_formed_witness :
    well_formed_input sample_num_vertices sample_records [] ∧
    input_text sample_num_vertices sample_records [] =
      "5\n2 3 5\n1 1\n1 2\n1 1\n1 4".toList ∧
    ∃ g, deserialize_input (input_text sample_num_vertices sample_records []) = .ok g ∧
      g.vertices = (List.range sample_num_vertices.value).map
        (fun vertexIndex => vertexIndex + 1) ∧
      num_vertices g = sample_num_vertices.value ∧ g.wf ∧
      (∀ v, v ∈ g.vertices ↔ 1 ≤ v ∧ v ≤ sample_num_vertices.value) ∧
      ∀ s i, (s, i) ∈ g.edges ↔
        ∃ idx r, sample_records[idx]? = some r ∧ i = idx + 1 ∧ ∃ tok ∈ r.2, tok.value = s :=
  ⟨by decide, rfl,
    deserialize_input_well_formed sample_num_vertices sample_records [] (by decide)⟩

/-- C18: `deserialize_input` does not reject a source index outside `[1, N]`.  The
guard in front of the vertex lookup requires `sourceIndex < 1` and
`numVertices < sourceIndex` at once, which no number satisfies, so the exception
"must be between 1 and N" is thrown for no input at all.  On the texts `"2\n1 3\n0"`
(source `N + 1`) and `"2\n1 0\n0"` (source 0) the decoder goes on to index the vector
`vertices` outside its bounds (at 2, and at `2 ^ 64 - 1` after the decrement wraps):
no `std::invalid_argument` is thrown, the behaviour is undefined. -/
theorem deserialize_input_source_index_unchecked :
    (∀ sourceIndex numVertices : Nat, ¬ (sourceIndex < 1 ∧ numVertices < sourceIndex)) ∧
    (∀ input destinationIndex,
      deserialize_input input ≠ .error (.source_index_out_of_range destinationIndex)) ∧
    deserialize_input "2\n1 3\n0".toList = .error .vector_index_out_of_range ∧
    deserialize_input "2\n1 0\n0".toList = .error .vector_index_out_of_range ∧
    input_error.is_invalid_argument .vector_index_out_of_range = false :=
  ⟨fun _ _ h => (by omega),
    fun input d h => (deserialize_input_error input _ h).1 d rfl, rfl, rfl, rfl⟩

/-- C19: let the text start with the token `N` (a decimal numeral, not continued by a
further digit).  If `N < 2` or `10000 < N`, `deserialize_input` fails with a
`std::invalid_argument`: "The number of vertices must be between 2 and 10000" when `N`
fits `std::size_t`, "The input file does not contain the number of vertices" when it
does not.  If `2 ≤ N ≤ 10000` it does not fail with the former error; more generally,
for any text, that error is only thrown when the number read lies outside
`[2, 10000]`. -/
theorem deserialize_input_num_vertices_range (n : token) (rest : List Char)
    (hn : is_token n) (hrest : no_digit_head rest) :
    ((n.value < 2 ∨ 10000 < n.value) →
      ∃ e, deserialize_input (n.1 ++ n.2 ++ rest) = .error e ∧
        e.is_invalid_argument = true ∧
        e = if n.value < 2 ^ 64 then .num_vertices_out_of_range
          else .missing_num_vertices) ∧
    ((2 ≤ n.value ∧ n.value ≤ 10000) →
      deserialize_input (n.1 ++ n.2 ++ rest) ≠ .error .num_vertices_out_of_range) ∧
    (∀ input, deserialize_input input = .error .num_vertices_out_of_range →
      ∃ numVertices after, read_size_t input = some (numVertices, after) ∧
        (numVertices < 2 ∨ 10000 < numVertices)) := by
  have hread := read_size_t_token n rest hn hrest
  refine ⟨?_, ?_, ?_⟩
  · intro hout
    by_cases hbig : 2 ^ 64 ≤ n.value
    · rw [if_pos hbig] at hread
      refine ⟨.missing_num_vertices, ?_, rfl, ?_⟩
      · unfold deserialize_input
        rw [hread]
      · rw [if_neg (by omega)]
    · rw [if_neg hbig] at hread
      refine ⟨.num_vertices_out_of_range, ?_, rfl, ?_⟩
      · unfold deserialize_input
        rw [hread]
        have hout2 : n.value < MIN_VERTICES ∨ MAX_VERTICES < n.value := hout
        simp only
        rw [if_pos hout2]
      · rw [if_pos (by omega)]
  · intro hin hfail
    obtain ⟨numVertices, after, hr, hout⟩ := (deserialize_input_error _ _ hfail).2 rfl
    rw [hread, if_neg (by omega)] at hr
    simp only [Option.some.injEq, Prod.mk.injEq] at hr
    have h2 : MIN_VERTICES = 2 := rfl
    have h3 : MAX_VERTICES = 10000 := rfl
    omega
  · intro input hfail
    exact (deserialize_input_error _ _ hfail).2 rfl

theorem deserialize_input_num_vertices_range_witness :
    is_token one_vertex ∧ no_digit_head ['\n', '0'] ∧
    one_vertex.1 ++ one_vertex.2 ++ ['\n', '0'] = "1\n0".toList ∧
    (((one_vertex.value < 2 ∨ 10000 < one_vertex.value) →
      ∃ e, deserialize_input (one_vertex.1 ++ one_vertex.2 ++ ['\n', '0']) = .error e ∧
        e.is_invalid_argument = true ∧
        e = if one_vertex.value < 2 ^ 64 then .num_vertices_out_of_range
          else .missing_num_vertices) ∧
    ((2 ≤ one_vertex.value ∧ one_vertex.value ≤ 10000) →
      deserialize_input (one_vertex.1 ++ one_vertex.2 ++ ['\n', '0']) ≠
        .error .num_vertices_out_of_range) ∧
    (∀ input, deserialize_input input = .error .num_vertices_out_of_range →
      ∃ numVertices after, read_size_t input = some (numVertices, after) ∧
        (numVertices < 2 ∨ 10000 < numVertices))) :=
  ⟨by decide, fun c hc => (by cases hc; rfl), rfl,
    deserialize_input_num_vertices_range one_vertex ['\n', '0'] (by decide)
      (fun c hc => (by cases hc; rfl))⟩

/-- C20: let the text start with `N` in `[2, 10000]` and well-formed records of the
first `i < N` vertices, followed by a count token `k` with `N < k`.  Then
`deserialize_input` fails with a `std::invalid_argument`: "The number of in vertices
must be between 0 and N for vertex i" when `k` fits `std::size_t`, "The input file
does not contain the number of in vertices for vertex i" when it does not.  Every
well-formed text, whose counts are any numbers from 0 to `N` inclusive, is accepted. -/
theorem deserialize_input_in_vertex_count_range (n : token) (records : List record)
    (k : token) (rest : List Char)
    (hn : is_token n) (hmin : 2 ≤ n.value) (hmax : n.value ≤ 10000)
    (hlen : records.length < n.value) (hrec : ∀ r ∈ records, is_record n.value r)
    (hk : is_separated_token k) (hlarge : n.value < k.value) (hrest : no_digit_head rest) :
    (∃ e, deserialize_input
        (n.1 ++ n.2 ++ (records_text records ++ (k.1 ++ k.2 ++ rest))) = .error e ∧
      e.is_invalid_argument = true ∧
      e = if k.value < 2 ^ 64 then .in_vertex_count_out_of_range records.length
        else .missing_in_vertex_count records.length) ∧
    ∀ (accepted : List record) (trailing : List Char),
      well_formed_input n accepted trailing →
      ∃ g, deserialize_input (input_text n accepted trailing) = .ok g := by
  constructor
  · have hN : n.value < 2 ^ 64 := by omega
    have hafter : no_digit_head (k.1 ++ k.2 ++ rest) := no_digit_head_of_separated k rest hk
    have hnext : no_digit_head (records_text records ++ (k.1 ++ k.2 ++ rest)) :=
      no_digit_head_records_text records _ (fun r h => (hrec r h).1) hafter
    have hread : read_size_t (n.1 ++ n.2 ++ (records_text records ++ (k.1 ++ k.2 ++ rest))) =
        some (n.value, records_text records ++ (k.1 ++ k.2 ++ rest)) := by
      rw [read_size_t_token n _ hn hnext, if_neg (by omega)]
    have hguard : ¬ (n.value < MIN_VERTICES ∨ MAX_VERTICES < n.value) := by
      have h2 : MIN_VERTICES = 2 := rfl
      have h3 : MAX_VERTICES = 10000 := rfl
      omega
    obtain ⟨m, hm⟩ : ∃ m, n.value = records.length + (m + 1) :=
      ⟨n.value - records.length - 1, by omega⟩
    have hrecords := fun g => read_edges_records n.value hN records (m + 1) 0
      (k.1 ++ k.2 ++ rest) g (by omega) hrec hafter
    have hcount := read_size_t_token k rest hk.1 hrest
    have hrun : ∀ g, read_edges n.value
        ((List.range n.value).map (fun vertexIndex => vertexIndex + 1)) n.value 0
        (records_text records ++ (k.1 ++ k.2 ++ rest)) g =
        .error (if k.value < 2 ^ 64 then .in_vertex_count_out_of_range records.length
          else .missing_in_vertex_count records.length) := by
      intro g
      have h := hrecords g
      rw [← hm] at h
      rw [h, Nat.zero_add]
      unfold read_edges
      by_cases hbig : 2 ^ 64 ≤ k.value
      · rw [if_pos hbig] at hcount
        rw [hcount, if_neg (by omega)]
      · rw [if_neg hbig] at hcount
        rw [hcount]
        simp only
        rw [if_pos hlarge, if_pos (by omega)]
    refine ⟨_, ?_, ?_, rfl⟩
    · unfold deserialize_input
      rw [hread]
      simp only
      rw [if_neg hguard, hrun]
    · split <;> rfl
  · intro accepted trailing h
    obtain ⟨hn', hmin', hmax', hlen', hrec', htr, hedges⟩ := h
    rw [deserialize_input_records n accepted trailing hn' hmin' hmax' hlen' hrec' htr,
      if_neg (by omega)]
    exact ⟨_, rfl⟩

theorem deserialize_input_in_vertex_count_range_witness :
    is_token two_vertices ∧ 2 ≤ two_vertices.value ∧ two_vertices.value ≤ 10000 ∧
    empty_record.length < two_vertices.value ∧
    (∀ r ∈ empty_record, is_record two_vertices.value r) ∧
    is_separated_token count_three ∧ two_vertices.value < count_three.value ∧
    no_digit_head " 1 2 1".toList ∧
    two_vertices.1 ++ two_vertices.2 ++
      (records_text empty_record ++ (count_three.1 ++ count_three.2 ++ " 1 2 1".toList)) =
      "2\n0\n3 1 2 1".toList ∧
    well_formed_input two_vertices extreme_count_records [] ∧
    input_text two_vertices extreme_count_records [] = "2\n0\n2 1 2".toList ∧
    (∃ e, deserialize_input "2\n0\n3 1 2 1".toList = .error e ∧
      e.is_invalid_argument = true ∧
      e = if count_three.value < 2 ^ 64 then
          .in_vertex_count_out_of_range empty_record.length
        else .missing_in_vertex_count empty_record.length) ∧
    ∃ g, deserialize_input "2\n0\n2 1 2".toList = .ok g :=
  ⟨by decide, by decide, by decide, by decide, by decide, by decide, by decide,
    fun c hc => (by cases hc; rfl), rfl, by decide, rfl,
    (deserialize_input_in_vertex_count_range two_vertices empty_record count_three
      " 1 2 1".toList (by decide) (by decide) (by decide) (by decide) (by decide)
      (by decide) (by decide) (fun c hc => (by cases hc; rfl))).1,
    (deserialize_input_in_vertex_count_range two_vertices empty_record count_three
      " 1 2 1".toList (by decide) (by decide) (by decide) (by decide) (by decide)
      (by decide) (by decide) (fun c hc => (by cases hc; rfl))).2
      extreme_count_records [] (by decide)⟩

/-- C21: let a text consist of `N` in `[2, 10000]`, one well-formed record per vertex
and trailing whitespace.  If the records list more than 100000 distinct pairs
(source, target), `deserialize_input` fails with the `std::invalid_argument` "The
number of edges must be between 0 and 100000"; if they list at most 100000 distinct
pairs (exactly 100000 included), it returns a graph whose number of edges is the number
of distinct pairs, however often a pair is listed.  For every text at all, a graph that
`deserialize_input` returns has no edge twice and at most 100000 edges. -/
theorem deserialize_input_edge_count (n : token) (records : List record)
    (trailing : List Char)
    (hn : is_token n) (hmin : 2 ≤ n.value) (hmax : n.value ≤ 10000)
    (hlen : records.length = n.value) (hrec : ∀ r ∈ records, is_record n.value r)
    (htr : ∀ c ∈ trailing, isspace c = true) :
    (100000 < (listed_edges 0 records).dedup.length →
      deserialize_input (input_text n records trailing) = .error .num_edges_out_of_range) ∧
    ((listed_edges 0 records).dedup.length ≤ 100000 →
      ∃ g, deserialize_input (input_text n records trailing) = .ok g ∧
        num_edges g = (listed_edges 0 records).dedup.length) ∧
    input_error.is_invalid_argument .num_edges_out_of_range = true ∧
    (∀ input g, deserialize_input input = .ok g → g.edges.Nodup ∧ num_edges g ≤ 100000) := by
  have hrun := deserialize_input_records n records trailing hn hmin hmax hlen hrec htr
  have hmaxE : MAX_EDGES = 100000 := rfl
  refine ⟨?_, ?_, rfl, ?_⟩
  · intro hlarge
    rw [hrun, if_pos (by omega)]
  · intro hsmall
    rw [hrun, if_neg (by omega)]
    exact ⟨_, rfl, add_edges_length _ _⟩
  · intro input g h
    obtain ⟨_, _, _, _, _, _, _, _, hcount, hnd⟩ := deserialize_input_ok input g h
    exact ⟨hnd, by omega⟩

theorem deserialize_input_edge_count_witness :
    is_token two_vertices ∧ 2 ≤ two_vertices.value ∧ two_vertices.value ≤ 10000 ∧
    duplicate_source_records.length = two_vertices.value ∧
    (∀ r ∈ duplicate_source_records, is_record two_vertices.value r) ∧
    (∀ c ∈ ([] : List Char), isspace c = true) ∧
    input_text two_vertices duplicate_source_records [] = "2\n2 2 2\n0".toList ∧
    (listed_edges 0 duplicate_source_records).length = 2 ∧
    (listed_edges 0 duplicate_source_records).dedup.length = 1 ∧
    ∃ g, deserialize_input (input_text two_vertices duplicate_source_records []) = .ok g ∧
      num_edges g = (listed_edges 0 duplicate_source_records).dedup.length :=
  ⟨by decide, by decide, by decide, by decide, by decide, by decide, rfl, by decide,
    by decide,
    (deserialize_input_edge_count two_vertices duplicate_source_records [] (by decide)
      (by decide) (by decide) (by decide) (by decide) (by decide)).2.1 (by decide)⟩

/-- C22: `only_whitespace_remaining` returns true exactly when every character left in
the stream is whitespace (none at all included).  Let a text consist of `N` in
`[2, 10000]` and one well-formed record per vertex, followed by a rest that does not
continue the last number; if the rest holds a character that is not whitespace,
`deserialize_input` fails with the `std::invalid_argument` "The input file contains
extra data".  For every text at all, when `deserialize_input` returns a graph, the
characters left after the reading loops are all whitespace. -/
theorem deserialize_input_only_whitespace_remaining (n : token) (records : List record)
    (rest : List Char)
    (hn : is_token n) (hmin : 2 ≤ n.value) (hmax : n.value ≤ 10000)
    (hlen : records.length = n.value) (hrec : ∀ r ∈ records, is_record n.value r)
    (hrest : no_digit_head rest) :
    (∀ stream, only_whitespace_remaining stream = true ↔ ∀ c ∈ stream, isspace c = true) ∧
    ((∃ c ∈ rest, isspace c = false) →
      deserialize_input (input_text n records rest) = .error .extra_data) ∧
    input_error.is_invalid_argument .extra_data = true ∧
    (∀ input g, deserialize_input input = .ok g →
      ∃ numVertices after remaining,
        read_size_t input = some (numVertices, after) ∧
        read_edges numVertices
          ((List.range numVertices).map (fun vertexIndex => vertexIndex + 1)) numVertices 0 after
          (((List.range numVertices).map (fun vertexIndex => vertexIndex + 1)).foldl
            (fun graph v => add_vertex v graph) graph_t.empty) = .ok (remaining, g) ∧
        ∀ c ∈ remaining, isspace c = true) := by
  refine ⟨?_, ?_, rfl, ?_⟩
  · intro stream
    unfold only_whitespace_remaining
    exact List.all_eq_true
  · rintro ⟨c, hc, hcs⟩
    have hws : only_whitespace_remaining rest = false := by
      cases hb : only_whitespace_remaining rest
      · rfl
      · unfold only_whitespace_remaining at hb
        rw [List.all_eq_true.mp hb c hc] at hcs
        cases hcs
    have hafter_records := (deserialize_input_after_records n records rest hn hmin hmax (by omega) hrec
      hrest).2 rest _ (by rw [hlen, Nat.sub_self]; rfl)
    unfold input_text
    rw [hafter_records, hws]
    rfl
  · intro input g h
    obtain ⟨numVertices, after, remaining, h1, _, _, h2, h3, _, _⟩ :=
      deserialize_input_ok input g h
    exact ⟨numVertices, after, remaining, h1, h2, h3⟩

theorem deserialize_input_only_whitespace_remaining_witness :
    is_token two_vertices ∧ 2 ≤ two_vertices.value ∧ two_vertices.value ≤ 10000 ∧
    extreme_count_records.length = two_vertices.value ∧
    (∀ r ∈ extreme_count_records, is_record two_vertices.value r) ∧
    no_digit_head " \t\nabc".toList ∧
    (∃ c ∈ " \t\nabc".toList, isspace c = false) ∧
    input_text two_vertices extreme_count_records " \t\nabc".toList =
      "2\n0\n2 1 2 \t\nabc".toList ∧
    deserialize_input "2\n0\n2 1 2 \t\nabc".toList = .error .extra_data ∧
    only_whitespace_remaining "".toList = true ∧
    only_whitespace_remaining "abc".toList = false ∧
    only_whitespace_remaining " \t\n".toList = true ∧
    only_whitespace_remaining " \t\nabc".toList = false :=
  ⟨by decide, by decide, by decide, by decide, by decide, fun c hc => (by cases hc; rfl),
    ⟨'a', by decide, by decide⟩, rfl,
    (deserialize_input_only_whitespace_remaining two_vertices extreme_count_records
      " \t\nabc".toList (by decide) (by decide) (by decide) (by decide) (by decide)
      (fun c hc => (by cases hc; rfl))).2.1 ⟨'a', by decide, by decide⟩,
    by decide, by decide, by decide, by decide⟩

/-- C23: `deserialize_input` fails with a `std::invalid_argument` whenever the stream
ends, or a character that starts no number follows, where a number is due: before `N`
("The input file does not contain the number of vertices"); after `N` in `[2, 10000]`
and the well-formed records of the first `i < N` vertices, before the count of vertex
`i` ("... does not contain the number of in vertices for vertex i"); and after a count
`k ≤ N` of vertex `i` and fewer than `k` well-formed source indices ("... does not
contain the source index for vertex i"). -/
theorem deserialize_input_missing_number (n : token) (records : List record)
    (hn : is_token n) (hmin : 2 ≤ n.value) (hmax : n.value ≤ 10000)
    (hlen : records.length < n.value) (hrec : ∀ r ∈ records, is_record n.value r) :
    (∀ input, no_number_ahead input → deserialize_input input = .error .missing_num_vertices) ∧
    (∀ rest, no_number_ahead rest →
      deserialize_input (n.1 ++ n.2 ++ (records_text records ++ rest)) =
        .error (.missing_in_vertex_count records.length)) ∧
    (∀ (k : token) (srcs : List token) (rest : List Char),
      is_separated_token k → k.value ≤ n.value → srcs.length < k.value →
      (∀ s ∈ srcs, is_separated_token s ∧ 1 ≤ s.value ∧ s.value ≤ n.value) →
      no_number_ahead rest →
      deserialize_input
          (n.1 ++ n.2 ++ (records_text records ++ (k.1 ++ k.2 ++ (tokens_text srcs ++ rest)))) =
        .error (.missing_source_index records.length)) ∧
    input_error.is_invalid_argument .missing_num_vertices = true ∧
    input_error.is_invalid_argument (.missing_in_vertex_count records.length) = true ∧
    input_error.is_invalid_argument (.missing_source_index records.length) = true := by
  have hN : n.value < 2 ^ 64 := by omega
  obtain ⟨m, hm⟩ : ∃ m, n.value - records.length = m + 1 :=
    ⟨n.value - records.length - 1, by omega⟩
  refine ⟨?_, ?_, ?_, rfl, rfl, rfl⟩
  · intro input hinput
    unfold deserialize_input
    rw [read_size_t_no_number_ahead input hinput]
  · intro rest hrest
    apply (deserialize_input_after_records n records rest hn hmin hmax (by omega) hrec
      (no_digit_head_of_no_number_ahead rest hrest)).1
    rw [hm]
    unfold read_edges
    rw [read_size_t_no_number_ahead rest hrest]
  · intro k srcs rest hk hkN hfew hsrcs hrest
    have hhead := no_digit_head_of_no_number_ahead rest hrest
    have hafter : no_digit_head (tokens_text srcs ++ rest) :=
      no_digit_head_tokens_text srcs rest (fun s h => (hsrcs s h).1) hhead
    apply (deserialize_input_after_records n records _ hn hmin hmax (by omega) hrec
      (no_digit_head_of_separated k _ hk)).1
    rw [hm]
    unfold read_edges
    rw [read_size_t_token k _ hk.1 hafter, if_neg (by omega)]
    simp only
    rw [if_neg (by omega)]
    obtain ⟨j, hj⟩ : ∃ j, k.value = srcs.length + (j + 1) :=
      ⟨k.value - srcs.length - 1, by omega⟩
    rw [hj, read_adjacent_tokens_then n.value records.length hlen hN srcs (j + 1) rest _ hsrcs
      hhead]
    unfold read_adjacent
    rw [read_size_t_no_number_ahead rest hrest]

theorem deserialize_input_missing_number_witness :
    is_token two_vertices ∧ 2 ≤ two_vertices.value ∧ two_vertices.value ≤ 10000 ∧
    empty_record.length < two_vertices.value ∧
    (∀ r ∈ empty_record, is_record two_vertices.value r) ∧
    no_number_ahead "abc".toList ∧ no_number_ahead [] ∧
    is_separated_token count_two ∧ count_two.value ≤ two_vertices.value ∧
    one_source.length < count_two.value ∧
    (∀ s ∈ one_source, is_separated_token s ∧ 1 ≤ s.value ∧ s.value ≤ two_vertices.value) ∧
    deserialize_input "abc".toList = .error .missing_num_vertices ∧
    deserialize_input "2\n0".toList = .error (.missing_in_vertex_count 1) ∧
    deserialize_input "2\n0\n2 1".toList = .error (.missing_source_index 1) :=
  ⟨by decide, by decide, by decide, by decide, by decide,
    fun c hc => (by cases hc; decide), fun c hc => (by cases hc),
    by decide, by decide, by decide, by decide,
    (deserialize_input_missing_number two_vertices empty_record (by decide) (by decide)
      (by decide) (by decide) (by decide)).1 "abc".toList
      (fun c hc => (by cases hc; decide)),
    (deserialize_input_missing_number two_vertices empty_record (by decide) (by decide)
      (by decide) (by decide) (by decide)).2.1 [] (fun c hc => (by cases hc)),
    (deserialize_input_missing_number two_vertices empty_record (by decide) (by decide)
      (by decide) (by decide) (by decide)).2.2.1 count_two one_source []
      (by decide) (by decide) (by decide) (by decide) (fun c hc => (by cases hc))⟩

/-- C26: for every set of vertex numbers, kept as the list of its elements in
iteration order, `serialize_output` writes the text of section 6.2: the decimal size, a
newline, and the numbers in iteration order separated by single spaces, nothing after
the last number; for the empty set the text is "0" and a newline.  A number is written
as a non-empty string of decimal digits that denotes it.  When the list has no element
twice, at most 10000 elements, and numbers that fit `std::size_t`, `deserialize_output`
reads the same list back from the text.  The texts of the two tests are as
expected. -/
theorem serialize_output_format (vertices : List vertex_properties_s) :
    serialize_output vertices = output_text vertices ∧
    serialize_output [] = "0\n" ∧
    (∀ number : Nat, (toString number).toList ≠ [] ∧
      (∀ c ∈ (toString number).toList, c.isDigit = true) ∧
      decimal_value (toString number).toList = number) ∧
    (vertices.Nodup → vertices.length ≤ 10000 → (∀ v ∈ vertices, v < 2 ^ 64) →
      deserialize_output (serialize_output vertices).toList = .ok vertices) ∧
    serialize_output [3, 5] = "2\n3 5" ∧ serialize_output [5, 3] = "2\n5 3" ∧
    serialize_output [1] = "1\n1" := by
  refine ⟨?_, rfl, toString_digits, ?_, by decide, by decide, by decide⟩
  · unfold serialize_output output_text
    rw [write_numbers_eq_intercalate]
  · intro hnd hlen hsize
    exact serialize_output_round_trip vertices hnd hlen hsize

/-- C27: let a text start with the count `M`, followed by numbers that fit
`std::size_t`, each after at least one whitespace character, and a rest that does not
continue the last number.  If `M ≤ 10000`, exactly `M` numbers follow and the rest is
whitespace, `deserialize_output` returns the set of these numbers (no element twice,
its elements are exactly the numbers listed).  It fails with a `std::invalid_argument`
when `M > 10000` ("The number of vertices must be between 0 and 10000", or "... does
not contain the number of vertices" when `M` does not fit `std::size_t`), when fewer
than `M` numbers follow and then the stream ends or a character that starts no number
stands ("... does not contain the vertex index for vertex j"), and when `M` numbers are
followed by a character that is not whitespace ("The input file contains extra
data"). -/
theorem deserialize_output_spec (m : token) (vs : List token) (rest : List Char)
    (hm : is_token m) (hvs : ∀ t ∈ vs, is_separated_token t ∧ t.value < 2 ^ 64)
    (hrest : no_digit_head rest) :
    (m.value ≤ 10000 → vs.length = m.value → (∀ c ∈ rest, isspace c = true) →
      ∃ vertices, deserialize_output (m.1 ++ m.2 ++ (tokens_text vs ++ rest)) = .ok vertices ∧
        vertices.Nodup ∧ ∀ x, x ∈ vertices ↔ ∃ t ∈ vs, t.value = x) ∧
    (10000 < m.value →
      deserialize_output (m.1 ++ m.2 ++ (tokens_text vs ++ rest)) =
        .error (if m.value < 2 ^ 64 then .num_vertices_out_of_range
          else .missing_num_vertices)) ∧
    (m.value ≤ 10000 → vs.length < m.value → no_number_ahead rest →
      deserialize_output (m.1 ++ m.2 ++ (tokens_text vs ++ rest)) =
        .error (.missing_vertex vs.length)) ∧
    (m.value ≤ 10000 → vs.length = m.value → (∃ c ∈ rest, isspace c = false) →
      deserialize_output (m.1 ++ m.2 ++ (tokens_text vs ++ rest)) = .error .extra_data) := by
  have hmaxV : MAX_VERTICES = 10000 := rfl
  refine ⟨?_, ?_, ?_, ?_⟩
  · intro hmax hlen hws
    obtain ⟨hnd, hmem⟩ := set_insert_fold (vs.map token.value) [] List.nodup_nil
    refine ⟨_, ?_, hnd, ?_⟩
    · rw [(deserialize_output_after_numbers m vs rest hm (by omega) (by omega) hvs hrest).2 rest _
        (by rw [hlen, Nat.sub_self]; rfl),
        only_whitespace_remaining_of_whitespace rest hws]
      rfl
    · intro x
      rw [hmem]
      simp only [List.not_mem_nil, false_or, List.mem_map]
  · intro hlarge
    have hnext : no_digit_head (tokens_text vs ++ rest) :=
      no_digit_head_tokens_text vs rest (fun t h => (hvs t h).1) hrest
    have hread := read_size_t_token m _ hm hnext
    unfold deserialize_output
    by_cases hbig : 2 ^ 64 ≤ m.value
    · rw [if_pos hbig] at hread
      rw [hread, if_neg (by omega)]
    · rw [if_neg hbig] at hread
      rw [hread]
      simp only
      rw [if_pos (by omega), if_pos (by omega)]
  · intro hmax hfew hnone
    obtain ⟨j, hj⟩ : ∃ j, m.value - vs.length = j + 1 := ⟨m.value - vs.length - 1, by omega⟩
    apply (deserialize_output_after_numbers m vs rest hm (by omega) (by omega) hvs hrest).1
    rw [hj]
    unfold read_vertices
    rw [read_size_t_no_number_ahead rest hnone]
  · rintro hmax hlen ⟨c, hc, hcs⟩
    have hws : only_whitespace_remaining rest = false := by
      cases hb : only_whitespace_remaining rest
      · rfl
      · unfold only_whitespace_remaining at hb
        rw [List.all_eq_true.mp hb c hc] at hcs
        cases hcs
    rw [(deserialize_output_after_numbers m vs rest hm (by omega) (by omega) hvs hrest).2 rest _
      (by rw [hlen, Nat.sub_self]; rfl), hws]
    rfl

theorem deserialize_output_spec_witness :
    is_token two_vertices ∧
    (∀ t ∈ sample_cut_tokens, is_separated_token t ∧ t.value < 2 ^ 64) ∧
    no_digit_head ['\n'] ∧
    two_vertices.1 ++ two_vertices.2 ++ (tokens_text sample_cut_tokens ++ ['\n']) =
      "2\n3 5\n".toList ∧
    (∃ vertices, deserialize_output "2\n3 5\n".toList = .ok vertices ∧ vertices.Nodup ∧
      ∀ x, x ∈ vertices ↔ ∃ t ∈ sample_cut_tokens, t.value = x) ∧
    deserialize_output "2\n3 5\n".toList = .ok [3, 5] ∧
    deserialize_output "10001\n3 5\n".toList = .error .num_vertices_out_of_range ∧
    deserialize_output "2\n3".toList = .error (.missing_vertex 1) ∧
    deserialize_output "2\n3 5 x".toList = .error .extra_data :=
  ⟨by decide, by decide, fun c hc => (by cases hc; rfl), rfl,
    (deserialize_output_spec two_vertices sample_cut_tokens ['\n'] (by decide) (by decide)
      (fun c hc => (by cases hc; rfl))).1 (by decide) (by decide) (by decide),
    rfl,
    (deserialize_output_spec count_too_large sample_cut_tokens ['\n'] (by decide) (by decide)
      (fun c hc => (by cases hc; rfl))).2.1 (by decide),
    (deserialize_output_spec two_vertices [(['\n'], ['3'])] [] (by decide) (by decide)
      (fun c hc => (by cases hc))).2.2.1 (by decide) (by decide) (fun c hc => (by cases hc)),
    (deserialize_output_spec two_vertices sample_cut_tokens " x".toList (by decide) (by decide)
      (fun c hc => (by cases hc; rfl))).2.2.2 (by decide) (by decide)
      ⟨'x', by decide, by decide⟩⟩

/-- C28: for every decoded input graph and decoded set of vertices, the graph the
verifier hands to `detect_cycles` is the input graph without the vertices whose number
is in the set and without their incident edges; the verifier returns the exit code 0
with "No cycle detected" if and only if that graph has no directed cycle, and the exit
code 1 with "Cycle(s) detected" otherwise.  A set that holds the same vertices of the
graph, whatever other numbers it holds, gives the same result. -/
theorem verifier_exit_code (graph : graph_t) (vertices : List vertex_properties_s)
    (hwf : graph.wf) :
    verifier.remove_listed vertices graph.vertices graph = remove_vertices graph vertices ∧
    ((verifier.main graph vertices).1 = 0 ↔ ¬ has_cycle (remove_vertices graph vertices)) ∧
    (¬ has_cycle (remove_vertices graph vertices) →
      verifier.main graph vertices = (0, "No cycle detected")) ∧
    (has_cycle (remove_vertices graph vertices) →
      verifier.main graph vertices = (1, "Cycle(s) detected")) ∧
    (∀ others : List vertex_properties_s,
      (∀ v ∈ graph.vertices, v ∈ others ↔ v ∈ vertices) →
      verifier.main graph others = verifier.main graph vertices) := by
  have hrem := remove_listed_vertices graph vertices hwf
  have hiff := detect_cycles_eq_true_iff (remove_vertices graph vertices)
    (remove_vertices_endpoints graph vertices hwf)
  have hmain : verifier.main graph vertices =
      if detect_cycles (remove_vertices graph vertices) then (1, "Cycle(s) detected")
      else (0, "No cycle detected") := by
    unfold verifier.main
    rw [hrem]
  refine ⟨hrem, ?_, ?_, ?_, ?_⟩
  · rw [hmain, ← hiff]
    cases detect_cycles (remove_vertices graph vertices) <;> simp
  · intro h
    rw [hmain]
    rw [← hiff] at h
    simp only [h, if_false]
    rfl
  · intro h
    rw [hmain]
    rw [← hiff] at h
    simp only [h, if_true]
  · intro others hsame
    unfold verifier.main
    rw [hrem, remove_listed_vertices graph others hwf,
      remove_vertices_congr graph vertices others hwf hsame]

theorem verifier_exit_code_witness :
    build_one_scc.wf ∧
    verifier.remove_listed [3, 5] build_one_scc.vertices build_one_scc =
      remove_vertices build_one_scc [3, 5] ∧
    ((verifier.main build_one_scc [3, 5]).1 = 0 ↔
      ¬ has_cycle (remove_vertices build_one_scc [3, 5])) ∧
    verifier.main build_one_scc [3, 5] = (0, "No cycle detected") ∧
    verifier.main build_one_scc [3] = (1, "Cycle(s) detected") ∧
    verifier.main build_one_scc [3, 5, 7] = verifier.main build_one_scc [3, 5] :=
  ⟨by decide,
    (verifier_exit_code build_one_scc [3, 5] (by decide)).1,
    (verifier_exit_code build_one_scc [3, 5] (by decide)).2.1,
    by decide, by decide,
    (verifier_exit_code build_one_scc [3, 5] (by decide)).2.2.2.2 [3, 5, 7] (by decide)⟩

/-- C29: for every input graph whose vertices are the numbers `1, ..., N`, every
component map, generator, arithmetic and parameter setting, and every sort that
returns a rearrangement of its input: whenever the solver computes a cut set, every
number in it lies in `[1, N]`, no number occurs twice, and the text written is the text
of section 6.2 for the cut set, its leading count being the number of values listed;
when `N ≤ 10000`, `deserialize_output` reads the cut set back from that text.  When the
component map meets the contract of `boost::strong_components` and the generator
answers within the requested ranges, the solver does compute a cut set. -/
theorem solver_cut_vertices_in_range {S D : Type} (sc : graph_t → Nat × List Nat)
    (gen : S → Nat → Nat → Nat × S) (ops : double_ops D)
    (std_sort : (vertex_descriptor_t × Nat → vertex_descriptor_t × Nat → Bool) →
      List (vertex_descriptor_t × Nat) → List (vertex_descriptor_t × Nat))
    (g : graph_t) (agents steps batches : Nat) (changeThreshold : D) (s : S) (N : Nat)
    (hwf : g.wf) (hverts : g.vertices = (List.range N).map (fun vertexIndex => vertexIndex + 1))
    (hsort : ∀ cmp l, (std_sort cmp l).Perm l) :
    (∀ cut : List vertex_properties_s,
      solver.cut_vertices sc gen ops std_sort g agents steps batches changeThreshold s =
        .ok cut →
      (∀ v : Nat, v ∈ cut → 1 ≤ v ∧ v ≤ N) ∧ cut.Nodup ∧ cut.length ≤ N ∧
      solver.main sc gen ops std_sort g agents steps batches changeThreshold s =
        .ok (serialize_output cut) ∧
      serialize_output cut = output_text cut ∧
      (N ≤ 10000 → deserialize_output (serialize_output cut).toList = .ok cut)) ∧
    (strong_components_contract g (sc g) → gen_in_range gen →
      ∃ cut, solver.cut_vertices sc gen ops std_sort g agents steps batches changeThreshold s =
        .ok cut) := by
  refine ⟨?_, fun hsc hgen => cut_vertices_total sc gen ops std_sort g agents steps batches
    changeThreshold s hwf hsc hgen⟩
  intro cut h
  obtain ⟨hnd, hmem⟩ := cut_vertices_spec sc gen ops std_sort hsort g agents steps batches
    changeThreshold s cut hwf h
  have hrange : ∀ v : Nat, v ∈ cut → 1 ≤ v ∧ v ≤ N := by
    intro v hv
    have := hmem v hv
    rw [hverts] at this
    simp only [List.mem_map, List.mem_range] at this
    obtain ⟨a, ha, rfl⟩ := this
    exact ⟨Nat.le_add_left 1 a, Nat.succ_le_of_lt ha⟩
  have hlen : cut.length ≤ N := by
    have hsub : cut ⊆ g.vertices := fun v hv => hmem v hv
    have := (List.subperm_of_subset hnd hsub).length_le
    rw [hverts] at this
    simpa using this
  refine ⟨hrange, hnd, hlen, ?_, ?_, ?_⟩
  · unfold solver.main
    rw [h]
  · unfold serialize_output output_text
    rw [write_numbers_eq_intercalate]
  · intro hN
    apply serialize_output_round_trip cut hnd
    · exact le_trans hlen hN
    · intro v hv
      exact lt_of_le_of_lt (le_trans (hrange v hv).2 hN) (by decide)

theorem solver_cut_vertices_in_range_witness :
    two_cycle.wf ∧
    two_cycle.vertices = (List.range 2).map (fun vertexIndex => vertexIndex + 1) ∧
    (∀ (cmp : vertex_descriptor_t × Nat → vertex_descriptor_t × Nat → Bool)
      (l : List (vertex_descriptor_t × Nat)), (insertion_sort cmp l).Perm l) ∧
    strong_components_contract two_cycle (one_component two_cycle) ∧ gen_in_range first_gen ∧
    solver.cut_vertices one_component first_gen exact_ops insertion_sort two_cycle 1 2 1 0 0 =
      .ok [1] ∧
    ((∀ v : Nat, v ∈ ([1] : List vertex_properties_s) → 1 ≤ v ∧ v ≤ 2) ∧
      ([1] : List vertex_properties_s).Nodup ∧ ([1] : List vertex_properties_s).length ≤ 2 ∧
      solver.main one_component first_gen exact_ops insertion_sort two_cycle 1 2 1 0 0 =
        .ok (serialize_output [1]) ∧
      serialize_output [1] = output_text [1] ∧
      (2 ≤ 10000 → deserialize_output (serialize_output [1]).toList = .ok [1])) ∧
    (∃ cut, solver.cut_vertices one_component first_gen exact_ops insertion_sort two_cycle
      1 2 1 0 0 = .ok cut) ∧
    serialize_output [1] = "1\n1" :=
  ⟨by decide, by decide, fun cmp l => insertion_sort_perm cmp l,
    contract_of_strongly_connected two_cycle (by decide) two_cycle_strongly_connected,
    first_gen_in_range, two_cycle_cut,
    (solver_cut_vertices_in_range one_component first_gen exact_ops insertion_sort two_cycle
      1 2 1 0 0 2 (by decide) (by decide) (fun cmp l => insertion_sort_perm cmp l)).1 [1]
      two_cycle_cut,
    (solver_cut_vertices_in_range one_component first_gen exact_ops insertion_sort two_cycle
      1 2 1 0 0 2 (by decide) (by decide) (fun cmp l => insertion_sort_perm cmp l)).2
      (contract_of_strongly_connected two_cycle (by decide) two_cycle_strongly_connected)
      first_gen_in_range,
    by decide⟩

/-- C30: for every graph with `n` vertices and no directed cycle, and every component
map that meets the contract of `boost::strong_components`, `tarjans_subgraphs` returns
exactly `n` subgraphs; each consists of a single vertex of the graph and no edges, and
every vertex of the graph is the vertex of one of them. -/
theorem tarjans_subgraphs_acyclic_singletons (sc : graph_t → Nat × List Nat) (g : graph_t)
    (hwf : g.wf) (hsc : strong_components_contract g (sc g)) (hacyc : ¬ has_cycle g) :
    (tarjans_subgraphs sc g).length = num_vertices g ∧
    (∀ sg ∈ tarjans_subgraphs sc g, ∃ v ∈ g.vertices, sg = ⟨[v], []⟩) ∧
    (∀ v ∈ g.vertices, (⟨[v], []⟩ : graph_t) ∈ tarjans_subgraphs sc g) := by
  have hsingle := tarjans_subgraphs_acyclic sc g hwf hsc hacyc
  have hshape : ∀ sg ∈ tarjans_subgraphs sc g, ∃ v, sg = ⟨[v], []⟩ := by
    intro sg hsg
    obtain ⟨h1, h2⟩ := hsingle sg hsg
    unfold num_vertices at h1
    obtain ⟨v, hv⟩ := List.length_eq_one.mp h1
    refine ⟨v, ?_⟩
    cases sg with
    | mk vertices edges =>
      simp only at hv h2
      rw [hv, h2]
  refine ⟨?_, ?_, ?_⟩
  · rw [tarjans_subgraphs_length]
    exact acyclic_component_count g (sc g) hwf hsc hacyc
  · intro sg hsg
    obtain ⟨v, hv⟩ := hshape sg hsg
    refine ⟨v, ?_, hv⟩
    apply (tarjans_subgraphs_wf sc g hwf sg hsg).2
    rw [hv]
    exact List.mem_singleton_self v
  · intro v hv
    obtain ⟨sg, hsg⟩ := tarjans_subgraphs_get_component sc g (contract_valid g (sc g) hsc) v hv
    have hmem : sg ∈ tarjans_subgraphs sc g := List.mem_iff_getElem?.mpr ⟨_, hsg⟩
    obtain ⟨_, hverts, _⟩ := tarjans_subgraphs_spec sc g hwf _ sg hsg
    have hin : v ∈ sg.vertices := by
      rw [hverts, mem_component_vertices g (sc g) _ v hwf.1]
      exact ⟨hv, rfl⟩
    obtain ⟨w, hw⟩ := hshape sg hmem
    rw [hw] at hin
    simp only [List.mem_singleton] at hin
    rw [hin]
    rw [← hw]
    exact hmem

theorem tarjans_subgraphs_acyclic_singletons_witness :
    build_all_sccs.wf ∧
    strong_components_contract build_all_sccs (index_components build_all_sccs) ∧
    ¬ has_cycle build_all_sccs ∧
    tarjans_subgraphs index_components build_all_sccs =
      [⟨[1], []⟩, ⟨[2], []⟩, ⟨[3], []⟩, ⟨[4], []⟩, ⟨[5], []⟩] ∧
    ((tarjans_subgraphs index_components build_all_sccs).length = num_vertices build_all_sccs ∧
      (∀ sg ∈ tarjans_subgraphs index_components build_all_sccs,
        ∃ v ∈ build_all_sccs.vertices, sg = ⟨[v], []⟩) ∧
      (∀ v ∈ build_all_sccs.vertices,
        (⟨[v], []⟩ : graph_t) ∈ tarjans_subgraphs index_components build_all_sccs)) :=
  have hacyc : ¬ has_cycle build_all_sccs := fun h =>
    absurd ((detect_cycles_eq_true_iff build_all_sccs (by decide)).mpr h) (by decide)
  ⟨by decide, contract_of_increasing build_all_sccs (by decide) (by decide), hacyc,
    by decide,
    tarjans_subgraphs_acyclic_singletons index_components build_all_sccs (by decide)
      (contract_of_increasing build_all_sccs (by decide) (by decide)) hacyc⟩

/-- C24: `serialize_input` writes a record only for a vertex that an edge enters.  The
graph with the vertices 1, 2 and the single edge `1 → 2`, which `deserialize_input`
returns for the text `"2\n0\n1 1"`, is written as `"2\n1 1"`: the record `0` of vertex
1 is missing, and `deserialize_input` fails on this text with "... does not contain the
number of in vertices for vertex 1 (0-indexed)".  In general, for a graph whose
vertices are numbered `1, ..., N` with `2 ≤ N ≤ 10000`: when some vertex has no
in-edge, decoding the text written fails for want of a record; when every vertex has an
in-edge and there are at most 100000 edges, decoding returns the vertices `1, ..., N`
and the same edge set. -/
theorem serialize_input_omits_vertices_without_in_edges :
    deserialize_input "2\n0\n1 1".toList = .ok dead_end ∧
    in_edges 1 dead_end = [] ∧
    serialize_input dead_end = "2\n1 1" ∧
    deserialize_input (serialize_input dead_end).toList = .error (.missing_in_vertex_count 1) ∧
    (∀ (g : graph_t) (N : Nat), g.wf → (∀ v : Nat, v ∈ g.vertices ↔ 1 ≤ v ∧ v ≤ N) →
      2 ≤ N → N ≤ 10000 → (∃ v ∈ g.vertices, in_edges v g = []) →
      ∃ i, deserialize_input (serialize_input g).toList =
        .error (.missing_in_vertex_count i)) ∧
    (∀ (g : graph_t) (N : Nat), g.wf → (∀ v : Nat, v ∈ g.vertices ↔ 1 ≤ v ∧ v ≤ N) →
      2 ≤ N → N ≤ 10000 → num_edges g ≤ 100000 → (∀ v ∈ g.vertices, in_edges v g ≠ []) →
      ∃ decoded, deserialize_input (serialize_input g).toList = .ok decoded ∧
        decoded.vertices = (List.range N).map (fun vertexIndex => vertexIndex + 1) ∧
        ∀ e, e ∈ decoded.edges ↔ e ∈ g.edges) :=
  ⟨rfl, by decide, by decide, rfl,
    fun g N hwf hverts hmin hmax hsome =>
      ⟨_, serialize_input_missing_record g N hwf hverts hmin hmax hsome⟩,
    fun g N hwf hverts hmin hmax hedges hin =>
      serialize_input_round_trip g N hwf hverts hmin hmax hedges hin⟩

/-- C25: for every graph whose vertices are numbered `1, ..., N` and in which every
vertex has at least one in-edge, `serialize_input` writes the text of section 6.1: `N`,
a newline, and one record per vertex in increasing vertex number, the records separated
by newlines and no newline after the last; the record of a vertex is its in-degree
followed by the numbers of its in-neighbours in ascending order, separated by single
spaces.  The list of in-neighbours holds every source of an edge into the vertex once,
and its length is the in-degree. -/
theorem serialize_input_format (g : graph_t) (N : Nat) (hwf : g.wf)
    (hverts : ∀ v : Nat, v ∈ g.vertices ↔ 1 ≤ v ∧ v ≤ N)
    (hin : ∀ v ∈ g.vertices, in_edges v g ≠ []) :
    serialize_input g = input_lines g ∧ num_vertices g = N ∧
    ∀ i : Nat, (in_neighbours g i).Nodup ∧
      (∀ s, s ∈ in_neighbours g i ↔ (s, i) ∈ g.edges) ∧
      (in_neighbours g i).length = (in_edges i g).length :=
  ⟨serialize_input_eq_input_lines g N hwf hverts hin, num_vertices_of_numbered g N hwf hverts,
    fun i => ⟨(in_neighbours_sorted g i).imp (fun hab => Nat.ne_of_lt hab),
      fun s => mem_in_neighbours g N hwf hverts s i,
      in_neighbours_length g N hwf hverts i⟩⟩

theorem serialize_input_format_witness :
    build_one_scc.wf ∧ (∀ v : Nat, v ∈ build_one_scc.vertices ↔ 1 ≤ v ∧ v ≤ 5) ∧
    (∀ v ∈ build_one_scc.vertices, in_edges v build_one_scc ≠ []) ∧
    serialize_input build_one_scc = "5\n2 3 5\n1 1\n1 2\n1 1\n1 4" ∧
    input_lines build_one_scc = "5\n2 3 5\n1 1\n1 2\n1 1\n1 4" ∧
    (serialize_input build_one_scc = input_lines build_one_scc ∧
      num_vertices build_one_scc = 5 ∧
      ∀ i : Nat, (in_neighbours build_one_scc i).Nodup ∧
        (∀ s, s ∈ in_neighbours build_one_scc i ↔ (s, i) ∈ build_one_scc.edges) ∧
        (in_neighbours build_one_scc i).length = (in_edges i build_one_scc).length) :=
  ⟨by decide, fun v => mem_vertex_numbers 5 v, by decide, by decide, by decide,
    serialize_input_format build_one_scc 5 (by decide) (fun v => mem_vertex_numbers 5 v)
      (by decide)⟩

/-- C32: for a subgraph and every processing order in which no vertex occurs twice, the
retained vertices of the greedy loop induce a subgraph without a directed cycle, and
for every vertex that ends up in the cut set the subgraph induced by the retained
vertices together with that vertex contains a directed cycle: no cut vertex can be put
back without creating a cycle. -/
theorem reduce_retained_maximal (subgraph : graph_t) (sorted : List vertex_descriptor_t)
    (hnd : sorted.Nodup) :
    ¬ has_cycle (induced_subgraph subgraph
      ((solver.reduce subgraph sorted).acyclicVertices.map Prod.fst)) ∧
    ∀ v ∈ solver.collect_cut (solver.reduce subgraph sorted).acyclicVertices sorted [],
      v ∉ (solver.reduce subgraph sorted).acyclicVertices.map Prod.fst ∧
      has_cycle (induced_subgraph subgraph
        ((solver.reduce subgraph sorted).acyclicVertices.map Prod.fst ++ [v])) := by
  obtain ⟨hkeys, _, _, _, hcomplete, hacyc⟩ := reduce_inv_reduce subgraph sorted hnd
  constructor
  · intro hc
    apply hacyc
    refine has_cycle_mono _ _ ?_ hc
    intro e he
    simp only [induced_subgraph, List.mem_filter, Bool.and_eq_true, decide_eq_true_eq] at he
    rw [hkeys] at he
    exact hcomplete e he.1 he.2.1 he.2.2
  · intro v hv
    rw [mem_collect_cut] at hv
    rcases hv with hv | ⟨hvs, hnone⟩
    · cases hv
    · rw [map_find_eq_none] at hnone
      refine ⟨hnone, ?_⟩
      obtain ⟨k, hk⟩ := List.mem_iff_getElem?.mp hvs
      have hout : v ∉ (solver.reduce subgraph sorted).acyclicGraph.vertices := by
        rw [← hkeys]; exact hnone
      obtain ⟨hdet, _⟩ := rejected_of_not_retained subgraph sorted hnd k v hk hout
      obtain ⟨hinv, _⟩ := reduce_take_vertices subgraph sorted hnd k
      have hfresh := reduce_next_fresh subgraph sorted hnd k v hk
      have hedges := inserted_graph_edges subgraph _ v hinv hfresh
      have hV := (insert_vertex_spec subgraph _ v hinv hfresh).2.1
      have hcyc := (detect_cycles_eq_true_iff _ (fun e he => by
        rw [hV]
        exact ((hedges e).mp he).2)).mp hdet
      refine has_cycle_mono _ _ ?_ hcyc
      intro e he
      obtain ⟨h1, h2, h3⟩ := (hedges e).mp he
      have hgrow : ∀ x, x ∈ (solver.reduce subgraph (sorted.take k)).acyclicGraph.vertices ++ [v] →
          x ∈ (solver.reduce subgraph sorted).acyclicVertices.map Prod.fst ++ [v] := by
        intro x hx
        rw [List.mem_append] at hx ⊢
        rcases hx with hx | hx
        · left
          rw [hkeys]
          exact retained_subset subgraph sorted hnd k x hx
        · exact Or.inr hx
      simp only [induced_subgraph, List.mem_filter, Bool.and_eq_true, decide_eq_true_eq]
      exact ⟨h1, hgrow _ h2, hgrow _ h3⟩

theorem reduce_retained_maximal_witness :
    [3, 5, 2, 4, 1].Nodup ∧
    solver.collect_cut (solver.reduce build_one_scc [3, 5, 2, 4, 1]).acyclicVertices
      [3, 5, 2, 4, 1] [] = [1] ∧
    (solver.reduce build_one_scc [3, 5, 2, 4, 1]).acyclicVertices.map Prod.fst = [3, 5, 2, 4] ∧
    (¬ has_cycle (induced_subgraph build_one_scc
      ((solver.reduce build_one_scc [3, 5, 2, 4, 1]).acyclicVertices.map Prod.fst)) ∧
    ∀ v ∈ solver.collect_cut (solver.reduce build_one_scc [3, 5, 2, 4, 1]).acyclicVertices
        [3, 5, 2, 4, 1] [],
      v ∉ (solver.reduce build_one_scc [3, 5, 2, 4, 1]).acyclicVertices.map Prod.fst ∧
      has_cycle (induced_subgraph build_one_scc
        ((solver.reduce build_one_scc [3, 5, 2, 4, 1]).acyclicVertices.map Prod.fst ++ [v]))) :=
  ⟨by decide, by decide, by decide,
    reduce_retained_maximal build_one_scc [3, 5, 2, 4, 1] (by decide)⟩

/-- C33: during the greedy loop over a subgraph, for every processing order in which no
vertex occurs twice, at the end of every iteration (after `k` iterations the state is
the loop run on the first `k` vertices) the vertices of the graph under construction
are the keys of the map of included vertices, in the same order, and the graph has an
edge exactly when the subgraph has that edge and both ends are included.  After the
insertion of the next vertex and before the cycle test the same holds with that vertex
included: every edge of the subgraph between it and an included vertex is present, in
either direction, and so is its self-loop when the subgraph has one. -/
theorem reduce_graph_is_induced (subgraph : graph_t) (sorted : List vertex_descriptor_t)
    (hnd : sorted.Nodup) (k : Nat) :
    (solver.reduce subgraph (sorted.take k)).acyclicGraph.vertices =
      (solver.reduce subgraph (sorted.take k)).acyclicVertices.map Prod.fst ∧
    (∀ e, e ∈ (solver.reduce subgraph (sorted.take k)).acyclicGraph.edges ↔
      e ∈ subgraph.edges ∧
        e.1 ∈ (solver.reduce subgraph (sorted.take k)).acyclicVertices.map Prod.fst ∧
        e.2 ∈ (solver.reduce subgraph (sorted.take k)).acyclicVertices.map Prod.fst) ∧
    ∀ v, sorted[k]? = some v →
      (solver.insert_vertex subgraph (solver.reduce subgraph (sorted.take k))
          v).acyclicGraph.vertices =
        (solver.insert_vertex subgraph (solver.reduce subgraph (sorted.take k))
          v).acyclicVertices.map Prod.fst ∧
      (solver.insert_vertex subgraph (solver.reduce subgraph (sorted.take k))
          v).acyclicVertices.map Prod.fst =
        (solver.reduce subgraph (sorted.take k)).acyclicVertices.map Prod.fst ++ [v] ∧
      (∀ e, e ∈ (solver.insert_vertex subgraph (solver.reduce subgraph (sorted.take k))
          v).acyclicGraph.edges ↔
        e ∈ subgraph.edges ∧
          e.1 ∈ (solver.reduce subgraph (sorted.take k)).acyclicVertices.map Prod.fst ++ [v] ∧
          e.2 ∈ (solver.reduce subgraph (sorted.take k)).acyclicVertices.map Prod.fst ++ [v]) ∧
      ((v, v) ∈ subgraph.edges →
        (v, v) ∈ (solver.insert_vertex subgraph (solver.reduce subgraph (sorted.take k))
          v).acyclicGraph.edges) := by
  obtain ⟨hinv, _⟩ := reduce_take_vertices subgraph sorted hnd k
  have hinv' := hinv
  obtain ⟨hkeys, _, _, hsound, hcomplete, _⟩ := hinv'
  refine ⟨hkeys.symm, ?_, ?_⟩
  · intro e
    rw [hkeys]
    exact ⟨fun he => hsound e he, fun he => hcomplete e he.1 he.2.1 he.2.2⟩
  · intro v hk
    have hfresh := reduce_next_fresh subgraph sorted hnd k v hk
    obtain ⟨hM, hV, _⟩ := insert_vertex_spec subgraph _ v hinv hfresh
    have hedges := inserted_graph_edges subgraph _ v hinv hfresh
    have hMk : (solver.insert_vertex subgraph (solver.reduce subgraph (sorted.take k))
        v).acyclicVertices.map Prod.fst =
        (solver.reduce subgraph (sorted.take k)).acyclicVertices.map Prod.fst ++ [v] := by
      rw [hM, List.map_append]
      rfl
    refine ⟨by rw [hV, hMk, hkeys], hMk, ?_, ?_⟩
    · intro e
      rw [hkeys]
      exact hedges e
    · intro hloop
      rw [hedges]
      exact ⟨hloop, by simp, by simp⟩

theorem reduce_graph_is_induced_witness :
    [3, 5, 2, 4, 1].Nodup ∧
    solver.reduce build_one_scc ([3, 5, 2, 4, 1].take 3) =
      ⟨⟨[3, 5, 2], [(2, 3)]⟩, [(3, 3), (5, 5), (2, 2)]⟩ ∧
    (solver.insert_vertex build_one_scc (solver.reduce build_one_scc ([3, 5, 2, 4, 1].take 4))
      1).acyclicGraph = ⟨[3, 5, 2, 4, 1], [(2, 3), (4, 5), (3, 1), (5, 1), (1, 2), (1, 4)]⟩ ∧
    (solver.reduce build_one_scc ([3, 5, 2, 4, 1].take 3)).acyclicGraph.vertices =
      (solver.reduce build_one_scc ([3, 5, 2, 4, 1].take 3)).acyclicVertices.map Prod.fst ∧
    (∀ e, e ∈ (solver.reduce build_one_scc ([3, 5, 2, 4, 1].take 3)).acyclicGraph.edges ↔
      e ∈ build_one_scc.edges ∧
        e.1 ∈ (solver.reduce build_one_scc ([3, 5, 2, 4, 1].take 3)).acyclicVertices.map
          Prod.fst ∧
        e.2 ∈ (solver.reduce build_one_scc ([3, 5, 2, 4, 1].take 3)).acyclicVertices.map
          Prod.fst) :=
  ⟨by decide, by decide, by decide,
    (reduce_graph_is_induced build_one_scc [3, 5, 2, 4, 1] (by decide) 3).1,
    (reduce_graph_is_induced build_one_scc [3, 5, 2, 4, 1] (by decide) 3).2.1⟩

/-- C34: during the greedy loop over a subgraph, for every processing order in which no
vertex occurs twice: when the graph with the next vertex inserted is cyclic, the
rollback (erase the entry of the map, clear the vertex, remove the vertex) gives back
the state before the iteration exactly: the same vertices and edges of the graph under
construction and the same entries of the map of included vertices, in the same
order. -/
theorem reduce_rollback_restores (subgraph : graph_t) (sorted : List vertex_descriptor_t)
    (hnd : sorted.Nodup) (k : Nat) (v : vertex_descriptor_t) (hk : sorted[k]? = some v)
    (hcyc : detect_cycles (solver.insert_vertex subgraph
      (solver.reduce subgraph (sorted.take k)) v).acyclicGraph = true) :
    remove_vertex v (clear_vertex v (solver.insert_vertex subgraph
        (solver.reduce subgraph (sorted.take k)) v).acyclicGraph) =
      (solver.reduce subgraph (sorted.take k)).acyclicGraph ∧
    map_erase (solver.insert_vertex subgraph
        (solver.reduce subgraph (sorted.take k)) v).acyclicVertices v =
      (solver.reduce subgraph (sorted.take k)).acyclicVertices ∧
    solver.reduce_step subgraph (solver.reduce subgraph (sorted.take k)) v =
      solver.reduce subgraph (sorted.take k) ∧
    solver.reduce subgraph (sorted.take (k + 1)) = solver.reduce subgraph (sorted.take k) := by
  obtain ⟨hinv, _⟩ := reduce_take_vertices subgraph sorted hnd k
  have hfresh := reduce_next_fresh subgraph sorted hnd k v hk
  have hrestore := rollback_restores subgraph _ v hinv hfresh
  have hstep : solver.reduce_step subgraph (solver.reduce subgraph (sorted.take k)) v =
      solver.reduce subgraph (sorted.take k) := by
    unfold solver.reduce_step
    rw [if_pos hcyc]
    exact hrestore
  refine ⟨?_, ?_, hstep, ?_⟩
  · exact congrArg solver.reduce_state.acyclicGraph hrestore
  · exact congrArg solver.reduce_state.acyclicVertices hrestore
  · rw [reduce_take_succ subgraph sorted k v hk, hstep]

theorem reduce_rollback_restores_witness :
    [3, 5, 2, 4, 1].Nodup ∧ [3, 5, 2, 4, 1][4]? = some 1 ∧
    detect_cycles (solver.insert_vertex build_one_scc
      (solver.reduce build_one_scc ([3, 5, 2, 4, 1].take 4)) 1).acyclicGraph = true ∧
    solver.reduce build_one_scc ([3, 5, 2, 4, 1].take 4) =
      ⟨⟨[3, 5, 2, 4], [(2, 3), (4, 5)]⟩, [(3, 3), (5, 5), (2, 2), (4, 4)]⟩ ∧
    (remove_vertex 1 (clear_vertex 1 (solver.insert_vertex build_one_scc
        (solver.reduce build_one_scc ([3, 5, 2, 4, 1].take 4)) 1).acyclicGraph) =
      (solver.reduce build_one_scc ([3, 5, 2, 4, 1].take 4)).acyclicGraph ∧
    map_erase (solver.insert_vertex build_one_scc
        (solver.reduce build_one_scc ([3, 5, 2, 4, 1].take 4)) 1).acyclicVertices 1 =
      (solver.reduce build_one_scc ([3, 5, 2, 4, 1].take 4)).acyclicVertices ∧
    solver.reduce_step build_one_scc (solver.reduce build_one_scc ([3, 5, 2, 4, 1].take 4)) 1 =
      solver.reduce build_one_scc ([3, 5, 2, 4, 1].take 4) ∧
    solver.reduce build_one_scc ([3, 5, 2, 4, 1].take (4 + 1)) =
      solver.reduce build_one_scc ([3, 5, 2, 4, 1].take 4)) :=
  ⟨by decide, by decide, by decide, by decide,
    reduce_rollback_restores build_one_scc [3, 5, 2, 4, 1] (by decide) 4 1 (by decide)
      (by decide)⟩

/-! ## Claim C38 -/

/-- C38: for every input graph, component map, generator, arithmetic and parameter
setting, and every sort that returns a rearrangement of its input: when the solver
computes a cut set, every vertex that has a self-loop and lies in a subgraph of two or
more vertices is in the cut set.  In the greedy loop over a subgraph, for every
processing order in which no vertex occurs twice, the insertion of a vertex with a
self-loop adds the self-loop to the graph under construction, `detect_cycles` reports a
cycle, the iteration is rolled back, and the vertex is not retained and joins the cut
set, wherever it stands in the order. -/
theorem self_loop_vertex_in_cut {S D : Type} (sc : graph_t → Nat × List Nat)
    (gen : S → Nat → Nat → Nat × S) (ops : double_ops D)
    (std_sort : (vertex_descriptor_t × Nat → vertex_descriptor_t × Nat → Bool) →
      List (vertex_descriptor_t × Nat) → List (vertex_descriptor_t × Nat))
    (g : graph_t) (agents steps batches : Nat) (changeThreshold : D) (s : S)
    (cut : List vertex_properties_s) (hwf : g.wf)
    (hsort : ∀ cmp l, (std_sort cmp l).Perm l)
    (h : solver.cut_vertices sc gen ops std_sort g agents steps batches changeThreshold s =
      .ok cut) :
    (∀ sg ∈ tarjans_subgraphs sc g, 2 ≤ num_vertices sg → ∀ v ∈ sg.vertices,
      (v, v) ∈ g.edges → v ∈ cut) ∧
    ∀ (subgraph : graph_t) (sorted : List vertex_descriptor_t), sorted.Nodup →
      ∀ v ∈ sorted, (v, v) ∈ subgraph.edges →
        v ∉ (solver.reduce subgraph sorted).acyclicVertices.map Prod.fst ∧
        (∀ cutVertices : List vertex_properties_s,
          v ∈ solver.collect_cut (solver.reduce subgraph sorted).acyclicVertices sorted
            cutVertices) ∧
        ∃ k, sorted[k]? = some v ∧
          (v, v) ∈ (solver.insert_vertex subgraph (solver.reduce subgraph (sorted.take k))
            v).acyclicGraph.edges ∧
          detect_cycles (solver.insert_vertex subgraph (solver.reduce subgraph (sorted.take k))
            v).acyclicGraph = true ∧
          solver.reduce subgraph (sorted.take (k + 1)) =
            solver.reduce subgraph (sorted.take k) := by
  constructor
  · intro sg hsg htwo v hv hloop
    exact cut_vertices_self_loops sc gen ops std_sort hsort g agents steps batches
      changeThreshold s cut hwf h sg hsg (by omega) v hv hloop
  · intro subgraph sorted hnd v hv hloop
    obtain ⟨hout, hk⟩ := self_loop_not_retained subgraph sorted hnd v hv hloop
    refine ⟨hout, fun cutVertices => ?_, hk⟩
    rw [mem_collect_cut]
    exact Or.inr ⟨hv, (map_find_eq_none _ _).mpr hout⟩

theorem self_loop_vertex_in_cut_witness :
    two_cycle_with_loop.wf ∧
    (∀ (cmp : vertex_descriptor_t × Nat → vertex_descriptor_t × Nat → Bool)
      (l : List (vertex_descriptor_t × Nat)), (insertion_sort cmp l).Perm l) ∧
    solver.cut_vertices one_component first_gen exact_ops insertion_sort two_cycle_with_loop
      1 2 1 0 0 = .ok [1] ∧
    tarjans_subgraphs one_component two_cycle_with_loop = [two_cycle_with_loop] ∧
    (∀ sg ∈ tarjans_subgraphs one_component two_cycle_with_loop, 2 ≤ num_vertices sg →
      ∀ v ∈ sg.vertices, (v, v) ∈ two_cycle_with_loop.edges →
        v ∈ ([1] : List vertex_properties_s)) ∧
    solver.collect_cut (solver.reduce two_cycle_with_loop [1, 2]).acyclicVertices [1, 2] [] =
      [1] ∧
    solver.collect_cut (solver.reduce two_cycle_with_loop [2, 1]).acyclicVertices [2, 1] [] =
      [1] :=
  ⟨by decide, fun cmp l => insertion_sort_perm cmp l, two_cycle_with_loop_cut, by decide,
    (self_loop_vertex_in_cut one_component first_gen exact_ops insertion_sort
      two_cycle_with_loop 1 2 1 0 0 [1] (by decide) (fun cmp l => insertion_sort_perm cmp l)
      two_cycle_with_loop_cut).1,
    by decide, by decide⟩

/-! ## Claims C36, C39 and C40 -/

/-- C36: adding an edge that is already present has no effect: `add_edge` returns the
graph unchanged when the pair is an edge, and adding the same edge twice gives the same
graph as adding it once.  For every well-formed input text, `deserialize_input` returns
a graph that has every listed pair (source, target) exactly once, however often the
source index is listed for the vertex; the graph has no edge twice, its edges are
exactly the listed pairs, and `num_edges` is the number of distinct listed pairs. -/
theorem add_edge_duplicate (n : token) (records : List record) (trailing : List Char)
    (hwf : well_formed_input n records trailing) :
    (∀ (u v : vertex_descriptor_t) (g : graph_t), (u, v) ∈ g.edges → add_edge u v g = g) ∧
    (∀ (u v : vertex_descriptor_t) (g : graph_t),
      add_edge u v (add_edge u v g) = add_edge u v g) ∧
    ∃ g, deserialize_input (input_text n records trailing) = .ok g ∧
      g.edges.Nodup ∧
      (∀ e, e ∈ g.edges ↔ e ∈ listed_edges 0 records) ∧
      (∀ (idx : Nat) (r : record) (tok : token), records[idx]? = some r → tok ∈ r.2 →
        g.edges.count (tok.value, idx + 1) = 1) ∧
      num_edges g = (listed_edges 0 records).dedup.length := by
  obtain ⟨hn, hmin, hmax, hlen, hrec, htr, hedges⟩ := hwf
  have hfirst : ∀ (u v : vertex_descriptor_t) (g : graph_t),
      (u, v) ∈ g.edges → add_edge u v g = g := by
    intro u v g h
    unfold add_edge
    rw [if_pos h]
  refine ⟨hfirst, ?_, ?_⟩
  · intro u v g
    apply hfirst
    unfold add_edge
    by_cases h : (u, v) ∈ g.edges
    · rw [if_pos h]; exact h
    · rw [if_neg h]; simp
  · have hrun := deserialize_input_records n records trailing hn hmin hmax hlen hrec htr
    rw [if_neg (by omega)] at hrun
    obtain ⟨_, hnd, hmem⟩ := add_edges_spec (listed_edges 0 records)
      ⟨(List.range n.value).map (fun vertexIndex => vertexIndex + 1), []⟩ List.nodup_nil
    refine ⟨_, hrun, hnd, ?_, ?_, add_edges_length _ _⟩
    · intro e
      rw [hmem e]
      simp
    · intro idx r tok hr htok
      apply count_one_of_nodup _ _ hnd
      rw [hmem]
      right
      rw [mem_listed_edges]
      exact ⟨idx, r, hr, by simp, tok, htok, rfl⟩

theorem add_edge_duplicate_witness :
    well_formed_input two_vertices duplicate_source_records [] ∧
    input_text two_vertices duplicate_source_records [] = "2\n2 2 2\n0".toList ∧
    listed_edges 0 duplicate_source_records = [(2, 1), (2, 1)] ∧
    deserialize_input "2\n2 2 2\n0".toList = .ok ⟨[1, 2], [(2, 1)]⟩ ∧
    add_edge 2 1 ⟨[1, 2], [(2, 1)]⟩ = ⟨[1, 2], [(2, 1)]⟩ ∧
    ∃ g, deserialize_input (input_text two_vertices duplicate_source_records []) = .ok g ∧
      g.edges.Nodup ∧
      (∀ e, e ∈ g.edges ↔ e ∈ listed_edges 0 duplicate_source_records) ∧
      (∀ (idx : Nat) (r : record) (tok : token),
        duplicate_source_records[idx]? = some r → tok ∈ r.2 →
        g.edges.count (tok.value, idx + 1) = 1) ∧
      num_edges g = (listed_edges 0 duplicate_source_records).dedup.length :=
  ⟨by decide, rfl, by decide, rfl, by decide,
    (add_edge_duplicate two_vertices duplicate_source_records [] (by decide)).2.2⟩

/-- C39: let `boost::strong_components` meet its contract on a well-formed input graph
and let the generator answer within the requested range.  Then every subgraph returned
by `tarjans_subgraphs` that has two or more vertices gives every vertex at least one
out-edge inside the subgraph; for all parameters and every generator state, `simulate`
on such a subgraph returns a traffic map (it does not throw "The graph is not strongly
connected"); and the loop of the solver over the subgraphs runs to its end and yields a
cut set. -/
theorem solver_simulate_never_fails {S D : Type} (sc : graph_t → Nat × List Nat)
    (gen : S → Nat → Nat → Nat × S) (ops : double_ops D)
    (std_sort : (vertex_descriptor_t × Nat → vertex_descriptor_t × Nat → Bool) →
      List (vertex_descriptor_t × Nat) → List (vertex_descriptor_t × Nat))
    (g : graph_t) (agents steps batches : Nat) (changeThreshold : D)
    (hwf : g.wf) (hsc : strong_components_contract g (sc g)) (hgen : gen_in_range gen) :
    (∀ sg ∈ tarjans_subgraphs sc g, 2 ≤ num_vertices sg →
      ∀ u ∈ sg.vertices, 1 ≤ (out_edges u sg).length ∧ 1 ≤ (out_vertices sg u).length) ∧
    (∀ sg ∈ tarjans_subgraphs sc g, num_vertices sg ≠ 1 → ∀ s : S,
      ∃ traffic s', simulate gen ops sg agents steps batches changeThreshold s =
        .ok (traffic, s')) ∧
    ∀ s : S, ∃ cut,
      solver.cut_vertices sc gen ops std_sort g agents steps batches changeThreshold s =
        .ok cut := by
  have hout := component_out_edges sc g hwf hsc
  refine ⟨?_, ?_, fun s => cut_vertices_total sc gen ops std_sort g agents steps batches
    changeThreshold s hwf hsc hgen⟩
  · intro sg hsg htwo u hu
    have h1 := hout sg hsg (by omega) u hu
    have h2 := out_vertices_ne_nil sg u hu h1
    have h3 : (out_edges u sg).length ≠ 0 := fun h => h1 (List.length_eq_zero.mp h)
    omega
  · intro sg hsg hone s
    obtain ⟨t, s', b, h⟩ := simulate_batches_total gen ops sg (tarjans_subgraphs_wf sc g hwf sg hsg).1
      (tarjans_subgraph_is_component sc g hwf hsc sg hsg).1 (hout sg hsg hone) hgen agents steps
      changeThreshold batches 0 (initial_traffic sg) [] s
    refine ⟨t, s', ?_⟩
    unfold simulate simulate_run
    rw [h]

theorem solver_simulate_never_fails_witness :
    two_cycle.wf ∧ strong_components_contract two_cycle (one_component two_cycle) ∧
    gen_in_range first_gen ∧
    tarjans_subgraphs one_component two_cycle = [two_cycle] ∧
    (∀ sg ∈ tarjans_subgraphs one_component two_cycle, num_vertices sg ≠ 1 → ∀ s : Nat,
      ∃ traffic s', simulate first_gen exact_ops sg 1 2 1 0 s = .ok (traffic, s')) ∧
    solver.cut_vertices one_component first_gen exact_ops insertion_sort two_cycle 1 2 1 0 0 =
      .ok [1] :=
  ⟨by decide, contract_of_strongly_connected two_cycle (by decide) two_cycle_strongly_connected,
    first_gen_in_range, by decide,
    (solver_simulate_never_fails one_component first_gen exact_ops insertion_sort two_cycle
      1 2 1 0 (by decide)
      (contract_of_strongly_connected two_cycle (by decide) two_cycle_strongly_connected)
      first_gen_in_range).2.1,
    two_cycle_cut⟩

/-- C40: for every set of at most 10000 vertex numbers (numbers of type `std::size_t`),
kept as the list of its elements in iteration order, `deserialize_output` applied to the
text that `serialize_output` writes for the set succeeds and returns exactly the set:
the same elements, none twice. -/
theorem output_round_trip (vertices : List vertex_properties_s) (hnd : vertices.Nodup)
    (hlen : vertices.length ≤ 10000) (hsize : ∀ v ∈ vertices, v < 2 ^ 64) :
    deserialize_output (serialize_output vertices).toList = .ok vertices ∧
    ∃ result, deserialize_output (serialize_output vertices).toList = .ok result ∧
      result.Nodup ∧ result.length = vertices.length ∧ ∀ v, v ∈ result ↔ v ∈ vertices := by
  have h := serialize_output_round_trip vertices hnd hlen hsize
  exact ⟨h, vertices, h, hnd, rfl, fun v => Iff.rfl⟩

theorem output_round_trip_witness :
    ([3, 5] : List vertex_properties_s).Nodup ∧
    ([3, 5] : List vertex_properties_s).length ≤ 10000 ∧
    (∀ v ∈ ([3, 5] : List vertex_properties_s), v < 2 ^ 64) ∧
    serialize_output [3, 5] = "2\n3 5" ∧
    deserialize_output "2\n3 5".toList = .ok [3, 5] ∧
    deserialize_output (serialize_output []).toList = .ok [] ∧
    deserialize_output (serialize_output [3, 5]).toList = .ok [3, 5] :=
  ⟨by decide, by decide, by decide, by decide, rfl,
    (output_round_trip [] List.nodup_nil (by decide) (by decide)).1,
    (output_round_trip [3, 5] (by decide) (by decide) (by decide)).1⟩

/-! ## Claim C31 -/

/-- C31: for every star-loop component (a centre with an edge to and an edge from each of
one or more leaves and no other edges), every generator that answers within the requested
range, every number of agents, every even number of steps, `batches = 1`, every arithmetic
and every change threshold, `simulate` returns a traffic map in which the count of the
centre is exactly `agents * steps / 2` and the counts of the leaves sum to the other
`agents * steps / 2`. -/
theorem simulate_star_loop {S D : Type} (gen : S → Nat → Nat → Nat × S) (ops : double_ops D)
    (g : graph_t) (centre : vertex_descriptor_t) (agents steps : Nat) (change_threshold : D)
    (s : S) (hstar : star_loop g centre) (hgen : gen_in_range gen) (heven : steps % 2 = 0) :
    ∃ traffic s', simulate gen ops g agents steps 1 change_threshold s = .ok (traffic, s') ∧
      traffic_at traffic centre = agents * steps / 2 ∧
      ((star_leaves g centre).map (traffic_at traffic)).sum = agents * steps / 2 ∧
      traffic_at traffic centre + ((star_leaves g centre).map (traffic_at traffic)).sum =
        agents * steps := by
  obtain ⟨t, s', hrun, htr⟩ := simulate_agents_star gen g centre hstar hgen steps heven agents
    (initial_traffic g) s
  have hone : simulate_run gen ops g agents steps 1 change_threshold s = .ok (t, s', 1) := by
    rw [simulate_run_one_batch, hrun]
  have hsum := (simulate_run_sum gen ops g agents steps 1 change_threshold s hstar.1 t s' 1
    hone).2.2.2
  have hzero : traffic_at (initial_traffic g) centre = 0 := by
    unfold traffic_at
    rw [initial_traffic_find g hstar.1.1 centre hstar.2.1]
  have hmul : agents * steps / 2 = agents * (steps / 2) := by
    obtain ⟨k, hk⟩ : ∃ k, steps = 2 * k := ⟨steps / 2, by omega⟩
    subst hk
    rw [Nat.mul_div_cancel_left k (by decide : 0 < 2), ← Nat.mul_assoc, Nat.mul_comm agents 2,
      Nat.mul_assoc, Nat.mul_div_cancel_left _ (by decide : 0 < 2)]
  have hcentre : traffic_at t centre = agents * steps / 2 := by
    rw [htr, hzero, hmul, Nat.zero_add]
  have hsplit := sum_split_at (f := traffic_at t) g.vertices centre hstar.1.1 hstar.2.1
  have htwice : agents * steps = 2 * (agents * steps / 2) := by
    rw [hmul]
    obtain ⟨k, hk⟩ : ∃ k, steps = 2 * k := ⟨steps / 2, by omega⟩
    subst hk
    rw [Nat.mul_div_cancel_left k (by decide : 0 < 2)]
    ring
  refine ⟨t, s', ?_, hcentre, ?_, ?_⟩
  · unfold simulate
    rw [hone]
  · unfold star_leaves
    rw [hsplit, hcentre, Nat.mul_one] at hsum
    omega
  · unfold star_leaves
    rw [hsplit, Nat.mul_one] at hsum
    exact hsum

theorem simulate_star_loop_witness :
    star_loop build_loop 1 ∧ gen_in_range first_gen ∧ 50 % 2 = 0 ∧
    star_leaves build_loop 1 = [2, 3, 4] ∧
    ∃ traffic s', simulate first_gen exact_ops build_loop 1000 50 1 0 0 = .ok (traffic, s') ∧
      traffic_at traffic 1 = 25000 ∧
      ((star_leaves build_loop 1).map (traffic_at traffic)).sum = 25000 ∧
      traffic_at traffic 1 + ((star_leaves build_loop 1).map (traffic_at traffic)).sum =
        50000 :=
  ⟨by decide, first_gen_in_range, by decide, by decide,
    simulate_star_loop first_gen exact_ops build_loop 1 1000 50 0 0 (by decide)
      first_gen_in_range (by decide)⟩

/-! ## Claim C35 -/

/-- C35: in `simulate`, a step taken from a vertex with exactly one out-neighbour moves to
that neighbour and leaves the generator untouched, and a step taken from a vertex with
`d ≥ 2` out-neighbours makes exactly one call `random_integer(0, d)`.  For every component
in which every vertex has out-degree one, every generator that answers within the
requested range and all parameters, `simulate` returns, no walk changes the generator
state, and the calls it makes are exactly `agents` calls `random_integer(0, num_vertices)`
per batch that is run (one per walk, for the start vertex): `agents * b` calls for `b`
batches.  The calls are recorded by a ghost log that does not change the run. -/
theorem simulate_random_integer_calls {S D : Type} (gen : S → Nat → Nat → Nat × S)
    (ops : double_ops D) (g : graph_t) (agents steps batches : Nat) (change_threshold : D)
    (s : S) (hwf : g.wf) (hne : g.vertices ≠ [])
    (hone : ∀ v ∈ g.vertices, (out_vertices g v).length = 1) (hgen : gen_in_range gen) :
    (∃ traffic s' b,
      simulate_run (logging_gen gen) ops g agents steps batches change_threshold (s, []) =
        .ok (traffic, (s', List.replicate (agents * b) (0, num_vertices g)), b) ∧
      simulate_run gen ops g agents steps batches change_threshold s = .ok (traffic, s', b) ∧
      simulate gen ops g agents steps batches change_threshold s = .ok (traffic, s') ∧
      (List.replicate (agents * b) (0, num_vertices g)).length = agents * b ∧ b ≤ batches) ∧
    (∀ (n : Nat) (cur : Option vertex_descriptor_t) (t t' : unnormalized_vertex_traffic_map_t)
      (s0 s1 : S) (log log' : List (Nat × Nat)),
      simulate_steps (logging_gen gen) g n cur t (s0, log) = .ok (t', (s1, log')) →
        s1 = s0 ∧ log' = log) ∧
    (∀ (component : graph_t) (v w : vertex_descriptor_t)
      (t : unnormalized_vertex_traffic_map_t) (s0 : S) (log : List (Nat × Nat)),
      out_vertices component v = [w] →
      simulate_steps (logging_gen gen) component 1 (some v) t (s0, log) =
        .ok (map_increment t w, (s0, log))) ∧
    ∀ (component : graph_t) (v : vertex_descriptor_t)
      (t : unnormalized_vertex_traffic_map_t) (s0 : S) (log : List (Nat × Nat)),
      2 ≤ (out_vertices component v).length →
      ∃ w, (out_vertices component v)[(gen s0 0 (out_vertices component v).length).1]? =
          some w ∧
        simulate_steps (logging_gen gen) component 1 (some v) t (s0, log) =
          .ok (map_increment t w, ((gen s0 0 (out_vertices component v).length).2,
            log ++ [(0, (out_vertices component v).length)])) := by
  refine ⟨?_, ?_, ?_, ?_⟩
  · have hout : ∀ v ∈ g.vertices, out_edges v g ≠ [] := by
      intro v hv h
      have h1 := hone v hv
      unfold out_vertices at h1
      rw [if_pos hv, h] at h1
      cases h1
    obtain ⟨t, sl, b, hrun⟩ := simulate_batches_total (logging_gen gen) ops g hwf hne hout
      (logging_gen_in_range gen hgen) agents steps change_threshold batches 0
      (initial_traffic g) [] (s, [])
    obtain ⟨s', log'⟩ := sl
    obtain ⟨_, hlog⟩ := simulate_batches_draws gen ops g hone agents steps change_threshold
      batches 0 _ _ s [] t s' log' b hrun
    simp only [List.nil_append, Nat.sub_zero] at hlog
    subst hlog
    have herase := simulate_batches_erase gen ops g agents steps change_threshold batches 0
      (initial_traffic g) [] s []
    rw [hrun] at herase
    have hplain : simulate_run gen ops g agents steps batches change_threshold s =
        .ok (t, s', b) := herase.symm
    have hb := (simulate_run_sum gen ops g agents steps batches change_threshold s hwf t s' b
      hplain).2.1
    refine ⟨t, s', b, hrun, hplain, ?_, List.length_replicate _ _, hb⟩
    unfold simulate
    rw [hplain]
  · intro n cur t t' s0 s1 log log' h
    have := simulate_steps_no_draw (logging_gen gen) g hone n cur t (s0, log) t' (s1, log') h
    simp only [Prod.mk.injEq] at this
    exact this
  · intro component v w t s0 log hout
    simp [simulate_steps, hout]
  · intro component v t s0 log htwo
    have hr := (hgen s0 0 (out_vertices component v).length (by omega)).2
    refine ⟨_, List.getElem?_eq_getElem hr, ?_⟩
    have h0 : ¬ (out_vertices component v).length = 0 := by omega
    have h1 : ¬ (out_vertices component v).length = 1 := by omega
    simp only [simulate_steps, h0, h1, if_false]
    show (match (out_vertices component v)[(gen s0 0 (out_vertices component v).length).1]? with
      | none => Except.error "index out of range"
      | some nextVertex => simulate_steps (logging_gen gen) component 0 (some nextVertex)
          (map_increment t nextVertex) ((gen s0 0 (out_vertices component v).length).2,
            log ++ [(0, (out_vertices component v).length)])) = _
    rw [List.getElem?_eq_getElem hr]
    rfl

theorem simulate_random_integer_calls_witness :
    two_cycle.wf ∧ two_cycle.vertices ≠ [] ∧
    (∀ v ∈ two_cycle.vertices, (out_vertices two_cycle v).length = 1) ∧
    gen_in_range first_gen ∧
    simulate_steps (logging_gen first_gen) two_cycle 5 (some 1) [(1, 0), (2, 0)] (7, []) =
      .ok ([(1, 2), (2, 3)], (7, [])) ∧
    simulate_agents (logging_gen first_gen) two_cycle 2 3 (initial_traffic two_cycle) (0, []) =
      .ok ([(1, 3), (2, 3)], (3, [(0, 2), (0, 2), (0, 2)])) ∧
    out_vertices build_loop 1 = [2, 3, 4] ∧
    simulate_steps (logging_gen first_gen) build_loop 1 (some 1) (initial_traffic build_loop)
      (0, []) = .ok ([(1, 0), (2, 1), (3, 0), (4, 0)], (1, [(0, 3)])) ∧
    ∃ traffic s' b,
      simulate_run (logging_gen first_gen) exact_ops two_cycle 3 2 4 0 (0, []) =
        .ok (traffic, (s', List.replicate (3 * b) (0, num_vertices two_cycle)), b) ∧
      simulate_run first_gen exact_ops two_cycle 3 2 4 0 0 = .ok (traffic, s', b) ∧
      simulate first_gen exact_ops two_cycle 3 2 4 0 0 = .ok (traffic, s') ∧
      (List.replicate (3 * b) (0, num_vertices two_cycle)).length = 3 * b ∧ b ≤ 4 :=
  ⟨by decide, by decide, by decide, first_gen_in_range, rfl, rfl, by decide, rfl,
    (simulate_random_integer_calls first_gen exact_ops two_cycle 3 2 4 0 0 (by decide)
      (by decide) (by decide) first_gen_in_range).1⟩

/-! ## Claim C37 -/

/-- C37 (counterexample): in the arithmetic of `double` the drift of the first batch is
not exactly 1.  On the cycle of six vertices, with one agent and six steps, every vertex
counts 1 of 6 arrivals and the sum of the six rounded quotients is `1 - 2 ^ -53`; with the
threshold `1.0` and `batches = 2` the run stops after the first batch.  On the cycle of
nine vertices, with one agent and nine steps, the sum is `1 + 2 ^ -52`; with that number
as threshold, which is greater than 1, and `batches = 3` the run goes on to a second
batch. -/
theorem simulate_drift_rounded_off_one :
    (∀ v ∈ six_cycle.vertices, 1 ≤ (out_edges v six_cycle).length) ∧
    double_of_size_t 1 = .finite false (2 ^ 52) 1022 ∧
    simulate_agents first_gen six_cycle 6 1 (initial_traffic six_cycle) 0 =
      .ok ([(1, 1), (2, 1), (3, 1), (4, 1), (5, 1), (6, 1)], 1) ∧
    (simulate_difference ieee_ops ((0 + 1) * 1 * 6)
      [(1, 1), (2, 1), (3, 1), (4, 1), (5, 1), (6, 1)] ieee_ops.zero []).1 =
      .finite false (2 ^ 53 - 1) 1021 ∧
    simulate_run first_gen ieee_ops six_cycle 1 6 2 (double_of_size_t 1) 0 =
      .ok ([(1, 1), (2, 1), (3, 1), (4, 1), (5, 1), (6, 1)], 1, 1) ∧
    (∀ v ∈ nine_cycle.vertices, 1 ≤ (out_edges v nine_cycle).length) ∧
    simulate_agents first_gen nine_cycle 9 1 (initial_traffic nine_cycle) 0 =
      .ok ([(1, 1), (2, 1), (3, 1), (4, 1), (5, 1), (6, 1), (7, 1), (8, 1), (9, 1)], 1) ∧
    (simulate_difference ieee_ops ((0 + 1) * 1 * 9)
      [(1, 1), (2, 1), (3, 1), (4, 1), (5, 1), (6, 1), (7, 1), (8, 1), (9, 1)]
      ieee_ops.zero []).1 = .finite false (2 ^ 52 + 1) 1022 ∧
    simulate_run first_gen ieee_ops nine_cycle 1 9 3 (.finite false (2 ^ 52 + 1) 1022) 0 =
      .ok ([(1, 2), (2, 2), (3, 2), (4, 2), (5, 2), (6, 2), (7, 2), (8, 2), (9, 2)], 2, 2) :=
  ⟨by decide, double_of_one, rfl, six_cycle_run.1, six_cycle_run.2, by decide, rfl,
    nine_cycle_run.1, nine_cycle_run.2⟩

/-- C37 (amended claim): let the arithmetic round with a relative error of at most `u`
per operation (`u = 0` in exact arithmetic, `u = 2 ^ -51` for `double`, both proved to
meet the law), let every vertex
of the component have out-degree at least one, let the generator answer within the
requested range, and let `agents` and `steps` be positive with `agents * steps` below
`2 ^ 64`.  Then the first batch runs to its end and the drift computed after it lies
between `(1 - u) ^ (n + 1)` and `(1 + u) ^ (n + 1)`, where `n` is the number of vertices;
in exact arithmetic it is exactly 1.  Hence for every change threshold of at most
`(1 - u) ^ (n + 1)` and `batches ≥ 2`, `simulate` runs at least two batches, and for every
change threshold greater than `(1 + u) ^ (n + 1)` (and `batches ≥ 1`) it stops after the
first batch and returns the traffic of that batch. -/
theorem simulate_first_batch_drift_rounded {S D : Type} (gen : S → Nat → Nat → Nat × S)
    (ops : double_ops D) (value : D → Option ℚ) (u : ℚ) (g : graph_t) (agents steps : Nat)
    (s : S) (hwf : g.wf) (hne : g.vertices ≠ [])
    (hout : ∀ v ∈ g.vertices, 1 ≤ (out_edges v g).length) (hgen : gen_in_range gen)
    (hagents : 0 < agents) (hsteps : 0 < steps) (hcount : agents * steps < 2 ^ 64)
    (hlaw : rounds_within ops value u) (hu0 : 0 ≤ u) (hu1 : u ≤ 1)
    (hpow : (1 + u) ^ (num_vertices g + 1) ≤ 2) :
    ∃ t1 s1 δ, simulate_agents gen g steps agents (initial_traffic g) s = .ok (t1, s1) ∧
      value (simulate_difference ops ((0 + 1) * agents * steps) t1 ops.zero []).1 = some δ ∧
      (1 - u) ^ (num_vertices g + 1) ≤ δ ∧ δ ≤ (1 + u) ^ (num_vertices g + 1) ∧
      (u = 0 → δ = 1) ∧
      (∀ (change_threshold : D) (θ : ℚ) (batches : Nat), value change_threshold = some θ →
        θ ≤ (1 - u) ^ (num_vertices g + 1) → 2 ≤ batches →
        ∃ traffic s' b,
          simulate_run gen ops g agents steps batches change_threshold s =
            .ok (traffic, s', b) ∧
          simulate gen ops g agents steps batches change_threshold s = .ok (traffic, s') ∧
          2 ≤ b ∧ b ≤ batches) ∧
      ∀ (change_threshold : D) (θ : ℚ) (batches : Nat), value change_threshold = some θ →
        (1 + u) ^ (num_vertices g + 1) < θ → 1 ≤ batches →
        simulate_run gen ops g agents steps batches change_threshold s = .ok (t1, s1, 1) ∧
        simulate gen ops g agents steps batches change_threshold s = .ok (t1, s1) := by
  have hout' : ∀ v ∈ g.vertices, out_edges v g ≠ [] := by
    intro v hv h
    have := hout v hv
    rw [h] at this
    cases this
  obtain ⟨t1, s1, hrun⟩ := simulate_agents_total gen g hwf hne hout' hgen steps agents
    (initial_traffic g) s
  obtain ⟨δ, hδ, hlo, hhi⟩ := first_batch_difference gen ops value u hlaw hu0 hu1 g hwf agents
    steps hagents hsteps hcount hpow s t1 s1 hrun
  have hkeys := (simulate_agents_ok gen g hwf steps agents (initial_traffic g) s t1 s1
    (initial_traffic_keys g hwf.1) hrun).1
  have hlt := hlaw.2.2.2.2
  refine ⟨t1, s1, δ, hrun, hδ, hlo, hhi, ?_, ?_, ?_⟩
  · intro hu
    subst hu
    simp only [sub_zero, add_zero, one_pow] at hlo hhi
    exact le_antisymm hhi hlo
  · intro change_threshold θ batches hθ hthr hb
    obtain ⟨n, rfl⟩ : ∃ n, batches = n + 1 := ⟨batches - 1, by omega⟩
    have hfalse : ops.lt
        (simulate_difference ops ((0 + 1) * agents * steps) t1 ops.zero []).1
        change_threshold = false := by
      rw [hlt _ _ δ θ hδ hθ, decide_eq_false_iff_not, not_lt]
      exact le_trans hthr hlo
    obtain ⟨t', s', b, hrest⟩ := simulate_batches_total gen ops g hwf hne hout' hgen agents
      steps change_threshold n (0 + 1) t1
      (simulate_difference ops ((0 + 1) * agents * steps) t1 ops.zero []).2 s1
    obtain ⟨_, hb1, hb2, hb3, _⟩ := simulate_batches_ok gen ops g hwf agents steps
      change_threshold n (0 + 1) t1 _ s1 t' s' b hkeys hrest
    have hfull : simulate_run gen ops g agents steps (n + 1) change_threshold s =
        .ok (t', s', b) := by
      unfold simulate_run
      simp only [simulate_batches, hrun, hfalse]
      exact hrest
    refine ⟨t', s', b, hfull, ?_, ?_, by omega⟩
    · unfold simulate
      rw [hfull]
    · have := hb3 (by omega)
      omega
  · intro change_threshold θ batches hθ hthr hb
    obtain ⟨n, rfl⟩ : ∃ n, batches = n + 1 := ⟨batches - 1, by omega⟩
    have htrue : ops.lt
        (simulate_difference ops ((0 + 1) * agents * steps) t1 ops.zero []).1
        change_threshold = true := by
      rw [hlt _ _ δ θ hδ hθ, decide_eq_true_eq]
      exact lt_of_le_of_lt hhi hthr
    have hfull : simulate_run gen ops g agents steps (n + 1) change_threshold s =
        .ok (t1, s1, 1) := by
      unfold simulate_run
      simp only [simulate_batches, hrun, htrue, if_true]
    refine ⟨hfull, ?_⟩
    unfold simulate
    rw [hfull]

theorem simulate_first_batch_drift_rounded_witness :
    six_cycle.wf ∧ six_cycle.vertices ≠ [] ∧
    (∀ v ∈ six_cycle.vertices, 1 ≤ (out_edges v six_cycle).length) ∧
    gen_in_range first_gen ∧ 0 < 1 ∧ 0 < 6 ∧ 1 * 6 < 2 ^ 64 ∧
    rounds_within ieee_ops ieee_value (1 / 2 ^ 51) ∧
    (0 : ℚ) ≤ 1 / 2 ^ 51 ∧ (1 : ℚ) / 2 ^ 51 ≤ 1 ∧
    ((1 : ℚ) + 1 / 2 ^ 51) ^ (num_vertices six_cycle + 1) ≤ 2 ∧
    (∀ n : Nat, n ≤ 10000 → ((1 : ℚ) + 1 / 2 ^ 51) ^ (n + 1) ≤ 2) ∧
    rounds_within exact_ops some 0 ∧
    (∃ t1 s1 δ, simulate_agents first_gen six_cycle 6 1 (initial_traffic six_cycle) 0 =
        .ok (t1, s1) ∧
      ieee_value (simulate_difference ieee_ops ((0 + 1) * 1 * 6) t1 ieee_ops.zero []).1 =
        some δ ∧
      ((1 : ℚ) - 1 / 2 ^ 51) ^ (num_vertices six_cycle + 1) ≤ δ ∧
      δ ≤ ((1 : ℚ) + 1 / 2 ^ 51) ^ (num_vertices six_cycle + 1) ∧
      ((1 : ℚ) / 2 ^ 51 = 0 → δ = 1) ∧
      (∀ (change_threshold : ieee_double) (θ : ℚ) (batches : Nat),
        ieee_value change_threshold = some θ →
        θ ≤ ((1 : ℚ) - 1 / 2 ^ 51) ^ (num_vertices six_cycle + 1) → 2 ≤ batches →
        ∃ traffic s' b,
          simulate_run first_gen ieee_ops six_cycle 1 6 batches change_threshold 0 =
            .ok (traffic, s', b) ∧
          simulate first_gen ieee_ops six_cycle 1 6 batches change_threshold 0 =
            .ok (traffic, s') ∧
          2 ≤ b ∧ b ≤ batches) ∧
      ∀ (change_threshold : ieee_double) (θ : ℚ) (batches : Nat),
        ieee_value change_threshold = some θ →
        ((1 : ℚ) + 1 / 2 ^ 51) ^ (num_vertices six_cycle + 1) < θ → 1 ≤ batches →
        simulate_run first_gen ieee_ops six_cycle 1 6 batches change_threshold 0 =
          .ok (t1, s1, 1) ∧
        simulate first_gen ieee_ops six_cycle 1 6 batches change_threshold 0 =
          .ok (t1, s1)) ∧
    ∃ t1 s1 δ, simulate_agents first_gen two_cycle 2 1 (initial_traffic two_cycle) 0 =
        .ok (t1, s1) ∧
      some (simulate_difference exact_ops ((0 + 1) * 1 * 2) t1 exact_ops.zero []).1 = some δ ∧
      ((1 : ℚ) - 0) ^ (num_vertices two_cycle + 1) ≤ δ ∧
      δ ≤ ((1 : ℚ) + 0) ^ (num_vertices two_cycle + 1) ∧
      ((0 : ℚ) = 0 → δ = 1) ∧
      (∀ (change_threshold θ : ℚ) (batches : Nat), some change_threshold = some θ →
        θ ≤ ((1 : ℚ) - 0) ^ (num_vertices two_cycle + 1) → 2 ≤ batches →
        ∃ traffic s' b,
          simulate_run first_gen exact_ops two_cycle 1 2 batches change_threshold 0 =
            .ok (traffic, s', b) ∧
          simulate first_gen exact_ops two_cycle 1 2 batches change_threshold 0 =
            .ok (traffic, s') ∧
          2 ≤ b ∧ b ≤ batches) ∧
      ∀ (change_threshold θ : ℚ) (batches : Nat), some change_threshold = some θ →
        ((1 : ℚ) + 0) ^ (num_vertices two_cycle + 1) < θ → 1 ≤ batches →
        simulate_run first_gen exact_ops two_cycle 1 2 batches change_threshold 0 =
          .ok (t1, s1, 1) ∧
        simulate first_gen exact_ops two_cycle 1 2 batches change_threshold 0 = .ok (t1, s1) :=
  ⟨by decide, by decide, by decide, first_gen_in_range, by decide, by decide, by decide,
    ieee_ops_rounds_within, by norm_num, by norm_num,
    pow_le_two_of_small _ (by norm_num) _ (by norm_num [num_vertices, six_cycle]),
    fun n hn => pow_le_two_of_small _ (by norm_num) _ (by
      have h : ((n + 1 : ℕ) : ℚ) ≤ 10001 := by exact_mod_cast Nat.succ_le_succ hn
      calc ((n + 1 : ℕ) : ℚ) * (1 / 2 ^ 51) ≤ 10001 * (1 / 2 ^ 51) :=
            mul_le_mul_of_nonneg_right h (by norm_num)
        _ ≤ 1 / 2 := by norm_num),
    exact_ops_rounds_within,
    simulate_first_batch_drift_rounded first_gen ieee_ops ieee_value (1 / 2 ^ 51) six_cycle
      1 6 0 (by decide) (by decide) (by decide) first_gen_in_range (by decide) (by decide)
      (by decide) ieee_ops_rounds_within (by norm_num) (by norm_num)
      (pow_le_two_of_small _ (by norm_num) _ (by norm_num [num_vertices, six_cycle])),
    simulate_first_batch_drift_rounded first_gen exact_ops some 0 two_cycle 1 2 0 (by decide)
      (by decide) (by decide) first_gen_in_range (by decide) (by decide) (by decide)
      exact_ops_rounds_within (le_refl _) zero_le_one (by norm_num)⟩

end Algobowl
